import Mathlib

/-!
Verification of the numeric core of the bigint-runtime library
(`src/bigint-runtime.ts`), a sign-magnitude arbitrary-precision integer
implementation over base-2^30 digit vectors (a functional-style port of
JSBI).

The embedding models:
  - JavaScript 32-bit integer semantics (`|0`, `>>>`, `<<`, `&`, `|`, `^`,
    `Math.imul`, `Math.clz32`) as functions on `ℤ`;
  - a `JSBI` value as a pair of a sign flag and a little-endian digit list
    (`List ℤ`); a freshly constructed JS array slot (a hole) reads as `0`
    only in code paths that never read uninitialized slots, matching the
    source, and `new JSBI(n, s)` performs the maximum-length check;
  - operations that can throw return `Except JSErr _`.

The abstraction function `toInt` maps a value to the integer it encodes:
`(sign ? -1 : 1) * Σ digits[i] * 2^(30*i)`.
-/

set_option maxRecDepth 10000

namespace BR

/-! ## JavaScript 32-bit integer semantics -/

/-- JS ToUint32: reduce an integer into `[0, 2^32)`. -/
def toUint32 (z : ℤ) : ℤ := z % 4294967296

/-- JS ToInt32 (the `| 0` conversion): reduce into `[-2^31, 2^31)`. -/
def toInt32 (z : ℤ) : ℤ :=
  if toUint32 z < 2147483648 then toUint32 z else toUint32 z - 4294967296

/-- The unsigned 32-bit representative of an integer, as a natural. -/
def jsU (z : ℤ) : ℕ := (toUint32 z).toNat

/-- JS bitwise and `a & b`. -/
def jsAnd (a b : ℤ) : ℤ := toInt32 ((jsU a &&& jsU b : ℕ) : ℤ)

/-- JS bitwise or `a | b`. -/
def jsOr (a b : ℤ) : ℤ := toInt32 ((jsU a ||| jsU b : ℕ) : ℤ)

/-- JS bitwise xor `a ^ b`. -/
def jsXor (a b : ℤ) : ℤ := toInt32 ((jsU a ^^^ jsU b : ℕ) : ℤ)

/-- JS bitwise not `~a`. -/
def jsNot (a : ℤ) : ℤ := toInt32 ((jsU a ^^^ 4294967295 : ℕ) : ℤ)

/-- JS left shift `a << b` (shift count is taken mod 32). -/
def jsShl (a b : ℤ) : ℤ := toInt32 ((jsU a <<< (jsU b % 32) : ℕ) : ℤ)

/-- JS unsigned right shift `a >>> b`. -/
def jsShrU (a b : ℤ) : ℤ := ((jsU a >>> (jsU b % 32) : ℕ) : ℤ)

/-- JS signed right shift `a >> b` (arithmetic shift; `Int` `>>>` is a
floor-division shift, matching sign propagation). -/
def jsShrS (a b : ℤ) : ℤ := (toInt32 a) >>> (jsU b % 32)

/-- JS `Math.imul a b`: 32-bit integer multiplication. -/
def jsImul (a b : ℤ) : ℤ := toInt32 (a * b)

/-- JS `Math.clz32 x`: count of leading zero bits of ToUint32(x). -/
def clz32 (z : ℤ) : ℤ := 32 - ((jsU z).size : ℤ)

/-- Source `__clz30`: leading-zero count within a 30-bit digit. -/
def clz30 (z : ℤ) : ℤ := clz32 z - 2

/-! ## Constants -/

/-- Source `__kMaxLength = 1 << 25`: maximum number of digits. -/
def kMaxLength : ℕ := 33554432

/-- Source `__kMaxLengthBits = __kMaxLength << 5 = 2^30`. -/
def kMaxLengthBits : ℕ := 1073741824

/-! ## Errors and results -/

/-- The kinds of exception the library throws. -/
inductive JSErr where
  | rangeErr : JSErr
  | typeErr : JSErr
  | synErr : JSErr
  | bugErr : JSErr
deriving Repr, DecidableEq

/-- Result of an operation that may throw. -/
abbrev JSRes (α : Type) := Except JSErr α

/-! ## The JSBI value representation -/

/-- A BigInt value: a sign flag (`true` = negative) and a little-endian
list of base-2^30 digits (class `JSBI extends Array` in the source). -/
structure JSBI where
  sign : Bool
  digits : List ℤ
deriving Repr, DecidableEq

/-- `new JSBI(length, sign)`: throws RangeError when `length` exceeds
`__kMaxLength`; array slots start as holes, modelled as `0` (no code path
reads a slot before writing it). -/
def newJSBI (length : ℕ) (sign : Bool) : JSRes JSBI :=
  if length > kMaxLength then .error .rangeErr
  else .ok ⟨sign, List.replicate length 0⟩

/-- Write position `i` of a digit list; like a JS array, writing past the
end extends the array (intermediate holes read as 0). -/
def listSet (l : List ℤ) (i : ℕ) (v : ℤ) : List ℤ :=
  if i < l.length then l.set i v
  else l ++ List.replicate (i - l.length) 0 ++ [v]

/-- Source `__digit(i)`: raw digit read (`this[i]`). -/
def JSBI.dig (x : JSBI) (i : ℕ) : ℤ := x.digits.getD i 0

/-- Source `__unsignedDigit(i)`: `this[i] >>> 0`. -/
def JSBI.udig (x : JSBI) (i : ℕ) : ℤ := toUint32 (x.dig i)

/-- Source `__setDigit(i, digit)`: `this[i] = digit | 0`. -/
def JSBI.setDig (x : JSBI) (i : ℕ) (d : ℤ) : JSBI :=
  ⟨x.sign, listSet x.digits i (toInt32 d)⟩

/-- Source `__setDigitGrow` (identical body to `__setDigit`). -/
def JSBI.setDigGrow (x : JSBI) (i : ℕ) (d : ℤ) : JSBI := x.setDig i d

/-- Source `__halfDigitLength()`. -/
def JSBI.halfDigitLength (x : JSBI) : ℕ :=
  let len := x.digits.length
  if x.udig (len - 1) ≤ 0x7FFF then len * 2 - 1 else len * 2

/-- Source `__halfDigit(i)`: `(this[i >>> 1] >>> ((i & 1) * 15)) & 0x7FFF`. -/
def JSBI.halfDig (x : JSBI) (i : ℕ) : ℤ :=
  jsAnd (jsShrU (x.dig (i / 2)) (((i % 2 : ℕ) : ℤ) * 15)) 0x7FFF

/-- Source `__setHalfDigit(i, value)`. -/
def JSBI.setHalfDig (x : JSBI) (i : ℕ) (value : ℤ) : JSBI :=
  let digitIndex := i / 2
  let previous := x.dig digitIndex
  let updated :=
    if i % 2 = 1 then jsOr (jsAnd previous 0x7FFF) (jsShl value 15)
    else jsOr (jsAnd previous 0x3FFF8000) (jsAnd value 0x7FFF)
  x.setDig digitIndex updated

/-- Source `__zero()`. -/
def zeroJ : JSBI := ⟨false, []⟩

/-- Source `__oneDigit(value, sign)`. -/
def oneDigit (value : ℤ) (sign : Bool) : JSBI := ⟨sign, [toInt32 value]⟩

/-- Source `__copy` (returns a structurally equal value). -/
def copyJ (x : JSBI) : JSBI := ⟨x.sign, x.digits⟩

/-- Drop trailing zero digits, as the `while`/`pop` loop of `__trim`. -/
def trimList : List ℤ → List ℤ
  | [] => []
  | d :: ds =>
    match trimList ds with
    | [] => if d = 0 then [] else [d]
    | e :: es => d :: e :: es

/-- Source `__trim`: pop trailing zero digits; zero gets sign `false`. -/
def trim (x : JSBI) : JSBI :=
  let ds := trimList x.digits
  ⟨if ds.isEmpty then false else x.sign, ds⟩

/-- Source `__initializeDigits`: write `0` to every slot. -/
def initializeDigits (x : JSBI) : JSBI :=
  ⟨x.sign, List.replicate x.digits.length 0⟩

/-- Source `__clzmsd`. -/
def clzmsd (x : JSBI) : ℤ := clz30 (x.dig (x.digits.length - 1))

/-! ## Abstraction to ℤ and the representation invariant -/

/-- The magnitude encoded by a digit list: `Σ digits[i] * 2^(30*i)`. -/
def magD : List ℤ → ℤ
  | [] => 0
  | d :: ds => d + 2 ^ 30 * magD ds

/-- The integer a JSBI value encodes. -/
def toInt (x : JSBI) : ℤ := (if x.sign then -1 else 1) * magD x.digits

/-- A digit in range `[0, 2^30)`. -/
def goodDigit (d : ℤ) : Prop := 0 ≤ d ∧ d < 2 ^ 30

/-- The representation invariant of §3 of the spec: digits in `[0, 2^30)`,
no trailing zero digit, and zero has sign `false`. -/
def Valid (x : JSBI) : Prop :=
  (∀ d ∈ x.digits, goodDigit d) ∧
  x.digits.getLast? ≠ some 0 ∧
  (x.digits = [] → x.sign = false)

instance : DecidablePred goodDigit := fun _ => by unfold goodDigit; infer_instance

instance (x : JSBI) : Decidable (Valid x) := by unfold Valid; infer_instance

/-! ## Comparison and negation -/

/-- Source `unaryMinus`. -/
def unaryMinus (x : JSBI) : JSBI :=
  if x.digits.length = 0 then x else ⟨!x.sign, x.digits⟩

/-- The scan loop of `__absoluteCompare`: compare digits downward from
index `i - 1`. -/
def absCmpLoop (x y : JSBI) : ℕ → ℤ
  | 0 => 0
  | i + 1 =>
    if x.dig i = y.dig i then absCmpLoop x y i
    else if x.udig i > y.udig i then 1 else -1

/-- Source `__absoluteCompare`. -/
def absoluteCompare (x y : JSBI) : ℤ :=
  let diff : ℤ := (x.digits.length : ℤ) - (y.digits.length : ℤ)
  if diff ≠ 0 then diff else absCmpLoop x y x.digits.length

/-! ## Additive core -/

/-- First loop of `__absoluteAdd`: `k` iterations starting at index `i`,
adding digits of both operands with carry. -/
def absAddLoop1 (x y : JSBI) : ℕ → ℕ → ℤ → JSBI → JSBI × ℤ
  | 0, _, carry, result => (result, carry)
  | k + 1, i, carry, result =>
    let r := x.dig i + y.dig i + carry
    absAddLoop1 x y k (i + 1) (jsShrU r 30) (result.setDig i (jsAnd r 0x3FFFFFFF))

/-- Second loop of `__absoluteAdd`: remaining digits of `x` with carry. -/
def absAddLoop2 (x : JSBI) : ℕ → ℕ → ℤ → JSBI → JSBI × ℤ
  | 0, _, carry, result => (result, carry)
  | k + 1, i, carry, result =>
    let r := x.dig i + carry
    absAddLoop2 x k (i + 1) (jsShrU r 30) (result.setDig i (jsAnd r 0x3FFFFFFF))

/-- Source `__absoluteAdd(x, y, resultSign)`. -/
def absoluteAdd (x y : JSBI) (resultSign : Bool) : JSRes JSBI :=
  if x.digits.length < y.digits.length then absoluteAdd y x resultSign
  else if x.digits.length = 0 then .ok x
  else if y.digits.length = 0 then
    .ok (if x.sign = resultSign then x else unaryMinus x)
  else do
    let resultLength := x.digits.length +
      (if clzmsd x = 0 ∨ (y.digits.length = x.digits.length ∧ clzmsd y = 0)
       then 1 else 0)
    let result0 ← newJSBI resultLength resultSign
    let (result1, carry1) := absAddLoop1 x y y.digits.length 0 0 result0
    let (result2, carry2) :=
      absAddLoop2 x (x.digits.length - y.digits.length) y.digits.length carry1 result1
    let result3 :=
      if x.digits.length < result2.digits.length
      then result2.setDig x.digits.length carry2 else result2
    .ok (trim result3)
termination_by if x.digits.length < y.digits.length then 1 else 0
decreasing_by simp_all; omega

/-- First loop of `__absoluteSub`: digits of both operands with borrow. -/
def absSubLoop1 (x y : JSBI) : ℕ → ℕ → ℤ → JSBI → JSBI × ℤ
  | 0, _, borrow, result => (result, borrow)
  | k + 1, i, borrow, result =>
    let r := x.dig i - y.dig i - borrow
    absSubLoop1 x y k (i + 1) (jsAnd (jsShrU r 30) 1)
      (result.setDig i (jsAnd r 0x3FFFFFFF))

/-- Second loop of `__absoluteSub`: remaining digits of `x` with borrow. -/
def absSubLoop2 (x : JSBI) : ℕ → ℕ → ℤ → JSBI → JSBI × ℤ
  | 0, _, borrow, result => (result, borrow)
  | k + 1, i, borrow, result =>
    let r := x.dig i - borrow
    absSubLoop2 x k (i + 1) (jsAnd (jsShrU r 30) 1)
      (result.setDig i (jsAnd r 0x3FFFFFFF))

/-- Source `__absoluteSub(x, y, resultSign)`; assumes `|x| ≥ |y|`. -/
def absoluteSub (x y : JSBI) (resultSign : Bool) : JSRes JSBI :=
  if x.digits.length = 0 then .ok x
  else if y.digits.length = 0 then
    .ok (if x.sign = resultSign then x else unaryMinus x)
  else do
    let result0 ← newJSBI x.digits.length resultSign
    let (result1, borrow1) := absSubLoop1 x y y.digits.length 0 0 result0
    let (result2, _borrow2) :=
      absSubLoop2 x (x.digits.length - y.digits.length) y.digits.length borrow1 result1
    .ok (trim result2)

/-- Source `add(x, y)`. -/
def add (x y : JSBI) : JSRes JSBI :=
  let sign := x.sign
  if sign = y.sign then absoluteAdd x y sign
  else if absoluteCompare x y ≥ 0 then absoluteSub x y sign
  else absoluteSub y x (!sign)

/-- Source `subtract(x, y)`. -/
def subtract (x y : JSBI) : JSRes JSBI :=
  let sign := x.sign
  if sign ≠ y.sign then absoluteAdd x y sign
  else if absoluteCompare x y ≥ 0 then absoluteSub x y sign
  else absoluteSub y x (!sign)

/-! ## Multiplicative core -/

/-- Body of one iteration of the `__multiplyAccumulate` main loop: from the
current accumulator digit, multiplicand digit, multiplier halves and the
two-word carry (`carry`, `high`), produce the digit to store and the next
carry pair. -/
def mulAccStep (accD m1 m2Low m2High carry high : ℤ) : ℤ × ℤ × ℤ :=
  let m1Low := jsAnd m1 0x7FFF
  let m1High := jsShrU m1 15
  let rLow := jsImul m1Low m2Low
  let rMid1 := jsImul m1Low m2High
  let rMid2 := jsImul m1High m2Low
  let rHigh := jsImul m1High m2High
  let acc1 := accD + high + rLow + carry
  let carry1 := jsShrU acc1 30
  let acc2 := jsAnd acc1 0x3FFFFFFF
  let acc3 := acc2 + jsShl (jsAnd rMid1 0x7FFF) 15 + jsShl (jsAnd rMid2 0x7FFF) 15
  let carry2 := carry1 + jsShrU acc3 30
  let high1 := rHigh + jsShrU rMid1 15 + jsShrU rMid2 15
  (jsAnd acc3 0x3FFFFFFF, carry2, high1)

/-- Main loop of `__multiplyAccumulate`: one iteration per digit of the
multiplicand, with two-word carry (`carry`, `high`). -/
def mulAccLoop (multiplicand : JSBI) (m2Low m2High : ℤ) :
    ℕ → ℕ → ℕ → ℤ → ℤ → JSBI → JSBI × ℕ × ℤ × ℤ
  | 0, _, accIdx, carry, high, acc => (acc, accIdx, carry, high)
  | k + 1, i, accIdx, carry, high, acc =>
    let s := mulAccStep (acc.dig accIdx) (multiplicand.dig i) m2Low m2High carry high
    mulAccLoop multiplicand m2Low m2High k (i + 1) (accIdx + 1) s.2.1 s.2.2
      (acc.setDig accIdx s.1)

/-- Trailing carry-propagation loop of `__multiplyAccumulate`
(`for(; carry !== 0 || high !== 0; accumulatorIndex++)`), with explicit
fuel; under the invariants proved below the loop always exits by its
condition before the fuel runs out. -/
def mulAccPropagate : ℕ → JSBI → ℕ → ℤ → ℤ → JSBI
  | 0, acc, _, _, _ => acc
  | fuel + 1, acc, idx, carry, high =>
    if carry = 0 ∧ high = 0 then acc
    else
      let a := acc.dig idx + carry + high
      mulAccPropagate fuel (acc.setDig idx (jsAnd a 0x3FFFFFFF)) (idx + 1)
        (jsShrU a 30) 0

/-- Source `__multiplyAccumulate(multiplicand, multiplier, accumulator,
accumulatorIndex)`. -/
def multiplyAccumulate (multiplicand : JSBI) (multiplier : ℤ)
    (accumulator : JSBI) (accumulatorIndex : ℕ) : JSBI :=
  if multiplier = 0 then accumulator
  else
    let m2Low := jsAnd multiplier 0x7FFF
    let m2High := jsShrU multiplier 15
    let (acc, accIdx, carry, high) :=
      mulAccLoop multiplicand m2Low m2High multiplicand.digits.length 0
        accumulatorIndex 0 0 accumulator
    mulAccPropagate (acc.digits.length + 4) acc accIdx carry high

/-- Main loop of `multiply`: accumulate one multiplicand digit per step. -/
def multiplyLoop (x y : JSBI) : ℕ → ℕ → JSBI → JSBI
  | 0, _, result => result
  | k + 1, i, result => multiplyLoop x y k (i + 1) (multiplyAccumulate y (x.dig i) result i)

/-- Source `multiply(x, y)`. -/
def multiply (x y : JSBI) : JSRes JSBI :=
  if x.digits.length = 0 then .ok x
  else if y.digits.length = 0 then .ok y
  else do
    let resultLength := x.digits.length + y.digits.length -
      (if clzmsd x + clzmsd y ≥ 30 then 1 else 0)
    let result ← newJSBI resultLength (x.sign != y.sign)
    let result := initializeDigits result
    .ok (trim (multiplyLoop x y x.digits.length 0 result))

/-! ## Division core -/

/-- Source `__clz15`. -/
def clz15 (z : ℤ) : ℤ := clz30 z - 15

/-- Loop of `__internalMultiplyAdd`: multiply `n` digits by a small factor,
propagating (`carry`, `high`). -/
def intMulAddLoop (source : JSBI) (factor : ℤ) :
    ℕ → ℕ → ℤ → ℤ → JSBI → JSBI × ℤ × ℤ
  | 0, _, carry, high, result => (result, carry, high)
  | k + 1, i, carry, high, result =>
    let digit := source.dig i
    let rx := jsImul (jsAnd digit 0x7FFF) factor
    let ry := jsImul (jsShrU digit 15) factor
    let r := rx + jsShl (jsAnd ry 0x7FFF) 15 + high + carry
    intMulAddLoop source factor k (i + 1) (jsShrU r 30) (jsShrU ry 15)
      (result.setDig i (jsAnd r 0x3FFFFFFF))

/-- Zero-fill loop (`while(n < result.length) result.__setDigit(n++, 0)`). -/
def zeroFillFrom : ℕ → ℕ → JSBI → JSBI
  | 0, _, r => r
  | k + 1, i, r => zeroFillFrom k (i + 1) (r.setDig i 0)

/-- Source `__internalMultiplyAdd(source, factor, summand, n, result)`. -/
def internalMultiplyAdd (source : JSBI) (factor summand : ℤ) (n : ℕ)
    (result : JSBI) : JSRes JSBI :=
  let (result1, carry, high) := intMulAddLoop source factor n 0 summand 0 result
  if n < result1.digits.length then
    .ok (zeroFillFrom (result1.digits.length - (n + 1)) (n + 1)
      (result1.setDig n (carry + high)))
  else
    if carry + high ≠ 0 then .error .bugErr else .ok result1

/-- Loop of `__inplaceAdd`: add `halfDigits` half-digits of `summand` into
`jsbi` at half-digit offset `startIndex`. -/
def inplaceAddLoop (summand : JSBI) (startIndex : ℕ) :
    ℕ → ℕ → ℤ → JSBI → JSBI × ℤ
  | 0, _, carry, jsbi => (jsbi, carry)
  | k + 1, i, carry, jsbi =>
    let sum := jsbi.halfDig (startIndex + i) + summand.halfDig i + carry
    inplaceAddLoop summand startIndex k (i + 1) (jsShrU sum 15)
      (jsbi.setHalfDig (startIndex + i) (jsAnd sum 0x7FFF))

/-- Source `__inplaceAdd(jsbi, summand, startIndex, halfDigits)`; returns
the updated value and the outgoing carry. -/
def inplaceAdd (jsbi summand : JSBI) (startIndex halfDigits : ℕ) : JSBI × ℤ :=
  inplaceAddLoop summand startIndex halfDigits 0 0 jsbi

/-- Loop of the odd-`startIndex` branch of `__inplaceSub`; threads
(`current`, `r0`, `borrow`). -/
def inplaceSubOddLoop (subtrahend : JSBI) (s : ℕ) :
    ℕ → ℕ → ℤ → ℤ → ℤ → JSBI → JSBI × ℕ × ℤ × ℤ × ℤ
  | 0, i, current, r0, borrow, jsbi => (jsbi, i, current, r0, borrow)
  | k + 1, i, current, r0, borrow, jsbi =>
    let sub := subtrahend.dig i
    let r15 := jsShrU current 15 - jsAnd sub 0x7FFF - borrow
    let borrow1 := jsAnd (jsShrU r15 15) 1
    let jsbi1 := jsbi.setDig (s + i)
      (jsOr (jsShl (jsAnd r15 0x7FFF) 15) (jsAnd r0 0x7FFF))
    let current1 := jsbi1.dig (s + i + 1)
    let r0' := jsAnd current1 0x7FFF - jsShrU sub 15 - borrow1
    let borrow2 := jsAnd (jsShrU r0' 15) 1
    inplaceSubOddLoop subtrahend s k (i + 1) current1 r0' borrow2 jsbi1

/-- Loop of the even-`startIndex` branch of `__inplaceSub`. -/
def inplaceSubEvenLoop (subtrahend : JSBI) (s : ℕ) :
    ℕ → ℕ → ℤ → JSBI → JSBI × ℕ × ℤ
  | 0, i, borrow, jsbi => (jsbi, i, borrow)
  | k + 1, i, borrow, jsbi =>
    let current := jsbi.dig (s + i)
    let sub := subtrahend.dig i
    let r0 := jsAnd current 0x7FFF - jsAnd sub 0x7FFF - borrow
    let borrow1 := jsAnd (jsShrU r0 15) 1
    let r15 := jsShrU current 15 - jsShrU sub 15 - borrow1
    let borrow2 := jsAnd (jsShrU r15 15) 1
    inplaceSubEvenLoop subtrahend s k (i + 1) borrow2
      (jsbi.setDig (s + i) (jsOr (jsShl (jsAnd r15 0x7FFF) 15) (jsAnd r0 0x7FFF)))

/-- Source `__inplaceSub(jsbi, subtrahend, startIndex, halfDigits)`; returns
the updated value and the outgoing borrow (RangeError on the out-of-bounds
check of the odd branch). -/
def inplaceSub (jsbi subtrahend : JSBI) (startIndex halfDigits : ℕ) :
    JSRes (JSBI × ℤ) :=
  let fullSteps := (halfDigits - 1) / 2
  if startIndex % 2 = 1 then
    let s := startIndex / 2
    let current := jsbi.dig s
    let r0 := jsAnd current 0x7FFF
    let (jsbi1, i, current1, r01, borrow1) :=
      inplaceSubOddLoop subtrahend s fullSteps 0 current r0 0 jsbi
    let sub := subtrahend.dig i
    let r15 := jsShrU current1 15 - jsAnd sub 0x7FFF - borrow1
    let borrow2 := jsAnd (jsShrU r15 15) 1
    let jsbi2 := jsbi1.setDig (s + i)
      (jsOr (jsShl (jsAnd r15 0x7FFF) 15) (jsAnd r01 0x7FFF))
    let subTop := jsShrU sub 15
    if s + i + 1 ≥ jsbi2.digits.length then .error .rangeErr
    else if halfDigits % 2 = 0 then
      let current2 := jsbi2.dig (s + i + 1)
      let r0' := jsAnd current2 0x7FFF - subTop - borrow2
      let borrow3 := jsAnd (jsShrU r0' 15) 1
      .ok (jsbi2.setDig (s + subtrahend.digits.length)
        (jsOr (jsAnd current2 0x3FFF8000) (jsAnd r0' 0x7FFF)), borrow3)
    else .ok (jsbi2, borrow2)
  else
    let s := startIndex / 2
    let (jsbi1, i, borrow1) :=
      inplaceSubEvenLoop subtrahend s (subtrahend.digits.length - 1) 0 0 jsbi
    let current := jsbi1.dig (s + i)
    let sub := subtrahend.dig i
    let r0 := jsAnd current 0x7FFF - jsAnd sub 0x7FFF - borrow1
    let borrow2 := jsAnd (jsShrU r0 15) 1
    let (r15, borrow3) :=
      if halfDigits % 2 = 0 then
        let r15 := jsShrU current 15 - jsShrU sub 15 - borrow2
        (r15, jsAnd (jsShrU r15 15) 1)
      else ((0 : ℤ), borrow2)
    .ok (jsbi1.setDig (s + i)
      (jsOr (jsShl (jsAnd r15 0x7FFF) 15) (jsAnd r0 0x7FFF)), borrow3)

/-- Loop of `__inplaceRightShift`. -/
def inplaceRShiftLoop (shift : ℤ) : ℕ → ℕ → ℤ → JSBI → JSBI × ℤ
  | 0, _, carry, jsbi => (jsbi, carry)
  | k + 1, i, carry, jsbi =>
    let d := jsbi.dig (i + 1)
    inplaceRShiftLoop shift k (i + 1) (jsShrU d shift)
      (jsbi.setDig i (jsOr (jsAnd (jsShl d (30 - shift)) 0x3FFFFFFF) carry))

/-- Source `__inplaceRightShift(jsbi, shift)`. -/
def inplaceRightShift (jsbi : JSBI) (shift : ℤ) : JSBI :=
  if shift = 0 then jsbi
  else
    let carry := jsShrU (jsbi.dig 0) shift
    let last := jsbi.digits.length - 1
    let (jsbi1, carry1) := inplaceRShiftLoop shift last 0 carry jsbi
    jsbi1.setDig last carry1

/-- Copy loop of the `shift = 0` case of `__specialLeftShift`. -/
def copyDigitsLoop (x : JSBI) : ℕ → ℕ → JSBI → JSBI
  | 0, _, result => result
  | k + 1, i, result => copyDigitsLoop x k (i + 1) (result.setDig i (x.dig i))

/-- Shift loop of `__specialLeftShift`. -/
def specialLShiftLoop (x : JSBI) (shift : ℤ) : ℕ → ℕ → ℤ → JSBI → JSBI × ℤ
  | 0, _, carry, result => (result, carry)
  | k + 1, i, carry, result =>
    let d := x.dig i
    specialLShiftLoop x shift k (i + 1) (jsShrU d (30 - shift))
      (result.setDig i (jsOr (jsAnd (jsShl d shift) 0x3FFFFFFF) carry))

/-- Source `__specialLeftShift(x, shift, addDigit)`. -/
def specialLeftShift (x : JSBI) (shift : ℤ) (addDigit : ℕ) : JSRes JSBI := do
  let n := x.digits.length
  let result ← newJSBI (n + addDigit) false
  if shift = 0 then
    let result := copyDigitsLoop x n 0 result
    .ok (if addDigit > 0 then result.setDig n 0 else result)
  else
    let (result1, carry) := specialLShiftLoop x shift n 0 0 result
    .ok (if addDigit > 0 then result1.setDig n carry else result1)

/-- The `q̂` correction loop of step D3 (decrement `q̂` while the two-digit
test overshoots, stopping when `r̂` overflows a half-digit). Each
iteration decrements `q̂` by one, so `fuel = q̂.toNat + 1` covers every
possible iteration: the loop always exits by its own condition. -/
def qhatCorrectLoop (vn1 vn2 ujn2 : ℤ) : ℕ → ℤ → ℤ → ℤ × ℤ
  | 0, qhat, rhat => (qhat, rhat)
  | fuel + 1, qhat, rhat =>
    if toUint32 (jsImul qhat vn2) > toUint32 (jsOr (jsShl rhat 16) ujn2) then
      let qhat1 := qhat - 1
      let rhat1 := rhat + vn1
      if rhat1 > 0x7FFF then (qhat1, rhat1)
      else qhatCorrectLoop vn1 vn2 ujn2 fuel qhat1 rhat1
    else (qhat, rhat)

/-- One iteration body plus countdown loop (D2-D4) of `__absoluteDivLarge`:
`j` runs from `m` down to `0` (the first argument is `j + 1`). State:
dividend buffer `u`, optional quotient `q`, scratch `qhatv`, and the
half-digit pack buffer. -/
def divLargeLoop (divisor : JSBI) (n n2 : ℕ) (vn1 : ℤ)
    (wantQuotient : Bool) :
    ℕ → JSBI → Option JSBI → JSBI → ℤ → JSRes (JSBI × Option JSBI)
  | 0, u, q, _, _ => .ok (u, q)
  | jj + 1, u, q, qhatv, halfDigitBuffer => do
    let j := jj
    let ujn := u.halfDig (j + n)
    let qhat0 :=
      if ujn ≠ vn1 then
        let input := toUint32 (jsOr (jsShl ujn 15) (u.halfDig (j + n - 1)))
        let qhat := toInt32 (input / vn1)
        let rhat := toInt32 (input % vn1)
        let vn2 := divisor.halfDig (n - 2)
        let ujn2 := u.halfDig (j + n - 2)
        (qhatCorrectLoop vn1 vn2 ujn2 (qhat.toNat + 1) qhat rhat).1
      else (0x7FFF : ℤ)
    let qhatv1 ← internalMultiplyAdd divisor qhat0 0 n2 qhatv
    let (u1, c) ← inplaceSub u qhatv1 j (n + 1)
    let (u2, qhat1) :=
      if c ≠ 0 then
        let (u', c') := inplaceAdd u1 divisor j n
        (u'.setHalfDig (j + n) (jsAnd (u'.halfDig (j + n) + c') 0x7FFF), qhat0 - 1)
      else (u1, qhat0)
    let (q1, halfDigitBuffer1) :=
      if wantQuotient then
        if j % 2 = 1 then (q, jsShl qhat1 15)
        else (q.map (fun qq => qq.setDig (j / 2) (jsOr halfDigitBuffer qhat1)),
          halfDigitBuffer)
      else (q, halfDigitBuffer)
    divLargeLoop divisor n n2 vn1 wantQuotient jj u2 q1 qhatv1 halfDigitBuffer1

/-- Source `__absoluteDivLarge(dividend, divisor, wantQuotient,
wantRemainder)`; returns the quotient and/or remainder per the flags.
Requires `|dividend| ≥ |divisor|`, so the half-digit length difference `m`
is a natural number. -/
def absoluteDivLarge (dividend divisor : JSBI)
    (wantQuotient wantRemainder : Bool) : JSRes (Option JSBI × Option JSBI) := do
  let n := divisor.halfDigitLength
  let n2 := divisor.digits.length
  let m := dividend.halfDigitLength - n
  let q ← if wantQuotient then do
      let q0 ← newJSBI ((m + 2) / 2) false
      pure (some (initializeDigits q0))
    else pure none
  let qhatv0 ← newJSBI ((n + 2) / 2) false
  let qhatv := initializeDigits qhatv0
  let shift := clz15 (divisor.halfDig (n - 1))
  let divisor1 ← if shift > 0 then specialLeftShift divisor shift 0 else pure divisor
  let u ← specialLeftShift dividend shift 1
  let vn1 := divisor1.halfDig (n - 1)
  let (u1, q1) ← divLargeLoop divisor1 n n2 vn1 wantQuotient (m + 1) u q qhatv 0
  if wantRemainder then
    .ok (q1, some (inplaceRightShift u1 shift))
  else if wantQuotient then .ok (q1, none)
  else .error .bugErr

/-- Loop of `__absoluteDivSmall`: one digit (two half-digits) per step,
from the most significant digit `d` downward. -/
def absDivSmallLoop (x : JSBI) (divisor : ℤ) : ℕ → ℤ → JSBI → JSBI × ℤ
  | 0, remainder, quotient => (quotient, remainder)
  | d + 1, remainder, quotient =>
    let input1 := toUint32 (jsOr (jsShl remainder 15) (x.halfDig (2 * d + 1)))
    let upperHalf := toInt32 (input1 / divisor)
    let rem1 := toInt32 (input1 % divisor)
    let input2 := toUint32 (jsOr (jsShl rem1 15) (x.halfDig (2 * d)))
    let lowerHalf := toInt32 (input2 / divisor)
    let rem2 := toInt32 (input2 % divisor)
    absDivSmallLoop x divisor d rem2
      (quotient.setDig d (jsOr (jsShl upperHalf 15) lowerHalf))

/-- Source `__absoluteDivSmall(x, divisor)` (quotient freshly allocated, as
at its only call site). JS float division and modulus agree with exact
integer division here: numerators are below `2^31` and the divisor is a
positive 15-bit integer, so no double rounding crosses an integer. -/
def absoluteDivSmall (x : JSBI) (divisor : ℤ) : JSRes JSBI := do
  let quotient ← newJSBI x.digits.length false
  .ok (absDivSmallLoop x divisor x.digits.length 0 quotient).1

/-- Loop of `__absoluteModSmall`, one half-digit per step downward. -/
def absModSmallLoop (x : JSBI) (divisor : ℤ) : ℕ → ℤ → ℤ
  | 0, remainder => remainder
  | i + 1, remainder =>
    absModSmallLoop x divisor i
      (toInt32 (toUint32 (jsOr (jsShl remainder 15) (x.halfDig i)) % divisor))

/-- Source `__absoluteModSmall(x, divisor)`. -/
def absoluteModSmall (x : JSBI) (divisor : ℤ) : ℤ :=
  absModSmallLoop x divisor (x.digits.length * 2) 0

/-- Source `divide(x, y)`. -/
def divide (x y : JSBI) : JSRes JSBI := do
  if y.digits.length = 0 then .error .rangeErr
  else if absoluteCompare x y < 0 then .ok zeroJ
  else
    let resultSign := x.sign != y.sign
    let divisor := y.udig 0
    if y.digits.length = 1 ∧ divisor ≤ 0x7FFF then
      if divisor = 1 then .ok (if resultSign = x.sign then x else unaryMinus x)
      else do
        let quotient ← absoluteDivSmall x divisor
        .ok (trim ⟨resultSign, quotient.digits⟩)
    else do
      let (q, _) ← absoluteDivLarge x y true false
      match q with
      | some quotient => .ok (trim ⟨resultSign, quotient.digits⟩)
      | none => .error .bugErr

/-- Source `remainder(x, y)`. -/
def remainder (x y : JSBI) : JSRes JSBI := do
  if y.digits.length = 0 then .error .rangeErr
  else if absoluteCompare x y < 0 then .ok x
  else
    let divisor := y.udig 0
    if y.digits.length = 1 ∧ divisor ≤ 0x7FFF then
      if divisor = 1 then .ok zeroJ
      else
        let remainderDigit := absoluteModSmall x divisor
        if remainderDigit = 0 then .ok zeroJ
        else .ok (oneDigit remainderDigit x.sign)
    else do
      let (_, r) ← absoluteDivLarge x y false true
      match r with
      | some u => .ok (trim ⟨x.sign, u.digits⟩)
      | none => .error .bugErr

/-! ## Exponentiation -/

/-- The square-and-multiply loop of `exponentiate`
(`for(; expValue !== 0; expValue >>= 1)`). -/
def expLoop (expValue : ℕ) (runningSquare : JSBI) (result : Option JSBI) :
    JSRes (Option JSBI) :=
  if expValue = 0 then .ok result
  else do
    let rs ← multiply runningSquare runningSquare
    let result1 ←
      if expValue % 2 = 1 then
        match result with
        | none => pure (some rs)
        | some r => do
          let m ← multiply r rs
          pure (some m)
      else pure result
    expLoop (expValue / 2) rs result1
termination_by expValue
decreasing_by omega

/-- Source `exponentiate(x, y)`. -/
def exponentiate (x y : JSBI) : JSRes JSBI := do
  if y.sign then .error .rangeErr
  else if y.digits.length = 0 then .ok (oneDigit 1 false)
  else if x.digits.length = 0 then .ok x
  else if x.digits.length = 1 ∧ x.dig 0 = 1 then
    if x.sign ∧ jsAnd (y.dig 0) 1 = 0 then .ok (unaryMinus x) else .ok x
  else if y.digits.length > 1 then .error .rangeErr
  else
    let expValue := jsU (y.udig 0)
    if expValue = 1 then .ok x
    else if expValue ≥ kMaxLengthBits then .error .rangeErr
    else if x.digits.length = 1 ∧ x.dig 0 = 2 then
      let neededDigits := 1 + expValue / 30
      let sign := x.sign && (expValue % 2 != 0)
      let result ← newJSBI neededDigits sign
      let result := initializeDigits result
      .ok (result.setDig (neededDigits - 1) (jsShl 1 ((expValue % 30 : ℕ) : ℤ)))
    else do
      let result ← expLoop (expValue / 2) x
        (if expValue % 2 = 1 then some x else none)
      match result with
      | some r => .ok r
      | none => .error .bugErr

/-! ## Increment / decrement helpers -/

/-- Loop of `__absoluteAddOne`. -/
def absAddOneLoop (x : JSBI) : ℕ → ℕ → ℤ → JSBI → JSBI × ℤ
  | 0, _, carry, result => (result, carry)
  | k + 1, i, carry, result =>
    let r := x.dig i + carry
    absAddOneLoop x k (i + 1) (jsShrU r 30) (result.setDig i (jsAnd r 0x3FFFFFFF))

/-- Source `__absoluteAddOne(x, sign, result)`; an aliased result buffer is
modelled by reading from `x` (the source reads each index before writing
it). -/
def absoluteAddOne (x : JSBI) (sign : Bool) (result0 : Option JSBI) :
    JSRes JSBI := do
  let inputLength := x.digits.length
  let result ← match result0 with
    | none => newJSBI inputLength sign
    | some r => pure ⟨sign, r.digits⟩
  let (result1, carry) := absAddOneLoop x inputLength 0 1 result
  .ok (if carry ≠ 0 then result1.setDigGrow inputLength 1 else result1)

/-- Loop of `__absoluteSubOne`. -/
def absSubOneLoop (x : JSBI) : ℕ → ℕ → ℤ → JSBI → JSBI × ℤ
  | 0, _, borrow, result => (result, borrow)
  | k + 1, i, borrow, result =>
    let r := x.dig i - borrow
    absSubOneLoop x k (i + 1) (jsAnd (jsShrU r 30) 1)
      (result.setDig i (jsAnd r 0x3FFFFFFF))

/-- Source `__absoluteSubOne(x, resultLength?)`: decrement the magnitude,
optionally left-padding with zeros to `resultLength`. -/
def absoluteSubOne (x : JSBI) (resultLength0 : Option ℕ) : JSRes JSBI := do
  let length := x.digits.length
  let resultLength := resultLength0.getD length
  let result ← newJSBI resultLength false
  let (result1, borrow) := absSubOneLoop x length 0 1 result
  if borrow ≠ 0 then .error .bugErr
  else .ok (zeroFillFrom (resultLength - length) length result1)

/-! ## Bitwise magnitude core -/

/-- Pairwise digit loop shared by the four absolute bitwise operations. -/
def bitPairLoop (op : ℤ → ℤ → ℤ) (x y : JSBI) : ℕ → ℕ → JSBI → JSBI
  | 0, _, r => r
  | k + 1, i, r => bitPairLoop op x y k (i + 1) (r.setDig i (op (x.dig i) (y.dig i)))

/-- Source `__absoluteAnd(x, y, result?)`. -/
def absoluteAnd (x y : JSBI) (result0 : Option JSBI) : JSRes JSBI := do
  let (x, y) := if x.digits.length < y.digits.length then (y, x) else (x, y)
  let numPairs := y.digits.length
  let (result, resultLength) ← match result0 with
    | none => do
      let r ← newJSBI numPairs false
      pure (r, numPairs)
    | some r => pure (r, r.digits.length)
  let r1 := bitPairLoop jsAnd x y numPairs 0 result
  .ok (zeroFillFrom (resultLength - numPairs) numPairs r1)

/-- Source `__absoluteAndNot(x, y, result?)`. -/
def absoluteAndNot (x y : JSBI) (result0 : Option JSBI) : JSRes JSBI := do
  let xLength := x.digits.length
  let numPairs := min y.digits.length xLength
  let (result, resultLength) ← match result0 with
    | none => do
      let r ← newJSBI xLength false
      pure (r, xLength)
    | some r => pure (r, r.digits.length)
  let r1 := bitPairLoop (fun a b => jsAnd a (jsNot b)) x y numPairs 0 result
  let r2 := copyDigitsLoop x (xLength - numPairs) numPairs r1
  .ok (zeroFillFrom (resultLength - xLength) xLength r2)

/-- Source `__absoluteOr(x, y, result?)`. -/
def absoluteOr (x y : JSBI) (result0 : Option JSBI) : JSRes JSBI := do
  let (x, y) := if x.digits.length < y.digits.length then (y, x) else (x, y)
  let xLength := x.digits.length
  let numPairs := y.digits.length
  let (result, resultLength) ← match result0 with
    | none => do
      let r ← newJSBI xLength false
      pure (r, xLength)
    | some r => pure (r, r.digits.length)
  let r1 := bitPairLoop jsOr x y numPairs 0 result
  let r2 := copyDigitsLoop x (xLength - numPairs) numPairs r1
  .ok (zeroFillFrom (resultLength - xLength) xLength r2)

/-- Source `__absoluteXor(x, y, result?)`. -/
def absoluteXor (x y : JSBI) (result0 : Option JSBI) : JSRes JSBI := do
  let (x, y) := if x.digits.length < y.digits.length then (y, x) else (x, y)
  let xLength := x.digits.length
  let numPairs := y.digits.length
  let (result, resultLength) ← match result0 with
    | none => do
      let r ← newJSBI xLength false
      pure (r, xLength)
    | some r => pure (r, r.digits.length)
  let r1 := bitPairLoop jsXor x y numPairs 0 result
  let r2 := copyDigitsLoop x (xLength - numPairs) numPairs r1
  .ok (zeroFillFrom (resultLength - xLength) xLength r2)

/-! ## Public bitwise operations -/

/-- Source `bitwiseNot(x)`. -/
def bitwiseNot (x : JSBI) : JSRes JSBI := do
  if x.sign then
    let r ← absoluteSubOne x none
    .ok (trim r)
  else absoluteAddOne x true none

/-- Source `bitwiseAnd(x, y)`. -/
def bitwiseAnd (x y : JSBI) : JSRes JSBI := do
  if ¬x.sign ∧ ¬y.sign then
    let r ← absoluteAnd x y none
    .ok (trim r)
  else if x.sign ∧ y.sign then
    let resultLength := max x.digits.length y.digits.length + 1
    let result ← absoluteSubOne x (some resultLength)
    let y1 ← absoluteSubOne y none
    let result ← absoluteOr result y1 (some result)
    let r ← absoluteAddOne result true (some result)
    .ok (trim r)
  else
    let (x, y) := if x.sign then (y, x) else (x, y)
    let y1 ← absoluteSubOne y none
    let r ← absoluteAndNot x y1 none
    .ok (trim r)

/-- Source `bitwiseXor(x, y)`. -/
def bitwiseXor (x y : JSBI) : JSRes JSBI := do
  if ¬x.sign ∧ ¬y.sign then
    let r ← absoluteXor x y none
    .ok (trim r)
  else if x.sign ∧ y.sign then
    let resultLength := max x.digits.length y.digits.length
    let result ← absoluteSubOne x (some resultLength)
    let y1 ← absoluteSubOne y none
    let r ← absoluteXor result y1 (some result)
    .ok (trim r)
  else
    let resultLength := max x.digits.length y.digits.length + 1
    let (x, y) := if x.sign then (y, x) else (x, y)
    let result ← absoluteSubOne y (some resultLength)
    let result ← absoluteXor result x (some result)
    let r ← absoluteAddOne result true (some result)
    .ok (trim r)

/-- Source `bitwiseOr(x, y)`. -/
def bitwiseOr (x y : JSBI) : JSRes JSBI := do
  let resultLength := max x.digits.length y.digits.length
  if ¬x.sign ∧ ¬y.sign then
    let r ← absoluteOr x y none
    .ok (trim r)
  else if x.sign ∧ y.sign then
    let result ← absoluteSubOne x (some resultLength)
    let y1 ← absoluteSubOne y none
    let result ← absoluteAnd result y1 (some result)
    let r ← absoluteAddOne result true (some result)
    .ok (trim r)
  else
    let (x, y) := if x.sign then (y, x) else (x, y)
    let result ← absoluteSubOne y (some resultLength)
    let result ← absoluteAndNot result x (some result)
    let r ← absoluteAddOne result true (some result)
    .ok (trim r)

/-! ## Shifts -/

/-- Source `__toShiftAmount(x)`: `-1` reports overflow. -/
def toShiftAmount (x : JSBI) : ℤ :=
  if x.digits.length > 1 then -1
  else
    let value := x.udig 0
    if value > (kMaxLengthBits : ℤ) then -1 else value

/-- Source `__rightShiftByMaximum(sign)`. -/
def rightShiftByMaximum (sign : Bool) : JSBI :=
  if sign then oneDigit 1 true else zeroJ

/-- Copy loop of the `bitsShift = 0` case of `__leftShiftByAbsolute`:
`result[i] = x[i - digitShift]` for `i` in `[digitShift, resultLength)`. -/
def lShiftCopyLoop (x : JSBI) (digitShift : ℕ) : ℕ → ℕ → JSBI → JSBI
  | 0, _, r => r
  | k + 1, i, r => lShiftCopyLoop x digitShift k (i + 1) (r.setDig i (x.dig (i - digitShift)))

/-- Shift-with-carry loop of `__leftShiftByAbsolute`. -/
def lShiftBitsLoop (x : JSBI) (bitsShift digitShift : ℕ) :
    ℕ → ℕ → ℤ → JSBI → JSBI × ℤ
  | 0, _, carry, r => (r, carry)
  | k + 1, i, carry, r =>
    let d := x.dig i
    lShiftBitsLoop x bitsShift digitShift k (i + 1)
      (jsShrU d ((30 - bitsShift : ℕ) : ℤ))
      (r.setDig (i + digitShift) (jsOr (jsAnd (jsShl d (bitsShift : ℤ)) 0x3FFFFFFF) carry))

/-- Source `__leftShiftByAbsolute(x, y)`. -/
def leftShiftByAbsolute (x y : JSBI) : JSRes JSBI := do
  let shift := toShiftAmount y
  if shift < 0 then .error .rangeErr
  else
    let shiftN := shift.toNat
    let digitShift := shiftN / 30
    let bitsShift := shiftN % 30
    let length := x.digits.length
    let grow := bitsShift ≠ 0 ∧
      jsShrU (x.dig (length - 1)) ((30 - bitsShift : ℕ) : ℤ) ≠ 0
    let resultLength := length + digitShift + (if grow then 1 else 0)
    let result ← newJSBI resultLength x.sign
    if bitsShift = 0 then
      let result := zeroFillFrom digitShift 0 result
      .ok (trim (lShiftCopyLoop x digitShift (resultLength - digitShift) digitShift result))
    else
      let result := zeroFillFrom digitShift 0 result
      let (result1, carry) := lShiftBitsLoop x bitsShift digitShift length 0 0 result
      if grow then .ok (trim (result1.setDig (length + digitShift) carry))
      else if carry ≠ 0 then .error .bugErr
      else .ok (trim result1)

/-- Copy loop of the `bitsShift = 0` case of `__rightShiftByAbsolute`. -/
def rShiftCopyLoop (x : JSBI) (digitShift : ℕ) : ℕ → ℕ → JSBI → JSBI
  | 0, _, r => r
  | k + 1, i, r => rShiftCopyLoop x digitShift k (i + 1) (r.setDig (i - digitShift) (x.dig i))

/-- Shift-with-carry loop of `__rightShiftByAbsolute`. -/
def rShiftBitsLoop (x : JSBI) (bitsShift digitShift : ℕ) :
    ℕ → ℕ → ℤ → JSBI → JSBI × ℤ
  | 0, _, carry, r => (r, carry)
  | k + 1, i, carry, r =>
    let d := x.dig (i + digitShift + 1)
    rShiftBitsLoop x bitsShift digitShift k (i + 1) (jsShrU d (bitsShift : ℤ))
      (r.setDig i (jsOr (jsAnd (jsShl d ((30 - bitsShift : ℕ) : ℤ)) 0x3FFFFFFF) carry))

/-- Source `__rightShiftByAbsolute(x, y)`. -/
def rightShiftByAbsolute (x y : JSBI) : JSRes JSBI := do
  let length := x.digits.length
  let sign := x.sign
  let shift := toShiftAmount y
  if shift < 0 then .ok (rightShiftByMaximum sign)
  else
    let shiftN := shift.toNat
    let digitShift := shiftN / 30
    let bitsShift := shiftN % 30
    if length ≤ digitShift then .ok (rightShiftByMaximum sign)
    else
      let resultLength0 := length - digitShift
      let mustRoundDown :=
        if sign then
          let mask := jsShl 1 (bitsShift : ℤ) - 1
          if jsAnd (x.dig digitShift) mask ≠ 0 then true
          else (List.range digitShift).any (fun i => x.dig i ≠ 0)
        else false
      let resultLength :=
        if mustRoundDown ∧ bitsShift = 0 then
          if jsNot (x.dig (length - 1)) = 0 then resultLength0 + 1 else resultLength0
        else resultLength0
      let result ← newJSBI resultLength sign
      let result1 :=
        if bitsShift = 0 then
          rShiftCopyLoop x digitShift (length - digitShift) digitShift
            (result.setDig (resultLength - 1) 0)
        else
          let carry := jsShrU (x.dig digitShift) (bitsShift : ℤ)
          let last := length - digitShift - 1
          let (r, c) := rShiftBitsLoop x bitsShift digitShift last 0 carry result
          r.setDig last c
      if mustRoundDown then
        let r ← absoluteAddOne result1 true (some result1)
        .ok (trim r)
      else .ok (trim result1)

/-- Source `leftShift(x, y)`. -/
def leftShift (x y : JSBI) : JSRes JSBI :=
  if y.digits.length = 0 ∨ x.digits.length = 0 then .ok x
  else if y.sign then rightShiftByAbsolute x y
  else leftShiftByAbsolute x y

/-- Source `signedRightShift(x, y)`. -/
def signedRightShift (x y : JSBI) : JSRes JSBI :=
  if y.digits.length = 0 ∨ x.digits.length = 0 then .ok x
  else if y.sign then leftShiftByAbsolute x y
  else rightShiftByAbsolute x y

/-! ## asIntN / asUintN -/

/-- Loop of `__truncateToNBits` and initial loop of
`__truncateAndSubFromPowerOfTwo` reuse `copyDigitsLoop`. -/
def truncateToNBits (n : ℕ) (x : JSBI) : JSRes JSBI := do
  let neededDigits := (n + 29) / 30
  let result ← newJSBI neededDigits x.sign
  let last := neededDigits - 1
  let result := copyDigitsLoop x last 0 result
  let msd := x.dig last
  let msd1 :=
    if n % 30 ≠ 0 then
      let drop : ℕ := 32 - n % 30
      jsShrU (jsShl msd (drop : ℤ)) (drop : ℤ)
    else msd
  .ok (trim (result.setDig last msd1))

/-- First loop of `__truncateAndSubFromPowerOfTwo`: negate digits of `x`
with borrow. -/
def truncSubLoop1 (x : JSBI) : ℕ → ℕ → ℤ → JSBI → JSBI × ℕ × ℤ
  | 0, i, borrow, r => (r, i, borrow)
  | k + 1, i, borrow, r =>
    let rr := 0 - x.dig i - borrow
    truncSubLoop1 x k (i + 1) (jsAnd (jsShrU rr 30) 1)
      (r.setDig i (jsAnd rr 0x3FFFFFFF))

/-- Second loop of `__truncateAndSubFromPowerOfTwo`: fill with
`-borrow & 0x3FFFFFFF`. -/
def truncSubLoop2 (borrow : ℤ) : ℕ → ℕ → JSBI → JSBI
  | 0, _, r => r
  | k + 1, i, r => truncSubLoop2 borrow k (i + 1) (r.setDig i (jsAnd (0 - borrow) 0x3FFFFFFF))

/-- Source `__truncateAndSubFromPowerOfTwo(n, x, resultSign)`: computes
`2^n - (x mod 2^n)` as a magnitude. -/
def truncateAndSubFromPowerOfTwo (n : ℕ) (x : JSBI) (resultSign : Bool) :
    JSRes JSBI := do
  let neededDigits := (n + 29) / 30
  let result ← newJSBI neededDigits resultSign
  let last := neededDigits - 1
  let limit := min last x.digits.length
  let (r1, i1, borrow1) := truncSubLoop1 x limit 0 0 result
  let r2 := truncSubLoop2 borrow1 (last - i1) i1 r1
  let msd := if last < x.digits.length then x.dig last else 0
  let msdBitsConsumed := n % 30
  let resultMsd :=
    if msdBitsConsumed = 0 then jsAnd (0 - msd - borrow1) 0x3FFFFFFF
    else
      let drop : ℕ := 32 - msdBitsConsumed
      let msd1 := jsShrU (jsShl msd (drop : ℤ)) (drop : ℤ)
      let minuendMsd := jsShl 1 ((32 - drop : ℕ) : ℤ)
      jsAnd (minuendMsd - msd1 - borrow1) (minuendMsd - 1)
  .ok (trim (r2.setDig last resultMsd))

/-- Source `asIntN(n, x)` for a non-negative integral `n` (the source
floors `n` and rejects `n < 0` with a RangeError before this point). -/
def asIntN (n : ℕ) (x : JSBI) : JSRes JSBI := do
  if x.digits.length = 0 then .ok x
  else if n = 0 then .ok zeroJ
  else if n ≥ kMaxLengthBits then .ok x
  else
    let neededLength := (n + 29) / 30
    if x.digits.length < neededLength then .ok x
    else
      let topDigit := x.udig (neededLength - 1)
      let compareDigit := jsShl 1 (((n - 1) % 30 : ℕ) : ℤ)
      if x.digits.length = neededLength ∧ topDigit < compareDigit then .ok x
      else
        let hasBit := jsAnd topDigit compareDigit = compareDigit
        if ¬hasBit then truncateToNBits n x
        else if ¬x.sign then truncateAndSubFromPowerOfTwo n x true
        else if jsAnd topDigit (compareDigit - 1) = 0 then
          if (List.range (neededLength - 1)).any (fun i => x.dig i ≠ 0) then
            truncateAndSubFromPowerOfTwo n x false
          else if x.digits.length = neededLength ∧ topDigit = compareDigit then .ok x
          else truncateToNBits n x
        else truncateAndSubFromPowerOfTwo n x false

/-- Source `asUintN(n, x)` for a non-negative integral `n`. -/
def asUintN (n : ℕ) (x : JSBI) : JSRes JSBI := do
  if x.digits.length = 0 then .ok x
  else if n = 0 then .ok zeroJ
  else if x.sign then
    if n > kMaxLengthBits then .error .rangeErr
    else truncateAndSubFromPowerOfTwo n x false
  else if n ≥ kMaxLengthBits then .ok x
  else
    let neededLength := (n + 29) / 30
    if x.digits.length < neededLength then .ok x
    else
      let bitsInTopDigit := n % 30
      if x.digits.length = neededLength then
        if bitsInTopDigit = 0 then .ok x
        else
          let topDigit := x.dig (neededLength - 1)
          if jsShrU topDigit ((bitsInTopDigit : ℕ) : ℤ) = 0 then .ok x
          else truncateToNBits n x
      else truncateToNBits n x

/-! ## String parsing (`__fromString`) -/

/-- Source `__isWhitespace(c)`. -/
def isWhitespace (c : ℕ) : Bool :=
  if 0x09 ≤ c ∧ c ≤ 0x0D then true
  else if c ≤ 0x9F then c = 0x20
  else if c ≤ 0x01FFFF then c = 0xA0 ∨ c = 0x1680
  else if c ≤ 0x02FFFF then
    let c := c % 0x20000
    c ≤ 0x0A ∨ c = 0x28 ∨ c = 0x29 ∨ c = 0x2F ∨ c = 0x5F ∨ c = 0x1000
  else c = 0xFEFF

/-- Source table `__kMaxBitsPerChar` (`ceil(log2(radix) * 32)`). -/
def kMaxBitsPerChar : List ℕ :=
  [0, 0, 32, 51, 64, 75, 83, 90, 96,
   102, 107, 111, 115, 119, 122, 126, 128,
   131, 134, 136, 139, 141, 143, 145, 147,
   149, 151, 153, 154, 156, 158, 159, 160,
   162, 163, 165, 166]

/-- Source `__kBitsPerCharTableShift = 5`. -/
def kBitsPerCharTableShift : ℕ := 5

/-- Source `__kBitsPerCharTableMultiplier = 32`. -/
def kBitsPerCharTableMultiplier : ℕ := 32

/-- The leading-whitespace skip loop of `__fromString`; strings are
modelled as lists of UTF-16 code units, with the already-consumed prefix
dropped. -/
def skipWS : List ℕ → List ℕ
  | [] => []
  | c :: rest => if isWhitespace c then skipWS rest else c :: rest

/-- The leading-zeros skip loop of `__fromString`. -/
def skipZeros : List ℕ → List ℕ
  | [] => []
  | c :: rest => if c = 0x30 then skipZeros rest else c :: rest

/-- Classify a character as a digit of value `d < radix`
(`((current - 48) >>> 0) < limDigit` / the `| 32` letter test). -/
def charVal (limDigit limAlpha current : ℕ) : Option ℕ :=
  if 48 ≤ current ∧ current - 48 < limDigit then some (current - 48)
  else if 97 ≤ (current ||| 32) ∧ (current ||| 32) - 97 < limAlpha then
    some ((current ||| 32) - 87)
  else none

/-- Inner character-accumulation loop of the power-of-two-radix parse:
returns the accumulated part, its bit count, the remaining input, and the
`done` flag. -/
def po2PartLoop (limDigit limAlpha bitsPerChar : ℕ) :
    List ℕ → ℕ → ℕ → ℕ × ℕ × List ℕ × Bool
  | [], part, bits => (part, bits, [], true)
  | current :: rest1, part, bits =>
    match charVal limDigit limAlpha current with
    | none => (part, bits, current :: rest1, true)
    | some d =>
      let bits1 := bits + bitsPerChar
      let part1 := (part <<< bitsPerChar) ||| d
      match rest1 with
      | [] => (part1, bits1, [], true)
      | c2 :: rest2 =>
        if bits1 + bitsPerChar > 30 then (part1, bits1, c2 :: rest2, false)
        else po2PartLoop limDigit limAlpha bitsPerChar (c2 :: rest2) part1 bits1

/-- Outer do-while of the power-of-two-radix parse, pushing `parts` and
`partsBits`. Fuel: every round that continues consumes at least one
character, so `input length + 1` rounds always suffice. -/
def po2OuterLoop (limDigit limAlpha bitsPerChar : ℕ) :
    ℕ → List ℕ → List ℕ → List ℕ → List ℕ × List ℕ × List ℕ
  | 0, rest, parts, partsBits => (parts, partsBits, rest)
  | fuel + 1, rest, parts, partsBits =>
    let (part, bits, rest1, done) := po2PartLoop limDigit limAlpha bitsPerChar rest 0 0
    let parts1 := parts ++ [part]
    let partsBits1 := partsBits ++ [bits]
    if done then (parts1, partsBits1, rest1)
    else po2OuterLoop limDigit limAlpha bitsPerChar fuel rest1 parts1 partsBits1

/-- Loop of `__fillFromParts`, consuming the pushed parts from the last
one backward (zipped with their bit counts and reversed). -/
def fillPartsLoop : List (ℕ × ℕ) → ℕ → ℤ → ℕ → JSBI → JSBI × ℕ × ℤ
  | [], digitIndex, digit, _, r => (r, digitIndex, digit)
  | (part, partBits) :: rest, digitIndex, digit, bitsInDigit, r =>
    let digit1 := jsOr digit (jsShl (part : ℤ) ((bitsInDigit : ℕ) : ℤ))
    let bits1 := bitsInDigit + partBits
    if bits1 = 30 then fillPartsLoop rest (digitIndex + 1) 0 0 (r.setDig digitIndex digit1)
    else if bits1 > 30 then
      let bits2 := bits1 - 30
      fillPartsLoop rest (digitIndex + 1)
        (jsShrU (part : ℤ) ((partBits - bits2 : ℕ) : ℤ)) bits2
        (r.setDig digitIndex (jsAnd digit1 0x3FFFFFFF))
    else fillPartsLoop rest digitIndex digit1 bits1 r

/-- Source `__fillFromParts(result, parts, partsBits)`. -/
def fillFromParts (result : JSBI) (parts partsBits : List ℕ) : JSRes JSBI :=
  let (r, digitIndex, digit) := fillPartsLoop ((parts.zip partsBits).reverse) 0 0 0 result
  if digit ≠ 0 then
    if digitIndex ≥ r.digits.length then .error .bugErr
    else
      .ok (zeroFillFrom (r.digits.length - (digitIndex + 1)) (digitIndex + 1)
        (r.setDig digitIndex digit))
  else .ok (zeroFillFrom (r.digits.length - digitIndex) digitIndex r)

/-- Loop of `__inplaceMultiplyAdd` (a bounded-length in-place
`internalMultiplyAdd` specialization). -/
def inplaceMulAddLoop (mLow mHigh : ℤ) : ℕ → ℕ → ℤ → ℤ → JSBI → JSBI × ℤ × ℤ
  | 0, _, carry, high, jsbi => (jsbi, carry, high)
  | k + 1, i, carry, high, jsbi =>
    let d := jsbi.dig i
    let dLow := jsAnd d 0x7FFF
    let dHigh := jsShrU d 15
    let pLow := jsImul dLow mLow
    let pMid1 := jsImul dLow mHigh
    let pMid2 := jsImul dHigh mLow
    let pHigh := jsImul dHigh mHigh
    let r1 := high + pLow + carry
    let carry1 := jsShrU r1 30
    let r2 := jsAnd r1 0x3FFFFFFF
    let r3 := r2 + jsShl (jsAnd pMid1 0x7FFF) 15 + jsShl (jsAnd pMid2 0x7FFF) 15
    let carry2 := carry1 + jsShrU r3 30
    let high1 := pHigh + jsShrU pMid1 15 + jsShrU pMid2 15
    inplaceMulAddLoop mLow mHigh k (i + 1) carry2 high1 (jsbi.setDig i (jsAnd r3 0x3FFFFFFF))

/-- Source `__inplaceMultiplyAdd(jsbi, multiplier, summand, length)`. -/
def inplaceMultiplyAdd (jsbi : JSBI) (multiplier summand : ℤ) (length : ℕ) :
    JSRes JSBI :=
  let length := min length jsbi.digits.length
  let (j1, carry, high) :=
    inplaceMulAddLoop (jsAnd multiplier 0x7FFF) (jsShrU multiplier 15)
      length 0 0 summand jsbi
  if carry ≠ 0 ∨ high ≠ 0 then .error .bugErr else .ok j1

/-- Inner character loop of the general-radix parse. Returns
(part, multiplier, charsSoFar, remaining, done). -/
def genPartLoop (limDigit limAlpha radix : ℕ) :
    List ℕ → ℕ → ℕ → ℕ → ℕ × ℕ × ℕ × List ℕ × Bool
  | [], part, multiplier, charsSoFar => (part, multiplier, charsSoFar, [], true)
  | current :: rest1, part, multiplier, charsSoFar =>
    match charVal limDigit limAlpha current with
    | none => (part, multiplier, charsSoFar, current :: rest1, true)
    | some d =>
      let m := multiplier * radix
      if m > 0x3FFFFFFF then (part, multiplier, charsSoFar, current :: rest1, false)
      else
        let part1 := part * radix + d
        match rest1 with
        | [] => (part1, m, charsSoFar + 1, [], true)
        | c2 :: rest2 => genPartLoop limDigit limAlpha radix (c2 :: rest2) part1 m (charsSoFar + 1)

/-- Outer do-while of the general-radix parse. Fuel: every two successive
rounds consume at least one character. -/
def genOuterLoop (limDigit limAlpha radix bitsPerChar : ℕ) :
    ℕ → List ℕ → ℕ → JSBI → JSRes (JSBI × List ℕ)
  | 0, rest, _, result => .ok (result, rest)
  | fuel + 1, rest, charsSoFar, result => do
    let (part, multiplier, charsSoFar1, rest1, done) :=
      genPartLoop limDigit limAlpha radix rest 0 1 charsSoFar
    let roundup := kBitsPerCharTableMultiplier * 30 - 1
    let digitsSoFar := ((bitsPerChar * charsSoFar1 + roundup) >>> kBitsPerCharTableShift) / 30
    let result1 ← inplaceMultiplyAdd result (multiplier : ℤ) (part : ℤ) digitsSoFar
    if done then .ok (result1, rest1)
    else genOuterLoop limDigit limAlpha radix bitsPerChar fuel rest1 charsSoFar1 result1

/-- Tail of `__fromString`: trailing-whitespace check, sign assignment,
trim. -/
def fsFinish (result : JSBI) (rest : List ℕ) (sign : ℤ) : JSRes (Option JSBI) :=
  if rest.all isWhitespace then .ok (some (trim ⟨decide (sign = -1), result.digits⟩))
  else .ok none

/-- Magnitude section of `__fromString`: `sign`/`radix` compatibility
check, leading-zero skip, result allocation, and the parse loops. -/
def fsParse (s1 : List ℕ) (radix : ℕ) (sign : ℤ) : JSRes (Option JSBI) := do
  if sign ≠ 0 ∧ radix ≠ 10 then .ok none
  else
    let s2 := skipZeros s1
    if s2.isEmpty then .ok (some zeroJ)
    else
      let chars := s2.length
      let bitsPerChar := kMaxBitsPerChar.getD radix 0
      let roundup := kBitsPerCharTableMultiplier - 1
      if chars > (1 <<< 30) / bitsPerChar then .ok none
      else
        let bitsMin := (bitsPerChar * chars + roundup) >>> kBitsPerCharTableShift
        let resultLength := (bitsMin + 29) / 30
        let result ← newJSBI resultLength false
        let limDigit := if radix < 10 then radix else 10
        let limAlpha := if radix > 10 then radix - 10 else 0
        if radix &&& (radix - 1) = 0 then
          let bitsPerChar1 := bitsPerChar >>> kBitsPerCharTableShift
          let (parts, partsBits, rest1) :=
            po2OuterLoop limDigit limAlpha bitsPerChar1 (s2.length + 1) s2 [] []
          let result1 ← fillFromParts result parts partsBits
          fsFinish result1 rest1 sign
        else
          let result := initializeDigits result
          let (result1, rest1) ← genOuterLoop limDigit limAlpha radix bitsPerChar
            (2 * s2.length + 4) s2 0 result
          fsFinish result1 rest1 sign

/-- Radix-detection section of `__fromString` (base prefixes, the
explicit-16 `0x` allowance). -/
def fsRadix (s0 : List ℕ) (radix0 : ℕ) (sign : ℤ) : JSRes (Option JSBI) :=
  match s0 with
  | [] => .ok none
  | current :: rest =>
    if radix0 = 0 then
      if current = 0x30 then
        match rest with
        | [] => .ok (some zeroJ)
        | c2 :: rest2 =>
          if c2 = 0x58 ∨ c2 = 0x78 then
            match rest2 with
            | [] => .ok none
            | _ => fsParse rest2 16 sign
          else if c2 = 0x4F ∨ c2 = 0x6F then
            match rest2 with
            | [] => .ok none
            | _ => fsParse rest2 8 sign
          else if c2 = 0x42 ∨ c2 = 0x62 then
            match rest2 with
            | [] => .ok none
            | _ => fsParse rest2 2 sign
          else fsParse (c2 :: rest2) 10 sign
      else fsParse (current :: rest) 10 sign
    else if radix0 = 16 then
      if current = 0x30 then
        match rest with
        | [] => .ok (some zeroJ)
        | c2 :: rest2 =>
          if c2 = 0x58 ∨ c2 = 0x78 then
            match rest2 with
            | [] => .ok none
            | _ => fsParse rest2 16 sign
          else fsParse (c2 :: rest2) 16 sign
      else fsParse (current :: rest) 16 sign
    else fsParse (current :: rest) radix0 sign

/-- Sign-detection section of `__fromString`. -/
def fsSign : List ℕ → ℕ → JSRes (Option JSBI)
  | [], _ => .ok (some zeroJ)
  | current :: rest, radix0 =>
    if current = 0x2B then
      match rest with
      | [] => .ok none
      | _ => fsRadix rest radix0 1
    else if current = 0x2D then
      match rest with
      | [] => .ok none
      | _ => fsRadix rest radix0 (-1)
    else fsRadix (current :: rest) radix0 0

/-- Source `__fromString(string, radix = 0)`; `.ok none` is the `null`
sentinel for a parse failure. -/
def fromString (s : List ℕ) (radix0 : ℕ) : JSRes (Option JSBI) :=
  match skipWS s with
  | [] => .ok (some zeroJ)
  | c :: rest => fsSign (c :: rest) radix0

/-- The string case of the `BigInt` constructor: `null` becomes a
SyntaxError. -/
def bigIntFromString (s : List ℕ) : JSRes JSBI := do
  let r ← fromString s 0
  match r with
  | none => .error .synErr
  | some v => .ok v

/-! ## Double bridge (`__fromDouble`, `toNumber`)

A finite JS number is modelled by its IEEE-754 binary64 bit pattern
(sign, 11-bit raw exponent, 52-bit mantissa); the two 32-bit words the
source reads through the aliased `Float64Array`/`Int32Array` buffer are
recovered by `dblHi`/`dblLo`. -/

/-- An IEEE-754 binary64 bit pattern. -/
structure DblPat where
  sgn : Bool
  rawExp : ℕ
  mant : ℕ
deriving Repr, DecidableEq

/-- High 32-bit word of the pattern (sign, exponent, top 20 mantissa bits). -/
def dblHi (d : DblPat) : ℤ :=
  (if d.sgn then 2147483648 else 0) + d.rawExp * 1048576 + d.mant / 4294967296

/-- Low 32-bit word of the pattern. -/
def dblLo (d : DblPat) : ℤ := (d.mant % 4294967296 : ℕ)

/-- The exact value of a finite integer-valued pattern (IEEE-754 binary64
semantics, §4.7 of the spec); `none` for NaN, infinities and non-integer
values. -/
def dblValInt (d : DblPat) : Option ℤ :=
  if d.rawExp = 0x7FF then none
  else if d.rawExp = 0 then if d.mant = 0 then some 0 else none
  else
    let m : ℤ := 2 ^ 52 + d.mant
    let e : ℤ := (d.rawExp : ℤ) - 1075
    if 0 ≤ e then some ((if d.sgn then -1 else 1) * m * 2 ^ e.toNat)
    else if (2 ^ (-e).toNat : ℤ) ∣ m then
      some ((if d.sgn then -1 else 1) * (m / 2 ^ (-e).toNat))
    else none

/-- Digit-filling loop of `__fromDouble` (`digitIndex` from `digits - 2`
down to `0`). -/
def fromDblLoop : ℕ → ℤ → ℤ → ℤ → JSBI → JSBI
  | 0, _, _, _, r => r
  | k + 1, remaining, mh, ml, r =>
    if remaining > 0 then
      fromDblLoop k (remaining - 30) (jsOr (jsShl mh 30) (jsShrU ml 2)) (jsShl ml 30)
        (r.setDig k (jsShrU mh 2))
    else fromDblLoop k remaining mh ml (r.setDig k 0)

/-- Source `__fromDouble(value)`: value is a finite, integer-valued,
nonzero double (callers guarantee it), hence `sign = (value < 0) = sgn`
and `exponent ≥ 0`. -/
def fromDouble (d : DblPat) : JSBI :=
  let sign := d.sgn
  let rawExponent := jsU (jsAnd (jsShrU (dblHi d) 20) 0x7FF)
  let exponent : ℕ := rawExponent - 0x3FF
  let digits := exponent / 30 + 1
  let result : JSBI := ⟨sign, List.replicate digits 0⟩
  let kHiddenBit : ℤ := 0x00100000
  let mantissaHigh := jsOr (jsAnd (dblHi d) 0xFFFFF) kHiddenBit
  let mantissaLow := dblLo d
  let kMantissaHighTopBit : ℕ := 20
  let msdTopBit := exponent % 30
  let (remainingMantissaBits, digit, mh, ml) : ℤ × ℤ × ℤ × ℤ :=
    if msdTopBit < kMantissaHighTopBit then
      let shift : ℕ := kMantissaHighTopBit - msdTopBit
      ((shift + 32 : ℕ), jsShrU mantissaHigh (shift : ℤ),
       jsOr (jsShl mantissaHigh ((32 - shift : ℕ) : ℤ)) (jsShrU mantissaLow (shift : ℤ)),
       jsShl mantissaLow ((32 - shift : ℕ) : ℤ))
    else if msdTopBit = kMantissaHighTopBit then
      (32, mantissaHigh, mantissaLow, 0)
    else
      let shift : ℕ := msdTopBit - kMantissaHighTopBit
      ((32 - shift : ℕ),
       jsOr (jsShl mantissaHigh (shift : ℤ)) (jsShrU mantissaLow ((32 - shift : ℕ) : ℤ)),
       jsShl mantissaLow (shift : ℤ), 0)
  let result := result.setDig (digits - 1) digit
  trim (fromDblLoop (digits - 1) remainingMantissaBits mh ml result)

/-- The number case of the `BigInt` constructor (`arg === 0`,
`__isOneDigitInt`, finite/integer checks, then `__fromDouble`). -/
def bigIntFromNumber (d : DblPat) : JSRes JSBI :=
  if d.rawExp = 0 ∧ d.mant = 0 then .ok zeroJ
  else
    match dblValInt d with
    | some v => if 0 ≤ v ∧ v < 2 ^ 30 then .ok (oneDigit v false) else .ok (fromDouble d)
    | none => .error .rangeErr

/-- Result of `toNumber`: an exact small integer (the short paths), an
assembled 64-bit pattern, or an infinity. -/
inductive JSNum where
  | int : ℤ → JSNum
  | bits : ℕ → ℕ → JSNum
  | posInf : JSNum
  | negInf : JSNum
deriving Repr, DecidableEq

/-- Recover the pattern from the two assembled 32-bit words. -/
def patOfBits (hi lo : ℕ) : DblPat :=
  ⟨decide (2 ^ 31 ≤ hi), hi / 2 ^ 20 % 2 ^ 11, hi % 2 ^ 20 * 2 ^ 32 + lo⟩

/-- Mantissa-low fill loop of `toNumber`
(`while(mantissaLowBitsUnset > 0 && digitIndex > 0)`). -/
def toNumLoop (x : JSBI) : ℕ → ℤ → ℤ → ℤ → ℤ × ℤ × ℕ × ℤ
  | 0, ml, unset, cd => (ml, unset, 0, cd)
  | di + 1, ml, unset, cd =>
    if unset > 0 then
      let cd1 := x.dig di
      let ml1 :=
        if unset ≥ 30 then jsOr ml (jsShl cd1 (unset - 30))
        else jsOr ml (jsShrU cd1 (30 - unset))
      toNumLoop x di ml1 (unset - 30) cd1
    else (ml, unset, di + 1, cd)

/-- Trailing-digit scan of `__decideRounding`. -/
def decideRoundingScan (x : JSBI) : ℕ → ℤ
  | 0 => 0
  | di + 1 => if x.dig di ≠ 0 then 1 else decideRoundingScan x di

/-- Source `__decideRounding(x, mantissaBitsUnset, digitIndex,
currentDigit)`: `1` round up, `-1` round down, `0` tie. -/
def decideRounding (x : JSBI) (mantissaBitsUnset : ℤ) (digitIndex : ℕ)
    (currentDigit : ℤ) : ℤ :=
  if mantissaBitsUnset > 0 then -1
  else
    let cont := fun (topUnconsumedBit : ℤ) (digitIndex : ℕ) (currentDigit : ℤ) =>
      let mask := jsShl 1 topUnconsumedBit
      if jsAnd currentDigit mask = 0 then -1
      else if jsAnd currentDigit (mask - 1) ≠ 0 then 1
      else decideRoundingScan x digitIndex
    if mantissaBitsUnset < 0 then cont (-mantissaBitsUnset - 1) digitIndex currentDigit
    else if digitIndex = 0 then -1
    else cont 29 (digitIndex - 1) (x.dig (digitIndex - 1))

/-- Assemble sign, biased exponent and mantissa into the two 32-bit words
(`__kBitConversionInts` writes). -/
def assembleBits (sign : Bool) (exponent mantissaHigh mantissaLow : ℤ) : JSNum :=
  let signBit : ℤ := if sign then -2147483648 else 0
  let exponent1 := jsShl (exponent + 0x3FF) 20
  .bits (jsU (jsOr (jsOr signBit exponent1) mantissaHigh)) (jsU mantissaLow)

/-- Source `toNumber(x)`. -/
def toNumber (x : JSBI) : JSNum :=
  let xLength := x.digits.length
  if xLength = 0 then .int 0
  else if xLength = 1 then .int ((if x.sign then -1 else 1) * x.udig 0)
  else
    let xMsd := x.dig (xLength - 1)
    let msdLeadingZeros := clz30 xMsd
    let xBitLength : ℤ := xLength * 30 - msdLeadingZeros
    if xBitLength > 1024 then if x.sign then .negInf else .posInf
    else
      let exponent := xBitLength - 1
      let shift := msdLeadingZeros + 3
      let mantissaHigh := if shift = 32 then 0 else jsShl xMsd shift
      let mantissaHigh := jsShrU mantissaHigh 12
      let mantissaHighBitsUnset := shift - 12
      let mantissaLow := if shift ≥ 12 then 0 else jsShl xMsd (20 + shift)
      let mantissaLowBitsUnset := 20 + shift
      let (mantissaHigh, mantissaLow, mantissaLowBitsUnset, digitIndex, currentDigit) :=
        if mantissaHighBitsUnset > 0 ∧ xLength - 1 > 0 then
          let di := xLength - 1 - 1
          let cd := x.dig di
          (jsOr mantissaHigh (jsShrU cd (30 - mantissaHighBitsUnset)),
           jsShl cd (mantissaHighBitsUnset + 2), mantissaHighBitsUnset + 2, di, cd)
        else (mantissaHigh, mantissaLow, mantissaLowBitsUnset, xLength - 1, xMsd)
      let (mantissaLow, mantissaLowBitsUnset, digitIndex, currentDigit) :=
        toNumLoop x digitIndex mantissaLow mantissaLowBitsUnset currentDigit
      let rounding := decideRounding x mantissaLowBitsUnset digitIndex currentDigit
      if rounding = 1 ∨ (rounding = 0 ∧ jsAnd mantissaLow 1 = 1) then
        let ml1 := toUint32 (mantissaLow + 1)
        if ml1 = 0 then
          let mh1 := mantissaHigh + 1
          if jsShrU mh1 20 ≠ 0 then
            let exponent1 := exponent + 1
            if exponent1 > 1023 then if x.sign then .negInf else .posInf
            else assembleBits x.sign exponent1 0 ml1
          else assembleBits x.sign exponent mh1 ml1
        else assembleBits x.sign exponent mantissaHigh ml1
      else assembleBits x.sign exponent mantissaHigh mantissaLow

/-! ## String emission (`toString`) -/

/-- Character code for digit value `v` (table `__kConversionChars`). -/
def convChar (v : ℕ) : ℕ := if v < 10 then 48 + v else 87 + v

/-- JS `Number.prototype.toString(radix)` for a non-negative integer:
most-significant-first digit characters (`"0"` for zero). -/
def natToStr (v radix : ℕ) : List ℕ :=
  let rec go (v : ℕ) (acc : List ℕ) (fuel : ℕ) : List ℕ :=
    match fuel with
    | 0 => acc
    | fuel + 1 => if v = 0 then acc else go (v / radix) (convChar (v % radix) :: acc) fuel
  if v = 0 then [48] else go v [] (v + 1)

/-- Inner emit loop of `__toStringBasePowerOfTwo`
(`while(availableBits >= bitsPerChar)`); fuel 32 suffices since
`availableBits < 30` shrinks by `bitsPerChar ≥ 1` each round. -/
def po2EmitLoop (charMask : ℤ) (bitsPerChar : ℕ) :
    ℕ → ℤ → ℕ → List ℕ → ℤ × ℕ × List ℕ
  | 0, digit, availableBits, acc => (digit, availableBits, acc)
  | fuel + 1, digit, availableBits, acc =>
    if availableBits ≥ bitsPerChar then
      po2EmitLoop charMask bitsPerChar fuel (jsShrU digit (bitsPerChar : ℤ))
        (availableBits - bitsPerChar) (jsU (jsAnd digit charMask) :: acc)
    else (digit, availableBits, acc)

/-- Final emit loop of `__toStringBasePowerOfTwo` (`while(digit !== 0)`). -/
def po2MsdLoop (charMask : ℤ) (bitsPerChar : ℕ) :
    ℕ → ℤ → List ℕ → List ℕ
  | 0, _, acc => acc
  | fuel + 1, digit, acc =>
    if digit ≠ 0 then
      po2MsdLoop charMask bitsPerChar fuel (jsShrU digit (bitsPerChar : ℤ))
        (jsU (jsAnd digit charMask) :: acc)
    else acc

/-- Main digit loop of `__toStringBasePowerOfTwo` (`i < length - 1`),
prepending emitted characters (the source fills positions from the end). -/
def po2StrLoop (x : JSBI) (charMask : ℤ) (bitsPerChar : ℕ) :
    ℕ → ℕ → ℤ → ℕ → List ℕ → ℤ × ℕ × List ℕ
  | 0, _, digit, availableBits, acc => (digit, availableBits, acc)
  | k + 1, i, digit, availableBits, acc =>
    let newDigit := x.dig i
    let current := jsU (jsAnd (jsOr digit (jsShl newDigit (availableBits : ℤ))) charMask)
    let consumedBits := bitsPerChar - availableBits
    let digit1 := jsShrU newDigit (consumedBits : ℤ)
    let availableBits1 := 30 - consumedBits
    let (digit2, availableBits2, acc2) :=
      po2EmitLoop charMask bitsPerChar 32 digit1 availableBits1 (current :: acc)
    po2StrLoop x charMask bitsPerChar k (i + 1) digit2 availableBits2 acc2

/-- Source `__toStringBasePowerOfTwo(x, radix)`; emitted characters are
digit values (mapped through `__kConversionChars` at the end), returned
most significant first. -/
def toStringBasePowerOfTwo (x : JSBI) (radix : ℕ) : JSRes (List ℕ) :=
  let length := x.digits.length
  let bits0 := radix - 1
  let bits1 := ((bits0 >>> 1) &&& 0x55) + (bits0 &&& 0x55)
  let bits2 := ((bits1 >>> 2) &&& 0x33) + (bits1 &&& 0x33)
  let bits3 := ((bits2 >>> 4) &&& 0x0F) + (bits2 &&& 0x0F)
  let bitsPerChar := bits3
  let charMask : ℤ := (radix : ℤ) - 1
  let msd := x.dig (length - 1)
  let msdLeadingZeros := clz30 msd
  let bitLength : ℤ := length * 30 - msdLeadingZeros
  let charsRequired0 := ((bitLength + bitsPerChar - 1) / bitsPerChar).toNat
  let charsRequired := if x.sign then charsRequired0 + 1 else charsRequired0
  if charsRequired > 2 ^ 28 then .error .rangeErr
  else
    let (digit3, availableBits3, acc3) :=
      po2StrLoop x charMask bitsPerChar (length - 1) 0 0 0 []
    let current := jsU (jsAnd (jsOr digit3 (jsShl msd (availableBits3 : ℤ))) charMask)
    let digit4 := jsShrU msd ((bitsPerChar - availableBits3 : ℕ) : ℤ)
    let acc5 := po2MsdLoop charMask bitsPerChar 32 digit4 (current :: acc3)
    let codes := acc5.map convChar
    .ok (if x.sign then 0x2D :: codes else codes)

/-- Half-digit division loop of the small-conqueror branch of
`__toStringGeneric`. -/
def tsgSmallDivLoop (x : JSBI) (divisor : ℤ) : ℕ → ℤ → JSBI → JSBI × ℤ
  | 0, remainder, quotient => (quotient, remainder)
  | i + 1, remainder, quotient =>
    let input := jsOr (jsShl remainder 15) (x.halfDig i)
    let quotient1 := quotient.setHalfDig i (toInt32 (input / divisor))
    tsgSmallDivLoop x divisor i (toInt32 (input % divisor)) quotient1

/-- Source `__toStringGeneric(x, radix, isRecursiveCall)` with explicit
recursion fuel (the value halves at each level; fuel is chosen by the
entry point so that the recursion always bottoms out at one digit first). -/
def toStringGeneric : ℕ → JSBI → ℕ → Bool → JSRes (List ℕ)
  | 0, _, _, _ => .error .bugErr
  | fuel + 1, x, radix, isRecursiveCall => do
    let length := x.digits.length
    if length = 0 then .ok []
    else if length = 1 then
      let result := natToStr (jsU (x.udig 0)) radix
      .ok (if isRecursiveCall = false ∧ x.sign then 0x2D :: result else result)
    else
      let bitLength : ℤ := length * 30 - clz30 (x.dig (length - 1))
      let maxBitsPerChar := kMaxBitsPerChar.getD radix 0
      let minBitsPerChar := maxBitsPerChar - 1
      let charsRequired0 := (bitLength * kBitsPerCharTableMultiplier).toNat
      let charsRequired1 := charsRequired0 + minBitsPerChar - 1
      let charsRequired := charsRequired1 / minBitsPerChar
      let secondHalfChars := (charsRequired + 1) / 2
      let conqueror ← exponentiate (oneDigit radix false) (oneDigit secondHalfChars false)
      let divisor := conqueror.udig 0
      if conqueror.digits.length = 1 ∧ divisor ≤ 0x7FFF then
        let quotient0 : JSBI := initializeDigits ⟨false, List.replicate x.digits.length 0⟩
        let (quotient1, remainder) :=
          tsgSmallDivLoop x divisor (x.digits.length * 2) 0 quotient0
        let secondHalf := natToStr (jsU (toInt32 remainder)) radix
        let quotient2 := trim quotient1
        let firstHalf0 ← toStringGeneric fuel quotient2 radix true
        let firstHalf :=
          if isRecursiveCall = false ∧ x.sign then 0x2D :: firstHalf0 else firstHalf0
        .ok (firstHalf ++ List.replicate (secondHalfChars - secondHalf.length) 0x30 ++ secondHalf)
      else do
        let (q, r) ← absoluteDivLarge x conqueror true true
        match q, r with
        | some quotient, some remainder0 =>
          let remainder := trim remainder0
          let secondHalf ← toStringGeneric fuel remainder radix true
          let quotient2 := trim quotient
          let firstHalf0 ← toStringGeneric fuel quotient2 radix true
          let firstHalf :=
            if isRecursiveCall = false ∧ x.sign then 0x2D :: firstHalf0 else firstHalf0
          .ok (firstHalf ++ List.replicate (secondHalfChars - secondHalf.length) 0x30 ++ secondHalf)
        | _, _ => .error .bugErr

/-- Source `JSBI.prototype.toString(radix = 10)`. -/
def toStringJ (x : JSBI) (radix : ℕ) : JSRes (List ℕ) :=
  if radix < 2 ∨ radix > 36 then .error .rangeErr
  else if x.digits.length = 0 then .ok [0x30]
  else if radix &&& (radix - 1) = 0 then toStringBasePowerOfTwo x radix
  else toStringGeneric (x.digits.length * 64 + 64) x radix false

/-! ## Specification-side helper definitions -/

/-- Value of the digit segment `[i, i+k)` of `x` (missing digits read 0):
`Σ_{j<k} x.dig (i+j) * 2^(30*j)`. -/
def segVal (x : JSBI) (i k : ℕ) : ℤ := magD ((x.digits.drop i).take k)

/-- Bit `i` of the infinite two's-complement expansion of an integer. -/
def tcBit (z : ℤ) (i : ℕ) : Bool :=
  if 0 ≤ z then z.toNat.testBit i else !((-z - 1).toNat.testBit i)

/-! # Proof development

## Bridge lemmas for the JavaScript 32-bit operation model -/

theorem toUint32_nonneg (z : ℤ) : 0 ≤ toUint32 z :=
  Int.emod_nonneg z (by norm_num)

theorem toUint32_lt (z : ℤ) : toUint32 z < 4294967296 :=
  Int.emod_lt_of_pos z (by norm_num)

theorem toUint32_eq {z : ℤ} (h0 : 0 ≤ z) (h1 : z < 4294967296) : toUint32 z = z :=
  Int.emod_eq_of_lt h0 h1

theorem toUint32_emod (z : ℤ) : toUint32 z % 4294967296 = z % 4294967296 := by
  unfold toUint32
  simp [Int.emod_emod_of_dvd]

theorem toInt32_eq {z : ℤ} (h0 : 0 ≤ z) (h1 : z < 2147483648) : toInt32 z = z := by
  unfold toInt32
  rw [toUint32_eq h0 (by omega)]
  simp [h1]

theorem toInt32_emod (z : ℤ) {k : ℕ} (hk : k ≤ 32) :
    toInt32 z % 2 ^ k = z % 2 ^ k := by
  have hdvd : ((2 : ℤ) ^ k) ∣ 4294967296 := by
    have h32 : (4294967296 : ℤ) = 2 ^ 32 := by norm_num
    rw [h32]
    exact pow_dvd_pow 2 hk
  have hz : (4294967296 : ℤ) % 2 ^ k = 0 := Int.emod_eq_zero_of_dvd hdvd
  unfold toInt32 toUint32
  split
  · rw [Int.emod_emod_of_dvd _ hdvd]
  · rw [Int.sub_emod, hz, sub_zero, Int.emod_emod_of_dvd _ hdvd,
      Int.emod_emod_of_dvd _ (dvd_refl _)]

theorem jsU_eq {z : ℤ} (h0 : 0 ≤ z) (h1 : z < 4294967296) : (jsU z : ℤ) = z := by
  unfold jsU
  rw [toUint32_eq h0 h1, Int.toNat_of_nonneg h0]

theorem jsU_cast (z : ℤ) : (jsU z : ℤ) = z % 4294967296 := by
  unfold jsU toUint32
  exact Int.toNat_of_nonneg (Int.emod_nonneg z (by norm_num))

theorem jsU_lt (z : ℤ) : jsU z < 4294967296 := by
  have h := toUint32_lt z
  have h0 := toUint32_nonneg z
  unfold jsU
  omega

/-- `a & (2^k - 1)` is `a mod 2^k`, for any mask width `k ≤ 31`. -/
theorem jsAnd_mask (z : ℤ) (k : ℕ) (hk : k ≤ 31) :
    jsAnd z ((2 : ℤ) ^ k - 1) = z % 2 ^ k := by
  unfold jsAnd
  have hkpos : (0 : ℤ) < 2 ^ k := by positivity
  have hklt : (2 : ℤ) ^ k - 1 < 4294967296 := by
    have : (2 : ℤ) ^ k ≤ 2 ^ 31 := pow_le_pow_right₀ (by norm_num) hk
    norm_num at this ⊢
    omega
  have hk0 : (0 : ℤ) ≤ 2 ^ k - 1 := by omega
  have hmask : jsU ((2 : ℤ) ^ k - 1) = 2 ^ k - 1 := by
    have := jsU_eq hk0 hklt
    have h2 : ((2 ^ k - 1 : ℕ) : ℤ) = (2 : ℤ) ^ k - 1 := by
      push_cast [Nat.one_le_two_pow]
      ring
    omega
  rw [hmask, Nat.and_pow_two_sub_one_eq_mod]
  have hcast : ((jsU z % 2 ^ k : ℕ) : ℤ) = (jsU z : ℤ) % 2 ^ k := by push_cast; ring
  rw [hcast, jsU_cast]
  have hdvd : ((2 : ℤ) ^ k) ∣ 4294967296 := by
    have h32 : (4294967296 : ℤ) = 2 ^ 32 := by norm_num
    rw [h32]; exact pow_dvd_pow 2 (by omega)
  rw [Int.emod_emod_of_dvd _ hdvd]
  apply toInt32_eq
  · exact Int.emod_nonneg _ (by positivity)
  · have hlt : z % 2 ^ k < 2 ^ k := Int.emod_lt_of_pos z (by positivity)
    have hle : (2 : ℤ) ^ k ≤ 2 ^ 31 := pow_le_pow_right₀ (by norm_num) hk
    norm_num at hle
    omega

/-- `a >>> s` is division by `2^s` of the unsigned reduction. -/
theorem jsShrU_eq (z : ℤ) (s : ℤ) (h0 : 0 ≤ s) (h1 : s < 32) :
    jsShrU z s = z % 4294967296 / 2 ^ s.toNat := by
  unfold jsShrU
  have hs : jsU s % 32 = s.toNat := by
    have := jsU_eq h0 (by omega)
    omega
  rw [hs, Nat.shiftRight_eq_div_pow]
  have : ((jsU z / 2 ^ s.toNat : ℕ) : ℤ) = (jsU z : ℤ) / 2 ^ s.toNat := by push_cast; ring
  rw [this, jsU_cast]

/-- `a << s` wraps the product to a signed 32-bit value. -/
theorem jsShl_eq (z : ℤ) (s : ℤ) (h0 : 0 ≤ s) (h1 : s < 32) :
    jsShl z s = toInt32 (z * 2 ^ s.toNat) := by
  unfold jsShl
  have hs : jsU s % 32 = s.toNat := by
    have := jsU_eq h0 (by omega)
    omega
  rw [hs, Nat.shiftLeft_eq]
  have hcast : ((jsU z * 2 ^ s.toNat : ℕ) : ℤ) = (jsU z : ℤ) * 2 ^ s.toNat := by push_cast; ring
  rw [hcast, jsU_cast]
  unfold toInt32 toUint32
  rw [Int.mul_emod, Int.emod_emod_of_dvd _ (by norm_num), ← Int.mul_emod]

/-- `Math.imul` on operands whose product is in int32 range is exact. -/
theorem jsImul_eq {a b : ℤ} (h0 : 0 ≤ a * b) (h1 : a * b < 2147483648) :
    jsImul a b = a * b := toInt32_eq h0 h1

theorem toInt32_idem_of_bounds {z : ℤ} (h0 : -2147483648 ≤ z) (h1 : z < 2147483648) :
    toInt32 z = z := by
  unfold toInt32 toUint32
  split <;> omega

theorem toInt32_bounds (z : ℤ) : -2147483648 ≤ toInt32 z ∧ toInt32 z < 2147483648 := by
  have h0 := toUint32_nonneg z
  have h1 := toUint32_lt z
  unfold toInt32
  split <;> omega

/-- Disjoint bitwise or is addition: `(c * 2^k) ||| b = c * 2^k + b`. -/
theorem nat_or_add {c b : ℕ} (k : ℕ) (hb : b < 2 ^ k) :
    c * 2 ^ k ||| b = c * 2 ^ k + b := by
  apply Nat.eq_of_testBit_eq
  intro i
  rw [Nat.testBit_lor]
  rcases lt_or_ge i k with hi | hi
  · have h1 : Nat.testBit (c * 2 ^ k) i = false := by
      have : c * 2 ^ k % 2 ^ k = 0 := by simp [Nat.mul_mod_left]
      have ht := Nat.testBit_mod_two_pow (c * 2 ^ k) k i
      rw [this] at ht
      simp [hi] at ht
      simp [← ht]
    have h2 : Nat.testBit (c * 2 ^ k + b) i = Nat.testBit b i := by
      have hmod : (c * 2 ^ k + b) % 2 ^ k = b := by
        simp [Nat.add_mod, Nat.mul_mod_left, Nat.mod_eq_of_lt hb]
      have ht := Nat.testBit_mod_two_pow (c * 2 ^ k + b) k i
      rw [hmod] at ht
      simp [hi] at ht
      exact ht.symm
    rw [h1, h2]
    simp
  · obtain ⟨j, rfl⟩ : ∃ j, i = k + j := ⟨i - k, by omega⟩
    have hdiv : (c * 2 ^ k + b) >>> k = c := by
      have hcomm : c * 2 ^ k + b = b + 2 ^ k * c := by ring
      rw [Nat.shiftRight_eq_div_pow, hcomm,
        Nat.add_mul_div_left _ _ (Nat.pos_pow_of_pos k (by norm_num)),
        Nat.div_eq_of_lt hb]
      omega
    have h1 : Nat.testBit (c * 2 ^ k + b) (k + j) = Nat.testBit c j := by
      have ht := Nat.testBit_shiftRight (x := c * 2 ^ k + b) (i := k) (j := j)
      rw [hdiv] at ht
      exact ht.symm
    have h2 : Nat.testBit (c * 2 ^ k) (k + j) = Nat.testBit c j := by
      have hc : c * 2 ^ k = c <<< k := by rw [Nat.shiftLeft_eq]
      rw [hc, Nat.testBit_shiftLeft]
      simp [Nat.le_add_right]
    have h3 : Nat.testBit b (k + j) = false :=
      Nat.testBit_lt_two_pow (lt_of_lt_of_le hb (Nat.pow_le_pow_right (by norm_num) (by omega)))
    rw [h1, h2, h3, Bool.or_false]

/-! ## Digit-list foundations -/

theorem magD_nil : magD [] = 0 := rfl

theorem magD_cons (d : ℤ) (ds : List ℤ) : magD (d :: ds) = d + 2 ^ 30 * magD ds := rfl

theorem magD_nonneg {l : List ℤ} (h : ∀ d ∈ l, 0 ≤ d) : 0 ≤ magD l := by
  induction l with
  | nil => simp [magD]
  | cons d ds ih =>
    rw [magD_cons]
    have h1 := h d (by simp)
    have h2 := ih (fun e he => h e (by simp [he]))
    positivity

theorem magD_lt {l : List ℤ} (h : ∀ d ∈ l, goodDigit d) :
    magD l < 2 ^ (30 * l.length) := by
  induction l with
  | nil => simp [magD]
  | cons d ds ih =>
    rw [magD_cons]
    have h1 := h d (by simp)
    have h2 := ih (fun e he => h e (by simp [he]))
    unfold goodDigit at h1
    have : (2 : ℤ) ^ (30 * (d :: ds).length) = 2 ^ 30 * 2 ^ (30 * ds.length) := by
      rw [← pow_add]
      congr 1
      simp [List.length_cons]
      ring
    rw [this]
    nlinarith [h1.1, h1.2, h2]

theorem getLast?_cons_ne {d : ℤ} {ds : List ℤ} (h : ds ≠ []) :
    (d :: ds).getLast? = ds.getLast? := by
  cases ds with
  | nil => exact absurd rfl h
  | cons e es => simp

theorem magD_pos {l : List ℤ} (hg : ∀ d ∈ l, goodDigit d) (hl : l ≠ [])
    (ht : l.getLast? ≠ some 0) : 0 < magD l := by
  induction l with
  | nil => exact absurd rfl hl
  | cons d ds ih =>
    rw [magD_cons]
    rcases List.eq_nil_or_concat ds with h | h
    · subst h
      simp [magD]
      have := hg d (by simp)
      have hd : d ≠ 0 := by
        intro h0
        apply ht
        simp [h0, List.getLast?]
      unfold goodDigit at this
      omega
    · have hds : ds ≠ [] := by
        obtain ⟨l2, b, rfl⟩ := h
        simp
      have htds : ds.getLast? ≠ some 0 := by
        rwa [getLast?_cons_ne hds] at ht
      have h1 := ih (fun e he => hg e (by simp [he])) hds htds
      have h2 := (hg d (by simp)).1
      nlinarith

theorem magD_eq_zero_iff {l : List ℤ} (hg : ∀ d ∈ l, goodDigit d)
    (ht : l.getLast? ≠ some 0) : magD l = 0 ↔ l = [] := by
  constructor
  · intro h
    by_contra hne
    have := magD_pos hg hne ht
    omega
  · intro h
    simp [h, magD]

/-- Canonical digit lists are determined by their magnitude. -/
theorem magD_inj {l1 l2 : List ℤ} (h1 : ∀ d ∈ l1, goodDigit d)
    (h2 : ∀ d ∈ l2, goodDigit d) (t1 : l1.getLast? ≠ some 0)
    (t2 : l2.getLast? ≠ some 0) (h : magD l1 = magD l2) : l1 = l2 := by
  induction l1 generalizing l2 with
  | nil =>
    have := (magD_eq_zero_iff h2 t2).mp (h ▸ rfl)
    simp [this]
  | cons d ds ih =>
    cases l2 with
    | nil =>
      exfalso
      rw [magD_nil] at h
      exact absurd ((magD_eq_zero_iff h1 t1).mp h) (by simp)
    | cons e es =>
      rw [magD_cons, magD_cons] at h
      have hd := h1 d (by simp)
      have he := h2 e (by simp)
      unfold goodDigit at hd he
      have hds : ∀ a ∈ ds, goodDigit a := fun a ha => h1 a (by simp [ha])
      have hes : ∀ a ∈ es, goodDigit a := fun a ha => h2 a (by simp [ha])
      have hmds : 0 ≤ magD ds := magD_nonneg (fun a ha => (hds a ha).1)
      have hmes : 0 ≤ magD es := magD_nonneg (fun a ha => (hes a ha).1)
      have hde : d = e := by
        have hkey : d - e = 2 ^ 30 * (magD es - magD ds) := by linarith
        by_contra hne
        rcases lt_or_gt_of_ne hne with hlt | hgt
        · have hneg : magD es - magD ds < 0 := by nlinarith
          have : magD es - magD ds ≤ -1 := by omega
          nlinarith
        · have hpos : 0 < magD es - magD ds := by nlinarith
          have : 1 ≤ magD es - magD ds := by omega
          nlinarith
      subst hde
      have htail : magD ds = magD es := by linarith
      have hteq : ds = es := by
        rcases List.eq_nil_or_concat ds with hn | hc
        · subst hn
          rcases List.eq_nil_or_concat es with hn2 | hc2
          · simp [hn2]
          · exfalso
            have hesne : es ≠ [] := by obtain ⟨l2', b, rfl⟩ := hc2; simp
            have : es.getLast? ≠ some 0 := by
              rwa [getLast?_cons_ne hesne] at t2
            have := magD_pos hes hesne this
            rw [magD_nil] at htail
            omega
        · have hdsne : ds ≠ [] := by obtain ⟨l1', b, rfl⟩ := hc; simp
          rcases List.eq_nil_or_concat es with hn2 | hc2
          · exfalso
            subst hn2
            have : ds.getLast? ≠ some 0 := by
              rwa [getLast?_cons_ne hdsne] at t1
            have := magD_pos hds hdsne this
            rw [magD_nil] at htail
            omega
          · have hesne : es ≠ [] := by obtain ⟨l2', b, rfl⟩ := hc2; simp
            exact ih hds hes (by rwa [getLast?_cons_ne hdsne] at t1)
              (by rwa [getLast?_cons_ne hesne] at t2) htail
      rw [hteq]

/-- Canonical values are determined by the integer they encode. -/
theorem valid_toInt_inj {x y : JSBI} (hx : Valid x) (hy : Valid y)
    (h : toInt x = toInt y) : x = y := by
  obtain ⟨hx1, hx2, hx3⟩ := hx
  obtain ⟨hy1, hy2, hy3⟩ := hy
  have hmx : 0 ≤ magD x.digits := magD_nonneg (fun d hd => (hx1 d hd).1)
  have hmy : 0 ≤ magD y.digits := magD_nonneg (fun d hd => (hy1 d hd).1)
  unfold toInt at h
  have hsign : x.sign = y.sign ∧ magD x.digits = magD y.digits := by
    cases hxs : x.sign <;> cases hys : y.sign <;> rw [hxs, hys] at h <;> simp at h
    · exact ⟨rfl, h⟩
    · exfalso
      have hz : magD x.digits = 0 ∧ magD y.digits = 0 := by constructor <;> omega
      have hyd : y.digits = [] := (magD_eq_zero_iff hy1 hy2).mp hz.2
      have := hy3 hyd
      rw [this] at hys
      exact Bool.noConfusion hys
    · exfalso
      have hz : magD x.digits = 0 ∧ magD y.digits = 0 := by constructor <;> omega
      have hxd : x.digits = [] := (magD_eq_zero_iff hx1 hx2).mp hz.1
      have := hx3 hxd
      rw [this] at hxs
      exact Bool.noConfusion hxs
    · exact ⟨rfl, by omega⟩
  obtain ⟨hs, hm⟩ := hsign
  have hdig := magD_inj hx1 hy1 hx2 hy2 hm
  cases x; cases y
  simp_all

/-! ## Trim, digit access, listSet, segment values -/

theorem trimList_magD (l : List ℤ) : magD (trimList l) = magD l := by
  induction l with
  | nil => rfl
  | cons d ds ih =>
    cases h : trimList ds with
    | nil =>
      rw [h] at ih
      have hz : magD ds = 0 := by rw [← ih]; rfl
      by_cases hd : d = 0
      · simp [trimList, h, hd, magD, hz]
      · simp [trimList, h, hd, magD, hz]
    | cons e es =>
      rw [h] at ih
      simp only [trimList, h, magD_cons]
      rw [← ih, magD_cons]

theorem trimList_mem {l : List ℤ} : ∀ d ∈ trimList l, d ∈ l := by
  induction l with
  | nil => simp [trimList]
  | cons a as ih =>
    intro d hd
    cases h : trimList as with
    | nil =>
      simp only [trimList, h] at hd
      by_cases ha : a = 0
      · simp [ha] at hd
      · simp [ha] at hd
        simp [hd]
    | cons e es =>
      simp only [trimList, h] at hd
      rcases List.mem_cons.mp hd with h1 | h1
      · simp [h1]
      · right
        apply ih
        rw [h]
        exact h1

theorem trimList_getLast (l : List ℤ) : (trimList l).getLast? ≠ some 0 := by
  induction l with
  | nil => simp [trimList]
  | cons a as ih =>
    cases h : trimList as with
    | nil =>
      by_cases ha : a = 0
      · simp [trimList, h, ha]
      · simp [trimList, h, ha, List.getLast?]
    | cons e es =>
      rw [h] at ih
      simp only [trimList, h]
      rw [getLast?_cons_ne (by simp)]
      exact ih

theorem trim_digits (x : JSBI) : (trim x).digits = trimList x.digits := rfl

theorem valid_trim {s : Bool} {l : List ℤ} (h : ∀ d ∈ l, goodDigit d) :
    Valid (trim ⟨s, l⟩) := by
  refine ⟨?_, ?_, ?_⟩
  · intro d hd
    exact h d (trimList_mem d hd)
  · exact trimList_getLast l
  · intro he
    have h2 : trimList l = [] := he
    simp [trim, h2]

theorem toInt_trim (x : JSBI) : toInt (trim x) = toInt x := by
  unfold toInt trim
  simp only
  split
  · rename_i hemp
    have : magD (trimList x.digits) = 0 := by
      rw [List.isEmpty_iff] at hemp
      simp [hemp, magD]
    rw [trimList_magD] at this
    simp [trim_digits, this]
    cases x.sign <;> simp [trimList_magD, this]
  · simp [trimList_magD]

theorem dig_good {x : JSBI} (h : ∀ d ∈ x.digits, goodDigit d) (i : ℕ) :
    goodDigit (x.dig i) := by
  unfold JSBI.dig
  rcases lt_or_ge i x.digits.length with hi | hi
  · rw [List.getD_eq_getElem?_getD, List.getElem?_eq_getElem hi]
    simp only [Option.getD_some]
    exact h _ (List.getElem_mem hi)
  · rw [List.getD_eq_default _ _ hi]
    exact ⟨le_refl 0, by norm_num⟩

theorem valid_dig_good {x : JSBI} (h : Valid x) (i : ℕ) : goodDigit (x.dig i) :=
  dig_good h.1 i

theorem dig_of_ge {x : JSBI} {i : ℕ} (h : x.digits.length ≤ i) : x.dig i = 0 :=
  List.getD_eq_default _ _ h

/-! listSet access lemmas -/

theorem listSet_length_of_lt {l : List ℤ} {i : ℕ} (v : ℤ) (h : i < l.length) :
    (listSet l i v).length = l.length := by
  unfold listSet
  simp [h]

theorem getD_listSet_self (l : List ℤ) (i : ℕ) (v : ℤ) :
    (listSet l i v).getD i 0 = v := by
  unfold listSet
  split
  · rename_i h
    rw [List.getD_eq_getElem?_getD, List.getElem?_set_self (by omega)]
    simp
  · rename_i h
    have hlen : (l ++ List.replicate (i - l.length) 0).length = i := by simp; omega
    have hge : (l ++ List.replicate (i - l.length) 0).length ≤ i := by rw [hlen]
    rw [List.getD_eq_getElem?_getD, List.getElem?_append_right hge, hlen]
    simp

theorem getD_listSet_ne (l : List ℤ) {i j : ℕ} (v : ℤ) (h : j ≠ i) :
    (listSet l i v).getD j 0 = l.getD j 0 := by
  unfold listSet
  split
  · rename_i hlt
    rw [List.getD_eq_getElem?_getD, List.getElem?_set_ne (by omega), ← List.getD_eq_getElem?_getD]
  · rename_i hge
    have hlen : (l ++ List.replicate (i - l.length) 0).length = i := by simp; omega
    rcases lt_or_ge j l.length with hj | hj
    · rw [List.getD_eq_getElem?_getD,
        List.getElem?_append_left (by rw [hlen]; omega),
        List.getElem?_append_left (by omega), ← List.getD_eq_getElem?_getD]
    · rw [List.getD_eq_default _ _ hj, List.getD_eq_getElem?_getD]
      rcases lt_or_ge j i with hji | hji
      · rw [List.getElem?_append_left (by rw [hlen]; omega),
          List.getElem?_append_right (by omega), List.getElem?_replicate]
        have hji2 : j - l.length < i - l.length := by omega
        simp [hji2]
      · rw [List.getElem?_eq_none (by simp; omega)]
        simp

theorem setDig_sign (x : JSBI) (i : ℕ) (d : ℤ) : (x.setDig i d).sign = x.sign := rfl

theorem dig_setDig_self (x : JSBI) (i : ℕ) (d : ℤ) : (x.setDig i d).dig i = toInt32 d :=
  getD_listSet_self _ _ _

theorem dig_setDig_ne {x : JSBI} {i j : ℕ} {d : ℤ} (h : j ≠ i) :
    (x.setDig i d).dig j = x.dig j := getD_listSet_ne _ _ h

theorem setDig_length {x : JSBI} {i : ℕ} (d : ℤ) (h : i < x.digits.length) :
    (x.setDig i d).digits.length = x.digits.length := listSet_length_of_lt _ h

/-! segVal lemmas -/

theorem segVal_zero (x : JSBI) (i : ℕ) : segVal x i 0 = 0 := rfl

theorem magD_take_succ (xs : List ℤ) (k : ℕ) :
    magD (xs.take (k + 1)) = xs.getD 0 0 + 2 ^ 30 * magD ((xs.drop 1).take k) := by
  cases xs with
  | nil => simp [magD]
  | cons a as => simp [magD, List.getD]

theorem segVal_succ (x : JSBI) (i k : ℕ) :
    segVal x i (k + 1) = x.dig i + 2 ^ 30 * segVal x (i + 1) k := by
  unfold segVal JSBI.dig
  rw [magD_take_succ, List.drop_drop]
  have h1 : (List.drop i x.digits).getD 0 0 = x.digits.getD i 0 := by
    rw [List.getD_eq_getElem?_getD, List.getElem?_drop, List.getD_eq_getElem?_getD]
    norm_num
  rw [h1]

theorem segVal_snoc (x : JSBI) (i k : ℕ) :
    segVal x i (k + 1) = segVal x i k + 2 ^ (30 * k) * x.dig (i + k) := by
  induction k generalizing i with
  | zero =>
    rw [segVal_succ, segVal_zero, segVal_zero]
    simp
  | succ k ih =>
    rw [segVal_succ, ih (i + 1), segVal_succ]
    have : i + 1 + k = i + (k + 1) := by omega
    rw [this]
    ring

theorem segVal_congr {x y : JSBI} {i k : ℕ}
    (h : ∀ j, i ≤ j → j < i + k → x.dig j = y.dig j) : segVal x i k = segVal y i k := by
  induction k generalizing i with
  | zero => simp [segVal_zero]
  | succ k ih =>
    rw [segVal_succ, segVal_succ, h i (by omega) (by omega),
      ih (fun j hj1 hj2 => h j (by omega) (by omega))]

theorem segVal_nonneg {x : JSBI} (i k : ℕ)
    (h : ∀ j, i ≤ j → j < i + k → 0 ≤ x.dig j) : 0 ≤ segVal x i k := by
  induction k generalizing i with
  | zero => simp [segVal_zero]
  | succ k ih =>
    rw [segVal_succ]
    have h1 := h i (by omega) (by omega)
    have h2 := ih (i + 1) (fun j hj1 hj2 => h j (by omega) (by omega))
    positivity

theorem segVal_lt {x : JSBI} (i k : ℕ)
    (h : ∀ j, i ≤ j → j < i + k → goodDigit (x.dig j)) :
    segVal x i k < 2 ^ (30 * k) := by
  induction k generalizing i with
  | zero => simp [segVal_zero]
  | succ k ih =>
    rw [segVal_succ]
    have h1 := h i (by omega) (by omega)
    have h2 := ih (i + 1) (fun j hj1 hj2 => h j (by omega) (by omega))
    unfold goodDigit at h1
    have hpow : (2 : ℤ) ^ (30 * (k + 1)) = 2 ^ 30 * 2 ^ (30 * k) := by
      rw [← pow_add]
      congr 1
      ring
    rw [hpow]
    nlinarith [h1.1, h1.2]

theorem magD_eq_segVal (x : JSBI) {k : ℕ} (hk : x.digits.length ≤ k) :
    magD x.digits = segVal x 0 k := by
  unfold segVal
  rw [List.drop_zero, List.take_of_length_le (by omega)]

/-! ## Allocation -/

theorem newJSBI_ok {n : ℕ} {s : Bool} {r : JSBI} (h : newJSBI n s = .ok r) :
    r = ⟨s, List.replicate n 0⟩ ∧ n ≤ kMaxLength := by
  unfold newJSBI at h
  split at h
  · exact absurd h (by simp)
  · rename_i hle
    constructor
    · injection h with h1
      exact h1.symm
    · omega

theorem replicate_dig (s : Bool) (n i : ℕ) : (JSBI.mk s (List.replicate n 0)).dig i = 0 := by
  unfold JSBI.dig
  rcases lt_or_ge i n with hi | hi
  · rw [List.getD_eq_getElem?_getD, List.getElem?_replicate]
    simp [hi]
  · rw [List.getD_eq_default]
    simp [hi]

/-! ## Specialized bridge corollaries -/

theorem jsAnd_mask30 (z : ℤ) : jsAnd z 1073741823 = z % 2 ^ 30 := by
  have h := jsAnd_mask z 30 (by norm_num)
  norm_num at h
  exact h

theorem jsAnd_mask15 (z : ℤ) : jsAnd z 32767 = z % 2 ^ 15 := by
  have h := jsAnd_mask z 15 (by norm_num)
  norm_num at h
  exact h

theorem jsAnd_mask1 (z : ℤ) : jsAnd z 1 = z % 2 := by
  have h := jsAnd_mask z 1 (by norm_num)
  norm_num at h
  exact h

theorem jsShrU30 {z : ℤ} (h0 : 0 ≤ z) (h1 : z < 4294967296) :
    jsShrU z 30 = z / 2 ^ 30 := by
  have h := jsShrU_eq z 30 (by norm_num) (by norm_num)
  rw [Int.emod_eq_of_lt h0 h1] at h
  exact h

theorem jsShrU15 {z : ℤ} (h0 : 0 ≤ z) (h1 : z < 4294967296) :
    jsShrU z 15 = z / 2 ^ 15 := by
  have h := jsShrU_eq z 15 (by norm_num) (by norm_num)
  rw [Int.emod_eq_of_lt h0 h1] at h
  exact h

/-- The borrow extraction `(r >>> 30) & 1` of the subtraction loops: `1`
exactly when the 30-bit subtraction went negative. -/
theorem borrow_bit {r : ℤ} (h0 : -(2 ^ 30) ≤ r) (h1 : r < 2 ^ 30) :
    jsAnd (jsShrU r 30) 1 = if r < 0 then 1 else 0 := by
  have hsh : jsShrU r 30 = r % 4294967296 / 1073741824 := by
    rw [jsShrU_eq r 30 (by norm_num) (by norm_num),
      show Int.toNat 30 = 30 from rfl]
    norm_num
  rw [jsAnd_mask1, hsh]
  norm_num at h0 h1
  rcases lt_or_ge r 0 with hr | hr
  · rw [if_pos hr]
    omega
  · rw [if_neg (by omega)]
    omega

theorem two_pow_30succ (k : ℕ) : (2 : ℤ) ^ (30 * (k + 1)) = 2 ^ 30 * 2 ^ (30 * k) := by
  rw [← pow_add]
  congr 1
  ring

/-! ## First loop of absoluteAdd -/

theorem absAddLoop1_spec (x y : JSBI)
    (hx : ∀ j, goodDigit (x.dig j)) (hy : ∀ j, goodDigit (y.dig j)) :
    ∀ (k i : ℕ) (carry : ℤ) (result res : JSBI) (c : ℤ),
    0 ≤ carry → carry ≤ 1 → i + k ≤ result.digits.length →
    absAddLoop1 x y k i carry result = (res, c) →
    res.sign = result.sign ∧
    res.digits.length = result.digits.length ∧
    (∀ j, j < i ∨ i + k ≤ j → res.dig j = result.dig j) ∧
    (∀ j, i ≤ j → j < i + k → goodDigit (res.dig j)) ∧
    0 ≤ c ∧ c ≤ 1 ∧
    segVal res i k + 2 ^ (30 * k) * c = segVal x i k + segVal y i k + carry := by
  intro k
  induction k with
  | zero =>
    intro i carry result res c h0 h1 hlen heq
    unfold absAddLoop1 at heq
    injection heq with he1 he2
    subst he1; subst he2
    refine ⟨rfl, rfl, fun j _ => rfl, fun j hj1 hj2 => absurd hj2 (by omega), h0, h1, ?_⟩
    simp [segVal_zero]
  | succ k ih =>
    intro i carry result res c h0 h1 hlen heq
    simp only [absAddLoop1] at heq
    set r := x.dig i + y.dig i + carry with hr
    have hxd := hx i
    have hyd := hy i
    unfold goodDigit at hxd hyd
    have hrb : 0 ≤ r ∧ r < 2 ^ 31 := by constructor <;> omega
    have hshr : jsShrU r 30 = r / 2 ^ 30 := jsShrU30 hrb.1 (by omega)
    have hand : jsAnd r 1073741823 = r % 2 ^ 30 := jsAnd_mask30 r
    have hcb : 0 ≤ r / 2 ^ 30 ∧ r / 2 ^ 30 ≤ 1 := by omega
    have hstore : toInt32 (r % 2 ^ 30) = r % 2 ^ 30 :=
      toInt32_eq (by omega) (by omega)
    set result' := result.setDig i (jsAnd r 1073741823) with hres'
    have hlen' : (i + 1) + k ≤ result'.digits.length := by
      rw [hres', setDig_length _ (by omega)]
      omega
    have hstep := ih (i + 1) (jsShrU r 30) result' res c
      (hshr ▸ hcb.1) (hshr ▸ hcb.2) hlen' heq
    obtain ⟨s1, s2, s3, s4, s5, s6, s7⟩ := hstep
    have hdig_i : res.dig i = r % 2 ^ 30 := by
      rw [s3 i (by omega), hres', dig_setDig_self, hand, hstore]
    refine ⟨by rw [s1, hres', setDig_sign],
      by rw [s2, hres', setDig_length _ (by omega)], ?_, ?_, s5, s6, ?_⟩
    · intro j hj
      have hj' : j < i + 1 ∨ i + 1 + k ≤ j := by omega
      rw [s3 j hj', hres', dig_setDig_ne (by omega)]
    · intro j hj1 hj2
      rcases eq_or_lt_of_le hj1 with hj | hj
      · rw [← hj, hdig_i]
        exact ⟨Int.emod_nonneg _ (by norm_num), Int.emod_lt_of_pos _ (by norm_num)⟩
      · exact s4 j (by omega) (by omega)
    · rw [segVal_succ res, segVal_succ x, segVal_succ y, hdig_i, two_pow_30succ]
      have hdm := Int.ediv_add_emod r (2 ^ 30)
      rw [hshr] at s7
      linarith

/-! ## Second loop of absoluteAdd, and the subtraction loops -/

theorem absAddLoop2_spec (x : JSBI) (hx : ∀ j, goodDigit (x.dig j)) :
    ∀ (k i : ℕ) (carry : ℤ) (result res : JSBI) (c : ℤ),
    0 ≤ carry → carry ≤ 1 → i + k ≤ result.digits.length →
    absAddLoop2 x k i carry result = (res, c) →
    res.sign = result.sign ∧
    res.digits.length = result.digits.length ∧
    (∀ j, j < i ∨ i + k ≤ j → res.dig j = result.dig j) ∧
    (∀ j, i ≤ j → j < i + k → goodDigit (res.dig j)) ∧
    0 ≤ c ∧ c ≤ 1 ∧
    segVal res i k + 2 ^ (30 * k) * c = segVal x i k + carry := by
  intro k
  induction k with
  | zero =>
    intro i carry result res c h0 h1 hlen heq
    unfold absAddLoop2 at heq
    injection heq with he1 he2
    subst he1; subst he2
    refine ⟨rfl, rfl, fun j _ => rfl, fun j hj1 hj2 => absurd hj2 (by omega), h0, h1, ?_⟩
    simp [segVal_zero]
  | succ k ih =>
    intro i carry result res c h0 h1 hlen heq
    simp only [absAddLoop2] at heq
    set r := x.dig i + carry with hr
    have hxd := hx i
    unfold goodDigit at hxd
    have hrb : 0 ≤ r ∧ r < 2 ^ 31 := by constructor <;> omega
    have hshr : jsShrU r 30 = r / 2 ^ 30 := jsShrU30 hrb.1 (by omega)
    have hand : jsAnd r 1073741823 = r % 2 ^ 30 := jsAnd_mask30 r
    have hcb : 0 ≤ r / 2 ^ 30 ∧ r / 2 ^ 30 ≤ 1 := by omega
    have hstore : toInt32 (r % 2 ^ 30) = r % 2 ^ 30 :=
      toInt32_eq (by omega) (by omega)
    set result' := result.setDig i (jsAnd r 1073741823) with hres'
    have hlen' : (i + 1) + k ≤ result'.digits.length := by
      rw [hres', setDig_length _ (by omega)]
      omega
    have hstep := ih (i + 1) (jsShrU r 30) result' res c
      (hshr ▸ hcb.1) (hshr ▸ hcb.2) hlen' heq
    obtain ⟨s1, s2, s3, s4, s5, s6, s7⟩ := hstep
    have hdig_i : res.dig i = r % 2 ^ 30 := by
      rw [s3 i (by omega), hres', dig_setDig_self, hand, hstore]
    refine ⟨by rw [s1, hres', setDig_sign],
      by rw [s2, hres', setDig_length _ (by omega)], ?_, ?_, s5, s6, ?_⟩
    · intro j hj
      have hj' : j < i + 1 ∨ i + 1 + k ≤ j := by omega
      rw [s3 j hj', hres', dig_setDig_ne (by omega)]
    · intro j hj1 hj2
      rcases eq_or_lt_of_le hj1 with hj | hj
      · rw [← hj, hdig_i]
        exact ⟨Int.emod_nonneg _ (by norm_num), Int.emod_lt_of_pos _ (by norm_num)⟩
      · exact s4 j (by omega) (by omega)
    · rw [segVal_succ res, segVal_succ x, hdig_i, two_pow_30succ]
      have hdm := Int.ediv_add_emod r (2 ^ 30)
      rw [hshr] at s7
      linarith

theorem absSubLoop1_spec (x y : JSBI)
    (hx : ∀ j, goodDigit (x.dig j)) (hy : ∀ j, goodDigit (y.dig j)) :
    ∀ (k i : ℕ) (borrow : ℤ) (result res : JSBI) (c : ℤ),
    0 ≤ borrow → borrow ≤ 1 → i + k ≤ result.digits.length →
    absSubLoop1 x y k i borrow result = (res, c) →
    res.sign = result.sign ∧
    res.digits.length = result.digits.length ∧
    (∀ j, j < i ∨ i + k ≤ j → res.dig j = result.dig j) ∧
    (∀ j, i ≤ j → j < i + k → goodDigit (res.dig j)) ∧
    0 ≤ c ∧ c ≤ 1 ∧
    segVal res i k - 2 ^ (30 * k) * c = segVal x i k - segVal y i k - borrow := by
  intro k
  induction k with
  | zero =>
    intro i borrow result res c h0 h1 hlen heq
    unfold absSubLoop1 at heq
    injection heq with he1 he2
    subst he1; subst he2
    refine ⟨rfl, rfl, fun j _ => rfl, fun j hj1 hj2 => absurd hj2 (by omega), h0, h1, ?_⟩
    simp [segVal_zero]
  | succ k ih =>
    intro i borrow result res c h0 h1 hlen heq
    simp only [absSubLoop1] at heq
    set r := x.dig i - y.dig i - borrow with hr
    have hxd := hx i
    have hyd := hy i
    unfold goodDigit at hxd hyd
    have hrb : -(2 ^ 30) ≤ r ∧ r < 2 ^ 30 := by constructor <;> omega
    have hbor : jsAnd (jsShrU r 30) 1 = if r < 0 then 1 else 0 :=
      borrow_bit hrb.1 hrb.2
    have hand : jsAnd r 1073741823 = r % 2 ^ 30 := jsAnd_mask30 r
    have hstore : toInt32 (r % 2 ^ 30) = r % 2 ^ 30 :=
      toInt32_eq (Int.emod_nonneg _ (by norm_num)) (by
        have := Int.emod_lt_of_pos r (show (0:ℤ) < 2 ^ 30 by norm_num)
        omega)
    have hcb : 0 ≤ (if r < 0 then (1:ℤ) else 0) ∧ (if r < 0 then (1:ℤ) else 0) ≤ 1 := by
      split <;> omega
    set result' := result.setDig i (jsAnd r 1073741823) with hres'
    have hlen' : (i + 1) + k ≤ result'.digits.length := by
      rw [hres', setDig_length _ (by omega)]
      omega
    rw [hbor] at heq
    have hstep := ih (i + 1) (if r < 0 then 1 else 0) result' res c
      hcb.1 hcb.2 hlen' heq
    obtain ⟨s1, s2, s3, s4, s5, s6, s7⟩ := hstep
    have hdig_i : res.dig i = r % 2 ^ 30 := by
      rw [s3 i (by omega), hres', dig_setDig_self, hand, hstore]
    refine ⟨by rw [s1, hres', setDig_sign],
      by rw [s2, hres', setDig_length _ (by omega)], ?_, ?_, s5, s6, ?_⟩
    · intro j hj
      have hj' : j < i + 1 ∨ i + 1 + k ≤ j := by omega
      rw [s3 j hj', hres', dig_setDig_ne (by omega)]
    · intro j hj1 hj2
      rcases eq_or_lt_of_le hj1 with hj | hj
      · rw [← hj, hdig_i]
        exact ⟨Int.emod_nonneg _ (by norm_num), Int.emod_lt_of_pos _ (by norm_num)⟩
      · exact s4 j (by omega) (by omega)
    · rw [segVal_succ res, segVal_succ x, segVal_succ y, hdig_i, two_pow_30succ]
      have hkey : r % 2 ^ 30 = r + 2 ^ 30 * (if r < 0 then 1 else 0) := by
        split <;> rename_i hc <;> omega
      rw [hkey]
      linarith [s7]

theorem absSubLoop2_spec (x : JSBI) (hx : ∀ j, goodDigit (x.dig j)) :
    ∀ (k i : ℕ) (borrow : ℤ) (result res : JSBI) (c : ℤ),
    0 ≤ borrow → borrow ≤ 1 → i + k ≤ result.digits.length →
    absSubLoop2 x k i borrow result = (res, c) →
    res.sign = result.sign ∧
    res.digits.length = result.digits.length ∧
    (∀ j, j < i ∨ i + k ≤ j → res.dig j = result.dig j) ∧
    (∀ j, i ≤ j → j < i + k → goodDigit (res.dig j)) ∧
    0 ≤ c ∧ c ≤ 1 ∧
    segVal res i k - 2 ^ (30 * k) * c = segVal x i k - borrow := by
  intro k
  induction k with
  | zero =>
    intro i borrow result res c h0 h1 hlen heq
    unfold absSubLoop2 at heq
    injection heq with he1 he2
    subst he1; subst he2
    refine ⟨rfl, rfl, fun j _ => rfl, fun j hj1 hj2 => absurd hj2 (by omega), h0, h1, ?_⟩
    simp [segVal_zero]
  | succ k ih =>
    intro i borrow result res c h0 h1 hlen heq
    simp only [absSubLoop2] at heq
    set r := x.dig i - borrow with hr
    have hxd := hx i
    unfold goodDigit at hxd
    have hrb : -(2 ^ 30) ≤ r ∧ r < 2 ^ 30 := by constructor <;> omega
    have hbor : jsAnd (jsShrU r 30) 1 = if r < 0 then 1 else 0 :=
      borrow_bit hrb.1 hrb.2
    have hand : jsAnd r 1073741823 = r % 2 ^ 30 := jsAnd_mask30 r
    have hstore : toInt32 (r % 2 ^ 30) = r % 2 ^ 30 :=
      toInt32_eq (Int.emod_nonneg _ (by norm_num)) (by
        have := Int.emod_lt_of_pos r (show (0:ℤ) < 2 ^ 30 by norm_num)
        omega)
    have hcb : 0 ≤ (if r < 0 then (1:ℤ) else 0) ∧ (if r < 0 then (1:ℤ) else 0) ≤ 1 := by
      split <;> omega
    set result' := result.setDig i (jsAnd r 1073741823) with hres'
    have hlen' : (i + 1) + k ≤ result'.digits.length := by
      rw [hres', setDig_length _ (by omega)]
      omega
    rw [hbor] at heq
    have hstep := ih (i + 1) (if r < 0 then 1 else 0) result' res c
      hcb.1 hcb.2 hlen' heq
    obtain ⟨s1, s2, s3, s4, s5, s6, s7⟩ := hstep
    have hdig_i : res.dig i = r % 2 ^ 30 := by
      rw [s3 i (by omega), hres', dig_setDig_self, hand, hstore]
    refine ⟨by rw [s1, hres', setDig_sign],
      by rw [s2, hres', setDig_length _ (by omega)], ?_, ?_, s5, s6, ?_⟩
    · intro j hj
      have hj' : j < i + 1 ∨ i + 1 + k ≤ j := by omega
      rw [s3 j hj', hres', dig_setDig_ne (by omega)]
    · intro j hj1 hj2
      rcases eq_or_lt_of_le hj1 with hj | hj
      · rw [← hj, hdig_i]
        exact ⟨Int.emod_nonneg _ (by norm_num), Int.emod_lt_of_pos _ (by norm_num)⟩
      · exact s4 j (by omega) (by omega)
    · rw [segVal_succ res, segVal_succ x, hdig_i, two_pow_30succ]
      have hkey : r % 2 ^ 30 = r + 2 ^ 30 * (if r < 0 then 1 else 0) := by
        split <;> rename_i hc <;> omega
      rw [hkey]
      linarith [s7]

/-! ## clz30 and magnitude bounds -/

theorem clz30_spec {d : ℤ} (h : goodDigit d) : clz30 d = 30 - (d.toNat.size : ℤ) := by
  unfold clz30 clz32
  obtain ⟨h0, h1⟩ := h
  have : jsU d = d.toNat := by
    unfold jsU
    rw [toUint32_eq h0 (by omega)]
  rw [this]
  ring

theorem clz30_nonneg {d : ℤ} (h : goodDigit d) : 0 ≤ clz30 d := by
  rw [clz30_spec h]
  have : d.toNat.size ≤ 30 := Nat.size_le.mpr (by
    have := h.2
    omega)
  omega

theorem clz30_ne_zero {d : ℤ} (h : goodDigit d) (hne : clz30 d ≠ 0) :
    d < 2 ^ 29 := by
  rw [clz30_spec h] at hne
  have hle : d.toNat.size ≤ 30 := Nat.size_le.mpr (by have := h.2; omega)
  have h29 : d.toNat.size ≤ 29 := by omega
  have := Nat.size_le.mp h29
  have h0 := h.1
  omega

theorem clz30_lt_pow {d : ℤ} (h : goodDigit d) :
    d < 2 ^ (30 - (clz30 d).toNat) := by
  rw [clz30_spec h]
  have hle : d.toNat.size ≤ 30 := Nat.size_le.mpr (by have := h.2; omega)
  have hsz : (30 - ((30 : ℤ) - (d.toNat.size : ℤ)).toNat) = d.toNat.size := by omega
  rw [hsz]
  have := Nat.lt_size_self d.toNat
  have h0 := h.1
  calc d = (d.toNat : ℤ) := by omega
  _ < ((2 ^ d.toNat.size : ℕ) : ℤ) := by exact_mod_cast Nat.lt_size_self d.toNat
  _ = 2 ^ d.toNat.size := by push_cast; ring

theorem segVal_le_of_msd_lt {x : JSBI} {n : ℕ} {b : ℕ}
    (hg : ∀ j, goodDigit (x.dig j)) (hmsd : x.dig n < 2 ^ b) :
    segVal x 0 (n + 1) < 2 ^ (30 * n + b) := by
  rw [segVal_snoc]
  have h1 : segVal x 0 n < 2 ^ (30 * n) := segVal_lt 0 n (fun j _ _ => hg j)
  have h2 : 0 ≤ x.dig n := (hg n).1
  have hpow : (2 : ℤ) ^ (30 * n + b) = 2 ^ (30 * n) * 2 ^ b := by rw [pow_add]
  rw [hpow]
  simp only [Nat.zero_add]
  nlinarith [h1, h2, hmsd, pow_pos (show (0:ℤ) < 2 by norm_num) (30 * n)]

theorem getLast_eq_dig {x : JSBI} (h : x.digits ≠ []) :
    x.digits.getLast? = some (x.dig (x.digits.length - 1)) := by
  unfold JSBI.dig
  have hpos := List.length_pos.mpr h
  rw [List.getLast?_eq_getElem?, List.getD_eq_getElem?_getD,
    List.getElem?_eq_getElem (by omega)]
  simp

theorem msd_pos {x : JSBI} (hv : Valid x) (h : x.digits ≠ []) :
    1 ≤ x.dig (x.digits.length - 1) := by
  have hlast := getLast_eq_dig h
  have hne := hv.2.1
  rw [hlast] at hne
  have hgood := valid_dig_good hv (x.digits.length - 1)
  have : x.dig (x.digits.length - 1) ≠ 0 := fun hc => hne (by rw [hc])
  have := hgood.1
  omega

theorem magD_ge_pow {x : JSBI} (hv : Valid x) (h : x.digits ≠ []) :
    2 ^ (30 * (x.digits.length - 1)) ≤ magD x.digits := by
  have hlen : 1 ≤ x.digits.length := List.length_pos.mpr h
  have hm : magD x.digits = segVal x 0 x.digits.length := magD_eq_segVal x (le_refl _)
  have hsplit : x.digits.length = (x.digits.length - 1) + 1 := by omega
  have key : segVal x 0 x.digits.length = segVal x 0 (x.digits.length - 1) +
      2 ^ (30 * (x.digits.length - 1)) * x.dig (x.digits.length - 1) := by
    conv_lhs => rw [hsplit]
    rw [segVal_snoc]
    simp
  have h1 : 0 ≤ segVal x 0 (x.digits.length - 1) :=
    segVal_nonneg 0 _ (fun j _ _ => (valid_dig_good hv j).1)
  have h2 := msd_pos hv h
  have hpos : (0:ℤ) < 2 ^ (30 * (x.digits.length - 1)) := pow_pos (by norm_num) _
  have h3 := mul_le_mul_of_nonneg_left h2 (le_of_lt hpos)
  rw [hm, key]
  nlinarith

theorem mem_good_of_dig_good {x : JSBI}
    (h : ∀ j, j < x.digits.length → goodDigit (x.dig j)) :
    ∀ d ∈ x.digits, goodDigit d := by
  intro d hd
  obtain ⟨j, hj, rfl⟩ := List.mem_iff_getElem.mp hd
  have := h j hj
  unfold JSBI.dig at this
  rwa [List.getD_eq_getElem?_getD, List.getElem?_eq_getElem hj, Option.getD_some] at this

theorem segVal_split (x : JSBI) (i a b : ℕ) :
    segVal x i (a + b) = segVal x i a + 2 ^ (30 * a) * segVal x (i + a) b := by
  induction a generalizing i with
  | zero => simp [segVal_zero]
  | succ a ih =>
    have h1 : a + 1 + b = (a + b) + 1 := by omega
    rw [h1, segVal_succ, ih (i + 1), segVal_succ, two_pow_30succ]
    have h2 : i + 1 + a = i + (a + 1) := by omega
    rw [h2]
    ring

/-! ## absoluteCompare -/

theorem absCmpLoop_step (x y : JSBI) (n : ℕ) :
    absCmpLoop x y (n + 1) =
      if x.dig n = y.dig n then absCmpLoop x y n
      else if x.udig n > y.udig n then 1 else -1 := rfl

theorem absCmpLoop_spec (x y : JSBI)
    (hx : ∀ j, goodDigit (x.dig j)) (hy : ∀ j, goodDigit (y.dig j)) :
    ∀ n : ℕ,
    (absCmpLoop x y n = 0 ∧ segVal x 0 n = segVal y 0 n) ∨
    (absCmpLoop x y n = 1 ∧ segVal y 0 n < segVal x 0 n) ∨
    (absCmpLoop x y n = -1 ∧ segVal x 0 n < segVal y 0 n) := by
  intro n
  induction n with
  | zero => left; exact ⟨rfl, rfl⟩
  | succ n ih =>
    have hx0 : segVal x 0 (n + 1) = segVal x 0 n + 2 ^ (30 * n) * x.dig n := by
      rw [segVal_snoc]; simp
    have hy0 : segVal y 0 (n + 1) = segVal y 0 n + 2 ^ (30 * n) * y.dig n := by
      rw [segVal_snoc]; simp
    by_cases hd : x.dig n = y.dig n
    · have hstep : absCmpLoop x y (n + 1) = absCmpLoop x y n := by
        rw [absCmpLoop_step, if_pos hd]
      rcases ih with ⟨h1, h2⟩ | ⟨h1, h2⟩ | ⟨h1, h2⟩
      · left; exact ⟨hstep ▸ h1, by rw [hx0, hy0, hd, h2]⟩
      · right; left
        refine ⟨hstep ▸ h1, ?_⟩
        rw [hx0, hy0, hd]
        omega
      · right; right
        refine ⟨hstep ▸ h1, ?_⟩
        rw [hx0, hy0, hd]
        omega
    · have hxg := hx n
      have hyg := hy n
      have hux : x.udig n = x.dig n := by
        unfold JSBI.udig
        exact toUint32_eq hxg.1 (by have := hxg.2; omega)
      have huy : y.udig n = y.dig n := by
        unfold JSBI.udig
        exact toUint32_eq hyg.1 (by have := hyg.2; omega)
      have hbx : segVal x 0 n < 2 ^ (30 * n) := segVal_lt 0 n (fun j _ _ => hx j)
      have hby : segVal y 0 n < 2 ^ (30 * n) := segVal_lt 0 n (fun j _ _ => hy j)
      have hnx : 0 ≤ segVal x 0 n := segVal_nonneg 0 n (fun j _ _ => (hx j).1)
      have hny : 0 ≤ segVal y 0 n := segVal_nonneg 0 n (fun j _ _ => (hy j).1)
      rcases lt_or_gt_of_ne hd with hlt | hgt
      · right; right
        constructor
        · rw [absCmpLoop_step, if_neg hd, if_neg (by rw [hux, huy]; omega)]
        · rw [hx0, hy0]
          have hd1 : x.dig n + 1 ≤ y.dig n := by omega
          nlinarith [pow_pos (show (0:ℤ) < 2 by norm_num) (30 * n)]
      · right; left
        constructor
        · rw [absCmpLoop_step, if_neg hd, if_pos (by rw [hux, huy]; omega)]
        · rw [hx0, hy0]
          have hd1 : y.dig n + 1 ≤ x.dig n := by omega
          nlinarith [pow_pos (show (0:ℤ) < 2 by norm_num) (30 * n)]

theorem absoluteCompare_spec {x y : JSBI} (hvx : Valid x) (hvy : Valid y) :
    (0 < absoluteCompare x y ↔ magD y.digits < magD x.digits) ∧
    (absoluteCompare x y = 0 ↔ magD x.digits = magD y.digits) ∧
    (absoluteCompare x y < 0 ↔ magD x.digits < magD y.digits) := by
  have hlendom : ∀ {a b : JSBI}, Valid a → Valid b →
      a.digits.length < b.digits.length → magD a.digits < magD b.digits := by
    intro a b hva hvb hl
    have hbne : b.digits ≠ [] := by
      intro hc
      rw [hc] at hl
      simp at hl
    have h1 : magD a.digits < 2 ^ (30 * a.digits.length) :=
      magD_lt (fun d hd => hva.1 d hd)
    have h2 := magD_ge_pow hvb hbne
    have h3 : (2:ℤ) ^ (30 * a.digits.length) ≤ 2 ^ (30 * (b.digits.length - 1)) :=
      pow_le_pow_right₀ (by norm_num) (by omega)
    omega
  by_cases hlen : x.digits.length = y.digits.length
  · have hac : absoluteCompare x y = absCmpLoop x y x.digits.length := by
      simp only [absoluteCompare]
      rw [if_neg (show ¬ ((x.digits.length : ℤ) - (y.digits.length : ℤ) ≠ 0) by omega)]
    have hmx : magD x.digits = segVal x 0 x.digits.length := magD_eq_segVal x (le_refl _)
    have hmy : magD y.digits = segVal y 0 x.digits.length := by
      rw [hlen]; exact magD_eq_segVal y (le_refl _)
    rcases absCmpLoop_spec x y (valid_dig_good hvx) (valid_dig_good hvy) x.digits.length
      with ⟨h1, h2⟩ | ⟨h1, h2⟩ | ⟨h1, h2⟩ <;>
      rw [hac, h1, hmx, hmy] <;>
      refine ⟨?_, ?_, ?_⟩ <;> constructor <;> intro hc <;> omega
  · have hac : absoluteCompare x y = (x.digits.length : ℤ) - y.digits.length := by
      simp only [absoluteCompare]
      rw [if_pos (show ((x.digits.length : ℤ) - (y.digits.length : ℤ) ≠ 0) by
        intro hc
        apply hlen
        omega)]
    rcases lt_or_gt_of_ne hlen with hl | hl
    · have hvlt := hlendom hvx hvy hl
      rw [hac]
      refine ⟨?_, ?_, ?_⟩ <;> constructor <;> intro hc <;> omega
    · have hvlt := hlendom hvy hvx hl
      rw [hac]
      refine ⟨?_, ?_, ?_⟩ <;> constructor <;> intro hc <;> omega

/-! ## unaryMinus -/

theorem unaryMinus_spec {x : JSBI} (hv : Valid x) :
    Valid (unaryMinus x) ∧ toInt (unaryMinus x) = -toInt x := by
  unfold unaryMinus
  by_cases h : x.digits.length = 0
  · rw [if_pos h]
    have hd : x.digits = [] := List.length_eq_zero.mp h
    refine ⟨hv, ?_⟩
    unfold toInt
    rw [hd]
    simp [magD]
  · rw [if_neg h]
    have hd : x.digits ≠ [] := fun hc => h (by rw [hc]; rfl)
    refine ⟨⟨hv.1, hv.2.1, fun hc => absurd hc hd⟩, ?_⟩
    unfold toInt
    simp only
    cases hs : x.sign <;> simp

/-! ## Additive operations: full value specifications -/
theorem valid_trim2 {x : JSBI} (h : ∀ d ∈ x.digits, goodDigit d) : Valid (trim x) := by
  cases x
  exact valid_trim h

theorem absoluteAdd_spec_aux {x y : JSBI} {s : Bool} {r : JSBI}
    (hvx : Valid x) (hvy : Valid y) (hyx : y.digits.length ≤ x.digits.length)
    (h : absoluteAdd x y s = .ok r) :
    Valid r ∧ toInt r = (if s then -1 else 1) * (magD x.digits + magD y.digits) := by
  rw [absoluteAdd] at h
  rw [if_neg (by omega)] at h
  by_cases hx0 : x.digits.length = 0
  · rw [if_pos hx0] at h
    injection h with h1
    subst h1
    have hxd : x.digits = [] := List.length_eq_zero.mp hx0
    have hyd : y.digits = [] := List.length_eq_zero.mp (by omega)
    refine ⟨hvx, ?_⟩
    unfold toInt
    rw [hxd, hyd]
    simp [magD]
  · rw [if_neg hx0] at h
    by_cases hy0 : y.digits.length = 0
    · rw [if_pos hy0] at h
      injection h with h1
      have hyd : y.digits = [] := List.length_eq_zero.mp hy0
      have hmy : magD y.digits = 0 := by rw [hyd]; rfl
      rw [hmy]
      by_cases hsx : x.sign = s
      · rw [if_pos hsx] at h1
        subst h1
        refine ⟨hvx, ?_⟩
        unfold toInt
        rw [hsx]
        ring
      · rw [if_neg hsx] at h1
        subst h1
        have hum := unaryMinus_spec hvx
        refine ⟨hum.1, ?_⟩
        rw [hum.2]
        unfold toInt
        cases hxs : x.sign <;> cases hss : s <;> rw [hxs] at hsx <;>
          rw [hss] at hsx <;> simp at hsx ⊢ <;> ring
    · rw [if_neg hy0] at h
      simp only at h
      set RL := x.digits.length +
          (if clzmsd x = 0 ∨ y.digits.length = x.digits.length ∧ clzmsd y = 0
           then 1 else 0) with hRL
      cases hres : newJSBI RL s with
      | error e =>
        rw [hres] at h
        simp only [Except.bind, bind] at h
        exact Except.noConfusion h
      | ok result0 =>
        rw [hres] at h
        simp only [Except.bind, bind] at h
        obtain ⟨hr0, hrlen⟩ := newJSBI_ok hres
        obtain ⟨res1, c1, hl1⟩ : ∃ a b, absAddLoop1 x y y.digits.length 0 0 result0 = (a, b) :=
          ⟨_, _, rfl⟩
        rw [hl1] at h
        dsimp only at h
        obtain ⟨res2, c2, hl2⟩ : ∃ a b,
            absAddLoop2 x (x.digits.length - y.digits.length) y.digits.length c1 res1 = (a, b) :=
          ⟨_, _, rfl⟩
        rw [hl2] at h
        dsimp only at h
        have hr0len : result0.digits.length = RL := by rw [hr0]; simp
        have hRLx : x.digits.length ≤ RL := by rw [hRL]; omega
        have gx := valid_dig_good hvx
        have gy := valid_dig_good hvy
        have spec1 := absAddLoop1_spec x y gx gy y.digits.length 0 0 result0 res1 c1
          (le_refl 0) (by norm_num) (by omega) hl1
        obtain ⟨s11, s12, s13, s14, s15, s16, s17⟩ := spec1
        have spec2 := absAddLoop2_spec x gx (x.digits.length - y.digits.length)
          y.digits.length c1 res1 res2 c2 s15 s16 (by omega) hl2
        obtain ⟨s21, s22, s23, s24, s25, s26, s27⟩ := spec2
        have hres2len : res2.digits.length = RL := by omega
        have hylen_add : y.digits.length + (x.digits.length - y.digits.length) =
            x.digits.length := by omega
        -- value of the first x.len digits of res2
        have hseg0 : segVal res2 0 y.digits.length = segVal res1 0 y.digits.length :=
          segVal_congr (fun j hj1 hj2 => s23 j (Or.inl (by omega)))
        have hsplitr : segVal res2 0 x.digits.length =
            segVal res2 0 y.digits.length +
            2 ^ (30 * y.digits.length) * segVal res2 y.digits.length
              (x.digits.length - y.digits.length) := by
          have := segVal_split res2 0 y.digits.length (x.digits.length - y.digits.length)
          rw [hylen_add] at this
          simpa using this
        have hsplitx : magD x.digits = segVal x 0 y.digits.length +
            2 ^ (30 * y.digits.length) * segVal x y.digits.length
              (x.digits.length - y.digits.length) := by
          have h1 := segVal_split x 0 y.digits.length (x.digits.length - y.digits.length)
          rw [hylen_add] at h1
          rw [magD_eq_segVal x (le_refl _)]
          simpa using h1
        have hmy : magD y.digits = segVal y 0 y.digits.length := magD_eq_segVal y (le_refl _)
        have hpowsplit : (2:ℤ) ^ (30 * y.digits.length) *
            2 ^ (30 * (x.digits.length - y.digits.length)) = 2 ^ (30 * x.digits.length) := by
          rw [← pow_add]
          congr 1
          omega
        have hkey : segVal res2 0 x.digits.length + 2 ^ (30 * x.digits.length) * c2 =
            magD x.digits + magD y.digits := by
          rw [hsplitr, hseg0, hsplitx, hmy, ← hpowsplit]
          linear_combination s17 + 2 ^ (30 * y.digits.length) * s27
        -- goodness of res2 digits below x.len
        have hgood2 : ∀ j, j < x.digits.length → goodDigit (res2.dig j) := by
          intro j hj
          rcases lt_or_ge j y.digits.length with hjy | hjy
          · rw [s23 j (Or.inl (by omega))]
            exact s14 j (by omega) (by omega)
          · exact s24 j (by omega) (by omega)
        have hsign2 : res2.sign = s := by
          rw [s21, s11, hr0]
        by_cases hfin : x.digits.length < res2.digits.length
        · rw [if_pos hfin] at h
          injection h with h1
          have hRL1 : RL = x.digits.length + 1 := by
            by_cases hcond : clzmsd x = 0 ∨ y.digits.length = x.digits.length ∧ clzmsd y = 0
            · rw [hRL, if_pos hcond]
            · rw [hRL, if_neg hcond] at hres2len ⊢
              omega
          set res3 := res2.setDig x.digits.length c2 with hres3
          have hres3len : res3.digits.length = RL := by
            rw [hres3, setDig_length _ (by omega)]
            exact hres2len
          have hdig3 : res3.dig x.digits.length = c2 := by
            rw [hres3, dig_setDig_self]
            exact toInt32_eq s25 (by omega)
          have hmag3 : magD res3.digits = magD x.digits + magD y.digits := by
            rw [magD_eq_segVal res3 (le_of_eq hres3len), hRL1, segVal_snoc]
            have hcongr : segVal res3 0 x.digits.length = segVal res2 0 x.digits.length :=
              segVal_congr (fun j hj1 hj2 => by
                rw [hres3, dig_setDig_ne (by omega)])
            rw [hcongr]
            simp only [Nat.zero_add]
            rw [hdig3]
            linarith [hkey]
          have hgood3 : ∀ d ∈ res3.digits, goodDigit d := by
            apply mem_good_of_dig_good
            intro j hj
            rw [hres3len, hRL1] at hj
            rcases lt_or_ge j x.digits.length with hjl | hjl
            · rw [hres3, dig_setDig_ne (by omega)]
              exact hgood2 j hjl
            · have hj : j = x.digits.length := by omega
              rw [hj, hdig3]
              constructor
              · exact s25
              · have := s26
                norm_num
                omega
          subst h1
          constructor
          · exact valid_trim2 hgood3
          · rw [toInt_trim]
            unfold toInt
            have hs3 : res3.sign = s := by rw [hres3, setDig_sign, hsign2]
            rw [hs3, hmag3]
        · rw [if_neg hfin] at h
          injection h with h1
          have hRLx2 : RL = x.digits.length := by omega
          -- carry must be zero
          have hcond : ¬(clzmsd x = 0 ∨ y.digits.length = x.digits.length ∧ clzmsd y = 0) := by
            intro hc
            rw [hRL, if_pos hc] at hRLx2
            omega
          push_neg at hcond
          obtain ⟨hcx, hcy⟩ := hcond
          have hxne : x.digits ≠ [] := fun hc => hx0 (by rw [hc]; rfl)
          have hmsdx : x.dig (x.digits.length - 1) < 2 ^ 29 :=
            clz30_ne_zero (gx _) hcx
          have hmagx : magD x.digits < 2 ^ (30 * (x.digits.length - 1) + 29) := by
            have := segVal_le_of_msd_lt gx hmsdx
            rw [magD_eq_segVal x (le_refl _)]
            have hx1 : x.digits.length - 1 + 1 = x.digits.length := by omega
            rw [← hx1]
            exact this
          have hmagy : magD y.digits < 2 ^ (30 * (x.digits.length - 1) + 29) := by
            rcases eq_or_lt_of_le hyx with heq | hlt
            · have hclzy := hcy heq
              have hyne : y.digits ≠ [] := fun hc => hy0 (by rw [hc]; rfl)
              have hmsdy : y.dig (y.digits.length - 1) < 2 ^ 29 :=
                clz30_ne_zero (gy _) hclzy
              have := segVal_le_of_msd_lt gy hmsdy
              rw [magD_eq_segVal y (le_refl _)]
              have hy1 : y.digits.length - 1 + 1 = y.digits.length := by omega
              rw [← hy1]
              rw [heq] at this ⊢
              exact this
            · have h1 : magD y.digits < 2 ^ (30 * y.digits.length) := magD_lt hvy.1
              have h2 : (2:ℤ) ^ (30 * y.digits.length) ≤
                  2 ^ (30 * (x.digits.length - 1) + 29) :=
                pow_le_pow_right₀ (by norm_num) (by omega)
              omega
          have hsum : magD x.digits + magD y.digits < 2 ^ (30 * x.digits.length) := by
            have hp : (2:ℤ) ^ (30 * (x.digits.length - 1) + 29) * 2 =
                2 ^ (30 * x.digits.length) := by
              rw [← pow_succ]
              congr 1
              omega
            nlinarith
          have hc2 : c2 = 0 := by
            have hnn : 0 ≤ segVal res2 0 x.digits.length :=
              segVal_nonneg 0 _ (fun j hj1 hj2 => (hgood2 j (by omega)).1)
            by_contra hc
            have : c2 = 1 := by omega
            rw [this] at hkey
            have hp : (0:ℤ) < 2 ^ (30 * x.digits.length) := pow_pos (by norm_num) _
            omega
          have hmag2 : magD res2.digits = magD x.digits + magD y.digits := by
            rw [magD_eq_segVal res2 (show res2.digits.length ≤ x.digits.length by omega)]
            rw [hc2] at hkey
            linarith [hkey]
          subst h1
          constructor
          · exact valid_trim2 (mem_good_of_dig_good (fun j hj =>
              hgood2 j (by omega)))
          · rw [toInt_trim]
            unfold toInt
            rw [hsign2, hmag2]



theorem magD_len_dom {a b : JSBI} (hva : Valid a) (hvb : Valid b)
    (hl : a.digits.length < b.digits.length) : magD a.digits < magD b.digits := by
  have hbne : b.digits ≠ [] := by
    intro hc
    rw [hc] at hl
    simp at hl
  have h1 : magD a.digits < 2 ^ (30 * a.digits.length) := magD_lt hva.1
  have h2 := magD_ge_pow hvb hbne
  have h3 : (2:ℤ) ^ (30 * a.digits.length) ≤ 2 ^ (30 * (b.digits.length - 1)) :=
    pow_le_pow_right₀ (by norm_num) (by omega)
  omega

theorem absoluteAdd_spec {x y : JSBI} {s : Bool} {r : JSBI}
    (hvx : Valid x) (hvy : Valid y) (h : absoluteAdd x y s = .ok r) :
    Valid r ∧ toInt r = (if s then -1 else 1) * (magD x.digits + magD y.digits) := by
  rcases le_or_lt y.digits.length x.digits.length with hle | hlt
  · exact absoluteAdd_spec_aux hvx hvy hle h
  · rw [absoluteAdd, if_pos hlt] at h
    obtain ⟨h1, h2⟩ := absoluteAdd_spec_aux hvy hvx (le_of_lt hlt) h
    exact ⟨h1, by rw [h2]; ring⟩

theorem absoluteSub_spec {x y : JSBI} {s : Bool} {r : JSBI}
    (hvx : Valid x) (hvy : Valid y) (hmag : magD y.digits ≤ magD x.digits)
    (h : absoluteSub x y s = .ok r) :
    Valid r ∧ toInt r = (if s then -1 else 1) * (magD x.digits - magD y.digits) := by
  have hyx : y.digits.length ≤ x.digits.length := by
    by_contra hc
    exact absurd (magD_len_dom hvx hvy (by omega)) (by omega)
  unfold absoluteSub at h
  by_cases hx0 : x.digits.length = 0
  · rw [if_pos hx0] at h
    injection h with h1
    subst h1
    have hxd : x.digits = [] := List.length_eq_zero.mp hx0
    have hyd : y.digits = [] := List.length_eq_zero.mp (by omega)
    refine ⟨hvx, ?_⟩
    unfold toInt
    rw [hxd, hyd]
    simp [magD]
  · rw [if_neg hx0] at h
    by_cases hy0 : y.digits.length = 0
    · rw [if_pos hy0] at h
      injection h with h1
      have hyd : y.digits = [] := List.length_eq_zero.mp hy0
      have hmy : magD y.digits = 0 := by rw [hyd]; rfl
      rw [hmy]
      by_cases hsx : x.sign = s
      · rw [if_pos hsx] at h1
        subst h1
        refine ⟨hvx, ?_⟩
        unfold toInt
        rw [hsx]
        ring
      · rw [if_neg hsx] at h1
        subst h1
        have hum := unaryMinus_spec hvx
        refine ⟨hum.1, ?_⟩
        rw [hum.2]
        unfold toInt
        cases hxs : x.sign <;> cases hss : s <;> rw [hxs] at hsx <;>
          rw [hss] at hsx <;> simp at hsx ⊢ <;> ring
    · rw [if_neg hy0] at h
      cases hres : newJSBI x.digits.length s with
      | error e =>
        rw [hres] at h
        simp only [Except.bind, bind] at h
        exact Except.noConfusion h
      | ok result0 =>
        rw [hres] at h
        simp only [Except.bind, bind] at h
        obtain ⟨hr0, hrlen⟩ := newJSBI_ok hres
        obtain ⟨res1, b1, hl1⟩ : ∃ a b, absSubLoop1 x y y.digits.length 0 0 result0 = (a, b) :=
          ⟨_, _, rfl⟩
        rw [hl1] at h
        dsimp only at h
        obtain ⟨res2, b2, hl2⟩ : ∃ a b,
            absSubLoop2 x (x.digits.length - y.digits.length) y.digits.length b1 res1 = (a, b) :=
          ⟨_, _, rfl⟩
        rw [hl2] at h
        dsimp only at h
        injection h with h1
        have hr0len : result0.digits.length = x.digits.length := by rw [hr0]; simp
        have gx := valid_dig_good hvx
        have gy := valid_dig_good hvy
        obtain ⟨s11, s12, s13, s14, s15, s16, s17⟩ :=
          absSubLoop1_spec x y gx gy y.digits.length 0 0 result0 res1 b1
            (le_refl 0) (by norm_num) (by omega) hl1
        obtain ⟨s21, s22, s23, s24, s25, s26, s27⟩ :=
          absSubLoop2_spec x gx (x.digits.length - y.digits.length) y.digits.length b1
            res1 res2 b2 s15 s16 (by omega) hl2
        have hres2len : res2.digits.length = x.digits.length := by omega
        have hylen_add : y.digits.length + (x.digits.length - y.digits.length) =
            x.digits.length := by omega
        have hseg0 : segVal res2 0 y.digits.length = segVal res1 0 y.digits.length :=
          segVal_congr (fun j hj1 hj2 => s23 j (Or.inl (by omega)))
        have hsplitr : segVal res2 0 x.digits.length =
            segVal res2 0 y.digits.length +
            2 ^ (30 * y.digits.length) * segVal res2 y.digits.length
              (x.digits.length - y.digits.length) := by
          have h0 := segVal_split res2 0 y.digits.length (x.digits.length - y.digits.length)
          rw [hylen_add] at h0
          simpa using h0
        have hsplitx : magD x.digits = segVal x 0 y.digits.length +
            2 ^ (30 * y.digits.length) * segVal x y.digits.length
              (x.digits.length - y.digits.length) := by
          have h2 := segVal_split x 0 y.digits.length (x.digits.length - y.digits.length)
          rw [hylen_add] at h2
          rw [magD_eq_segVal x (le_refl _)]
          simpa using h2
        have hmy : magD y.digits = segVal y 0 y.digits.length := magD_eq_segVal y (le_refl _)
        have hpowsplit : (2:ℤ) ^ (30 * y.digits.length) *
            2 ^ (30 * (x.digits.length - y.digits.length)) = 2 ^ (30 * x.digits.length) := by
          rw [← pow_add]
          congr 1
          omega
        have hkey : segVal res2 0 x.digits.length - 2 ^ (30 * x.digits.length) * b2 =
            magD x.digits - magD y.digits := by
          rw [hsplitr, hseg0, hsplitx, hmy, ← hpowsplit]
          linear_combination s17 + 2 ^ (30 * y.digits.length) * s27
        have hgood2 : ∀ j, j < x.digits.length → goodDigit (res2.dig j) := by
          intro j hj
          rcases lt_or_ge j y.digits.length with hjy | hjy
          · rw [s23 j (Or.inl (by omega))]
            exact s14 j (by omega) (by omega)
          · exact s24 j (by omega) (by omega)
        have hb2 : b2 = 0 := by
          have hlt : segVal res2 0 x.digits.length < 2 ^ (30 * x.digits.length) :=
            segVal_lt 0 _ (fun j hj1 hj2 => hgood2 j (by omega))
          by_contra hcc
          have hb1 : b2 = 1 := by omega
          rw [hb1, mul_one] at hkey
          omega
        have hmag2 : magD res2.digits = magD x.digits - magD y.digits := by
          rw [magD_eq_segVal res2 (le_of_eq hres2len)]
          rw [hb2, mul_zero] at hkey
          linarith [hkey]
        have hsign2 : res2.sign = s := by rw [s21, s11, hr0]
        subst h1
        constructor
        · exact valid_trim2 (mem_good_of_dig_good (fun j hj => hgood2 j (by omega)))
        · rw [toInt_trim]
          unfold toInt
          rw [hsign2, hmag2]

theorem add_spec {x y : JSBI} {r : JSBI} (hvx : Valid x) (hvy : Valid y)
    (h : add x y = .ok r) : Valid r ∧ toInt r = toInt x + toInt y := by
  simp only [add] at h
  by_cases hs : x.sign = y.sign
  · rw [if_pos hs] at h
    obtain ⟨h1, h2⟩ := absoluteAdd_spec hvx hvy h
    refine ⟨h1, ?_⟩
    rw [h2]
    unfold toInt
    rw [← hs]
    ring
  · rw [if_neg hs] at h
    have hcs := absoluteCompare_spec hvx hvy
    by_cases hc : absoluteCompare x y ≥ 0
    · rw [if_pos hc] at h
      have hmag : magD y.digits ≤ magD x.digits := by
        by_contra hcc
        exact absurd (hcs.2.2.mpr (by omega)) (by omega)
      obtain ⟨h1, h2⟩ := absoluteSub_spec hvx hvy hmag h
      refine ⟨h1, ?_⟩
      rw [h2]
      unfold toInt
      cases hxs : x.sign <;> cases hys : y.sign <;> rw [hxs, hys] at hs <;>
        simp at hs ⊢ <;> ring
    · rw [if_neg hc] at h
      have hmag : magD x.digits ≤ magD y.digits :=
        le_of_lt (hcs.2.2.mp (by omega))
      obtain ⟨h1, h2⟩ := absoluteSub_spec hvy hvx hmag h
      refine ⟨h1, ?_⟩
      rw [h2]
      unfold toInt
      cases hxs : x.sign <;> cases hys : y.sign <;> rw [hxs, hys] at hs <;>
        simp at hs ⊢ <;> ring

theorem subtract_spec {x y : JSBI} {r : JSBI} (hvx : Valid x) (hvy : Valid y)
    (h : subtract x y = .ok r) : Valid r ∧ toInt r = toInt x - toInt y := by
  simp only [subtract] at h
  by_cases hs : x.sign = y.sign
  · rw [if_neg (by simp [hs])] at h
    have hcs := absoluteCompare_spec hvx hvy
    by_cases hc : absoluteCompare x y ≥ 0
    · rw [if_pos hc] at h
      have hmag : magD y.digits ≤ magD x.digits := by
        by_contra hcc
        exact absurd (hcs.2.2.mpr (by omega)) (by omega)
      obtain ⟨h1, h2⟩ := absoluteSub_spec hvx hvy hmag h
      refine ⟨h1, ?_⟩
      rw [h2]
      unfold toInt
      rw [← hs]
      cases hxs : x.sign <;> simp <;> ring
    · rw [if_neg hc] at h
      have hmag : magD x.digits ≤ magD y.digits :=
        le_of_lt (hcs.2.2.mp (by omega))
      obtain ⟨h1, h2⟩ := absoluteSub_spec hvy hvx hmag h
      refine ⟨h1, ?_⟩
      rw [h2]
      unfold toInt
      rw [← hs]
      cases hxs : x.sign <;> simp <;> ring
  · rw [if_pos (by simp [hs])] at h
    obtain ⟨h1, h2⟩ := absoluteAdd_spec hvx hvy h
    refine ⟨h1, ?_⟩
    rw [h2]
    unfold toInt
    cases hxs : x.sign <;> cases hys : y.sign <;> rw [hxs, hys] at hs <;>
      simp at hs ⊢ <;> ring

/-! ## Truncation (asIntN / asUintN) -/
theorem trimList_length_le (l : List ℤ) : (trimList l).length ≤ l.length := by
  induction l with
  | nil => simp [trimList]
  | cons d ds ih =>
    rw [trimList]
    cases he : trimList ds with
    | nil =>
      split
      · split <;> simp
      · rename_i heq2
        exact absurd heq2 (by simp)
    | cons e es =>
      rw [he] at ih
      simp at ih ⊢
      omega

theorem trim_length_le (x : JSBI) : (trim x).digits.length ≤ x.digits.length := by
  rw [trim_digits]
  exact trimList_length_le _

theorem segVal_one (x : JSBI) (i : ℕ) : segVal x i 1 = x.dig i := by
  have := segVal_snoc x i 0
  simpa [segVal_zero] using this

theorem segVal_of_len_le {x : JSBI} {i : ℕ} (k : ℕ) (h : x.digits.length ≤ i) :
    segVal x i k = 0 := by
  induction k generalizing i with
  | zero => rfl
  | succ k ih =>
    rw [segVal_succ, dig_of_ge (by omega), ih (by omega)]
    ring

theorem segVal_eq_zero_of_digs {x : JSBI} {i k : ℕ}
    (h : ∀ j, i ≤ j → j < i + k → x.dig j = 0) : segVal x i k = 0 := by
  induction k generalizing i with
  | zero => rfl
  | succ k ih =>
    rw [segVal_succ, h i (by omega) (by omega),
      ih (fun j h1 h2 => h j (by omega) (by omega))]
    ring

theorem segVal_pos_of_dig_pos {x : JSBI} {i k j : ℕ}
    (hg : ∀ t, i ≤ t → t < i + k → goodDigit (x.dig t))
    (hij : i ≤ j) (hjk : j < i + k) (hd : x.dig j ≠ 0) : 0 < segVal x i k := by
  induction k generalizing i with
  | zero => omega
  | succ k ih =>
    rw [segVal_succ]
    have h0 := (hg i (by omega) (by omega)).1
    have hrst : 0 ≤ segVal x (i + 1) k :=
      segVal_nonneg _ _ (fun t h1 h2 => (hg t (by omega) (by omega)).1)
    rcases Nat.eq_or_lt_of_le hij with heq | hlt
    · subst heq
      have hjp : 0 < x.dig i := by
        have h2 := (hg i (by omega) (by omega)).1
        omega
      nlinarith
    · have hip : 0 < segVal x (i + 1) k :=
        ih (fun t h1 h2 => hg t (by omega) (by omega)) (by omega) (by omega)
      nlinarith

theorem sign_false_of_nonneg {x : JSBI} (hv : Valid x) (h : 0 ≤ toInt x) :
    x.sign = false := by
  by_contra hc
  have hs : x.sign = true := by
    cases hxs : x.sign
    · exact absurd hxs hc
    · rfl
  have hne : x.digits ≠ [] := by
    intro he
    have := hv.2.2 he
    rw [this] at hs
    exact Bool.false_ne_true hs
  have hpos := magD_pos hv.1 hne hv.2.1
  unfold toInt at h
  rw [hs] at h
  simp at h
  omega

/-- The modular splitting of a base-`B` value: `(A + B*c) % (B*M) = A + B*(c % M)`
for `0 ≤ A < B`, `0 < M`. -/
theorem base_mod_split {A B c M : ℤ} (hB : 0 < B) (hM : 0 < M)
    (hA0 : 0 ≤ A) (hA : A < B) :
    (A + B * c) % (B * M) = A + B * (c % M) := by
  have hc := Int.ediv_add_emod c M
  have hsplit : A + B * c = A + B * (c % M) + B * M * (c / M) := by
    linear_combination (-B) * hc
  rw [hsplit, Int.add_mul_emod_self_left]
  apply Int.emod_eq_of_lt
  · have := Int.emod_nonneg c (by omega : M ≠ 0)
    nlinarith
  · have h1 : c % M < M := Int.emod_lt_of_pos c hM
    have h2 : 0 ≤ c % M := Int.emod_nonneg c (by omega)
    nlinarith



/-- Single-bit mask: `z & 2^k` extracts bit `k` (as a value). -/
theorem jsAnd_pow {z : ℤ} (k : ℕ) (hk : k ≤ 30) (h0 : 0 ≤ z) (h32 : z < 4294967296) :
    jsAnd z (2 ^ k) = 2 ^ k * ((z / 2 ^ k) % 2) := by
  unfold jsAnd
  have hle : (2:ℤ) ^ k ≤ 2 ^ 30 := pow_le_pow_right₀ (by norm_num) hk
  have hzk : (2:ℤ) ^ k < 4294967296 := by norm_num at hle ⊢; omega
  have hz : (jsU z : ℤ) = z := jsU_eq h0 h32
  have hpn : jsU ((2:ℤ) ^ k) = 2 ^ k := by
    have hp : (jsU ((2:ℤ) ^ k) : ℤ) = 2 ^ k := jsU_eq (by positivity) hzk
    exact_mod_cast hp
  rw [hpn, Nat.and_two_pow]
  have hcast2 : ((2 ^ k : ℕ) : ℤ) = 2 ^ k := by push_cast; ring
  have hdiv : ((jsU z / 2 ^ k : ℕ) : ℤ) = z / 2 ^ k := by
    rw [Int.ofNat_ediv, hcast2, hz]
  have hmod : ((jsU z / 2 ^ k % 2 : ℕ) : ℤ) = z / 2 ^ k % 2 := by
    rw [Int.ofNat_emod, hdiv]
    norm_num
  rw [Nat.testBit_to_div_mod]
  rcases Nat.mod_two_eq_zero_or_one (jsU z / 2 ^ k) with he | he <;> rw [he]
  · have h2 : z / 2 ^ k % 2 = 0 := by rw [← hmod, he]; rfl
    rw [h2]
    simp [toInt32, toUint32]
  · have h2 : z / 2 ^ k % 2 = 1 := by rw [← hmod, he]; rfl
    rw [h2]
    norm_num
    exact toInt32_eq (by positivity) (by norm_num at hle ⊢; omega)

/-- The `(x << (32-m)) >>> (32-m)` idiom keeps the low `m` bits. -/
theorem shl_shr_mask {z : ℤ} (m : ℕ) (hm1 : 1 ≤ m) (hm2 : m ≤ 31) :
    jsShrU (jsShl z ((32 - m : ℕ) : ℤ)) ((32 - m : ℕ) : ℤ) = z % 2 ^ m := by
  set d : ℕ := 32 - m with hd
  have hd0 : (0:ℤ) ≤ (d:ℕ) := by positivity
  have hd32 : ((d:ℕ):ℤ) < 32 := by
    have : d ≤ 31 := by omega
    exact_mod_cast Nat.lt_of_le_of_lt this (by norm_num)
  rw [jsShl_eq z d hd0 hd32, jsShrU_eq _ d hd0 hd32]
  have htn : ((d:ℕ):ℤ).toNat = d := Int.toNat_natCast d
  rw [htn]
  have h1 : toInt32 (z * 2 ^ d) % 4294967296 = z * 2 ^ d % 4294967296 := by
    have h2 := toInt32_emod (z * 2 ^ d) (le_refl 32)
    norm_num at h2
    exact h2
  rw [h1]
  have hdm : d + m = 32 := by omega
  have hsplit : (4294967296:ℤ) = 2 ^ d * 2 ^ m := by
    rw [← pow_add, hdm]
    norm_num
  rw [hsplit, mul_comm z (2 ^ d), Int.mul_emod_mul_of_pos _ _ (by positivity),
    Int.mul_ediv_cancel_left _ (by positivity)]

/-- `__copy`-style digit copy loop of `__truncateToNBits`. -/
theorem copyDigitsLoop_spec (x : JSBI) (hx : ∀ j, goodDigit (x.dig j)) :
    ∀ (k i : ℕ) (result res : JSBI),
    i + k ≤ result.digits.length →
    copyDigitsLoop x k i result = res →
    res.sign = result.sign ∧
    res.digits.length = result.digits.length ∧
    (∀ j, j < i ∨ i + k ≤ j → res.dig j = result.dig j) ∧
    (∀ j, i ≤ j → j < i + k → res.dig j = x.dig j) := by
  intro k
  induction k with
  | zero =>
    intro i result res hlen heq
    unfold copyDigitsLoop at heq
    subst heq
    exact ⟨rfl, rfl, fun j _ => rfl, fun j hj1 hj2 => absurd hj2 (by omega)⟩
  | succ k ih =>
    intro i result res hlen heq
    simp only [copyDigitsLoop] at heq
    set result' := result.setDig i (x.dig i) with hres'
    have hlen' : (i + 1) + k ≤ result'.digits.length := by
      rw [hres', setDig_length _ (by omega)]
      omega
    have hstep := ih (i + 1) result' res hlen' heq
    obtain ⟨s1, s2, s3, s4⟩ := hstep
    have hxi := hx i
    have hdig_i : res.dig i = x.dig i := by
      rw [s3 i (by omega), hres', dig_setDig_self,
        toInt32_eq hxi.1 (by have := hxi.2; omega)]
    refine ⟨by rw [s1, hres', setDig_sign],
      by rw [s2, hres', setDig_length _ (by omega)], ?_, ?_⟩
    · intro j hj
      rw [s3 j (by omega), hres', dig_setDig_ne (by omega)]
    · intro j hj1 hj2
      rcases eq_or_lt_of_le hj1 with hj | hj
      · rw [← hj, hdig_i]
      · exact s4 j (by omega) (by omega)

/-- First loop of `__truncateAndSubFromPowerOfTwo`: digit-wise negation of
`x` with borrow. -/
theorem truncSubLoop1_spec (x : JSBI) (hx : ∀ j, goodDigit (x.dig j)) :
    ∀ (k i : ℕ) (borrow : ℤ) (result res : JSBI) (i2 : ℕ) (c : ℤ),
    0 ≤ borrow → borrow ≤ 1 → i + k ≤ result.digits.length →
    truncSubLoop1 x k i borrow result = (res, i2, c) →
    res.sign = result.sign ∧
    res.digits.length = result.digits.length ∧
    i2 = i + k ∧
    (∀ j, j < i ∨ i + k ≤ j → res.dig j = result.dig j) ∧
    (∀ j, i ≤ j → j < i + k → goodDigit (res.dig j)) ∧
    0 ≤ c ∧ c ≤ 1 ∧
    segVal res i k - 2 ^ (30 * k) * c = 0 - segVal x i k - borrow := by
  intro k
  induction k with
  | zero =>
    intro i borrow result res i2 c h0 h1 hlen heq
    unfold truncSubLoop1 at heq
    injection heq with he1 he2
    injection he2 with he2 he3
    subst he1; subst he2; subst he3
    refine ⟨rfl, rfl, by omega, fun j _ => rfl,
      fun j hj1 hj2 => absurd hj2 (by omega), h0, h1, ?_⟩
    simp [segVal_zero]
  | succ k ih =>
    intro i borrow result res i2 c h0 h1 hlen heq
    simp only [truncSubLoop1] at heq
    set r := 0 - x.dig i - borrow with hr
    have hxd := hx i
    unfold goodDigit at hxd
    have hrb : -(2 ^ 30) ≤ r ∧ r < 2 ^ 30 := by constructor <;> omega
    have hbor : jsAnd (jsShrU r 30) 1 = if r < 0 then 1 else 0 :=
      borrow_bit hrb.1 hrb.2
    have hand : jsAnd r 1073741823 = r % 2 ^ 30 := jsAnd_mask30 r
    have hstore : toInt32 (r % 2 ^ 30) = r % 2 ^ 30 :=
      toInt32_eq (Int.emod_nonneg _ (by norm_num)) (by
        have := Int.emod_lt_of_pos r (show (0:ℤ) < 2 ^ 30 by norm_num)
        omega)
    have hcb : 0 ≤ (if r < 0 then (1:ℤ) else 0) ∧ (if r < 0 then (1:ℤ) else 0) ≤ 1 := by
      split <;> omega
    set result' := result.setDig i (jsAnd r 1073741823) with hres'
    have hlen' : (i + 1) + k ≤ result'.digits.length := by
      rw [hres', setDig_length _ (by omega)]
      omega
    rw [hbor] at heq
    have hstep := ih (i + 1) (if r < 0 then 1 else 0) result' res i2 c
      hcb.1 hcb.2 hlen' heq
    obtain ⟨s1, s2, s3, s4, s5, s6, s7, s8⟩ := hstep
    have hdig_i : res.dig i = r % 2 ^ 30 := by
      rw [s4 i (by omega), hres', dig_setDig_self, hand, hstore]
    refine ⟨by rw [s1, hres', setDig_sign],
      by rw [s2, hres', setDig_length _ (by omega)], by omega, ?_, ?_, s6, s7, ?_⟩
    · intro j hj
      rw [s4 j (by omega), hres', dig_setDig_ne (by omega)]
    · intro j hj1 hj2
      rcases eq_or_lt_of_le hj1 with hj | hj
      · rw [← hj, hdig_i]
        exact ⟨Int.emod_nonneg _ (by norm_num), Int.emod_lt_of_pos _ (by norm_num)⟩
      · exact s5 j (by omega) (by omega)
    · rw [segVal_succ res, segVal_succ x, hdig_i, two_pow_30succ]
      have hkey : r % 2 ^ 30 = r + 2 ^ 30 * (if r < 0 then 1 else 0) := by
        split <;> rename_i hc <;> omega
      rw [hkey]
      linarith [s8]

/-- Second loop of `__truncateAndSubFromPowerOfTwo`: propagate the borrow
through implicit zero digits. -/
theorem truncSubLoop2_spec :
    ∀ (k i : ℕ) (borrow : ℤ) (result res : JSBI),
    0 ≤ borrow → borrow ≤ 1 → i + k ≤ result.digits.length →
    truncSubLoop2 borrow k i result = res →
    res.sign = result.sign ∧
    res.digits.length = result.digits.length ∧
    (∀ j, j < i ∨ i + k ≤ j → res.dig j = result.dig j) ∧
    (∀ j, i ≤ j → j < i + k → goodDigit (res.dig j)) ∧
    segVal res i k - 2 ^ (30 * k) * borrow = 0 - borrow := by
  intro k
  induction k with
  | zero =>
    intro i borrow result res h0 h1 hlen heq
    unfold truncSubLoop2 at heq
    subst heq
    refine ⟨rfl, rfl, fun j _ => rfl, fun j hj1 hj2 => absurd hj2 (by omega), ?_⟩
    simp [segVal_zero]
  | succ k ih =>
    intro i borrow result res h0 h1 hlen heq
    simp only [truncSubLoop2] at heq
    have hand : jsAnd (0 - borrow) 1073741823 = (0 - borrow) % 2 ^ 30 :=
      jsAnd_mask30 _
    have hstore : toInt32 ((0 - borrow) % 2 ^ 30) = (0 - borrow) % 2 ^ 30 :=
      toInt32_eq (Int.emod_nonneg _ (by norm_num)) (by
        have := Int.emod_lt_of_pos (0 - borrow) (show (0:ℤ) < 2 ^ 30 by norm_num)
        omega)
    set result' := result.setDig i (jsAnd (0 - borrow) 1073741823) with hres'
    have hlen' : (i + 1) + k ≤ result'.digits.length := by
      rw [hres', setDig_length _ (by omega)]
      omega
    have hstep := ih (i + 1) borrow result' res h0 h1 hlen' heq
    obtain ⟨s1, s2, s3, s4, s5⟩ := hstep
    have hdig_i : res.dig i = (0 - borrow) % 2 ^ 30 := by
      rw [s3 i (by omega), hres', dig_setDig_self, hand, hstore]
    refine ⟨by rw [s1, hres', setDig_sign],
      by rw [s2, hres', setDig_length _ (by omega)], ?_, ?_, ?_⟩
    · intro j hj
      rw [s3 j (by omega), hres', dig_setDig_ne (by omega)]
    · intro j hj1 hj2
      rcases eq_or_lt_of_le hj1 with hj | hj
      · rw [← hj, hdig_i]
        exact ⟨Int.emod_nonneg _ (by norm_num), Int.emod_lt_of_pos _ (by norm_num)⟩
      · exact s4 j (by omega) (by omega)
    · rw [segVal_succ res, hdig_i, two_pow_30succ]
      have hkey : (0 - borrow) % 2 ^ 30 = 0 - borrow + 2 ^ 30 * borrow := by
        omega
      rw [hkey]
      linarith [s5]



/-- Value and validity of `__truncateToNBits(n, x)`: keeps the low `n` bits
of the magnitude, preserving the sign. -/
theorem truncateToNBits_spec {n : ℕ} {x : JSBI} {r : JSBI} (hv : Valid x)
    (hn : 0 < n) (h : truncateToNBits n x = .ok r) :
    Valid r ∧ toInt r = (if x.sign then -1 else 1) * (magD x.digits % 2 ^ n) ∧
    r.digits.length ≤ (n + 29) / 30 ∧ (n + 29) / 30 ≤ kMaxLength := by
  simp only [truncateToNBits] at h
  set L := (n + 29) / 30 with hL
  have hL1 : 1 ≤ L := by rw [hL]; omega
  cases hres : newJSBI L x.sign with
  | error e =>
    rw [hres] at h
    simp only [Except.bind, bind] at h
    exact Except.noConfusion h
  | ok result0 =>
    rw [hres] at h
    simp only [Except.bind, bind] at h
    obtain ⟨hr0, hrlen⟩ := newJSBI_ok hres
    have hr0len : result0.digits.length = L := by rw [hr0]; simp
    have gx := valid_dig_good hv
    set res1 := copyDigitsLoop x (L - 1) 0 result0 with hres1
    obtain ⟨c1, c2, c3, c4⟩ :=
      copyDigitsLoop_spec x gx (L - 1) 0 result0 res1 (by omega) hres1.symm
    set m := if n % 30 ≠ 0 then n % 30 else 30 with hm
    have hm1 : 1 ≤ m := by rw [hm]; split <;> omega
    have hm30 : m ≤ 30 := by rw [hm]; split <;> omega
    have hnm : n = 30 * (L - 1) + m := by rw [hm, hL]; split <;> omega
    set d := x.dig (L - 1) with hd
    have hgd := gx (L - 1)
    have hmsd1 : (if n % 30 ≠ 0 then
        jsShrU (jsShl d ((32 - n % 30 : ℕ) : ℤ)) ((32 - n % 30 : ℕ) : ℤ)
      else d) = d % 2 ^ m := by
      by_cases hc : n % 30 ≠ 0
      · rw [if_pos hc, hm, if_pos hc]
        exact shl_shr_mask (n % 30) (by omega) (by omega)
      · rw [if_neg hc, hm, if_neg hc]
        rw [Int.emod_eq_of_lt hgd.1 hgd.2]
    rw [hmsd1] at h
    set res2 := res1.setDig (L - 1) (d % 2 ^ m) with hres2
    injection h with h1
    have hres2len : res2.digits.length = L := by
      rw [hres2, setDig_length _ (by omega)]
      omega
    have hdig2 : res2.dig (L - 1) = d % 2 ^ m := by
      rw [hres2, dig_setDig_self]
      exact toInt32_eq (Int.emod_nonneg _ (by positivity)) (by
        have h2 : d % 2 ^ m < 2 ^ m := Int.emod_lt_of_pos _ (by positivity)
        have h3 : (2:ℤ) ^ m ≤ 2 ^ 30 := pow_le_pow_right₀ (by norm_num) hm30
        norm_num at h3 ⊢
        omega)
    have hdig2lo : ∀ j, j < L - 1 → res2.dig j = x.dig j := by
      intro j hj
      rw [hres2, dig_setDig_ne (by omega)]
      exact c4 j (by omega) (by omega)
    have hgood2 : ∀ j, j < L → goodDigit (res2.dig j) := by
      intro j hj
      rcases lt_or_ge j (L - 1) with hjl | hjl
      · rw [hdig2lo j hjl]
        exact gx j
      · have hj : j = L - 1 := by omega
        rw [hj, hdig2]
        constructor
        · exact Int.emod_nonneg _ (by positivity)
        · have h2 : d % 2 ^ m < 2 ^ m := Int.emod_lt_of_pos _ (by positivity)
          have h3 : (2:ℤ) ^ m ≤ 2 ^ 30 := pow_le_pow_right₀ (by norm_num) hm30
          norm_num at h3 ⊢
          omega
    -- the value of the truncated magnitude
    set K := x.digits.length + L with hK
    set A := segVal x 0 (L - 1) with hA
    set T := segVal x (L - 1) (K - (L - 1)) with hT
    have hmagx : magD x.digits = A + 2 ^ (30 * (L - 1)) * T := by
      rw [magD_eq_segVal x (show x.digits.length ≤ K by omega)]
      have h2 := segVal_split x 0 (L - 1) (K - (L - 1))
      rw [show L - 1 + (K - (L - 1)) = K by omega] at h2
      rw [h2]
      simp
    set H := segVal x L (K - L) with hH
    have hTd : T = d + 2 ^ 30 * H := by
      rw [hT, show K - (L - 1) = (K - L) + 1 by omega, segVal_succ,
        show L - 1 + 1 = L by omega]
    have hTmod : T % 2 ^ m = d % 2 ^ m := by
      rw [hTd, show (2:ℤ) ^ 30 = 2 ^ m * 2 ^ (30 - m) by
        rw [← pow_add]; congr 1; omega]
      rw [mul_assoc, Int.add_mul_emod_self_left]
    have hAlt : A < 2 ^ (30 * (L - 1)) := segVal_lt 0 _ (fun j h1 h2 => gx j)
    have hA0 : 0 ≤ A := segVal_nonneg 0 _ (fun j h1 h2 => (gx j).1)
    have hmodsplit : magD x.digits % 2 ^ n = A + 2 ^ (30 * (L - 1)) * (d % 2 ^ m) := by
      rw [hmagx, hnm, pow_add, base_mod_split (by positivity) (by positivity) hA0 hAlt,
        hTmod]
    have hmag2 : magD res2.digits = A + 2 ^ (30 * (L - 1)) * (d % 2 ^ m) := by
      rw [magD_eq_segVal res2 (le_of_eq hres2len),
        show L = (L - 1) + 1 by omega, segVal_snoc]
      have hcongr : segVal res2 0 (L - 1) = segVal x 0 (L - 1) :=
        segVal_congr (fun j h1 h2 => hdig2lo j (by omega))
      rw [hcongr]
      simp only [Nat.zero_add]
      rw [hdig2]
      simp only [hA, Nat.add_sub_cancel]
    have hsign2 : res2.sign = x.sign := by
      rw [hres2, setDig_sign, c1, hr0]
    subst h1
    refine ⟨valid_trim2 (mem_good_of_dig_good (fun j hj => hgood2 j (by omega))), ?_, ?_⟩
    · rw [toInt_trim]
      unfold toInt
      rw [hsign2, hmag2, hmodsplit]
    · refine ⟨?_, hrlen⟩
      calc (trim res2).digits.length ≤ res2.digits.length := trim_length_le _
        _ ≤ L := le_of_eq hres2len



/-- Value and validity of `__truncateAndSubFromPowerOfTwo(n, x, s)`: the
result magnitude is `(-magD x) mod 2^n` under the requested sign. -/
theorem truncateAndSubFromPowerOfTwo_spec {n : ℕ} {x : JSBI} {s : Bool} {r : JSBI}
    (hv : Valid x) (hn : 0 < n) (h : truncateAndSubFromPowerOfTwo n x s = .ok r) :
    Valid r ∧ toInt r = (if s then -1 else 1) * ((0 - magD x.digits) % 2 ^ n) ∧
    r.digits.length ≤ (n + 29) / 30 ∧ (n + 29) / 30 ≤ kMaxLength := by
  simp only [truncateAndSubFromPowerOfTwo] at h
  set L := (n + 29) / 30 with hL
  have hL1 : 1 ≤ L := by rw [hL]; omega
  cases hres : newJSBI L s with
  | error e =>
    rw [hres] at h
    simp only [Except.bind, bind] at h
    exact Except.noConfusion h
  | ok result0 =>
    rw [hres] at h
    simp only [Except.bind, bind] at h
    obtain ⟨hr0, hrlen⟩ := newJSBI_ok hres
    have hr0len : result0.digits.length = L := by rw [hr0]; simp
    have gx := valid_dig_good hv
    set lim := min (L - 1) x.digits.length with hlim
    have hlimle : lim ≤ L - 1 := min_le_left _ _
    obtain ⟨r1, i1, b1, hl1⟩ : ∃ a b c, truncSubLoop1 x lim 0 0 result0 = (a, b, c) :=
      ⟨_, _, _, rfl⟩
    rw [hl1] at h
    dsimp only at h
    obtain ⟨s1, s2, s3, s4, s5, s6, s7, s8⟩ :=
      truncSubLoop1_spec x gx lim 0 0 result0 r1 i1 b1
        (le_refl 0) (by norm_num) (by omega) hl1
    have hi1 : i1 = lim := by omega
    subst hi1
    set r2 := truncSubLoop2 b1 (L - 1 - lim) lim r1 with hr2
    obtain ⟨t1, t2, t3, t4, t5⟩ :=
      truncSubLoop2_spec (L - 1 - lim) lim b1 r1 r2 s6 s7 (by omega) hr2.symm
    clear_value r2
    have hmsd : (if L - 1 < x.digits.length then x.dig (L - 1) else 0) = x.dig (L - 1) := by
      split
      · rfl
      · rw [dig_of_ge (by omega)]
    rw [hmsd] at h
    set d := x.dig (L - 1) with hd
    have hgd := gx (L - 1)
    set m := if n % 30 = 0 then 30 else n % 30 with hm
    have hm1 : 1 ≤ m := by rw [hm]; split <;> omega
    have hm30 : m ≤ 30 := by rw [hm]; split <;> omega
    have hnm : n = 30 * (L - 1) + m := by rw [hm, hL]; split <;> omega
    have hmsdval : (if n % 30 = 0 then jsAnd (0 - d - b1) 1073741823
        else
          jsAnd (jsShl 1 ((32 - (32 - n % 30) : ℕ) : ℤ) -
              jsShrU (jsShl d ((32 - n % 30 : ℕ) : ℤ)) ((32 - n % 30 : ℕ) : ℤ) - b1)
            (jsShl 1 ((32 - (32 - n % 30) : ℕ) : ℤ) - 1)) =
        (0 - d - b1) % 2 ^ m := by
      by_cases hc : n % 30 = 0
      · rw [if_pos hc, hm, if_pos hc]
        exact jsAnd_mask30 _
      · rw [if_neg hc, hm, if_neg hc]
        have hmr : 1 ≤ n % 30 ∧ n % 30 ≤ 29 := by omega
        have h32 : (32 - (32 - n % 30) : ℕ) = n % 30 := by omega
        rw [h32]
        have hshl1 : jsShl 1 ((n % 30 : ℕ) : ℤ) = 2 ^ (n % 30) := by
          rw [jsShl_eq 1 _ (by positivity) (by exact_mod_cast (by omega : n % 30 < 32))]
          rw [Int.toNat_natCast, one_mul]
          exact toInt32_eq (by positivity) (by
            have : (2:ℤ) ^ (n % 30) ≤ 2 ^ 29 := pow_le_pow_right₀ (by norm_num) (by omega)
            norm_num at this ⊢
            omega)
        rw [hshl1, shl_shr_mask (n % 30) (by omega) (by omega),
          jsAnd_mask _ (n % 30) (by omega)]
        have hediv2 := Int.ediv_add_emod d (2 ^ (n % 30))
        rw [show (2:ℤ) ^ (n % 30) - d % 2 ^ (n % 30) - b1 =
            (0 - d - b1) + 2 ^ (n % 30) * (1 + d / 2 ^ (n % 30)) from by
          linear_combination -hediv2]
        rw [Int.add_mul_emod_self_left]
    rw [hmsdval] at h
    set W := (0 - d - b1) % 2 ^ m with hW
    have hW0 : 0 ≤ W := Int.emod_nonneg _ (by positivity)
    have hWlt : W < 2 ^ m := Int.emod_lt_of_pos _ (by positivity)
    have hWlt30 : W < 2 ^ 30 := by
      have h3 : (2:ℤ) ^ m ≤ 2 ^ 30 := pow_le_pow_right₀ (by norm_num) hm30
      omega
    set res3 := r2.setDig (L - 1) W with hres3
    clear_value res3
    injection h with h1
    have hres3len : res3.digits.length = L := by
      rw [hres3, setDig_length _ (by omega)]
      omega
    have hdig3 : res3.dig (L - 1) = W := by
      rw [hres3, dig_setDig_self]
      exact toInt32_eq hW0 (by norm_num at hWlt30 ⊢; omega)
    have hgood3 : ∀ j, j < L → goodDigit (res3.dig j) := by
      intro j hj
      rcases lt_or_ge j (L - 1) with hjl | hjl
      · rw [hres3, dig_setDig_ne (by omega)]
        rcases lt_or_ge j lim with hjm | hjm
        · rw [t3 j (Or.inl (by omega))]
          exact s5 j (by omega) (by omega)
        · exact t4 j (by omega) (by omega)
      · have hj2 : j = L - 1 := by omega
        rw [hj2, hdig3]
        exact ⟨hW0, hWlt30⟩
    -- value bookkeeping
    have hpowsum : (2:ℤ) ^ (30 * lim) * 2 ^ (30 * (L - 1 - lim)) =
        2 ^ (30 * (L - 1)) := by
      rw [← pow_add]
      congr 1
      omega
    have hxlim : segVal x 0 (L - 1) = segVal x 0 lim := by
      rcases le_or_lt (L - 1) x.digits.length with hc | hc
      · rw [hlim, min_eq_left hc]
      · have hlim2 : lim = x.digits.length := by
          rw [hlim]
          exact min_eq_right (le_of_lt hc)
        have h2 := segVal_split x 0 lim (L - 1 - lim)
        rw [show lim + (L - 1 - lim) = L - 1 by omega] at h2
        rw [h2]
        simp only [Nat.zero_add]
        rw [segVal_of_len_le _ (le_of_eq hlim2.symm)]
        simp
    have hseg2 : segVal r2 0 (L - 1) = 2 ^ (30 * (L - 1)) * b1 - segVal x 0 (L - 1) := by
      have hsp := segVal_split r2 0 lim (L - 1 - lim)
      rw [show lim + (L - 1 - lim) = L - 1 by omega] at hsp
      have hcongr : segVal r2 0 lim = segVal r1 0 lim :=
        segVal_congr (fun j h1 h2 => t3 j (Or.inl (by omega)))
      rw [hsp, hcongr, hxlim]
      simp only [Nat.zero_add] at s8 t5 ⊢
      linear_combination s8 + 2 ^ (30 * lim) * t5 + b1 * hpowsum
    have hmag3 : magD res3.digits =
        2 ^ (30 * (L - 1)) * b1 - segVal x 0 (L - 1) + 2 ^ (30 * (L - 1)) * W := by
      rw [magD_eq_segVal res3 (le_of_eq hres3len),
        show L = (L - 1) + 1 by omega, segVal_snoc]
      simp only [Nat.add_sub_cancel, Nat.zero_add]
      have hcongr : segVal res3 0 (L - 1) = segVal r2 0 (L - 1) :=
        segVal_congr (fun j h1 h2 => by rw [hres3, dig_setDig_ne (by omega)])
      rw [hcongr, hseg2, hdig3]
    -- magnitude decomposition of x
    set K := x.digits.length + L with hK
    set A := segVal x 0 (L - 1) with hA
    set T := segVal x (L - 1) (K - (L - 1)) with hT
    have hmagx : magD x.digits = A + 2 ^ (30 * (L - 1)) * T := by
      rw [magD_eq_segVal x (show x.digits.length ≤ K by omega)]
      have h2 := segVal_split x 0 (L - 1) (K - (L - 1))
      rw [show L - 1 + (K - (L - 1)) = K by omega] at h2
      rw [h2]
      simp
    set H := segVal x L (K - L) with hH
    have hTd : T = d + 2 ^ 30 * H := by
      rw [hT, show K - (L - 1) = (K - L) + 1 by omega, segVal_succ,
        show L - 1 + 1 = L by omega]
    have hediv := Int.ediv_add_emod (0 - d - b1) (2 ^ m)
    set e := (0 - d - b1) / 2 ^ m with he
    have hB1m : (2:ℤ) ^ (30 * (L - 1)) * 2 ^ m = 2 ^ n := by
      rw [← pow_add]
      congr 1
      omega
    have hB130 : (2:ℤ) ^ (30 * (L - 1)) * 2 ^ 30 = 2 ^ n * 2 ^ (30 - m) := by
      rw [← pow_add, ← pow_add]
      congr 1
      omega
    have hcong : magD res3.digits + magD x.digits =
        2 ^ n * (0 - e + 2 ^ (30 - m) * H) := by
      rw [hmag3, hmagx, hTd]
      linear_combination (2 ^ (30 * (L - 1)) : ℤ) * hediv - e * hB1m + H * hB130
    have hrange : 0 ≤ magD res3.digits ∧ magD res3.digits < 2 ^ n := by
      constructor
      · rw [magD_eq_segVal res3 (le_of_eq hres3len)]
        exact segVal_nonneg 0 _ (fun j h1 h2 => (hgood3 j (by omega)).1)
      · have hseglt : segVal res3 0 (L - 1) < 2 ^ (30 * (L - 1)) :=
          segVal_lt 0 _ (fun j h1 h2 => hgood3 j (by omega))
        have hform : magD res3.digits =
            segVal res3 0 (L - 1) + 2 ^ (30 * (L - 1)) * W := by
          rw [magD_eq_segVal res3 (le_of_eq hres3len),
            show L = (L - 1) + 1 by omega, segVal_snoc]
          simp only [Nat.add_sub_cancel, Nat.zero_add]
          rw [hdig3]
        have hB1 : (0:ℤ) < 2 ^ (30 * (L - 1)) := by positivity
        rw [hform, ← hB1m]
        have hstep : (1:ℤ) + W ≤ 2 ^ m := by omega
        calc segVal res3 0 (L - 1) + 2 ^ (30 * (L - 1)) * W
            < 2 ^ (30 * (L - 1)) * (1 + W) := by linarith
          _ ≤ 2 ^ (30 * (L - 1)) * 2 ^ m :=
            mul_le_mul_of_nonneg_left hstep (le_of_lt hB1)
    have hval : magD res3.digits = (0 - magD x.digits) % 2 ^ n := by
      have h2 : (0:ℤ) - magD x.digits =
          magD res3.digits + 2 ^ n * (0 - (0 - e + 2 ^ (30 - m) * H)) := by
        linarith [hcong]
      rw [h2, Int.add_mul_emod_self_left, Int.emod_eq_of_lt hrange.1 hrange.2]
    have hsign3 : res3.sign = s := by
      rw [hres3, setDig_sign, t1, s1, hr0]
    subst h1
    refine ⟨valid_trim2 (mem_good_of_dig_good (fun j hj => hgood3 j (by omega))), ?_, ?_⟩
    · rw [toInt_trim]
      unfold toInt
      rw [hsign3, ← hval]
    · refine ⟨?_, hrlen⟩
      calc (trim res3).digits.length ≤ res3.digits.length := trim_length_le _
        _ ≤ L := le_of_eq hres3len



theorem truncateToNBits_ok {n : ℕ} (x : JSBI) (hd : (n + 29) / 30 ≤ kMaxLength) :
    ∃ r, truncateToNBits n x = .ok r := by
  simp only [truncateToNBits]
  have hok : newJSBI ((n + 29) / 30) x.sign =
      .ok ⟨x.sign, List.replicate ((n + 29) / 30) 0⟩ := by
    unfold newJSBI
    rw [if_neg (by omega)]
  rw [hok]
  simp only [Except.bind, bind]
  exact ⟨_, rfl⟩

theorem udig_eq_dig {x : JSBI} {i : ℕ} (h : goodDigit (x.dig i)) :
    x.udig i = x.dig i := by
  unfold JSBI.udig
  exact toUint32_eq h.1 (by have := h.2; norm_num at this ⊢; omega)

theorem jsShl_one {k : ℕ} (hk : k ≤ 29) : jsShl 1 ((k : ℕ) : ℤ) = 2 ^ k := by
  rw [jsShl_eq 1 _ (by positivity) (by exact_mod_cast (by omega : k < 32))]
  rw [Int.toNat_natCast, one_mul]
  exact toInt32_eq (by positivity) (by
    have : (2:ℤ) ^ k ≤ 2 ^ 29 := pow_le_pow_right₀ (by norm_num) hk
    norm_num at this ⊢
    omega)

/-- Peeling one bit off a power-of-two modulus. -/
theorem emod_two_pow_succ (a : ℤ) (k : ℕ) :
    a % 2 ^ (k + 1) = a % 2 ^ k + 2 ^ k * ((a / 2 ^ k) % 2) := by
  have h1 := Int.ediv_add_emod a (2 ^ k)
  have h2 := Int.ediv_add_emod (a / 2 ^ k) 2
  have hsplit : a = (a % 2 ^ k + 2 ^ k * (a / 2 ^ k % 2)) +
      2 ^ (k + 1) * (a / 2 ^ k / 2) := by
    rw [pow_succ]
    linear_combination -h1 - (2 ^ k : ℤ) * h2
  conv_lhs => rw [hsplit]
  rw [Int.add_mul_emod_self_left]
  apply Int.emod_eq_of_lt
  · have h3 := Int.emod_nonneg a (show (2:ℤ) ^ k ≠ 0 by positivity)
    have h4 := Int.emod_nonneg (a / 2 ^ k) (show (2:ℤ) ≠ 0 by norm_num)
    positivity
  · have h3 := Int.emod_lt_of_pos a (show (0:ℤ) < 2 ^ k by positivity)
    have h4 := Int.emod_lt_of_pos (a / 2 ^ k) (show (0:ℤ) < 2 by norm_num)
    have h5 : (2:ℤ) ^ (k + 1) = 2 ^ k * 2 := by rw [pow_succ]
    have h6 : a / 2 ^ k % 2 ≤ 1 := by omega
    have h7 : (2:ℤ) ^ k * (a / 2 ^ k % 2) ≤ 2 ^ k * 1 :=
      mul_le_mul_of_nonneg_left h6 (by positivity)
    linarith [h3, h7]

/-- The low-`n`-bit slice of the magnitude, digit form. -/
theorem magD_emod_pow {x : JSBI} (hg : ∀ j, goodDigit (x.dig j)) {n : ℕ} (hn : 0 < n) :
    magD x.digits % 2 ^ n =
    segVal x 0 ((n + 29) / 30 - 1) +
      2 ^ (30 * ((n + 29) / 30 - 1)) *
        (x.dig ((n + 29) / 30 - 1) % 2 ^ (n - 30 * ((n + 29) / 30 - 1))) := by
  set L := (n + 29) / 30 with hL
  have hL1 : 1 ≤ L := by rw [hL]; omega
  set m := n - 30 * (L - 1) with hm
  have hm1 : 1 ≤ m := by rw [hm, hL]; omega
  have hm30 : m ≤ 30 := by rw [hm, hL]; omega
  have hnm : n = 30 * (L - 1) + m := by rw [hm, hL]; omega
  set d := x.dig (L - 1) with hd
  set K := x.digits.length + L with hK
  set A := segVal x 0 (L - 1) with hA
  set T := segVal x (L - 1) (K - (L - 1)) with hT
  have hmagx : magD x.digits = A + 2 ^ (30 * (L - 1)) * T := by
    rw [magD_eq_segVal x (show x.digits.length ≤ K by omega)]
    have h2 := segVal_split x 0 (L - 1) (K - (L - 1))
    rw [show L - 1 + (K - (L - 1)) = K by omega] at h2
    rw [h2]
    simp
  set H := segVal x L (K - L) with hH
  have hTd : T = d + 2 ^ 30 * H := by
    rw [hT, show K - (L - 1) = (K - L) + 1 by omega, segVal_succ,
      show L - 1 + 1 = L by omega]
  have hTmod : T % 2 ^ m = d % 2 ^ m := by
    rw [hTd, show (2:ℤ) ^ 30 = 2 ^ m * 2 ^ (30 - m) by
      rw [← pow_add]; congr 1; omega]
    rw [mul_assoc, Int.add_mul_emod_self_left]
  have hAlt : A < 2 ^ (30 * (L - 1)) := segVal_lt 0 _ (fun j h1 h2 => hg j)
  have hA0 : 0 ≤ A := segVal_nonneg 0 _ (fun j h1 h2 => (hg j).1)
  rw [hmagx, hnm, pow_add, base_mod_split (by positivity) (by positivity) hA0 hAlt,
    hTmod]



theorem kml_val : kMaxLength = 33554432 := rfl

theorem kmlb_val : kMaxLengthBits = 1073741824 := rfl

/-- Value and validity of `asUintN(n, x)`: the result is `toInt x mod 2^n`. -/
theorem asUintN_spec {n : ℕ} {x : JSBI} {r : JSBI} (hv : Valid x)
    (hlen : x.digits.length ≤ kMaxLength) (h : asUintN n x = .ok r) :
    Valid r ∧ toInt r = toInt x % 2 ^ n ∧ r.digits.length ≤ kMaxLength := by
  have gx := valid_dig_good hv
  simp only [asUintN] at h
  by_cases hx0 : x.digits.length = 0
  · rw [if_pos hx0] at h
    injection h with h1
    subst h1
    have hxd : x.digits = [] := List.length_eq_zero.mp hx0
    have h0 : toInt x = 0 := by
      unfold toInt
      rw [hxd]
      simp [magD]
    refine ⟨hv, ?_, hlen⟩
    rw [h0]
    simp
  · rw [if_neg hx0] at h
    by_cases hn0 : n = 0
    · rw [if_pos hn0] at h
      injection h with h1
      subst h1
      refine ⟨by decide, ?_, by decide⟩
      rw [hn0]
      simp [toInt, zeroJ, magD]
    · rw [if_neg hn0] at h
      have hn : 0 < n := by omega
      by_cases hxs : x.sign = true
      · rw [if_pos hxs] at h
        by_cases hnb : n > kMaxLengthBits
        · rw [if_pos hnb] at h
          exact Except.noConfusion h
        · rw [if_neg hnb] at h
          obtain ⟨hvr, hval, hlen2⟩ := truncateAndSubFromPowerOfTwo_spec hv hn h
          refine ⟨hvr, ?_, by omega⟩
          rw [hval]
          unfold toInt
          rw [hxs]
          simp
      · have hxsf : x.sign = false := by
          cases hc : x.sign
          · rfl
          · exact absurd hc hxs
        rw [if_neg hxs] at h
        have htoint : toInt x = magD x.digits := by
          unfold toInt
          rw [hxsf]
          simp
        by_cases hnmax : n ≥ kMaxLengthBits
        · rw [if_pos hnmax] at h
          injection h with h1
          subst h1
          refine ⟨hv, ?_, hlen⟩
          have h0 : 0 ≤ toInt x := by
            rw [htoint]
            exact magD_nonneg (fun d hd => (hv.1 d hd).1)
          have hlt : toInt x < 2 ^ n := by
            rw [htoint]
            have h1 : magD x.digits < 2 ^ (30 * x.digits.length) := magD_lt hv.1
            have h2 : (2:ℤ) ^ (30 * x.digits.length) ≤ 2 ^ n :=
              pow_le_pow_right₀ (by norm_num) (by
                have := kml_val
                have := kmlb_val
                omega)
            omega
          rw [Int.emod_eq_of_lt h0 hlt]
        · rw [if_neg hnmax] at h
          by_cases hxlt : x.digits.length < (n + 29) / 30
          · rw [if_pos hxlt] at h
            injection h with h1
            subst h1
            refine ⟨hv, ?_, hlen⟩
            have h0 : 0 ≤ toInt x := by
              rw [htoint]
              exact magD_nonneg (fun d hd => (hv.1 d hd).1)
            have hlt : toInt x < 2 ^ n := by
              rw [htoint]
              have h1 : magD x.digits < 2 ^ (30 * x.digits.length) := magD_lt hv.1
              have h2 : (2:ℤ) ^ (30 * x.digits.length) ≤ 2 ^ n :=
                pow_le_pow_right₀ (by norm_num) (by omega)
              omega
            rw [Int.emod_eq_of_lt h0 hlt]
          · rw [if_neg hxlt] at h
            by_cases heq : x.digits.length = (n + 29) / 30
            · rw [if_pos heq] at h
              by_cases hbit : n % 30 = 0
              · rw [if_pos hbit] at h
                injection h with h1
                subst h1
                refine ⟨hv, ?_, hlen⟩
                have h0 : 0 ≤ toInt x := by
                  rw [htoint]
                  exact magD_nonneg (fun d hd => (hv.1 d hd).1)
                have hlt : toInt x < 2 ^ n := by
                  rw [htoint]
                  have h1 : magD x.digits < 2 ^ (30 * x.digits.length) := magD_lt hv.1
                  have h2 : (2:ℤ) ^ (30 * x.digits.length) ≤ 2 ^ n :=
                    pow_le_pow_right₀ (by norm_num) (by omega)
                  omega
                rw [Int.emod_eq_of_lt h0 hlt]
              · rw [if_neg hbit] at h
                by_cases hz : jsShrU (x.dig ((n + 29) / 30 - 1)) ((n % 30 : ℕ) : ℤ) = 0
                · rw [if_pos hz] at h
                  injection h with h1
                  subst h1
                  refine ⟨hv, ?_, hlen⟩
                  have hgtd := gx ((n + 29) / 30 - 1)
                  have hshr : jsShrU (x.dig ((n + 29) / 30 - 1)) ((n % 30 : ℕ) : ℤ) =
                      x.dig ((n + 29) / 30 - 1) / 2 ^ (n % 30) := by
                    rw [jsShrU_eq _ _ (by positivity)
                      (by exact_mod_cast (by omega : n % 30 < 32))]
                    rw [Int.toNat_natCast,
                      Int.emod_eq_of_lt hgtd.1 (by have := hgtd.2; norm_num at this ⊢; omega)]
                  rw [hshr] at hz
                  have hmsd : x.dig ((n + 29) / 30 - 1) < 2 ^ (n % 30) := by
                    rcases lt_or_ge (x.dig ((n + 29) / 30 - 1)) (2 ^ (n % 30)) with hc | hc
                    · exact hc
                    · exfalso
                      have := Int.ediv_le_ediv (show (0:ℤ) < 2 ^ (n % 30) by positivity) hc
                      rw [Int.ediv_self (by positivity)] at this
                      omega
                  have h0 : 0 ≤ toInt x := by
                    rw [htoint]
                    exact magD_nonneg (fun d hd => (hv.1 d hd).1)
                  have hlt : toInt x < 2 ^ n := by
                    rw [htoint]
                    have h1 := segVal_le_of_msd_lt gx hmsd
                    rw [magD_eq_segVal x (show x.digits.length ≤ (n + 29) / 30 - 1 + 1 by omega)]
                    have h2 : 30 * ((n + 29) / 30 - 1) + n % 30 = n := by omega
                    rw [h2] at h1
                    exact h1
                  rw [Int.emod_eq_of_lt h0 hlt]
                · rw [if_neg hz] at h
                  obtain ⟨hvr, hval, hlen2⟩ := truncateToNBits_spec hv hn h
                  refine ⟨hvr, ?_, by omega⟩
                  rw [hval, htoint, hxsf]
                  simp
            · rw [if_neg heq] at h
              obtain ⟨hvr, hval, hlen2⟩ := truncateToNBits_spec hv hn h
              refine ⟨hvr, ?_, by omega⟩
              rw [hval, htoint, hxsf]
              simp

theorem asUintN_ok {n : ℕ} {x : JSBI} (hxs : x.sign = false)
    (hlen : x.digits.length ≤ kMaxLength) : ∃ r, asUintN n x = .ok r := by
  simp only [asUintN]
  by_cases hx0 : x.digits.length = 0
  · rw [if_pos hx0]
    exact ⟨_, rfl⟩
  · rw [if_neg hx0]
    by_cases hn0 : n = 0
    · rw [if_pos hn0]
      exact ⟨_, rfl⟩
    · rw [if_neg hn0, if_neg (by rw [hxs]; exact Bool.false_ne_true)]
      by_cases hnmax : n ≥ kMaxLengthBits
      · rw [if_pos hnmax]
        exact ⟨_, rfl⟩
      · rw [if_neg hnmax]
        by_cases hxlt : x.digits.length < (n + 29) / 30
        · rw [if_pos hxlt]
          exact ⟨_, rfl⟩
        · rw [if_neg hxlt]
          have hok : (n + 29) / 30 ≤ kMaxLength := by omega
          by_cases heq : x.digits.length = (n + 29) / 30
          · rw [if_pos heq]
            by_cases hbit : n % 30 = 0
            · rw [if_pos hbit]
              exact ⟨_, rfl⟩
            · rw [if_neg hbit]
              by_cases hz : jsShrU (x.dig ((n + 29) / 30 - 1)) ((n % 30 : ℕ) : ℤ) = 0
              · rw [if_pos hz]
                exact ⟨_, rfl⟩
              · rw [if_neg hz]
                exact truncateToNBits_ok x hok
          · rw [if_neg heq]
            exact truncateToNBits_ok x hok



theorem neg_emod_pow {a : ℤ} {n : ℕ} (hpos : 0 < a % 2 ^ n) :
    (0 - a) % 2 ^ n = 2 ^ n - a % 2 ^ n := by
  have h1 := Int.ediv_add_emod a (2 ^ n)
  have h2 : 0 - a = (2 ^ n - a % 2 ^ n) + 2 ^ n * (-1 - a / 2 ^ n) := by linarith
  rw [h2, Int.add_mul_emod_self_left]
  apply Int.emod_eq_of_lt
  · have := Int.emod_lt_of_pos a (show (0:ℤ) < 2 ^ n by positivity)
    omega
  · omega

/-- Range of `asIntN(n, x)`: the result is a signed `n`-bit value. -/
theorem asIntN_range {n : ℕ} {x : JSBI} {r : JSBI} (hv : Valid x)
    (hlen : x.digits.length ≤ kMaxLength) (hn : 1 ≤ n) (h : asIntN n x = .ok r) :
    -(2 ^ (n - 1)) ≤ toInt r ∧ toInt r < 2 ^ (n - 1) := by
  have gx := valid_dig_good hv
  have hmnn : 0 ≤ magD x.digits := magD_nonneg (fun d hd => (hv.1 d hd).1)
  have habs : -magD x.digits ≤ toInt x ∧ toInt x ≤ magD x.digits := by
    unfold toInt
    cases hxs : x.sign <;> simp <;> omega
  have hp1 : (0:ℤ) < 2 ^ (n - 1) := by positivity
  simp only [asIntN] at h
  by_cases hx0 : x.digits.length = 0
  · rw [if_pos hx0] at h
    injection h with h1
    subst h1
    have hxd : x.digits = [] := List.length_eq_zero.mp hx0
    have h0 : toInt x = 0 := by
      unfold toInt
      rw [hxd]
      simp [magD]
    rw [h0]
    omega
  · rw [if_neg hx0, if_neg (by omega : ¬ n = 0)] at h
    by_cases hnmax : n ≥ kMaxLengthBits
    · rw [if_pos hnmax] at h
      injection h with h1
      subst h1
      have hlt : magD x.digits < 2 ^ (n - 1) := by
        have h1 : magD x.digits < 2 ^ (30 * x.digits.length) := magD_lt hv.1
        have h2 : (2:ℤ) ^ (30 * x.digits.length) ≤ 2 ^ (n - 1) :=
          pow_le_pow_right₀ (by norm_num) (by
            have := kml_val
            have := kmlb_val
            omega)
        omega
      omega
    · rw [if_neg hnmax] at h
      set NL := (n + 29) / 30 with hNL
      have hNL1 : 1 ≤ NL := by omega
      by_cases hxlt : x.digits.length < NL
      · rw [if_pos hxlt] at h
        injection h with h1
        subst h1
        have hlt : magD x.digits < 2 ^ (n - 1) := by
          have h1 : magD x.digits < 2 ^ (30 * x.digits.length) := magD_lt hv.1
          have h2 : (2:ℤ) ^ (30 * x.digits.length) ≤ 2 ^ (n - 1) :=
            pow_le_pow_right₀ (by norm_num) (by omega)
          omega
        omega
      · rw [if_neg hxlt] at h
        have hgtd := gx (NL - 1)
        have hud : x.udig (NL - 1) = x.dig (NL - 1) := udig_eq_dig hgtd
        have hcd : jsShl 1 (((n - 1) % 30 : ℕ) : ℤ) = 2 ^ ((n - 1) % 30) :=
          jsShl_one (by omega)
        rw [hud, hcd] at h
        set d := x.dig (NL - 1) with hd
        set mp := (n - 1) % 30 with hmp
        by_cases hcmp : x.digits.length = NL ∧ d < 2 ^ mp
        · rw [if_pos hcmp] at h
          injection h with h1
          subst h1
          have hlt : magD x.digits < 2 ^ (n - 1) := by
            have h1 := segVal_le_of_msd_lt gx hcmp.2
            rw [magD_eq_segVal x (show x.digits.length ≤ (NL - 1) + 1 by omega)]
            have h2 : 30 * (NL - 1) + mp = n - 1 := by omega
            rw [h2] at h1
            exact h1
          omega
        · rw [if_neg hcmp] at h
          have hd32 : 0 ≤ d ∧ d < 4294967296 :=
            ⟨hgtd.1, by have := hgtd.2; norm_num at this ⊢; omega⟩
          have hbitval : jsAnd d (2 ^ mp) = 2 ^ mp * (d / 2 ^ mp % 2) :=
            jsAnd_pow mp (by omega) hd32.1 hd32.2
          have hT0 := magD_emod_pow gx (show 0 < n by omega)
          rw [← hNL, show n - 30 * (NL - 1) = mp + 1 by omega] at hT0
          set A := segVal x 0 (NL - 1) with hA
          set B1 := (2:ℤ) ^ (30 * (NL - 1)) with hB1
          have hA0 : 0 ≤ A := segVal_nonneg 0 _ (fun j h1 h2 => (gx j).1)
          have hAlt : A < B1 := segVal_lt 0 _ (fun j h1 h2 => gx j)
          have hB1pos : (0:ℤ) < B1 := by rw [hB1]; positivity
          have hdm : d % 2 ^ (mp + 1) = d % 2 ^ mp + 2 ^ mp * (d / 2 ^ mp % 2) :=
            emod_two_pow_succ d mp
          have hpown : B1 * 2 ^ mp = 2 ^ (n - 1) := by
            rw [hB1, ← pow_add, show 30 * (NL - 1) + mp = n - 1 from by omega]
          have hmodnn : 0 ≤ d % 2 ^ mp := Int.emod_nonneg _ (by positivity)
          have hmodlt : d % 2 ^ mp < 2 ^ mp := Int.emod_lt_of_pos _ (by positivity)
          have hBd0 : 0 ≤ B1 * (d % 2 ^ mp) := mul_nonneg (le_of_lt hB1pos) hmodnn
          have hBdle : B1 * (d % 2 ^ mp) ≤ B1 * (2 ^ mp - 1) :=
            mul_le_mul_of_nonneg_left (by omega) (le_of_lt hB1pos)
          have hT0nn : 0 ≤ magD x.digits % 2 ^ n := Int.emod_nonneg _ (by positivity)
          have hT0lt2n : magD x.digits % 2 ^ n < 2 ^ n :=
            Int.emod_lt_of_pos _ (by positivity)
          have h2n : (2:ℤ) ^ n = 2 ^ (n - 1) * 2 := by
            rw [← pow_succ, show n - 1 + 1 = n from by omega]
          by_cases hbit : jsAnd d (2 ^ mp) = 2 ^ mp
          · -- sign bit of the truncation is set
            rw [if_neg (by simp [hbit])] at h
            have hb1 : d / 2 ^ mp % 2 = 1 := by
              rcases Int.emod_two_eq_zero_or_one (d / 2 ^ mp) with he | he
              · exfalso
                rw [hbitval, he, mul_zero] at hbit
                have : (0:ℤ) < 2 ^ mp := by positivity
                omega
              · exact he
            have hT0form : magD x.digits % 2 ^ n = A + B1 * (d % 2 ^ mp) + 2 ^ (n - 1) := by
              rw [hT0, hdm, hb1, mul_one]
              linear_combination hpown
            by_cases hxs : x.sign = true
            · -- x negative
              rw [if_neg (by simp [hxs])] at h
              by_cases hlow : jsAnd d (2 ^ mp - 1) = 0
              · rw [if_pos hlow] at h
                have hlow0 : d % 2 ^ mp = 0 := by
                  rw [jsAnd_mask d mp (by omega)] at hlow
                  exact hlow
                by_cases hany : (List.range (NL - 1)).any (fun i => x.dig i ≠ 0) = true
                · rw [if_pos hany] at h
                  obtain ⟨hvr, hval, _⟩ :=
                    truncateAndSubFromPowerOfTwo_spec hv (by omega) h
                  obtain ⟨i, hi, hine⟩ := List.any_eq_true.mp hany
                  simp only [decide_eq_true_eq] at hine
                  have hApos : 0 < A :=
                    segVal_pos_of_dig_pos (fun t h1 h2 => gx t) (by omega)
                      (by have := List.mem_range.mp hi; omega) hine
                  have hT0pos : 0 < magD x.digits % 2 ^ n := by
                    rw [hT0form]
                    linarith
                  have hV := neg_emod_pow hT0pos
                  have hfinv : toInt r = 2 ^ n - magD x.digits % 2 ^ n := by
                    rw [hval, hV]
                    norm_num
                  rw [hfinv, hT0form, hlow0]
                  constructor <;> linarith
                · rw [if_neg hany] at h
                  have hallz : ∀ j, j < NL - 1 → x.dig j = 0 := by
                    intro j hj
                    by_contra hc
                    apply hany
                    exact List.any_eq_true.mpr
                      ⟨j, List.mem_range.mpr hj, by simp [hc]⟩
                  have hAz : A = 0 :=
                    segVal_eq_zero_of_digs (fun j h1 h2 => hallz j (by omega))
                  by_cases hfin : x.digits.length = NL ∧ d = 2 ^ mp
                  · rw [if_pos hfin] at h
                    injection h with h1
                    subst h1
                    have hmag : magD x.digits = 2 ^ (n - 1) := by
                      rw [magD_eq_segVal x (show x.digits.length ≤ (NL - 1) + 1 by omega),
                        segVal_snoc]
                      simp only [Nat.zero_add]
                      rw [← hd, ← hA, hAz, hfin.2]
                      linarith [hpown]
                    unfold toInt
                    rw [hxs, hmag]
                    constructor <;> simp
                  · rw [if_neg hfin] at h
                    obtain ⟨hvr, hval, _⟩ := truncateToNBits_spec hv (by omega) h
                    have hT0v : magD x.digits % 2 ^ n = 2 ^ (n - 1) := by
                      rw [hT0form, hAz, hlow0]
                      simp
                    rw [hval, hT0v, hxs]
                    constructor <;> simp
              · rw [if_neg hlow] at h
                obtain ⟨hvr, hval, _⟩ :=
                  truncateAndSubFromPowerOfTwo_spec hv (by omega) h
                have hlowpos : 0 < d % 2 ^ mp := by
                  rw [jsAnd_mask d mp (by omega)] at hlow
                  omega
                have hB1d : B1 ≤ B1 * (d % 2 ^ mp) := by
                  nlinarith
                have hT0pos : 0 < magD x.digits % 2 ^ n := by
                  rw [hT0form]
                  linarith
                have hV := neg_emod_pow hT0pos
                have hfinv : toInt r = 2 ^ n - magD x.digits % 2 ^ n := by
                  rw [hval, hV]
                  norm_num
                rw [hfinv, hT0form]
                constructor <;> linarith
            · -- x non-negative, sign bit set: wraps negative
              rw [if_pos (by simp [hxs])] at h
              obtain ⟨hvr, hval, _⟩ :=
                truncateAndSubFromPowerOfTwo_spec hv (by omega) h
              have hT0pos : 0 < magD x.digits % 2 ^ n := by
                rw [hT0form]
                linarith
              have hV := neg_emod_pow hT0pos
              have hfinv : toInt r = -(2 ^ n - magD x.digits % 2 ^ n) := by
                rw [hval, hV]
                norm_num
              rw [hfinv, hT0form]
              constructor <;> linarith
          · -- sign bit clear: plain truncation stays in range
            rw [if_pos (by simp [hbit])] at h
            obtain ⟨hvr, hval, _⟩ := truncateToNBits_spec hv (by omega) h
            have hb0 : d / 2 ^ mp % 2 = 0 := by
              rcases Int.emod_two_eq_zero_or_one (d / 2 ^ mp) with he | he
              · exact he
              · exfalso
                apply hbit
                rw [hbitval, he, mul_one]
            have hT0lt : magD x.digits % 2 ^ n < 2 ^ (n - 1) := by
              rw [hT0, hdm, hb0]
              simp only [mul_zero, add_zero]
              calc A + B1 * (d % 2 ^ mp) < B1 * (1 + d % 2 ^ mp) := by linarith
                _ ≤ B1 * 2 ^ mp :=
                  mul_le_mul_of_nonneg_left (by omega) (le_of_lt hB1pos)
                _ = 2 ^ (n - 1) := hpown
            rw [hval]
            cases hxs : x.sign <;> simp <;> omega



/-- C7: `asUintN(n, a)` is idempotent with result in `[0, 2^n)`, and
`asIntN(n, a)` lands in `[-2^(n-1), 2^(n-1))` for `n ≥ 1`. -/
theorem asIntN_asUintN_c7 {n : ℕ} {x : JSBI} (hv : Valid x)
    (hlen : x.digits.length ≤ kMaxLength) :
    (∀ r, asUintN n x = .ok r →
      0 ≤ toInt r ∧ toInt r < 2 ^ n ∧ asUintN n r = .ok r) ∧
    (∀ r, 1 ≤ n → asIntN n x = .ok r →
      -(2 ^ (n - 1)) ≤ toInt r ∧ toInt r < 2 ^ (n - 1)) := by
  constructor
  · intro r hr
    obtain ⟨hvr, hval, hlenr⟩ := asUintN_spec hv hlen hr
    have h0 : 0 ≤ toInt r := by
      rw [hval]
      exact Int.emod_nonneg _ (by positivity)
    have h1 : toInt r < 2 ^ n := by
      rw [hval]
      exact Int.emod_lt_of_pos _ (by positivity)
    refine ⟨h0, h1, ?_⟩
    have hsr : r.sign = false := sign_false_of_nonneg hvr h0
    obtain ⟨r2, hr2⟩ := asUintN_ok hsr hlenr
    obtain ⟨hvr2, hval2, _⟩ := asUintN_spec hvr hlenr hr2
    have heqv : toInt r2 = toInt r := by
      rw [hval2, Int.emod_eq_of_lt h0 h1]
    rw [hr2, valid_toInt_inj hvr2 hvr heqv]
  · intro r h1 hr
    exact asIntN_range hv hlen h1 hr

/-- Witness for C7 at `n = 5`, `a = -(7*2^30 + 5)`. -/
theorem asIntN_asUintN_c7_witness :
    0 ≤ toInt ⟨false, [27]⟩ ∧ toInt ⟨false, [27]⟩ < 2 ^ 5 ∧
    asUintN 5 ⟨false, [27]⟩ = .ok ⟨false, [27]⟩ ∧
    -(2 ^ (5 - 1)) ≤ toInt ⟨true, [5]⟩ ∧ toInt ⟨true, [5]⟩ < 2 ^ (5 - 1) := by
  have h := asIntN_asUintN_c7 (n := 5) (x := ⟨true, [5, 7]⟩) (by decide) (by decide)
  obtain ⟨hu1, hu2, hu3⟩ := h.1 ⟨false, [27]⟩ (by rfl)
  obtain ⟨hi1, hi2⟩ := h.2 ⟨true, [5]⟩ (by norm_num) (by rfl)
  exact ⟨hu1, hu2, hu3, hi1, hi2⟩

/-! ## C9: division by zero -/

theorem valid_zero_digits {y : JSBI} (hy : Valid y) (h0 : toInt y = 0) :
    y.digits = [] := by
  apply (magD_eq_zero_iff hy.1 hy.2.1).mp
  unfold toInt at h0
  cases h : y.sign <;> rw [h] at h0 <;> simp at h0 <;> omega

/-- C9: `divide(x, 0)` and `remainder(x, 0)` both throw a RangeError at
the operation boundary, returning no result. -/
theorem divide_remainder_by_zero (x y : JSBI) (hy : Valid y) (h0 : toInt y = 0) :
    divide x y = .error .rangeErr ∧ remainder x y = .error .rangeErr := by
  have hd := valid_zero_digits hy h0
  constructor
  · unfold divide
    simp [hd]
  · unfold remainder
    simp [hd]

/-- Witness for C9 at `x = 5`, `y = 0`. -/
theorem divide_remainder_by_zero_witness :
    Valid zeroJ ∧ toInt zeroJ = 0 ∧
    divide (oneDigit 5 false) zeroJ = .error .rangeErr ∧
    remainder (oneDigit 5 false) zeroJ = .error .rangeErr := by
  refine ⟨by decide, by decide, ?_⟩
  have := divide_remainder_by_zero (oneDigit 5 false) zeroJ (by decide) (by decide)
  exact this

/-! ## C8: exponentiate error surface -/
theorem magD_single (d : ℤ) : magD [d] = d := by simp [magD]

/-- C8 counterexample: with base `0` and a two-digit exponent (`2^30`), the
fast path for base zero returns `0` instead of throwing the RangeError the
claim requires for exponents that do not fit in one digit. -/
theorem exponentiate_c8_counterexample :
    Valid zeroJ ∧ Valid (⟨false, [0, 1]⟩ : JSBI) ∧
    1 < (⟨false, [0, 1]⟩ : JSBI).digits.length ∧
    exponentiate zeroJ ⟨false, [0, 1]⟩ = .ok zeroJ := by
  refine ⟨by decide, by decide, by decide, ?_⟩
  rfl

/-- C8 (amended): `exponentiate(x, y)` throws a RangeError whenever the
exponent is negative, and whenever the base has magnitude at least 2 and the
exponent has more than one digit; and `x ^ 0 = 1` for every base. (For a
valid one-digit exponent the `expValue >= MAX_LENGTH_BITS` guard is
unreachable, digits being below `2^30 = MAX_LENGTH_BITS`.) -/
theorem exponentiate_c8 {x y : JSBI} (hvy : Valid y) :
    (y.sign = true → exponentiate x y = .error .rangeErr) ∧
    (toInt y = 0 →
      exponentiate x y = .ok (oneDigit 1 false) ∧ toInt (oneDigit 1 false) = 1) ∧
    (2 ≤ magD x.digits → 1 < y.digits.length →
      exponentiate x y = .error .rangeErr) := by
  refine ⟨?_, ?_, ?_⟩
  · intro hys
    simp only [exponentiate]
    rw [if_pos hys]
  · intro hy0
    have hyd : y.digits = [] := valid_zero_digits hvy hy0
    have hysf : y.sign = false := hvy.2.2 hyd
    refine ⟨?_, by decide⟩
    simp only [exponentiate]
    rw [if_neg (by rw [hysf]; exact Bool.false_ne_true), if_pos (by rw [hyd]; rfl)]
  · intro hmx hylen
    cases hys : y.sign with
    | true =>
      simp only [exponentiate]
      rw [if_pos hys]
    | false =>
      have hx0 : x.digits.length ≠ 0 := by
        intro hc
        have : x.digits = [] := List.length_eq_zero.mp hc
        rw [this] at hmx
        simp [magD] at hmx
      have hx1 : ¬(x.digits.length = 1 ∧ x.dig 0 = 1) := by
        rintro ⟨hl, hd⟩
        obtain ⟨d, hdd⟩ := List.length_eq_one.mp hl
        have : x.dig 0 = d := by rw [JSBI.dig, hdd]; rfl
        rw [hdd, magD_single] at hmx
        omega
      simp only [exponentiate]
      rw [if_neg (by rw [hys]; exact Bool.false_ne_true),
        if_neg (by omega), if_neg hx0, if_neg hx1, if_pos hylen]

/-- Witness for C8 at `x = 3`, `y = -2` (error part), with the other two
parts at `y = 0` and a two-digit exponent. -/
theorem exponentiate_c8_witness :
    exponentiate ⟨false, [3]⟩ ⟨true, [2]⟩ = .error .rangeErr ∧
    exponentiate ⟨false, [3]⟩ zeroJ = .ok (oneDigit 1 false) ∧
    exponentiate ⟨false, [3]⟩ ⟨false, [0, 1]⟩ = .error .rangeErr := by
  refine ⟨(exponentiate_c8 (by decide)).1 rfl,
    ((exponentiate_c8 (by decide)).2.1 (by decide)).1,
    (exponentiate_c8 (by decide)).2.2 (by decide) (by decide)⟩

/-! ## C10: string constructor early paths -/
theorem skipWS_append {ws : List ℕ} (t : List ℕ)
    (h : ∀ a ∈ ws, isWhitespace a = true) : skipWS (ws ++ t) = skipWS t := by
  induction ws with
  | nil => rfl
  | cons a as ih =>
    rw [List.cons_append]
    simp only [skipWS]
    rw [if_pos (h a (by simp))]
    exact ih (fun b hb => h b (by simp [hb]))

theorem skipWS_all {s : List ℕ} (h : ∀ a ∈ s, isWhitespace a = true) :
    skipWS s = [] := by
  have h2 := @skipWS_append s [] h
  simpa using h2

/-- C10: the string constructor returns zero for the empty string and for
all-whitespace strings, and throws a SyntaxError when the input ends right
after a sign character or right after a base prefix. -/
theorem bigIntFromString_c10 :
    (∀ s : List ℕ, (∀ c ∈ s, isWhitespace c = true) →
      bigIntFromString s = .ok zeroJ) ∧
    toInt zeroJ = 0 ∧ Valid zeroJ ∧
    (∀ ws c, (∀ a ∈ ws, isWhitespace a = true) → (c = 0x2B ∨ c = 0x2D) →
      bigIntFromString (ws ++ [c]) = .error .synErr) ∧
    (∀ ws c2, (∀ a ∈ ws, isWhitespace a = true) →
      (c2 = 0x58 ∨ c2 = 0x78 ∨ c2 = 0x4F ∨ c2 = 0x6F ∨ c2 = 0x42 ∨ c2 = 0x62) →
      bigIntFromString (ws ++ [0x30, c2]) = .error .synErr) := by
  refine ⟨?_, by decide, by decide, ?_, ?_⟩
  · intro s hs
    have h1 : skipWS s = [] := skipWS_all hs
    have h2 : fromString s 0 = .ok (some zeroJ) := by
      unfold fromString
      rw [h1]
    simp only [bigIntFromString, h2, Except.bind, bind]
  · intro ws c hws hc
    have h1 : skipWS (ws ++ [c]) = [c] := by
      rw [skipWS_append _ hws]
      rcases hc with rfl | rfl <;> rfl
    have h2 : fromString (ws ++ [c]) 0 = .ok none := by
      unfold fromString
      rw [h1]
      rcases hc with rfl | rfl <;> rfl
    simp only [bigIntFromString, h2, Except.bind, bind]
  · intro ws c2 hws hc
    have h1 : skipWS (ws ++ [0x30, c2]) = [0x30, c2] := by
      rw [skipWS_append _ hws]
      rfl
    have h2 : fromString (ws ++ [0x30, c2]) 0 = .ok none := by
      unfold fromString
      rw [h1]
      rcases hc with rfl | rfl | rfl | rfl | rfl | rfl <;> rfl
    simp only [bigIntFromString, h2, Except.bind, bind]



/-- Witness for C10 on concrete strings `" \t"`, `" -"`, `"0x"`. -/
theorem bigIntFromString_c10_witness :
    bigIntFromString [0x20, 0x09] = .ok zeroJ ∧
    bigIntFromString [0x20, 0x2D] = .error .synErr ∧
    bigIntFromString [0x30, 0x78] = .error .synErr := by
  refine ⟨bigIntFromString_c10.1 [0x20, 0x09] (by decide), ?_, ?_⟩
  · exact bigIntFromString_c10.2.2.2.1 [0x20] 0x2D (by decide) (Or.inr rfl)
  · exact bigIntFromString_c10.2.2.2.2 [] 0x78 (by decide) (Or.inr (Or.inl rfl))

/-! ## C4: bitwise operations as pointwise two-complement bits -/
theorem int_div_toNat {a : ℤ} (h : 0 ≤ a) (k : ℕ) :
    ((a.toNat / 2 ^ k : ℕ) : ℤ) = a / 2 ^ k := by
  rw [Int.ofNat_ediv, Int.toNat_of_nonneg h]
  push_cast
  ring_nf

/-- `tcBit` of a non-negative integer is the plain binary digit. -/
theorem tcBit_nonneg {a : ℤ} (h : 0 ≤ a) (k : ℕ) :
    tcBit a k = decide (a / 2 ^ k % 2 = 1) := by
  rw [tcBit, if_pos h, Nat.testBit_to_div_mod, decide_eq_decide]
  have hd := int_div_toNat h k
  set e := a.toNat / 2 ^ k with he
  set f := a / 2 ^ k with hf
  omega

/-- `tcBit` of `-(m+1)` is the complement of `tcBit m` (two's complement). -/
theorem tcBit_neg_succ {m : ℤ} (h : 0 ≤ m) (k : ℕ) :
    tcBit (-(m + 1)) k = ! tcBit m k := by
  rw [tcBit, if_neg (by omega), tcBit, if_pos h]
  have h2 : -(-(m + 1)) - 1 = m := by ring
  rw [h2]

theorem jsU_toNat {a : ℤ} (h : goodDigit a) : jsU a = a.toNat := by
  have h1 : (jsU a : ℤ) = a := jsU_eq h.1 (by have := h.2; norm_num at this ⊢; omega)
  omega

theorem goodDigit_zero : goodDigit 0 := by
  constructor <;> norm_num

/-- `a & b` on digits is `Nat.land` of the magnitudes. -/
theorem jsAnd_digits_eq {a b : ℤ} (ha : goodDigit a) (hb : goodDigit b) :
    jsAnd a b = ((a.toNat &&& b.toNat : ℕ) : ℤ) := by
  unfold jsAnd
  rw [jsU_toNat ha, jsU_toNat hb]
  apply toInt32_eq (by positivity)
  have h1 : a.toNat &&& b.toNat ≤ a.toNat := Nat.and_le_left
  have h2 : a.toNat < 2 ^ 30 := by have := ha.2; have := ha.1; omega
  have h3 : ((a.toNat &&& b.toNat : ℕ) : ℤ) ≤ (a.toNat : ℤ) := by exact_mod_cast h1
  have h4 : ((a.toNat : ℕ) : ℤ) < 2 ^ 30 := by exact_mod_cast h2
  norm_num at h4 ⊢
  omega

theorem jsOr_digits_eq {a b : ℤ} (ha : goodDigit a) (hb : goodDigit b) :
    jsOr a b = ((a.toNat ||| b.toNat : ℕ) : ℤ) := by
  unfold jsOr
  rw [jsU_toNat ha, jsU_toNat hb]
  apply toInt32_eq (by positivity)
  have h2 : a.toNat < 2 ^ 30 := by have := ha.2; have := ha.1; omega
  have h2b : b.toNat < 2 ^ 30 := by have := hb.2; have := hb.1; omega
  have h1 : a.toNat ||| b.toNat < 2 ^ 30 := Nat.or_lt_two_pow h2 h2b
  have h3 : ((a.toNat ||| b.toNat : ℕ) : ℤ) < ((2 ^ 30 : ℕ) : ℤ) := by exact_mod_cast h1
  norm_num at h3 ⊢
  omega

theorem jsXor_digits_eq {a b : ℤ} (ha : goodDigit a) (hb : goodDigit b) :
    jsXor a b = ((a.toNat ^^^ b.toNat : ℕ) : ℤ) := by
  unfold jsXor
  rw [jsU_toNat ha, jsU_toNat hb]
  apply toInt32_eq (by positivity)
  have h2 : a.toNat < 2 ^ 30 := by have := ha.2; have := ha.1; omega
  have h2b : b.toNat < 2 ^ 30 := by have := hb.2; have := hb.1; omega
  have h1 : a.toNat ^^^ b.toNat < 2 ^ 30 := Nat.xor_lt_two_pow h2 h2b
  have h3 : ((a.toNat ^^^ b.toNat : ℕ) : ℤ) < ((2 ^ 30 : ℕ) : ℤ) := by exact_mod_cast h1
  norm_num at h3 ⊢
  omega

theorem tcBit_natCast (m : ℕ) (k : ℕ) : tcBit (m : ℤ) k = m.testBit k := by
  rw [tcBit, if_pos (by positivity), Int.toNat_natCast]

/-- Digit-level AND matches pointwise bits. -/
theorem jsAnd_digit_bit {a b : ℤ} (ha : goodDigit a) (hb : goodDigit b) (j : ℕ) :
    tcBit (jsAnd a b) j = (tcBit a j && tcBit b j) := by
  rw [jsAnd_digits_eq ha hb, tcBit_natCast, Nat.testBit_land,
    tcBit, if_pos ha.1, tcBit, if_pos hb.1]

theorem jsOr_digit_bit {a b : ℤ} (ha : goodDigit a) (hb : goodDigit b) (j : ℕ) :
    tcBit (jsOr a b) j = (tcBit a j || tcBit b j) := by
  rw [jsOr_digits_eq ha hb, tcBit_natCast, Nat.testBit_lor,
    tcBit, if_pos ha.1, tcBit, if_pos hb.1]

theorem jsXor_digit_bit {a b : ℤ} (ha : goodDigit a) (hb : goodDigit b) (j : ℕ) :
    tcBit (jsXor a b) j = xor (tcBit a j) (tcBit b j) := by
  rw [jsXor_digits_eq ha hb, tcBit_natCast, Nat.testBit_xor,
    tcBit, if_pos ha.1, tcBit, if_pos hb.1]

theorem jsU_toInt32 (z : ℤ) : jsU (toInt32 z) = jsU z := by
  unfold jsU toUint32
  have h := toInt32_emod z (le_refl 32)
  norm_num at h
  omega

/-- `a & ~b` on digits: bitwise difference. -/
theorem jsAndNot_digit_bit {a b : ℤ} (ha : goodDigit a) (hb : goodDigit b) (j : ℕ) :
    tcBit (jsAnd a (jsNot b)) j = (tcBit a j && !(tcBit b j)) := by
  have hvala : jsU a = a.toNat := jsU_toNat ha
  have hvalb : jsU b = b.toNat := jsU_toNat hb
  have hnot : jsU (jsNot b) = b.toNat ^^^ 4294967295 := by
    unfold jsNot
    rw [jsU_toInt32, hvalb]
    have hlt : b.toNat ^^^ 4294967295 < 4294967296 := by
      have h1 : b.toNat < 2 ^ 32 := by have := hb.2; have := hb.1; omega
      have := Nat.xor_lt_two_pow h1 (show (4294967295:ℕ) < 2 ^ 32 by norm_num)
      omega
    unfold jsU toUint32
    rw [Int.emod_eq_of_lt (by positivity) (by omega)]
    omega
  have hland : jsAnd a (jsNot b) = ((a.toNat &&& (b.toNat ^^^ 4294967295) : ℕ) : ℤ) := by
    unfold jsAnd
    rw [hvala, hnot]
    apply toInt32_eq (Int.natCast_nonneg _)
    have h1 : a.toNat &&& (b.toNat ^^^ 4294967295) ≤ a.toNat := Nat.and_le_left
    have h2 : a.toNat < 2 ^ 30 := by have := ha.2; have := ha.1; omega
    have h3 : ((a.toNat &&& (b.toNat ^^^ 4294967295) : ℕ) : ℤ) ≤ (a.toNat : ℤ) := by
      exact_mod_cast h1
    have h4 : ((a.toNat : ℕ) : ℤ) < 2 ^ 30 := by exact_mod_cast h2
    norm_num at h4 ⊢
    omega
  rw [hland, tcBit_natCast, Nat.testBit_land, Nat.testBit_xor,
    tcBit, if_pos ha.1, tcBit, if_pos hb.1]
  have hmask : (4294967295 : ℕ).testBit j = decide (j < 32) := by
    have h32 : (4294967295 : ℕ) = 2 ^ 32 - 1 := by norm_num
    rw [h32, Nat.testBit_two_pow_sub_one]
  rw [hmask]
  by_cases hj : j < 32
  · simp [hj]
  · have hbz : b.toNat.testBit j = false := by
      apply Nat.testBit_eq_false_of_lt
      have h1 : b.toNat < 2 ^ 30 := by have := hb.2; have := hb.1; omega
      have h2 : (2:ℕ) ^ 30 ≤ 2 ^ j := Nat.pow_le_pow_right (by norm_num) (by omega)
      omega
    have haz : a.toNat.testBit j = false := by
      apply Nat.testBit_eq_false_of_lt
      have h1 : a.toNat < 2 ^ 30 := by have := ha.2; have := ha.1; omega
      have h2 : (2:ℕ) ^ 30 ≤ 2 ^ j := Nat.pow_le_pow_right (by norm_num) (by omega)
      omega
    simp [hj, hbz, haz]

theorem jsAnd_comm (a b : ℤ) : jsAnd a b = jsAnd b a := by
  unfold jsAnd
  rw [Nat.land_comm]

theorem jsOr_comm (a b : ℤ) : jsOr a b = jsOr b a := by
  unfold jsOr
  rw [Nat.lor_comm]

theorem jsXor_comm (a b : ℤ) : jsXor a b = jsXor b a := by
  unfold jsXor
  rw [Nat.xor_comm]

theorem jsAnd_zero_right (a : ℤ) : jsAnd a 0 = 0 := by
  unfold jsAnd
  have h : jsU 0 = 0 := rfl
  rw [h, Nat.and_zero]
  rfl

theorem jsOr_zero_right {a : ℤ} (ha : goodDigit a) : jsOr a 0 = a := by
  rw [jsOr_digits_eq ha goodDigit_zero]
  have h : (0:ℤ).toNat = 0 := rfl
  rw [h, Nat.or_zero, Int.toNat_of_nonneg ha.1]

theorem jsXor_zero_right {a : ℤ} (ha : goodDigit a) : jsXor a 0 = a := by
  rw [jsXor_digits_eq ha goodDigit_zero]
  have h : (0:ℤ).toNat = 0 := rfl
  rw [h, Nat.xor_zero, Int.toNat_of_nonneg ha.1]



theorem tcdiv_magD (j : ℕ) (hj : j < 30) :
    ∀ (q : ℕ) (l : List ℤ), (∀ d ∈ l, goodDigit d) →
    magD l / 2 ^ (30 * q + j) % 2 = l.getD q 0 / 2 ^ j % 2 := by
  intro q
  induction q with
  | zero =>
    intro l hg
    cases l with
    | nil => simp [magD]
    | cons d ds =>
      rw [magD_cons]
      have hM : 0 ≤ magD ds := magD_nonneg (fun e he => (hg e (by simp [he])).1)
      have hd := hg d (by simp)
      have hsplit : (d + 2 ^ 30 * magD ds) / 2 ^ j =
          d / 2 ^ j + 2 ^ (30 - j) * magD ds := by
        rw [show (2:ℤ) ^ 30 * magD ds = 2 ^ j * (2 ^ (30 - j) * magD ds) from by
          rw [← mul_assoc, ← pow_add, show j + (30 - j) = 30 by omega]]
        rw [Int.add_mul_ediv_left _ _ (show (2:ℤ) ^ j ≠ 0 by positivity)]
      have heven : (2:ℤ) ^ (30 - j) * magD ds % 2 = 0 := by
        rw [show (2:ℤ) ^ (30 - j) * magD ds = 2 * (2 ^ (30 - j - 1) * magD ds) from by
          rw [← mul_assoc, ← pow_succ']
          congr 2
          omega]
        exact Int.mul_emod_right 2 _
      simp only [Nat.mul_zero, Nat.zero_add]
      rw [hsplit]
      simp only [List.getD_cons_zero]
      omega
  | succ q ih =>
    intro l hg
    cases l with
    | nil => simp [magD]
    | cons d ds =>
      rw [magD_cons]
      have hM : 0 ≤ magD ds := magD_nonneg (fun e he => (hg e (by simp [he])).1)
      have hd := hg d (by simp)
      have hstep : (d + 2 ^ 30 * magD ds) / 2 ^ (30 * (q + 1) + j) =
          magD ds / 2 ^ (30 * q + j) := by
        set P := (2:ℤ) ^ (30 * q + j) with hP
        have hPpos : (0:ℤ) < P := by rw [hP]; positivity
        have hMP := Int.ediv_add_emod (magD ds) P
        have hMPnn : 0 ≤ magD ds % P := Int.emod_nonneg _ (by omega)
        have hMPlt : magD ds % P < P := Int.emod_lt_of_pos _ hPpos
        have hpow : (2:ℤ) ^ (30 * (q + 1) + j) = 2 ^ 30 * P := by
          rw [hP, ← pow_add]
          congr 1
          omega
        rw [hpow]
        have hdecomp : d + 2 ^ 30 * magD ds =
            (d + 2 ^ 30 * (magD ds % P)) + magD ds / P * (2 ^ 30 * P) := by
          linear_combination (-(2 ^ 30) : ℤ) * hMP
        have h1 : 0 ≤ 2 ^ 30 * (magD ds % P) := mul_nonneg (by norm_num) hMPnn
        have h2 : 2 ^ 30 * (magD ds % P) ≤ 2 ^ 30 * (P - 1) :=
          mul_le_mul_of_nonneg_left (by omega) (by norm_num)
        have hA0 : 0 ≤ d + 2 ^ 30 * (magD ds % P) := by linarith [hd.1]
        have hAlt : d + 2 ^ 30 * (magD ds % P) < 2 ^ 30 * P := by linarith [hd.2]
        rw [hdecomp, Int.add_mul_ediv_right _ _
          (show (2:ℤ) ^ 30 * P ≠ 0 by positivity),
          Int.ediv_eq_zero_of_lt hA0 hAlt]
        ring
      rw [hstep, ih ds (fun e he => hg e (by simp [he]))]
      simp

/-- Bit `30*q + j` of a good-digit magnitude is bit `j` of digit `q`. -/
theorem tcBit_magD {r : JSBI} (hg : ∀ i, goodDigit (r.dig i)) (q j : ℕ) (hj : j < 30) :
    tcBit (magD r.digits) (30 * q + j) = tcBit (r.dig q) j := by
  have h1 : 0 ≤ magD r.digits := by
    apply magD_nonneg
    intro d hd
    exact (mem_good_of_dig_good (fun i _ => hg i) d hd).1
  have h2 : 0 ≤ r.dig q := (hg q).1
  rw [tcBit_nonneg h1, tcBit_nonneg h2, decide_eq_decide]
  have h3 := tcdiv_magD j hj q r.digits (mem_good_of_dig_good (fun i _ => hg i))
  unfold JSBI.dig
  omega

/-- Any bit index splits as `30*(k/30) + k%30`. -/
theorem tcBit_magD_any {r : JSBI} (hg : ∀ i, goodDigit (r.dig i)) (k : ℕ) :
    tcBit (magD r.digits) k = tcBit (r.dig (k / 30)) (k % 30) := by
  have h := tcBit_magD hg (k / 30) (k % 30) (Nat.mod_lt _ (by norm_num))
  rw [show 30 * (k / 30) + k % 30 = k from by omega] at h
  exact h

theorem bitPairLoop_spec (op : ℤ → ℤ → ℤ) (x y : JSBI)
    (hop : ∀ a b, goodDigit a → goodDigit b → goodDigit (op a b))
    (hx : ∀ j, goodDigit (x.dig j)) (hy : ∀ j, goodDigit (y.dig j)) :
    ∀ (k i : ℕ) (result res : JSBI), i + k ≤ result.digits.length →
    bitPairLoop op x y k i result = res →
    res.sign = result.sign ∧ res.digits.length = result.digits.length ∧
    (∀ j, j < i ∨ i + k ≤ j → res.dig j = result.dig j) ∧
    (∀ j, i ≤ j → j < i + k → res.dig j = op (x.dig j) (y.dig j)) := by
  intro k
  induction k with
  | zero =>
    intro i result res hlen heq
    unfold bitPairLoop at heq
    subst heq
    exact ⟨rfl, rfl, fun j _ => rfl, fun j hj1 hj2 => absurd hj2 (by omega)⟩
  | succ k ih =>
    intro i result res hlen heq
    simp only [bitPairLoop] at heq
    set result' := result.setDig i (op (x.dig i) (y.dig i)) with hres'
    have hlen' : (i + 1) + k ≤ result'.digits.length := by
      rw [hres', setDig_length _ (by omega)]
      omega
    obtain ⟨s1, s2, s3, s4⟩ := ih (i + 1) result' res hlen' heq
    have hgop := hop _ _ (hx i) (hy i)
    have hdig_i : res.dig i = op (x.dig i) (y.dig i) := by
      rw [s3 i (by omega), hres', dig_setDig_self,
        toInt32_eq hgop.1 (by have := hgop.2; omega)]
    refine ⟨by rw [s1, hres', setDig_sign],
      by rw [s2, hres', setDig_length _ (by omega)], ?_, ?_⟩
    · intro j hj
      rw [s3 j (by omega), hres', dig_setDig_ne (by omega)]
    · intro j hj1 hj2
      rcases eq_or_lt_of_le hj1 with hj | hj
      · rw [← hj, hdig_i]
      · exact s4 j (by omega) (by omega)

theorem zeroFillFrom_spec :
    ∀ (k i : ℕ) (r res : JSBI), i + k ≤ r.digits.length →
    zeroFillFrom k i r = res →
    res.sign = r.sign ∧ res.digits.length = r.digits.length ∧
    (∀ j, j < i ∨ i + k ≤ j → res.dig j = r.dig j) ∧
    (∀ j, i ≤ j → j < i + k → res.dig j = 0) := by
  intro k
  induction k with
  | zero =>
    intro i r res hlen heq
    unfold zeroFillFrom at heq
    subst heq
    exact ⟨rfl, rfl, fun j _ => rfl, fun j hj1 hj2 => absurd hj2 (by omega)⟩
  | succ k ih =>
    intro i r res hlen heq
    simp only [zeroFillFrom] at heq
    set r' := r.setDig i 0 with hres'
    have hlen' : (i + 1) + k ≤ r'.digits.length := by
      rw [hres', setDig_length _ (by omega)]
      omega
    obtain ⟨s1, s2, s3, s4⟩ := ih (i + 1) r' res hlen' heq
    have hdig_i : res.dig i = 0 := by
      rw [s3 i (by omega), hres', dig_setDig_self]
      rfl
    refine ⟨by rw [s1, hres', setDig_sign],
      by rw [s2, hres', setDig_length _ (by omega)], ?_, ?_⟩
    · intro j hj
      rw [s3 j (by omega), hres', dig_setDig_ne (by omega)]
    · intro j hj1 hj2
      rcases eq_or_lt_of_le hj1 with hj | hj
      · rw [← hj, hdig_i]
      · exact s4 j (by omega) (by omega)

theorem absAddOneLoop_spec (x : JSBI) (hx : ∀ j, goodDigit (x.dig j)) :
    ∀ (k i : ℕ) (carry : ℤ) (result res : JSBI) (c : ℤ),
    0 ≤ carry → carry ≤ 1 → i + k ≤ result.digits.length →
    absAddOneLoop x k i carry result = (res, c) →
    res.sign = result.sign ∧
    res.digits.length = result.digits.length ∧
    (∀ j, j < i ∨ i + k ≤ j → res.dig j = result.dig j) ∧
    (∀ j, i ≤ j → j < i + k → goodDigit (res.dig j)) ∧
    0 ≤ c ∧ c ≤ 1 ∧
    segVal res i k + 2 ^ (30 * k) * c = segVal x i k + carry := by
  intro k
  induction k with
  | zero =>
    intro i carry result res c h0 h1 hlen heq
    unfold absAddOneLoop at heq
    injection heq with he1 he2
    subst he1; subst he2
    refine ⟨rfl, rfl, fun j _ => rfl, fun j hj1 hj2 => absurd hj2 (by omega), h0, h1, ?_⟩
    simp [segVal_zero]
  | succ k ih =>
    intro i carry result res c h0 h1 hlen heq
    simp only [absAddOneLoop] at heq
    set r := x.dig i + carry with hr
    have hxd := hx i
    unfold goodDigit at hxd
    have hsh : jsShrU r 30 = r / 2 ^ 30 := jsShrU30 (by omega) (by omega)
    have hdiv : 0 ≤ r / 2 ^ 30 ∧ r / 2 ^ 30 ≤ 1 := by
      constructor
      · exact Int.ediv_nonneg (by omega) (by positivity)
      · have : r < 2 ^ 30 * 2 := by omega
        omega
    have hand : jsAnd r 1073741823 = r % 2 ^ 30 := jsAnd_mask30 r
    have hstore : toInt32 (r % 2 ^ 30) = r % 2 ^ 30 :=
      toInt32_eq (Int.emod_nonneg _ (by norm_num)) (by
        have := Int.emod_lt_of_pos r (show (0:ℤ) < 2 ^ 30 by norm_num)
        omega)
    set result' := result.setDig i (jsAnd r 1073741823) with hres'
    have hlen' : (i + 1) + k ≤ result'.digits.length := by
      rw [hres', setDig_length _ (by omega)]
      omega
    rw [hsh] at heq
    obtain ⟨s1, s2, s3, s4, s5, s6, s7⟩ := ih (i + 1) (r / 2 ^ 30) result' res c
      hdiv.1 hdiv.2 hlen' heq
    have hdig_i : res.dig i = r % 2 ^ 30 := by
      rw [s3 i (by omega), hres', dig_setDig_self, hand, hstore]
    refine ⟨by rw [s1, hres', setDig_sign],
      by rw [s2, hres', setDig_length _ (by omega)], ?_, ?_, s5, s6, ?_⟩
    · intro j hj
      rw [s3 j (by omega), hres', dig_setDig_ne (by omega)]
    · intro j hj1 hj2
      rcases eq_or_lt_of_le hj1 with hj | hj
      · rw [← hj, hdig_i]
        exact ⟨Int.emod_nonneg _ (by norm_num), Int.emod_lt_of_pos _ (by norm_num)⟩
      · exact s4 j (by omega) (by omega)
    · rw [segVal_succ res, segVal_succ x, hdig_i, two_pow_30succ]
      have hkey := Int.ediv_add_emod r (2 ^ 30)
      linarith [s7]

theorem absSubOneLoop_spec (x : JSBI) (hx : ∀ j, goodDigit (x.dig j)) :
    ∀ (k i : ℕ) (borrow : ℤ) (result res : JSBI) (c : ℤ),
    0 ≤ borrow → borrow ≤ 1 → i + k ≤ result.digits.length →
    absSubOneLoop x k i borrow result = (res, c) →
    res.sign = result.sign ∧
    res.digits.length = result.digits.length ∧
    (∀ j, j < i ∨ i + k ≤ j → res.dig j = result.dig j) ∧
    (∀ j, i ≤ j → j < i + k → goodDigit (res.dig j)) ∧
    0 ≤ c ∧ c ≤ 1 ∧
    segVal res i k - 2 ^ (30 * k) * c = segVal x i k - borrow := by
  intro k
  induction k with
  | zero =>
    intro i borrow result res c h0 h1 hlen heq
    unfold absSubOneLoop at heq
    injection heq with he1 he2
    subst he1; subst he2
    refine ⟨rfl, rfl, fun j _ => rfl, fun j hj1 hj2 => absurd hj2 (by omega), h0, h1, ?_⟩
    simp [segVal_zero]
  | succ k ih =>
    intro i borrow result res c h0 h1 hlen heq
    simp only [absSubOneLoop] at heq
    set r := x.dig i - borrow with hr
    have hxd := hx i
    unfold goodDigit at hxd
    have hrb : -(2 ^ 30) ≤ r ∧ r < 2 ^ 30 := by constructor <;> omega
    have hbor : jsAnd (jsShrU r 30) 1 = if r < 0 then 1 else 0 :=
      borrow_bit hrb.1 hrb.2
    have hand : jsAnd r 1073741823 = r % 2 ^ 30 := jsAnd_mask30 r
    have hstore : toInt32 (r % 2 ^ 30) = r % 2 ^ 30 :=
      toInt32_eq (Int.emod_nonneg _ (by norm_num)) (by
        have := Int.emod_lt_of_pos r (show (0:ℤ) < 2 ^ 30 by norm_num)
        omega)
    have hcb : 0 ≤ (if r < 0 then (1:ℤ) else 0) ∧ (if r < 0 then (1:ℤ) else 0) ≤ 1 := by
      split <;> omega
    set result' := result.setDig i (jsAnd r 1073741823) with hres'
    have hlen' : (i + 1) + k ≤ result'.digits.length := by
      rw [hres', setDig_length _ (by omega)]
      omega
    rw [hbor] at heq
    obtain ⟨s1, s2, s3, s4, s5, s6, s7⟩ := ih (i + 1) (if r < 0 then 1 else 0)
      result' res c hcb.1 hcb.2 hlen' heq
    have hdig_i : res.dig i = r % 2 ^ 30 := by
      rw [s3 i (by omega), hres', dig_setDig_self, hand, hstore]
    refine ⟨by rw [s1, hres', setDig_sign],
      by rw [s2, hres', setDig_length _ (by omega)], ?_, ?_, s5, s6, ?_⟩
    · intro j hj
      rw [s3 j (by omega), hres', dig_setDig_ne (by omega)]
    · intro j hj1 hj2
      rcases eq_or_lt_of_le hj1 with hj | hj
      · rw [← hj, hdig_i]
        exact ⟨Int.emod_nonneg _ (by norm_num), Int.emod_lt_of_pos _ (by norm_num)⟩
      · exact s4 j (by omega) (by omega)
    · rw [segVal_succ res, segVal_succ x, hdig_i, two_pow_30succ]
      have hkey : r % 2 ^ 30 = r + 2 ^ 30 * (if r < 0 then 1 else 0) := by
        split <;> rename_i hc <;> omega
      rw [hkey]
      linarith [s7]

theorem setDig_length_ge {x : JSBI} {i : ℕ} (d : ℤ) (h : x.digits.length ≤ i) :
    (x.setDig i d).digits.length = i + 1 := by
  unfold JSBI.setDig listSet
  rw [if_neg (by omega)]
  simp
  omega



/-- Value of `__absoluteSubOne(x, resultLength?)`: decrements a non-zero
magnitude, zero-padded to the requested width, with sign `false`. -/
theorem absoluteSubOne_spec {x : JSBI} {RL0 : Option ℕ} {r : JSBI}
    (hv : ∀ j, goodDigit (x.dig j)) (hne : 1 ≤ magD x.digits)
    (hRL : x.digits.length ≤ RL0.getD x.digits.length)
    (h : absoluteSubOne x RL0 = .ok r) :
    r.sign = false ∧ r.digits.length = RL0.getD x.digits.length ∧
    (∀ j, goodDigit (r.dig j)) ∧ magD r.digits = magD x.digits - 1 := by
  simp only [absoluteSubOne] at h
  set RL := RL0.getD x.digits.length with hRLd
  cases hres : newJSBI RL false with
  | error e =>
    rw [hres] at h
    simp only [Except.bind, bind] at h
    exact Except.noConfusion h
  | ok result0 =>
    rw [hres] at h
    simp only [Except.bind, bind] at h
    obtain ⟨hr0, hrlen⟩ := newJSBI_ok hres
    have hr0len : result0.digits.length = RL := by rw [hr0]; simp
    obtain ⟨r1, b, hl1⟩ : ∃ a b, absSubOneLoop x x.digits.length 0 1 result0 = (a, b) :=
      ⟨_, _, rfl⟩
    rw [hl1] at h
    dsimp only at h
    obtain ⟨s1, s2, s3, s4, s5, s6, s7⟩ :=
      absSubOneLoop_spec x hv x.digits.length 0 1 result0 r1 b
        (by norm_num) (by norm_num) (by omega) hl1
    simp only [Nat.zero_add] at s3 s4 s7
    have hmagx : segVal x 0 x.digits.length = magD x.digits :=
      (magD_eq_segVal x (le_refl _)).symm
    rw [hmagx] at s7
    have hb0 : b = 0 := by
      have hnn : 0 ≤ segVal r1 0 x.digits.length :=
        segVal_nonneg 0 _ (fun j hj1 hj2 => (s4 j (by omega) (by omega)).1)
      have hlt : segVal r1 0 x.digits.length < 2 ^ (30 * x.digits.length) := by
        apply segVal_lt
        intro j hj1 hj2
        exact s4 j (by omega) (by omega)
      by_contra hc
      have hb1 : b = 1 := by omega
      rw [hb1, mul_one] at s7
      have hmlt : magD x.digits < 2 ^ (30 * x.digits.length) := by
        apply magD_lt
        apply mem_good_of_dig_good
        intro j hj
        exact hv j
      omega
    rw [if_neg (by omega)] at h
    injection h with h1
    subst h1
    obtain ⟨t1, t2, t3, t4⟩ := zeroFillFrom_spec (RL - x.digits.length)
      x.digits.length r1 (zeroFillFrom (RL - x.digits.length) x.digits.length r1)
      (by omega) rfl
    have hlenr : (zeroFillFrom (RL - x.digits.length) x.digits.length r1).digits.length
        = RL := by
      rw [t2]
      omega
    have hgoodr : ∀ j,
        goodDigit ((zeroFillFrom (RL - x.digits.length) x.digits.length r1).dig j) := by
      intro j
      rcases lt_or_ge j x.digits.length with hj | hj
      · rw [t3 j (Or.inl hj)]
        exact s4 j (by omega) (by omega)
      · rcases lt_or_ge j RL with hj2 | hj2
        · rw [t4 j (by omega) (by omega)]
          exact goodDigit_zero
        · rw [dig_of_ge (by omega)]
          exact goodDigit_zero
    refine ⟨?_, hlenr, hgoodr, ?_⟩
    · rw [t1, s1, hr0]
    · rw [magD_eq_segVal (zeroFillFrom (RL - x.digits.length) x.digits.length r1)
        (le_of_eq hlenr)]
      have hsp := segVal_split (zeroFillFrom (RL - x.digits.length) x.digits.length r1)
        0 x.digits.length (RL - x.digits.length)
      rw [show x.digits.length + (RL - x.digits.length) = RL by omega] at hsp
      rw [hsp]
      simp only [Nat.zero_add]
      have hz : segVal (zeroFillFrom (RL - x.digits.length) x.digits.length r1)
          x.digits.length (RL - x.digits.length) = 0 :=
        segVal_eq_zero_of_digs (fun j hj1 hj2 => t4 j (by omega) (by omega))
      have hc : segVal (zeroFillFrom (RL - x.digits.length) x.digits.length r1)
          0 x.digits.length = segVal r1 0 x.digits.length :=
        segVal_congr (fun j hj1 hj2 => t3 j (Or.inl (by omega)))
      rw [hz, hc]
      rw [hb0, mul_zero] at s7
      linarith [s7]



/-- Common tail of `__absoluteAddOne`: the carry loop plus the optional
grow-by-one write. -/
theorem absAddOne_finish {x result r1 : JSBI} {sign : Bool} {c : ℤ} {r : JSBI}
    (hg : ∀ j, goodDigit (x.dig j))
    (hrs : result.sign = sign) (hrl : result.digits.length = x.digits.length)
    (hl1 : absAddOneLoop x x.digits.length 0 1 result = (r1, c))
    (hfin : (if c ≠ 0 then r1.setDigGrow x.digits.length 1 else r1) = r) :
    r.sign = sign ∧ (∀ j, goodDigit (r.dig j)) ∧
    magD r.digits = magD x.digits + 1 := by
  obtain ⟨s1, s2, s3, s4, s5, s6, s7⟩ :=
    absAddOneLoop_spec x hg x.digits.length 0 1 result r1 c
      (by norm_num) (by norm_num) (by omega) hl1
  simp only [Nat.zero_add] at s3 s4 s7
  have hmagx : segVal x 0 x.digits.length = magD x.digits :=
    (magD_eq_segVal x (le_refl _)).symm
  rw [hmagx] at s7
  have hr1len : r1.digits.length = x.digits.length := by omega
  by_cases hc : c ≠ 0
  · rw [if_pos hc] at hfin
    have hc1 : c = 1 := by omega
    have hrlen2 : r.digits.length = x.digits.length + 1 := by
      rw [← hfin]
      unfold JSBI.setDigGrow
      exact setDig_length_ge _ (by omega)
    have hdigtop : r.dig x.digits.length = 1 := by
      rw [← hfin]
      unfold JSBI.setDigGrow
      rw [dig_setDig_self]
      rfl
    have hdiglow : ∀ j, j < x.digits.length → r.dig j = r1.dig j := by
      intro j hj
      rw [← hfin]
      unfold JSBI.setDigGrow
      rw [dig_setDig_ne (by omega)]
    refine ⟨by rw [← hfin]; unfold JSBI.setDigGrow; rw [setDig_sign, s1, hrs], ?_, ?_⟩
    · intro j
      rcases lt_or_ge j x.digits.length with hj | hj
      · rw [hdiglow j hj]
        exact s4 j (by omega) (by omega)
      · rcases eq_or_lt_of_le hj with hj2 | hj2
        · rw [← hj2, hdigtop]
          constructor <;> norm_num
        · rw [dig_of_ge (by omega)]
          exact goodDigit_zero
    · rw [magD_eq_segVal r (le_of_eq hrlen2), segVal_snoc]
      simp only [Nat.zero_add]
      have hcongr : segVal r 0 x.digits.length = segVal r1 0 x.digits.length :=
        segVal_congr (fun j hj1 hj2 => hdiglow j (by omega))
      rw [hcongr, hdigtop]
      rw [hc1, mul_one] at s7
      linarith [s7]
  · rw [if_neg hc] at hfin
    have hc0 : c = 0 := by omega
    rw [hc0, mul_zero] at s7
    refine ⟨by rw [← hfin, s1, hrs], ?_, ?_⟩
    · intro j
      rcases lt_or_ge j x.digits.length with hj | hj
      · rw [← hfin]
        exact s4 j (by omega) (by omega)
      · rw [← hfin, dig_of_ge (by omega)]
        exact goodDigit_zero
    · rw [← hfin, magD_eq_segVal r1 (le_of_eq hr1len)]
      linarith [s7]

/-- Value of `__absoluteAddOne(x, sign, result?)` for a fresh or
self-aliased result buffer: increments the magnitude. -/
theorem absoluteAddOne_spec {x : JSBI} {sign : Bool} {r0 : Option JSBI} {r : JSBI}
    (hg : ∀ j, goodDigit (x.dig j))
    (halias : r0 = none ∨ r0 = some x)
    (h : absoluteAddOne x sign r0 = .ok r) :
    r.sign = sign ∧ (∀ j, goodDigit (r.dig j)) ∧
    magD r.digits = magD x.digits + 1 := by
  rcases halias with rfl | rfl
  · simp only [absoluteAddOne] at h
    cases hres : newJSBI x.digits.length sign with
    | error e =>
      rw [hres] at h
      simp only [Except.bind, bind] at h
      exact Except.noConfusion h
    | ok result =>
      rw [hres] at h
      simp only [Except.bind, bind] at h
      obtain ⟨hr0, _⟩ := newJSBI_ok hres
      obtain ⟨r1, c, hl1⟩ : ∃ a b, absAddOneLoop x x.digits.length 0 1 result = (a, b) :=
        ⟨_, _, rfl⟩
      rw [hl1] at h
      dsimp only at h
      injection h with h1
      exact absAddOne_finish hg (by rw [hr0]) (by rw [hr0]; simp) hl1 h1
  · simp only [absoluteAddOne] at h
    simp only [pure, Except.pure, Except.bind, bind] at h
    obtain ⟨r1, c, hl1⟩ : ∃ a b,
        absAddOneLoop x x.digits.length 0 1 ⟨sign, x.digits⟩ = (a, b) := ⟨_, _, rfl⟩
    rw [hl1] at h
    dsimp only at h
    injection h with h1
    exact @absAddOne_finish x ⟨sign, x.digits⟩ r1 sign c r hg rfl rfl hl1 h1



theorem jsAnd_good {a b : ℤ} (ha : goodDigit a) (hb : goodDigit b) :
    goodDigit (jsAnd a b) := by
  rw [jsAnd_digits_eq ha hb]
  constructor
  · exact Int.natCast_nonneg _
  · have h1 : a.toNat &&& b.toNat ≤ a.toNat := Nat.and_le_left
    have h2 : a.toNat < 2 ^ 30 := by have := ha.2; have := ha.1; omega
    have h3 : ((a.toNat &&& b.toNat : ℕ) : ℤ) ≤ (a.toNat : ℤ) := by exact_mod_cast h1
    have h4 : ((a.toNat : ℕ) : ℤ) < 2 ^ 30 := by exact_mod_cast h2
    omega

theorem jsOr_good {a b : ℤ} (ha : goodDigit a) (hb : goodDigit b) :
    goodDigit (jsOr a b) := by
  rw [jsOr_digits_eq ha hb]
  constructor
  · exact Int.natCast_nonneg _
  · have h2 : a.toNat < 2 ^ 30 := by have := ha.2; have := ha.1; omega
    have h2b : b.toNat < 2 ^ 30 := by have := hb.2; have := hb.1; omega
    have h1 : a.toNat ||| b.toNat < 2 ^ 30 := Nat.or_lt_two_pow h2 h2b
    have h3 : ((a.toNat ||| b.toNat : ℕ) : ℤ) < ((2 ^ 30 : ℕ) : ℤ) := by exact_mod_cast h1
    norm_num at h3 ⊢
    omega

theorem jsXor_good {a b : ℤ} (ha : goodDigit a) (hb : goodDigit b) :
    goodDigit (jsXor a b) := by
  rw [jsXor_digits_eq ha hb]
  constructor
  · exact Int.natCast_nonneg _
  · have h2 : a.toNat < 2 ^ 30 := by have := ha.2; have := ha.1; omega
    have h2b : b.toNat < 2 ^ 30 := by have := hb.2; have := hb.1; omega
    have h1 : a.toNat ^^^ b.toNat < 2 ^ 30 := Nat.xor_lt_two_pow h2 h2b
    have h3 : ((a.toNat ^^^ b.toNat : ℕ) : ℤ) < ((2 ^ 30 : ℕ) : ℤ) := by exact_mod_cast h1
    norm_num at h3 ⊢
    omega

theorem jsAndNot_good {a b : ℤ} (ha : goodDigit a) (hb : goodDigit b) :
    goodDigit (jsAnd a (jsNot b)) := by
  have hgN : goodDigit (jsAnd a (jsNot b)) ∨ True := Or.inr trivial
  unfold jsAnd
  constructor
  · unfold toInt32
    split
    · exact toUint32_nonneg _
    · rename_i hc
      push_neg at hc
      have h1 : jsU a &&& jsU (jsNot b) ≤ jsU a := Nat.and_le_left
      have h2 : jsU a = a.toNat := jsU_toNat ha
      have h3 : a.toNat < 2 ^ 30 := by have := ha.2; have := ha.1; omega
      exfalso
      unfold toUint32 at hc
      have h4 : ((jsU a &&& jsU (jsNot b) : ℕ) : ℤ) < 2 ^ 30 := by
        have := h1
        omega
      have h5 : (0:ℤ) ≤ ((jsU a &&& jsU (jsNot b) : ℕ) : ℤ) := Int.natCast_nonneg _
      rw [Int.emod_eq_of_lt h5 (by norm_num at h4 ⊢; omega)] at hc
      norm_num at h4
      omega
  · have h1 : jsU a &&& jsU (jsNot b) ≤ jsU a := Nat.and_le_left
    have h2 : jsU a = a.toNat := jsU_toNat ha
    have h3 : a.toNat < 2 ^ 30 := by have := ha.2; have := ha.1; omega
    have h4 : ((jsU a &&& jsU (jsNot b) : ℕ) : ℤ) < 2 ^ 30 := by omega
    have h5 : (0:ℤ) ≤ ((jsU a &&& jsU (jsNot b) : ℕ) : ℤ) := Int.natCast_nonneg _
    rw [toInt32_eq h5 (by norm_num at h4 ⊢; omega)]
    exact h4

theorem jsAnd_zero_left (a : ℤ) : jsAnd 0 a = 0 := by
  rw [jsAnd_comm]
  exact jsAnd_zero_right a

theorem jsOr_zero_zero : jsOr 0 0 = 0 := rfl

theorem jsAndNot_zero_right {a : ℤ} (ha : goodDigit a) : jsAnd a (jsNot 0) = a := by
  unfold jsAnd jsNot
  rw [jsU_toInt32, jsU_toNat ha]
  have h0 : jsU 0 = 0 := rfl
  rw [h0]
  have h1 : (0 ^^^ 4294967295 : ℕ) = 4294967295 := by norm_num
  have h2 : jsU ((4294967295 : ℕ) : ℤ) = 4294967295 := by
    unfold jsU toUint32
    norm_num
    decide
  rw [h1, h2]
  have h3 : a.toNat &&& 4294967295 = a.toNat := by
    have h4 : (4294967295 : ℕ) = 2 ^ 32 - 1 := by norm_num
    rw [h4, Nat.and_pow_two_sub_one_eq_mod]
    apply Nat.mod_eq_of_lt
    have := ha.2
    have := ha.1
    omega
  rw [h3, Int.toNat_of_nonneg ha.1]
  exact toInt32_eq ha.1 (by have := ha.2; norm_num at this ⊢; omega)



theorem absoluteAnd_spec_aux {x y : JSBI} {r0 : Option JSBI} {r : JSBI}
    (hx : ∀ j, goodDigit (x.dig j)) (hy : ∀ j, goodDigit (y.dig j))
    (hbuf : ∀ z, r0 = some z → max x.digits.length y.digits.length ≤ z.digits.length)
    (hyx : y.digits.length ≤ x.digits.length)
    (h : absoluteAnd x y r0 = .ok r) :
    r.sign = (r0.getD ⟨false, []⟩).sign ∧
    (∀ j, goodDigit (r.dig j)) ∧
    (∀ q, r.dig q = jsAnd (x.dig q) (y.dig q)) := by
  simp only [absoluteAnd] at h
  rw [if_neg (by omega)] at h
  rcases r0 with _ | z
  · simp only [Except.bind, bind] at h
    cases hres : newJSBI y.digits.length false with
    | error e =>
      rw [hres] at h
      simp only [Except.bind, bind] at h
      exact Except.noConfusion h
    | ok result =>
      rw [hres] at h
      simp only [Except.bind, bind, pure, Except.pure] at h
      obtain ⟨hr0, _⟩ := newJSBI_ok hres
      have hrlen : result.digits.length = y.digits.length := by rw [hr0]; simp
      obtain ⟨p1, p2, p3, p4⟩ := bitPairLoop_spec jsAnd x y
        (fun a b ha hb => jsAnd_good ha hb) hx hy y.digits.length 0 result
        (bitPairLoop jsAnd x y y.digits.length 0 result) (by omega) rfl
      obtain ⟨z1, z2, z3, z4⟩ := zeroFillFrom_spec (y.digits.length - y.digits.length)
        y.digits.length (bitPairLoop jsAnd x y y.digits.length 0 result)
        (zeroFillFrom (y.digits.length - y.digits.length) y.digits.length
          (bitPairLoop jsAnd x y y.digits.length 0 result)) (by omega) rfl
      injection h with h1
      subst h1
      refine ⟨by rw [z1, p1, hr0]; rfl, ?_, ?_⟩
      · intro j
        rcases lt_or_ge j y.digits.length with hj | hj
        · rw [z3 j (Or.inl hj), p4 j (by omega) (by omega)]
          exact jsAnd_good (hx j) (hy j)
        · rw [dig_of_ge (by omega)]
          exact goodDigit_zero
      · intro q
        rcases lt_or_ge q y.digits.length with hq | hq
        · rw [z3 q (Or.inl hq), p4 q (by omega) (by omega)]
        · rw [dig_of_ge (by omega), dig_of_ge (i := q) (x := y) (by omega),
            jsAnd_zero_right]
  · simp only [Except.bind, bind, pure, Except.pure] at h
    have hzlen := hbuf z rfl
    obtain ⟨p1, p2, p3, p4⟩ := bitPairLoop_spec jsAnd x y
      (fun a b ha hb => jsAnd_good ha hb) hx hy y.digits.length 0 z
      (bitPairLoop jsAnd x y y.digits.length 0 z) (by omega) rfl
    obtain ⟨z1, z2, z3, z4⟩ := zeroFillFrom_spec (z.digits.length - y.digits.length)
      y.digits.length (bitPairLoop jsAnd x y y.digits.length 0 z)
      (zeroFillFrom (z.digits.length - y.digits.length) y.digits.length
        (bitPairLoop jsAnd x y y.digits.length 0 z)) (by omega) rfl
    injection h with h1
    subst h1
    refine ⟨by rw [z1, p1]; rfl, ?_, ?_⟩
    · intro j
      rcases lt_or_ge j y.digits.length with hj | hj
      · rw [z3 j (Or.inl hj), p4 j (by omega) (by omega)]
        exact jsAnd_good (hx j) (hy j)
      · rcases lt_or_ge j z.digits.length with hj2 | hj2
        · rw [z4 j (by omega) (by omega)]
          exact goodDigit_zero
        · rw [dig_of_ge (by omega)]
          exact goodDigit_zero
    · intro q
      rcases lt_or_ge q y.digits.length with hq | hq
      · rw [z3 q (Or.inl hq), p4 q (by omega) (by omega)]
      · rw [dig_of_ge (i := q) (x := y) (by omega), jsAnd_zero_right]
        rcases lt_or_ge q z.digits.length with hq2 | hq2
        · rw [z4 q (by omega) (by omega)]
        · rw [dig_of_ge (by omega)]

theorem absoluteAnd_spec {x y : JSBI} {r0 : Option JSBI} {r : JSBI}
    (hx : ∀ j, goodDigit (x.dig j)) (hy : ∀ j, goodDigit (y.dig j))
    (hbuf : ∀ z, r0 = some z → max x.digits.length y.digits.length ≤ z.digits.length)
    (h : absoluteAnd x y r0 = .ok r) :
    r.sign = (r0.getD ⟨false, []⟩).sign ∧
    (∀ j, goodDigit (r.dig j)) ∧
    (∀ q, r.dig q = jsAnd (x.dig q) (y.dig q)) := by
  rcases le_or_lt y.digits.length x.digits.length with hle | hlt
  · exact absoluteAnd_spec_aux hx hy hbuf hle h
  · have hcomm : absoluteAnd x y r0 = absoluteAnd y x r0 := by
      simp only [absoluteAnd]
      rw [if_pos hlt, if_neg (by omega)]
    rw [hcomm] at h
    obtain ⟨ha, hb, hc⟩ := absoluteAnd_spec_aux hy hx
      (fun z hz => by rw [max_comm]; exact hbuf z hz) (le_of_lt hlt) h
    exact ⟨ha, hb, fun q => by rw [hc q, jsAnd_comm]⟩



theorem absoluteOr_spec_aux {x y : JSBI} {r0 : Option JSBI} {r : JSBI}
    (hx : ∀ j, goodDigit (x.dig j)) (hy : ∀ j, goodDigit (y.dig j))
    (hbuf : ∀ z, r0 = some z → max x.digits.length y.digits.length ≤ z.digits.length)
    (hyx : y.digits.length ≤ x.digits.length)
    (h : absoluteOr x y r0 = .ok r) :
    r.sign = (r0.getD ⟨false, []⟩).sign ∧
    (∀ j, goodDigit (r.dig j)) ∧
    (∀ q, r.dig q = jsOr (x.dig q) (y.dig q)) := by
  simp only [absoluteOr] at h
  rw [if_neg (by omega)] at h
  rcases r0 with _ | z
  · simp only [Except.bind, bind] at h
    cases hres : newJSBI x.digits.length false with
    | error e =>
      rw [hres] at h
      simp only [Except.bind, bind] at h
      exact Except.noConfusion h
    | ok result =>
      rw [hres] at h
      simp only [Except.bind, bind, pure, Except.pure] at h
      obtain ⟨hr0, _⟩ := newJSBI_ok hres
      have hrlen : result.digits.length = x.digits.length := by rw [hr0]; simp
      obtain ⟨p1, p2, p3, p4⟩ := bitPairLoop_spec jsOr x y
        (fun a b ha hb => jsOr_good ha hb) hx hy y.digits.length 0 result
        (bitPairLoop jsOr x y y.digits.length 0 result) (by omega) rfl
      obtain ⟨c1, c2, c3, c4⟩ := copyDigitsLoop_spec x hx
        (x.digits.length - y.digits.length) y.digits.length
        (bitPairLoop jsOr x y y.digits.length 0 result)
        (copyDigitsLoop x (x.digits.length - y.digits.length) y.digits.length
          (bitPairLoop jsOr x y y.digits.length 0 result)) (by omega) rfl
      obtain ⟨z1, z2, z3, z4⟩ := zeroFillFrom_spec (x.digits.length - x.digits.length)
        x.digits.length
        (copyDigitsLoop x (x.digits.length - y.digits.length) y.digits.length
          (bitPairLoop jsOr x y y.digits.length 0 result))
        (zeroFillFrom (x.digits.length - x.digits.length) x.digits.length
          (copyDigitsLoop x (x.digits.length - y.digits.length) y.digits.length
            (bitPairLoop jsOr x y y.digits.length 0 result))) (by omega) rfl
      injection h with h1
      subst h1
      refine ⟨by rw [z1, c1, p1, hr0]; rfl, ?_, ?_⟩
      · intro j
        rcases lt_or_ge j y.digits.length with hj | hj
        · rw [z3 j (Or.inl (by omega)), c3 j (Or.inl hj), p4 j (by omega) (by omega)]
          exact jsOr_good (hx j) (hy j)
        · rcases lt_or_ge j x.digits.length with hj2 | hj2
          · rw [z3 j (Or.inl (by omega)), c4 j (by omega) (by omega)]
            exact hx j
          · rw [dig_of_ge (by omega)]
            exact goodDigit_zero
      · intro q
        rcases lt_or_ge q y.digits.length with hq | hq
        · rw [z3 q (Or.inl (by omega)), c3 q (Or.inl hq), p4 q (by omega) (by omega)]
        · rcases lt_or_ge q x.digits.length with hq2 | hq2
          · rw [z3 q (Or.inl (by omega)), c4 q (by omega) (by omega),
              dig_of_ge (i := q) (x := y) (by omega), jsOr_zero_right (hx q)]
          · rw [dig_of_ge (by omega), dig_of_ge (i := q) (x := y) (by omega),
              dig_of_ge (i := q) (x := x) (by omega)]
            rfl
  · simp only [Except.bind, bind, pure, Except.pure] at h
    have hzlen := hbuf z rfl
    obtain ⟨p1, p2, p3, p4⟩ := bitPairLoop_spec jsOr x y
      (fun a b ha hb => jsOr_good ha hb) hx hy y.digits.length 0 z
      (bitPairLoop jsOr x y y.digits.length 0 z) (by omega) rfl
    obtain ⟨c1, c2, c3, c4⟩ := copyDigitsLoop_spec x hx
      (x.digits.length - y.digits.length) y.digits.length
      (bitPairLoop jsOr x y y.digits.length 0 z)
      (copyDigitsLoop x (x.digits.length - y.digits.length) y.digits.length
        (bitPairLoop jsOr x y y.digits.length 0 z)) (by omega) rfl
    obtain ⟨z1, z2, z3, z4⟩ := zeroFillFrom_spec (z.digits.length - x.digits.length)
      x.digits.length
      (copyDigitsLoop x (x.digits.length - y.digits.length) y.digits.length
        (bitPairLoop jsOr x y y.digits.length 0 z))
      (zeroFillFrom (z.digits.length - x.digits.length) x.digits.length
        (copyDigitsLoop x (x.digits.length - y.digits.length) y.digits.length
          (bitPairLoop jsOr x y y.digits.length 0 z))) (by omega) rfl
    injection h with h1
    subst h1
    refine ⟨by rw [z1, c1, p1]; rfl, ?_, ?_⟩
    · intro j
      rcases lt_or_ge j y.digits.length with hj | hj
      · rw [z3 j (Or.inl (by omega)), c3 j (Or.inl hj), p4 j (by omega) (by omega)]
        exact jsOr_good (hx j) (hy j)
      · rcases lt_or_ge j x.digits.length with hj2 | hj2
        · rw [z3 j (Or.inl (by omega)), c4 j (by omega) (by omega)]
          exact hx j
        · rcases lt_or_ge j z.digits.length with hj3 | hj3
          · rw [z4 j (by omega) (by omega)]
            exact goodDigit_zero
          · rw [dig_of_ge (by omega)]
            exact goodDigit_zero
    · intro q
      rcases lt_or_ge q y.digits.length with hq | hq
      · rw [z3 q (Or.inl (by omega)), c3 q (Or.inl hq), p4 q (by omega) (by omega)]
      · rcases lt_or_ge q x.digits.length with hq2 | hq2
        · rw [z3 q (Or.inl (by omega)), c4 q (by omega) (by omega),
            dig_of_ge (i := q) (x := y) (by omega), jsOr_zero_right (hx q)]
        · rw [dig_of_ge (i := q) (x := y) (by omega),
            dig_of_ge (i := q) (x := x) (by omega)]
          rcases lt_or_ge q z.digits.length with hq3 | hq3
          · rw [z4 q (by omega) (by omega)]
            rfl
          · rw [dig_of_ge (by omega)]
            rfl

theorem absoluteOr_spec {x y : JSBI} {r0 : Option JSBI} {r : JSBI}
    (hx : ∀ j, goodDigit (x.dig j)) (hy : ∀ j, goodDigit (y.dig j))
    (hbuf : ∀ z, r0 = some z → max x.digits.length y.digits.length ≤ z.digits.length)
    (h : absoluteOr x y r0 = .ok r) :
    r.sign = (r0.getD ⟨false, []⟩).sign ∧
    (∀ j, goodDigit (r.dig j)) ∧
    (∀ q, r.dig q = jsOr (x.dig q) (y.dig q)) := by
  rcases le_or_lt y.digits.length x.digits.length with hle | hlt
  · exact absoluteOr_spec_aux hx hy hbuf hle h
  · have hcomm : absoluteOr x y r0 = absoluteOr y x r0 := by
      simp only [absoluteOr]
      rw [if_pos hlt, if_neg (by omega)]
    rw [hcomm] at h
    obtain ⟨ha, hb, hc⟩ := absoluteOr_spec_aux hy hx
      (fun z hz => by rw [max_comm]; exact hbuf z hz) (le_of_lt hlt) h
    exact ⟨ha, hb, fun q => by rw [hc q, jsOr_comm]⟩



theorem absoluteXor_spec_aux {x y : JSBI} {r0 : Option JSBI} {r : JSBI}
    (hx : ∀ j, goodDigit (x.dig j)) (hy : ∀ j, goodDigit (y.dig j))
    (hbuf : ∀ z, r0 = some z → max x.digits.length y.digits.length ≤ z.digits.length)
    (hyx : y.digits.length ≤ x.digits.length)
    (h : absoluteXor x y r0 = .ok r) :
    r.sign = (r0.getD ⟨false, []⟩).sign ∧
    (∀ j, goodDigit (r.dig j)) ∧
    (∀ q, r.dig q = jsXor (x.dig q) (y.dig q)) := by
  simp only [absoluteXor] at h
  rw [if_neg (by omega)] at h
  rcases r0 with _ | z
  · simp only [Except.bind, bind] at h
    cases hres : newJSBI x.digits.length false with
    | error e =>
      rw [hres] at h
      simp only [Except.bind, bind] at h
      exact Except.noConfusion h
    | ok result =>
      rw [hres] at h
      simp only [Except.bind, bind, pure, Except.pure] at h
      obtain ⟨hr0, _⟩ := newJSBI_ok hres
      have hrlen : result.digits.length = x.digits.length := by rw [hr0]; simp
      obtain ⟨p1, p2, p3, p4⟩ := bitPairLoop_spec jsXor x y
        (fun a b ha hb => jsXor_good ha hb) hx hy y.digits.length 0 result
        (bitPairLoop jsXor x y y.digits.length 0 result) (by omega) rfl
      obtain ⟨c1, c2, c3, c4⟩ := copyDigitsLoop_spec x hx
        (x.digits.length - y.digits.length) y.digits.length
        (bitPairLoop jsXor x y y.digits.length 0 result)
        (copyDigitsLoop x (x.digits.length - y.digits.length) y.digits.length
          (bitPairLoop jsXor x y y.digits.length 0 result)) (by omega) rfl
      obtain ⟨z1, z2, z3, z4⟩ := zeroFillFrom_spec (x.digits.length - x.digits.length)
        x.digits.length
        (copyDigitsLoop x (x.digits.length - y.digits.length) y.digits.length
          (bitPairLoop jsXor x y y.digits.length 0 result))
        (zeroFillFrom (x.digits.length - x.digits.length) x.digits.length
          (copyDigitsLoop x (x.digits.length - y.digits.length) y.digits.length
            (bitPairLoop jsXor x y y.digits.length 0 result))) (by omega) rfl
      injection h with h1
      subst h1
      refine ⟨by rw [z1, c1, p1, hr0]; rfl, ?_, ?_⟩
      · intro j
        rcases lt_or_ge j y.digits.length with hj | hj
        · rw [z3 j (Or.inl (by omega)), c3 j (Or.inl hj), p4 j (by omega) (by omega)]
          exact jsXor_good (hx j) (hy j)
        · rcases lt_or_ge j x.digits.length with hj2 | hj2
          · rw [z3 j (Or.inl (by omega)), c4 j (by omega) (by omega)]
            exact hx j
          · rw [dig_of_ge (by omega)]
            exact goodDigit_zero
      · intro q
        rcases lt_or_ge q y.digits.length with hq | hq
        · rw [z3 q (Or.inl (by omega)), c3 q (Or.inl hq), p4 q (by omega) (by omega)]
        · rcases lt_or_ge q x.digits.length with hq2 | hq2
          · rw [z3 q (Or.inl (by omega)), c4 q (by omega) (by omega),
              dig_of_ge (i := q) (x := y) (by omega), jsXor_zero_right (hx q)]
          · rw [dig_of_ge (by omega), dig_of_ge (i := q) (x := y) (by omega),
              dig_of_ge (i := q) (x := x) (by omega)]
            rfl
  · simp only [Except.bind, bind, pure, Except.pure] at h
    have hzlen := hbuf z rfl
    obtain ⟨p1, p2, p3, p4⟩ := bitPairLoop_spec jsXor x y
      (fun a b ha hb => jsXor_good ha hb) hx hy y.digits.length 0 z
      (bitPairLoop jsXor x y y.digits.length 0 z) (by omega) rfl
    obtain ⟨c1, c2, c3, c4⟩ := copyDigitsLoop_spec x hx
      (x.digits.length - y.digits.length) y.digits.length
      (bitPairLoop jsXor x y y.digits.length 0 z)
      (copyDigitsLoop x (x.digits.length - y.digits.length) y.digits.length
        (bitPairLoop jsXor x y y.digits.length 0 z)) (by omega) rfl
    obtain ⟨z1, z2, z3, z4⟩ := zeroFillFrom_spec (z.digits.length - x.digits.length)
      x.digits.length
      (copyDigitsLoop x (x.digits.length - y.digits.length) y.digits.length
        (bitPairLoop jsXor x y y.digits.length 0 z))
      (zeroFillFrom (z.digits.length - x.digits.length) x.digits.length
        (copyDigitsLoop x (x.digits.length - y.digits.length) y.digits.length
          (bitPairLoop jsXor x y y.digits.length 0 z))) (by omega) rfl
    injection h with h1
    subst h1
    refine ⟨by rw [z1, c1, p1]; rfl, ?_, ?_⟩
    · intro j
      rcases lt_or_ge j y.digits.length with hj | hj
      · rw [z3 j (Or.inl (by omega)), c3 j (Or.inl hj), p4 j (by omega) (by omega)]
        exact jsXor_good (hx j) (hy j)
      · rcases lt_or_ge j x.digits.length with hj2 | hj2
        · rw [z3 j (Or.inl (by omega)), c4 j (by omega) (by omega)]
          exact hx j
        · rcases lt_or_ge j z.digits.length with hj3 | hj3
          · rw [z4 j (by omega) (by omega)]
            exact goodDigit_zero
          · rw [dig_of_ge (by omega)]
            exact goodDigit_zero
    · intro q
      rcases lt_or_ge q y.digits.length with hq | hq
      · rw [z3 q (Or.inl (by omega)), c3 q (Or.inl hq), p4 q (by omega) (by omega)]
      · rcases lt_or_ge q x.digits.length with hq2 | hq2
        · rw [z3 q (Or.inl (by omega)), c4 q (by omega) (by omega),
            dig_of_ge (i := q) (x := y) (by omega), jsXor_zero_right (hx q)]
        · rw [dig_of_ge (i := q) (x := y) (by omega),
            dig_of_ge (i := q) (x := x) (by omega)]
          rcases lt_or_ge q z.digits.length with hq3 | hq3
          · rw [z4 q (by omega) (by omega)]
            rfl
          · rw [dig_of_ge (by omega)]
            rfl

theorem absoluteXor_spec {x y : JSBI} {r0 : Option JSBI} {r : JSBI}
    (hx : ∀ j, goodDigit (x.dig j)) (hy : ∀ j, goodDigit (y.dig j))
    (hbuf : ∀ z, r0 = some z → max x.digits.length y.digits.length ≤ z.digits.length)
    (h : absoluteXor x y r0 = .ok r) :
    r.sign = (r0.getD ⟨false, []⟩).sign ∧
    (∀ j, goodDigit (r.dig j)) ∧
    (∀ q, r.dig q = jsXor (x.dig q) (y.dig q)) := by
  rcases le_or_lt y.digits.length x.digits.length with hle | hlt
  · exact absoluteXor_spec_aux hx hy hbuf hle h
  · have hcomm : absoluteXor x y r0 = absoluteXor y x r0 := by
      simp only [absoluteXor]
      rw [if_pos hlt, if_neg (by omega)]
    rw [hcomm] at h
    obtain ⟨ha, hb, hc⟩ := absoluteXor_spec_aux hy hx
      (fun z hz => by rw [max_comm]; exact hbuf z hz) (le_of_lt hlt) h
    exact ⟨ha, hb, fun q => by rw [hc q, jsXor_comm]⟩




theorem absoluteAndNot_spec {x y : JSBI} {r0 : Option JSBI} {r : JSBI}
    (hx : ∀ j, goodDigit (x.dig j)) (hy : ∀ j, goodDigit (y.dig j))
    (hbuf : ∀ z, r0 = some z → x.digits.length ≤ z.digits.length)
    (h : absoluteAndNot x y r0 = .ok r) :
    r.sign = (r0.getD ⟨false, []⟩).sign ∧
    (∀ j, goodDigit (r.dig j)) ∧
    (∀ q, r.dig q = jsAnd (x.dig q) (jsNot (y.dig q))) := by
  simp only [absoluteAndNot] at h
  set NP := min y.digits.length x.digits.length with hNP
  have hdigform : ∀ q, NP ≤ q → q < x.digits.length →
      x.dig q = jsAnd (x.dig q) (jsNot (y.dig q)) := by
    intro q hq1 hq2
    have hyq : y.dig q = 0 := dig_of_ge (by omega)
    rw [hyq, jsAndNot_zero_right (hx q)]
  have hop : ∀ a b, goodDigit a → goodDigit b → goodDigit (jsAnd a (jsNot b)) :=
    fun a b ha hb => jsAndNot_good ha hb
  rcases r0 with _ | z
  · simp only [Except.bind, bind] at h
    cases hres : newJSBI x.digits.length false with
    | error e =>
      rw [hres] at h
      simp only [Except.bind, bind] at h
      exact Except.noConfusion h
    | ok result =>
      rw [hres] at h
      simp only [Except.bind, bind, pure, Except.pure] at h
      obtain ⟨hr0, _⟩ := newJSBI_ok hres
      have hrlen : result.digits.length = x.digits.length := by rw [hr0]; simp
      obtain ⟨p1, p2, p3, p4⟩ := bitPairLoop_spec (fun a b => jsAnd a (jsNot b)) x y
        hop hx hy NP 0 result
        (bitPairLoop (fun a b => jsAnd a (jsNot b)) x y NP 0 result) (by omega) rfl
      obtain ⟨c1, c2, c3, c4⟩ := copyDigitsLoop_spec x hx
        (x.digits.length - NP) NP
        (bitPairLoop (fun a b => jsAnd a (jsNot b)) x y NP 0 result)
        (copyDigitsLoop x (x.digits.length - NP) NP
          (bitPairLoop (fun a b => jsAnd a (jsNot b)) x y NP 0 result)) (by omega) rfl
      obtain ⟨z1, z2, z3, z4⟩ := zeroFillFrom_spec (x.digits.length - x.digits.length)
        x.digits.length
        (copyDigitsLoop x (x.digits.length - NP) NP
          (bitPairLoop (fun a b => jsAnd a (jsNot b)) x y NP 0 result))
        (zeroFillFrom (x.digits.length - x.digits.length) x.digits.length
          (copyDigitsLoop x (x.digits.length - NP) NP
            (bitPairLoop (fun a b => jsAnd a (jsNot b)) x y NP 0 result)))
        (by omega) rfl
      injection h with h1
      subst h1
      refine ⟨by rw [z1, c1, p1, hr0]; rfl, ?_, ?_⟩
      · intro j
        rcases lt_or_ge j NP with hj | hj
        · rw [z3 j (Or.inl (by omega)), c3 j (Or.inl hj), p4 j (by omega) (by omega)]
          exact hop _ _ (hx j) (hy j)
        · rcases lt_or_ge j x.digits.length with hj2 | hj2
          · rw [z3 j (Or.inl (by omega)), c4 j (by omega) (by omega)]
            exact hx j
          · rw [dig_of_ge (by omega)]
            exact goodDigit_zero
      · intro q
        rcases lt_or_ge q NP with hq | hq
        · rw [z3 q (Or.inl (by omega)), c3 q (Or.inl hq), p4 q (by omega) (by omega)]
        · rcases lt_or_ge q x.digits.length with hq2 | hq2
          · rw [z3 q (Or.inl (by omega)), c4 q (by omega) (by omega)]
            exact hdigform q hq hq2
          · rw [dig_of_ge (by omega), dig_of_ge (i := q) (x := x) (by omega),
              jsAnd_zero_left]
  · simp only [Except.bind, bind, pure, Except.pure] at h
    have hzlen := hbuf z rfl
    obtain ⟨p1, p2, p3, p4⟩ := bitPairLoop_spec (fun a b => jsAnd a (jsNot b)) x y
      hop hx hy NP 0 z
      (bitPairLoop (fun a b => jsAnd a (jsNot b)) x y NP 0 z) (by omega) rfl
    obtain ⟨c1, c2, c3, c4⟩ := copyDigitsLoop_spec x hx
      (x.digits.length - NP) NP
      (bitPairLoop (fun a b => jsAnd a (jsNot b)) x y NP 0 z)
      (copyDigitsLoop x (x.digits.length - NP) NP
        (bitPairLoop (fun a b => jsAnd a (jsNot b)) x y NP 0 z)) (by omega) rfl
    obtain ⟨z1, z2, z3, z4⟩ := zeroFillFrom_spec (z.digits.length - x.digits.length)
      x.digits.length
      (copyDigitsLoop x (x.digits.length - NP) NP
        (bitPairLoop (fun a b => jsAnd a (jsNot b)) x y NP 0 z))
      (zeroFillFrom (z.digits.length - x.digits.length) x.digits.length
        (copyDigitsLoop x (x.digits.length - NP) NP
          (bitPairLoop (fun a b => jsAnd a (jsNot b)) x y NP 0 z)))
      (by omega) rfl
    injection h with h1
    subst h1
    refine ⟨by rw [z1, c1, p1]; rfl, ?_, ?_⟩
    · intro j
      rcases lt_or_ge j NP with hj | hj
      · rw [z3 j (Or.inl (by omega)), c3 j (Or.inl hj), p4 j (by omega) (by omega)]
        exact hop _ _ (hx j) (hy j)
      · rcases lt_or_ge j x.digits.length with hj2 | hj2
        · rw [z3 j (Or.inl (by omega)), c4 j (by omega) (by omega)]
          exact hx j
        · rcases lt_or_ge j z.digits.length with hj3 | hj3
          · rw [z4 j (by omega) (by omega)]
            exact goodDigit_zero
          · rw [dig_of_ge (by omega)]
            exact goodDigit_zero
    · intro q
      rcases lt_or_ge q NP with hq | hq
      · rw [z3 q (Or.inl (by omega)), c3 q (Or.inl hq), p4 q (by omega) (by omega)]
      · rcases lt_or_ge q x.digits.length with hq2 | hq2
        · rw [z3 q (Or.inl (by omega)), c4 q (by omega) (by omega)]
          exact hdigform q hq hq2
        · rw [dig_of_ge (i := q) (x := x) (by omega), jsAnd_zero_left]
          rcases lt_or_ge q z.digits.length with hq3 | hq3
          · rw [z4 q (by omega) (by omega)]
          · rw [dig_of_ge (by omega)]



theorem magD_nonneg_of_good {x : JSBI} (hg : ∀ j, goodDigit (x.dig j)) :
    0 ≤ magD x.digits :=
  magD_nonneg (fun d hd => (mem_good_of_dig_good (fun i _ => hg i) d hd).1)

theorem tcBit_toInt_pos {x : JSBI} (hg : ∀ i, goodDigit (x.dig i))
    (hxs : x.sign = false) (k : ℕ) :
    tcBit (toInt x) k = tcBit (x.dig (k / 30)) (k % 30) := by
  unfold toInt
  rw [hxs]
  norm_num
  exact tcBit_magD_any hg k

theorem tcBit_toInt_neg {x : JSBI} (hv : Valid x) (hxs : x.sign = true) (k : ℕ) :
    tcBit (toInt x) k = ! tcBit (magD x.digits - 1) k := by
  have hne : x.digits ≠ [] := fun hc => by
    have h2 := hv.2.2 hc
    rw [h2] at hxs
    exact Bool.false_ne_true hxs
  have hm1 : 0 < magD x.digits := magD_pos hv.1 hne hv.2.1
  unfold toInt
  rw [hxs]
  norm_num
  rw [show -magD x.digits = -((magD x.digits - 1) + 1) from by ring]
  exact tcBit_neg_succ (by omega) k

/-- The magnitude of a negative operand is at least 1. -/
theorem magD_pos_of_sign {x : JSBI} (hv : Valid x) (hxs : x.sign = true) :
    1 ≤ magD x.digits := by
  have hne : x.digits ≠ [] := fun hc => by
    have h2 := hv.2.2 hc
    rw [h2] at hxs
    exact Bool.false_ne_true hxs
  have := magD_pos hv.1 hne hv.2.1
  omega



/-- `bitwiseAnd` computes the pointwise AND of the two's-complement bit
strings. -/
theorem bitwiseAnd_spec {x y : JSBI} (hvx : Valid x) (hvy : Valid y) {r : JSBI}
    (h : bitwiseAnd x y = .ok r) :
    Valid r ∧ ∀ k, tcBit (toInt r) k = (tcBit (toInt x) k && tcBit (toInt y) k) := by
  have gx := valid_dig_good hvx
  have gy := valid_dig_good hvy
  simp only [bitwiseAnd] at h
  cases hxs : x.sign with
  | false =>
    cases hys : y.sign with
    | false =>
      rw [if_pos (by simp [hxs, hys])] at h
      cases habs : absoluteAnd x y none with
      | error e =>
        rw [habs] at h
        simp only [Except.bind, bind] at h
        exact Except.noConfusion h
      | ok rp =>
        rw [habs] at h
        simp only [Except.bind, bind] at h
        injection h with h1
        subst h1
        obtain ⟨hs, hg, hd⟩ := absoluteAnd_spec gx gy (by intro z hz; simp at hz) habs
        have hs2 : rp.sign = false := hs
        refine ⟨valid_trim2 (mem_good_of_dig_good (fun j _ => hg j)), ?_⟩
        intro k
        have hval : toInt (trim rp) = magD rp.digits := by
          rw [toInt_trim]
          unfold toInt
          rw [hs2]
          norm_num
        rw [hval, tcBit_magD_any hg k, hd (k / 30),
          jsAnd_digit_bit (gx _) (gy _),
          tcBit_toInt_pos gx hxs, tcBit_toInt_pos gy hys]
    | true =>
      rw [if_neg (by simp [hys]), if_neg (by simp [hxs])] at h
      rw [if_neg (by simp [hxs])] at h
      dsimp only at h
      cases h1 : absoluteSubOne y none with
      | error e =>
        rw [h1] at h
        simp only [Except.bind, bind] at h
        exact Except.noConfusion h
      | ok y1 =>
        rw [h1] at h
        simp only [Except.bind, bind] at h
        obtain ⟨t1, t2, t3, t4⟩ := absoluteSubOne_spec gy
          (magD_pos_of_sign hvy hys) (by simp) h1
        cases h2 : absoluteAndNot x y1 none with
        | error e =>
          rw [h2] at h
          simp only [Except.bind, bind] at h
          exact Except.noConfusion h
        | ok rp =>
          rw [h2] at h
          simp only [Except.bind, bind] at h
          injection h with hinj
          subst hinj
          obtain ⟨hs, hg, hd⟩ := absoluteAndNot_spec gx t3
            (by intro z hz; simp at hz) h2
          have hs2 : rp.sign = false := hs
          refine ⟨valid_trim2 (mem_good_of_dig_good (fun j _ => hg j)), ?_⟩
          intro k
          have hval : toInt (trim rp) = magD rp.digits := by
            rw [toInt_trim]
            unfold toInt
            rw [hs2]
            norm_num
          rw [hval, tcBit_magD_any hg k, hd (k / 30),
            jsAndNot_digit_bit (gx _) (t3 _),
            tcBit_toInt_pos gx hxs, tcBit_toInt_neg hvy hys]
          have hy1 : tcBit (y1.dig (k / 30)) (k % 30) =
              tcBit (magD y.digits - 1) k := by
            rw [← t4, tcBit_magD_any t3 k]
          rw [hy1]
  | true =>
    cases hys : y.sign with
    | false =>
      rw [if_neg (by simp [hxs]), if_neg (by simp [hys])] at h
      rw [if_pos hxs] at h
      dsimp only at h
      cases h1 : absoluteSubOne x none with
      | error e =>
        rw [h1] at h
        simp only [Except.bind, bind] at h
        exact Except.noConfusion h
      | ok x1 =>
        rw [h1] at h
        simp only [Except.bind, bind] at h
        obtain ⟨t1, t2, t3, t4⟩ := absoluteSubOne_spec gx
          (magD_pos_of_sign hvx hxs) (by simp) h1
        cases h2 : absoluteAndNot y x1 none with
        | error e =>
          rw [h2] at h
          simp only [Except.bind, bind] at h
          exact Except.noConfusion h
        | ok rp =>
          rw [h2] at h
          simp only [Except.bind, bind] at h
          injection h with hinj
          subst hinj
          obtain ⟨hs, hg, hd⟩ := absoluteAndNot_spec gy t3
            (by intro z hz; simp at hz) h2
          have hs2 : rp.sign = false := hs
          refine ⟨valid_trim2 (mem_good_of_dig_good (fun j _ => hg j)), ?_⟩
          intro k
          have hval : toInt (trim rp) = magD rp.digits := by
            rw [toInt_trim]
            unfold toInt
            rw [hs2]
            norm_num
          rw [hval, tcBit_magD_any hg k, hd (k / 30),
            jsAndNot_digit_bit (gy _) (t3 _),
            tcBit_toInt_pos gy hys, tcBit_toInt_neg hvx hxs]
          have hx1 : tcBit (x1.dig (k / 30)) (k % 30) =
              tcBit (magD x.digits - 1) k := by
            rw [← t4, tcBit_magD_any t3 k]
          rw [hx1]
          rw [Bool.and_comm]
    | true =>
      rw [if_neg (by simp [hxs]), if_pos (by simp [hxs, hys])] at h
      cases h1 : absoluteSubOne x (some (max x.digits.length y.digits.length + 1)) with
      | error e =>
        rw [h1] at h
        simp only [Except.bind, bind] at h
        exact Except.noConfusion h
      | ok r1 =>
        rw [h1] at h
        simp only [Except.bind, bind] at h
        obtain ⟨t1, t2, t3, t4⟩ := absoluteSubOne_spec gx
          (magD_pos_of_sign hvx hxs) (by simp; try omega) h1
        cases h2 : absoluteSubOne y none with
        | error e =>
          rw [h2] at h
          simp only [Except.bind, bind] at h
          exact Except.noConfusion h
        | ok y1 =>
          rw [h2] at h
          simp only [Except.bind, bind] at h
          obtain ⟨u1, u2, u3, u4⟩ := absoluteSubOne_spec gy
            (magD_pos_of_sign hvy hys) (by simp) h2
          cases h3 : absoluteOr r1 y1 (some r1) with
          | error e =>
            rw [h3] at h
            simp only [Except.bind, bind] at h
            exact Except.noConfusion h
          | ok r2 =>
            rw [h3] at h
            simp only [Except.bind, bind] at h
            obtain ⟨v1, v2, v3⟩ := absoluteOr_spec t3 u3
              (by
                intro z hz
                injection hz with hz2
                subst hz2
                simp at t2 u2 ⊢
                omega) h3
            cases h4 : absoluteAddOne r2 true (some r2) with
            | error e =>
              rw [h4] at h
              simp only [Except.bind, bind] at h
              exact Except.noConfusion h
            | ok r3 =>
              rw [h4] at h
              simp only [Except.bind, bind] at h
              injection h with hinj
              subst hinj
              obtain ⟨w1, w2, w3⟩ := absoluteAddOne_spec v2 (Or.inr rfl) h4
              refine ⟨valid_trim2 (mem_good_of_dig_good (fun j _ => w2 j)), ?_⟩
              intro k
              have hval : toInt (trim r3) = -(magD r2.digits + 1) := by
                rw [toInt_trim]
                unfold toInt
                rw [w1, w3]
                simp
                try ring
              rw [hval, show -(magD r2.digits + 1) = -((magD r2.digits) + 1) from rfl,
                tcBit_neg_succ (magD_nonneg_of_good v2) k,
                tcBit_magD_any v2 k, v3 (k / 30),
                jsOr_digit_bit (t3 _) (u3 _)]
              have hr1 : tcBit (r1.dig (k / 30)) (k % 30) =
                  tcBit (magD x.digits - 1) k := by
                rw [← t4, tcBit_magD_any t3 k]
              have hy1 : tcBit (y1.dig (k / 30)) (k % 30) =
                  tcBit (magD y.digits - 1) k := by
                rw [← u4, tcBit_magD_any u3 k]
              rw [hr1, hy1, tcBit_toInt_neg hvx hxs, tcBit_toInt_neg hvy hys,
                Bool.not_or]



theorem bool_xor_not_not (a b : Bool) : xor (!a) (!b) = xor a b := by
  cases a <;> cases b <;> rfl

theorem bool_not_xor_not_left (a b : Bool) : (!(xor (!a) b)) = xor a b := by
  cases a <;> cases b <;> rfl

/-- `bitwiseOr` computes the pointwise OR of the two's-complement bit
strings. -/
theorem bitwiseOr_spec {x y : JSBI} (hvx : Valid x) (hvy : Valid y) {r : JSBI}
    (h : bitwiseOr x y = .ok r) :
    Valid r ∧ ∀ k, tcBit (toInt r) k = (tcBit (toInt x) k || tcBit (toInt y) k) := by
  have gx := valid_dig_good hvx
  have gy := valid_dig_good hvy
  simp only [bitwiseOr] at h
  cases hxs : x.sign with
  | false =>
    cases hys : y.sign with
    | false =>
      rw [if_pos (by simp [hxs, hys])] at h
      cases habs : absoluteOr x y none with
      | error e =>
        rw [habs] at h
        simp only [Except.bind, bind] at h
        exact Except.noConfusion h
      | ok rp =>
        rw [habs] at h
        simp only [Except.bind, bind] at h
        injection h with h1
        subst h1
        obtain ⟨hs, hg, hd⟩ := absoluteOr_spec gx gy (by intro z hz; simp at hz) habs
        have hs2 : rp.sign = false := hs
        refine ⟨valid_trim2 (mem_good_of_dig_good (fun j _ => hg j)), ?_⟩
        intro k
        have hval : toInt (trim rp) = magD rp.digits := by
          rw [toInt_trim]
          unfold toInt
          rw [hs2]
          norm_num
        rw [hval, tcBit_magD_any hg k, hd (k / 30),
          jsOr_digit_bit (gx _) (gy _),
          tcBit_toInt_pos gx hxs, tcBit_toInt_pos gy hys]
    | true =>
      rw [if_neg (by simp [hys]), if_neg (by simp [hxs])] at h
      rw [if_neg (by simp [hxs])] at h
      dsimp only at h
      cases h1 : absoluteSubOne y
          (some (max x.digits.length y.digits.length)) with
      | error e =>
        rw [h1] at h
        simp only [Except.bind, bind] at h
        exact Except.noConfusion h
      | ok r1 =>
        rw [h1] at h
        simp only [Except.bind, bind] at h
        obtain ⟨t1, t2, t3, t4⟩ := absoluteSubOne_spec gy
          (magD_pos_of_sign hvy hys) (by simp; try omega) h1
        cases h2 : absoluteAndNot r1 x (some r1) with
        | error e =>
          rw [h2] at h
          simp only [Except.bind, bind] at h
          exact Except.noConfusion h
        | ok r2 =>
          rw [h2] at h
          simp only [Except.bind, bind] at h
          obtain ⟨v1, v2, v3⟩ := absoluteAndNot_spec t3 gx
            (by
              intro z hz
              injection hz with hz2
              subst hz2
              exact le_refl _) h2
          cases h3 : absoluteAddOne r2 true (some r2) with
          | error e =>
            rw [h3] at h
            simp only [Except.bind, bind] at h
            exact Except.noConfusion h
          | ok r3 =>
            rw [h3] at h
            simp only [Except.bind, bind] at h
            injection h with hinj
            subst hinj
            obtain ⟨w1, w2, w3⟩ := absoluteAddOne_spec v2 (Or.inr rfl) h3
            refine ⟨valid_trim2 (mem_good_of_dig_good (fun j _ => w2 j)), ?_⟩
            intro k
            have hval : toInt (trim r3) = -(magD r2.digits + 1) := by
              rw [toInt_trim]
              unfold toInt
              rw [w1, w3]
              simp
              try ring
            rw [hval, tcBit_neg_succ (magD_nonneg_of_good v2) k,
              tcBit_magD_any v2 k, v3 (k / 30),
              jsAndNot_digit_bit (t3 _) (gx _)]
            have hr1 : tcBit (r1.dig (k / 30)) (k % 30) =
                tcBit (magD y.digits - 1) k := by
              rw [← t4, tcBit_magD_any t3 k]
            rw [hr1, tcBit_toInt_pos gx hxs, tcBit_toInt_neg hvy hys]
            cases tcBit (magD y.digits - 1) k <;>
              cases tcBit (x.dig (k / 30)) (k % 30) <;> rfl
  | true =>
    cases hys2 : y.sign with
    | false =>
      rw [if_neg (by simp [hxs]), if_neg (by simp [hys2])] at h
      rw [if_pos hxs] at h
      dsimp only at h
      cases h1 : absoluteSubOne x
          (some (max x.digits.length y.digits.length)) with
      | error e =>
        rw [h1] at h
        simp only [Except.bind, bind] at h
        exact Except.noConfusion h
      | ok r1 =>
        rw [h1] at h
        simp only [Except.bind, bind] at h
        obtain ⟨t1, t2, t3, t4⟩ := absoluteSubOne_spec gx
          (magD_pos_of_sign hvx hxs) (by simp; try omega) h1
        cases h2 : absoluteAndNot r1 y (some r1) with
        | error e =>
          rw [h2] at h
          simp only [Except.bind, bind] at h
          exact Except.noConfusion h
        | ok r2 =>
          rw [h2] at h
          simp only [Except.bind, bind] at h
          obtain ⟨v1, v2, v3⟩ := absoluteAndNot_spec t3 gy
            (by
              intro z hz
              injection hz with hz2
              subst hz2
              exact le_refl _) h2
          cases h3 : absoluteAddOne r2 true (some r2) with
          | error e =>
            rw [h3] at h
            simp only [Except.bind, bind] at h
            exact Except.noConfusion h
          | ok r3 =>
            rw [h3] at h
            simp only [Except.bind, bind] at h
            injection h with hinj
            subst hinj
            obtain ⟨w1, w2, w3⟩ := absoluteAddOne_spec v2 (Or.inr rfl) h3
            refine ⟨valid_trim2 (mem_good_of_dig_good (fun j _ => w2 j)), ?_⟩
            intro k
            have hval : toInt (trim r3) = -(magD r2.digits + 1) := by
              rw [toInt_trim]
              unfold toInt
              rw [w1, w3]
              simp
              try ring
            rw [hval, tcBit_neg_succ (magD_nonneg_of_good v2) k,
              tcBit_magD_any v2 k, v3 (k / 30),
              jsAndNot_digit_bit (t3 _) (gy _)]
            have hr1 : tcBit (r1.dig (k / 30)) (k % 30) =
                tcBit (magD x.digits - 1) k := by
              rw [← t4, tcBit_magD_any t3 k]
            rw [hr1, tcBit_toInt_pos gy hys2, tcBit_toInt_neg hvx hxs]
            cases tcBit (magD x.digits - 1) k <;>
              cases tcBit (y.dig (k / 30)) (k % 30) <;> rfl
    | true =>
      rw [if_neg (by simp [hxs]), if_pos (by simp [hxs, hys2])] at h
      cases h1 : absoluteSubOne x
          (some (max x.digits.length y.digits.length)) with
      | error e =>
        rw [h1] at h
        simp only [Except.bind, bind] at h
        exact Except.noConfusion h
      | ok r1 =>
        rw [h1] at h
        simp only [Except.bind, bind] at h
        obtain ⟨t1, t2, t3, t4⟩ := absoluteSubOne_spec gx
          (magD_pos_of_sign hvx hxs) (by simp; try omega) h1
        cases h2 : absoluteSubOne y none with
        | error e =>
          rw [h2] at h
          simp only [Except.bind, bind] at h
          exact Except.noConfusion h
        | ok y1 =>
          rw [h2] at h
          simp only [Except.bind, bind] at h
          obtain ⟨u1, u2, u3, u4⟩ := absoluteSubOne_spec gy
            (magD_pos_of_sign hvy hys2) (by simp) h2
          cases h3 : absoluteAnd r1 y1 (some r1) with
          | error e =>
            rw [h3] at h
            simp only [Except.bind, bind] at h
            exact Except.noConfusion h
          | ok r2 =>
            rw [h3] at h
            simp only [Except.bind, bind] at h
            obtain ⟨v1, v2, v3⟩ := absoluteAnd_spec t3 u3
              (by
                intro z hz
                injection hz with hz2
                subst hz2
                simp at t2 u2 ⊢
                omega) h3
            cases h4 : absoluteAddOne r2 true (some r2) with
            | error e =>
              rw [h4] at h
              simp only [Except.bind, bind] at h
              exact Except.noConfusion h
            | ok r3 =>
              rw [h4] at h
              simp only [Except.bind, bind] at h
              injection h with hinj
              subst hinj
              obtain ⟨w1, w2, w3⟩ := absoluteAddOne_spec v2 (Or.inr rfl) h4
              refine ⟨valid_trim2 (mem_good_of_dig_good (fun j _ => w2 j)), ?_⟩
              intro k
              have hval : toInt (trim r3) = -(magD r2.digits + 1) := by
                rw [toInt_trim]
                unfold toInt
                rw [w1, w3]
                simp
                try ring
              rw [hval, tcBit_neg_succ (magD_nonneg_of_good v2) k,
                tcBit_magD_any v2 k, v3 (k / 30),
                jsAnd_digit_bit (t3 _) (u3 _)]
              have hr1 : tcBit (r1.dig (k / 30)) (k % 30) =
                  tcBit (magD x.digits - 1) k := by
                rw [← t4, tcBit_magD_any t3 k]
              have hy1 : tcBit (y1.dig (k / 30)) (k % 30) =
                  tcBit (magD y.digits - 1) k := by
                rw [← u4, tcBit_magD_any u3 k]
              rw [hr1, hy1, tcBit_toInt_neg hvx hxs, tcBit_toInt_neg hvy hys2,
                Bool.not_and]



/-- `bitwiseXor` computes the pointwise XOR of the two's-complement bit
strings. -/
theorem bitwiseXor_spec {x y : JSBI} (hvx : Valid x) (hvy : Valid y) {r : JSBI}
    (h : bitwiseXor x y = .ok r) :
    Valid r ∧ ∀ k, tcBit (toInt r) k = xor (tcBit (toInt x) k) (tcBit (toInt y) k) := by
  have gx := valid_dig_good hvx
  have gy := valid_dig_good hvy
  simp only [bitwiseXor] at h
  cases hxs : x.sign with
  | false =>
    cases hys : y.sign with
    | false =>
      rw [if_pos (by simp [hxs, hys])] at h
      cases habs : absoluteXor x y none with
      | error e =>
        rw [habs] at h
        simp only [Except.bind, bind] at h
        exact Except.noConfusion h
      | ok rp =>
        rw [habs] at h
        simp only [Except.bind, bind] at h
        injection h with h1
        subst h1
        obtain ⟨hs, hg, hd⟩ := absoluteXor_spec gx gy (by intro z hz; simp at hz) habs
        have hs2 : rp.sign = false := hs
        refine ⟨valid_trim2 (mem_good_of_dig_good (fun j _ => hg j)), ?_⟩
        intro k
        have hval : toInt (trim rp) = magD rp.digits := by
          rw [toInt_trim]
          unfold toInt
          rw [hs2]
          norm_num
        rw [hval, tcBit_magD_any hg k, hd (k / 30),
          jsXor_digit_bit (gx _) (gy _),
          tcBit_toInt_pos gx hxs, tcBit_toInt_pos gy hys]
    | true =>
      rw [if_neg (by simp [hys]), if_neg (by simp [hxs])] at h
      rw [if_neg (by simp [hxs])] at h
      dsimp only at h
      cases h1 : absoluteSubOne y
          (some (max x.digits.length y.digits.length + 1)) with
      | error e =>
        rw [h1] at h
        simp only [Except.bind, bind] at h
        exact Except.noConfusion h
      | ok r1 =>
        rw [h1] at h
        simp only [Except.bind, bind] at h
        obtain ⟨t1, t2, t3, t4⟩ := absoluteSubOne_spec gy
          (magD_pos_of_sign hvy hys) (by simp; try omega) h1
        cases h2 : absoluteXor r1 x (some r1) with
        | error e =>
          rw [h2] at h
          simp only [Except.bind, bind] at h
          exact Except.noConfusion h
        | ok r2 =>
          rw [h2] at h
          simp only [Except.bind, bind] at h
          obtain ⟨v1, v2, v3⟩ := absoluteXor_spec t3 gx
            (by
              intro z hz
              injection hz with hz2
              subst hz2
              simp at t2 ⊢
              omega) h2
          cases h3 : absoluteAddOne r2 true (some r2) with
          | error e =>
            rw [h3] at h
            simp only [Except.bind, bind] at h
            exact Except.noConfusion h
          | ok r3 =>
            rw [h3] at h
            simp only [Except.bind, bind] at h
            injection h with hinj
            subst hinj
            obtain ⟨w1, w2, w3⟩ := absoluteAddOne_spec v2 (Or.inr rfl) h3
            refine ⟨valid_trim2 (mem_good_of_dig_good (fun j _ => w2 j)), ?_⟩
            intro k
            have hval : toInt (trim r3) = -(magD r2.digits + 1) := by
              rw [toInt_trim]
              unfold toInt
              rw [w1, w3]
              simp
              try ring
            rw [hval, tcBit_neg_succ (magD_nonneg_of_good v2) k,
              tcBit_magD_any v2 k, v3 (k / 30),
              jsXor_digit_bit (t3 _) (gx _)]
            have hr1 : tcBit (r1.dig (k / 30)) (k % 30) =
                tcBit (magD y.digits - 1) k := by
              rw [← t4, tcBit_magD_any t3 k]
            rw [hr1, tcBit_toInt_pos gx hxs, tcBit_toInt_neg hvy hys]
            cases tcBit (magD y.digits - 1) k <;>
              cases tcBit (x.dig (k / 30)) (k % 30) <;> rfl
  | true =>
    cases hys : y.sign with
    | false =>
      rw [if_neg (by simp [hxs]), if_neg (by simp [hys])] at h
      rw [if_pos hxs] at h
      dsimp only at h
      cases h1 : absoluteSubOne x
          (some (max x.digits.length y.digits.length + 1)) with
      | error e =>
        rw [h1] at h
        simp only [Except.bind, bind] at h
        exact Except.noConfusion h
      | ok r1 =>
        rw [h1] at h
        simp only [Except.bind, bind] at h
        obtain ⟨t1, t2, t3, t4⟩ := absoluteSubOne_spec gx
          (magD_pos_of_sign hvx hxs) (by simp; try omega) h1
        cases h2 : absoluteXor r1 y (some r1) with
        | error e =>
          rw [h2] at h
          simp only [Except.bind, bind] at h
          exact Except.noConfusion h
        | ok r2 =>
          rw [h2] at h
          simp only [Except.bind, bind] at h
          obtain ⟨v1, v2, v3⟩ := absoluteXor_spec t3 gy
            (by
              intro z hz
              injection hz with hz2
              subst hz2
              simp at t2 ⊢
              omega) h2
          cases h3 : absoluteAddOne r2 true (some r2) with
          | error e =>
            rw [h3] at h
            simp only [Except.bind, bind] at h
            exact Except.noConfusion h
          | ok r3 =>
            rw [h3] at h
            simp only [Except.bind, bind] at h
            injection h with hinj
            subst hinj
            obtain ⟨w1, w2, w3⟩ := absoluteAddOne_spec v2 (Or.inr rfl) h3
            refine ⟨valid_trim2 (mem_good_of_dig_good (fun j _ => w2 j)), ?_⟩
            intro k
            have hval : toInt (trim r3) = -(magD r2.digits + 1) := by
              rw [toInt_trim]
              unfold toInt
              rw [w1, w3]
              simp
              try ring
            rw [hval, tcBit_neg_succ (magD_nonneg_of_good v2) k,
              tcBit_magD_any v2 k, v3 (k / 30),
              jsXor_digit_bit (t3 _) (gy _)]
            have hr1 : tcBit (r1.dig (k / 30)) (k % 30) =
                tcBit (magD x.digits - 1) k := by
              rw [← t4, tcBit_magD_any t3 k]
            rw [hr1, tcBit_toInt_pos gy hys, tcBit_toInt_neg hvx hxs]
            cases tcBit (magD x.digits - 1) k <;>
              cases tcBit (y.dig (k / 30)) (k % 30) <;> rfl
    | true =>
      rw [if_neg (by simp [hxs]), if_pos (by simp [hxs, hys])] at h
      cases h1 : absoluteSubOne x
          (some (max x.digits.length y.digits.length)) with
      | error e =>
        rw [h1] at h
        simp only [Except.bind, bind] at h
        exact Except.noConfusion h
      | ok r1 =>
        rw [h1] at h
        simp only [Except.bind, bind] at h
        obtain ⟨t1, t2, t3, t4⟩ := absoluteSubOne_spec gx
          (magD_pos_of_sign hvx hxs) (by simp; try omega) h1
        cases h2 : absoluteSubOne y none with
        | error e =>
          rw [h2] at h
          simp only [Except.bind, bind] at h
          exact Except.noConfusion h
        | ok y1 =>
          rw [h2] at h
          simp only [Except.bind, bind] at h
          obtain ⟨u1, u2, u3, u4⟩ := absoluteSubOne_spec gy
            (magD_pos_of_sign hvy hys) (by simp) h2
          cases h3 : absoluteXor r1 y1 (some r1) with
          | error e =>
            rw [h3] at h
            simp only [Except.bind, bind] at h
            exact Except.noConfusion h
          | ok r2 =>
            rw [h3] at h
            simp only [Except.bind, bind] at h
            injection h with hinj
            subst hinj
            obtain ⟨v1, v2, v3⟩ := absoluteXor_spec t3 u3
              (by
                intro z hz
                injection hz with hz2
                subst hz2
                simp at t2 u2 ⊢
                omega) h3
            have hsr2 : r2.sign = false := by
              rw [v1]
              simp only [Option.getD_some]
              exact t1
            refine ⟨valid_trim2 (mem_good_of_dig_good (fun j _ => v2 j)), ?_⟩
            intro k
            have hval : toInt (trim r2) = magD r2.digits := by
              rw [toInt_trim]
              unfold toInt
              rw [hsr2]
              norm_num
            rw [hval, tcBit_magD_any v2 k, v3 (k / 30),
              jsXor_digit_bit (t3 _) (u3 _)]
            have hr1 : tcBit (r1.dig (k / 30)) (k % 30) =
                tcBit (magD x.digits - 1) k := by
              rw [← t4, tcBit_magD_any t3 k]
            have hy1 : tcBit (y1.dig (k / 30)) (k % 30) =
                tcBit (magD y.digits - 1) k := by
              rw [← u4, tcBit_magD_any u3 k]
            rw [hr1, hy1, tcBit_toInt_neg hvx hxs, tcBit_toInt_neg hvy hys,
              bool_xor_not_not]



/-- C4: `bitwiseAnd`, `bitwiseOr` and `bitwiseXor` return the integer whose
infinite two's-complement bit string is the pointwise AND, OR and XOR of
the operands' two's-complement bit strings, for all sign combinations. -/
theorem bitwise_c4 {x y : JSBI} (hvx : Valid x) (hvy : Valid y) :
    (∀ r, bitwiseAnd x y = .ok r → Valid r ∧
      ∀ k, tcBit (toInt r) k = (tcBit (toInt x) k && tcBit (toInt y) k)) ∧
    (∀ r, bitwiseOr x y = .ok r → Valid r ∧
      ∀ k, tcBit (toInt r) k = (tcBit (toInt x) k || tcBit (toInt y) k)) ∧
    (∀ r, bitwiseXor x y = .ok r → Valid r ∧
      ∀ k, tcBit (toInt r) k = xor (tcBit (toInt x) k) (tcBit (toInt y) k)) :=
  ⟨fun _ h => bitwiseAnd_spec hvx hvy h, fun _ h => bitwiseOr_spec hvx hvy h,
   fun _ h => bitwiseXor_spec hvx hvy h⟩

/-- Witness for C4 at `x = 12`, `y = -10`. -/
theorem bitwise_c4_witness :
    bitwiseAnd ⟨false, [12]⟩ ⟨true, [10]⟩ = .ok ⟨false, [4]⟩ ∧
    Valid (⟨false, [4]⟩ : JSBI) ∧
    tcBit (toInt ⟨false, [4]⟩) 2 =
      (tcBit (toInt ⟨false, [12]⟩) 2 && tcBit (toInt ⟨true, [10]⟩) 2) ∧
    bitwiseOr ⟨false, [12]⟩ ⟨true, [10]⟩ = .ok ⟨true, [2]⟩ ∧
    bitwiseXor ⟨false, [12]⟩ ⟨true, [10]⟩ = .ok ⟨true, [6]⟩ := by
  have h := bitwise_c4 (x := ⟨false, [12]⟩) (y := ⟨true, [10]⟩) (by decide) (by decide)
  have h1 := h.1 ⟨false, [4]⟩ (by rfl)
  exact ⟨rfl, h1.1, h1.2 2, rfl, rfl⟩


/-! ## C5 groundwork: shift loop specifications -/


theorem jsNot_ne_zero_of_good {d : ℤ} (hd : goodDigit d) : jsNot d ≠ 0 := by
  unfold jsNot
  have hval : jsU d = d.toNat := jsU_toNat hd
  rw [hval]
  intro hc
  have hlt : d.toNat < 2 ^ 30 := by have := hd.2; have := hd.1; omega
  have hbit : (d.toNat ^^^ 4294967295).testBit 31 = true := by
    rw [Nat.testBit_xor]
    have h1 : d.toNat.testBit 31 = false := by
      apply Nat.testBit_eq_false_of_lt
      have : (2:ℕ) ^ 30 ≤ 2 ^ 31 := by norm_num
      omega
    have h2 : (4294967295 : ℕ).testBit 31 = true := by
      rw [show (4294967295 : ℕ) = 2 ^ 32 - 1 by norm_num,
        Nat.testBit_two_pow_sub_one]
      decide
    rw [h1, h2]
    rfl
  have hge : 2 ^ 31 ≤ d.toNat ^^^ 4294967295 := Nat.testBit_implies_ge hbit
  have hlt2 : d.toNat ^^^ 4294967295 < 2 ^ 32 := by
    apply Nat.xor_lt_two_pow (by omega)
    norm_num
  unfold toInt32 toUint32 at hc
  rw [Int.emod_eq_of_lt (Int.natCast_nonneg _) (by
    push_cast
    norm_num at hlt2 ⊢
    omega)] at hc
  split at hc <;> push_cast at hc <;> norm_num at hge hlt2 <;> omega

/-- Disjoint or of a `b`-aligned digit and a `b`-bit carry is addition. -/
theorem jsOr_add_disjoint {u c : ℤ} {b : ℕ} (hb : b ≤ 30)
    (hu : 0 ≤ u) (hu30 : u < 2 ^ 30) (humod : u % 2 ^ b = 0)
    (hc : 0 ≤ c) (hcb : c < 2 ^ b) : jsOr u c = u + c := by
  have hgu : goodDigit u := ⟨hu, hu30⟩
  have hb2 : (2:ℤ) ^ b ≤ 2 ^ 30 := pow_le_pow_right₀ (by norm_num) hb
  have hgc : goodDigit c := ⟨hc, by omega⟩
  rw [jsOr_digits_eq hgu hgc]
  have hnatmod : u.toNat % 2 ^ b = 0 := by
    have h3 : ((u.toNat % 2 ^ b : ℕ) : ℤ) = u % 2 ^ b := by
      rw [Int.ofNat_emod, Int.toNat_of_nonneg hu]
      push_cast
      ring
    rw [humod] at h3
    exact_mod_cast h3
  have hcnat : c.toNat < 2 ^ b := by
    have h3 : ((c.toNat : ℕ) : ℤ) = c := Int.toNat_of_nonneg hc
    have h2 : ((2 ^ b : ℕ) : ℤ) = (2 : ℤ) ^ b := by push_cast; ring
    have h4 : (c : ℤ) < ((2 ^ b : ℕ) : ℤ) := by rw [h2]; exact hcb
    exact_mod_cast h3 ▸ h4
  have hor : u.toNat ||| c.toNat = u.toNat + c.toNat := by
    have hud : u.toNat = u.toNat / 2 ^ b * 2 ^ b :=
      (Nat.div_mul_cancel (Nat.dvd_of_mod_eq_zero hnatmod)).symm
    calc u.toNat ||| c.toNat = u.toNat / 2 ^ b * 2 ^ b ||| c.toNat := by rw [← hud]
      _ = u.toNat / 2 ^ b * 2 ^ b + c.toNat := nat_or_add b hcnat
      _ = u.toNat + c.toNat := by rw [← hud]
  rw [hor]
  push_cast
  rw [Int.toNat_of_nonneg hu, Int.toNat_of_nonneg hc]

/-- A negative value at least `-b` floor-divides by `b` to `-1`. -/
theorem ediv_small_neg {a b : ℤ} (hb : 0 < b) (h1 : -b ≤ a) (h2 : a < 0) :
    a / b = -1 := by
  have hd := Int.ediv_add_emod a b
  have hm0 : 0 ≤ a % b := Int.emod_nonneg a (by omega)
  have hm1 : a % b < b := Int.emod_lt_of_pos a hb
  set q := a / b with hq
  by_contra hc
  rcases lt_or_gt_of_ne hc with hlt | hgt
  · have hq2 : q ≤ -2 := by omega
    have : b * q ≤ b * (-2) := by
      apply mul_le_mul_of_nonneg_left hq2 (by omega)
    omega
  · have hq2 : 0 ≤ q := by omega
    have : 0 ≤ b * q := mul_nonneg (by omega) hq2
    omega

/-- Floor division of a negation: `(-m)/d = -(m/d) - [d ∤ m]`. -/
theorem neg_ediv_formula {m d : ℤ} (hd : 0 < d) :
    (0 - m) / d = 0 - (m / d) - (if m % d = 0 then 0 else 1) := by
  have h1 := Int.ediv_add_emod m d
  have hm0 : 0 ≤ m % d := Int.emod_nonneg m (by omega)
  have hm1 : m % d < d := Int.emod_lt_of_pos m hd
  by_cases hz : m % d = 0
  · rw [if_pos hz]
    have h5 : 0 - m = (0 - (m / d)) * d := by linarith
    rw [h5, Int.mul_ediv_cancel _ (by omega : d ≠ 0)]
    ring
  · rw [if_neg hz]
    have h5 : 0 - m = (d - m % d) + d * (0 - (m / d) - 1) := by ring_nf; linarith
    rw [h5, Int.add_mul_ediv_left _ _ (by omega : d ≠ 0)]
    rw [Int.ediv_eq_zero_of_lt (by omega) (by omega)]
    ring

/-- Quotient/remainder uniqueness for floor division by a positive divisor. -/
theorem ediv_unique {m d q r : ℤ} (hd : 0 < d) (h : m = d * q + r)
    (h0 : 0 ≤ r) (h1 : r < d) : m / d = q ∧ m % d = r := by
  have hm : m = r + d * q := by linarith
  constructor
  · rw [hm, Int.add_mul_ediv_left r q (by omega : d ≠ 0),
      Int.ediv_eq_zero_of_lt h0 h1, zero_add]
  · rw [hm, Int.add_mul_emod_self_left, Int.emod_eq_of_lt h0 h1]

/-- Two digit segments agree when the underlying digits agree pointwise. -/
theorem segVal_reindex {r x : JSBI} : ∀ (k a b : ℕ),
    (∀ t, t < k → r.dig (a + t) = x.dig (b + t)) →
    segVal r a k = segVal x b k := by
  intro k
  induction k with
  | zero => intro a b _; rfl
  | succ k ih =>
    intro a b h
    rw [segVal_succ, segVal_succ]
    have h0 := h 0 (by omega)
    simp only [Nat.add_zero] at h0
    rw [h0, ih (a + 1) (b + 1) (fun t ht => by
      have := h (t + 1) (by omega)
      rw [show a + (t + 1) = a + 1 + t from by omega,
        show b + (t + 1) = b + 1 + t from by omega] at this
      exact this)]

/-- The or of a masked shifted digit with a small carry, as arithmetic. -/
theorem shl_mask_or_add {d carry : ℤ} {s : ℕ} (hd : goodDigit d)
    (hs1 : 0 < s) (hs2 : s ≤ 30) (hc0 : 0 ≤ carry) (hcb : carry < 2 ^ s) :
    jsOr (jsAnd (jsShl d ((s : ℕ) : ℤ)) 1073741823) carry =
      d * 2 ^ s % 2 ^ 30 + carry := by
  have hsh : jsShl d ((s : ℕ) : ℤ) = toInt32 (d * 2 ^ s) := by
    rw [jsShl_eq d _ (by positivity) (by exact_mod_cast by omega)]
    norm_num
  rw [hsh, jsAnd_mask30, toInt32_emod _ (by omega : 30 ≤ 32)]
  have hu0 : 0 ≤ d * 2 ^ s % 2 ^ 30 := Int.emod_nonneg _ (by positivity)
  have hu1 : d * 2 ^ s % 2 ^ 30 < 2 ^ 30 := Int.emod_lt_of_pos _ (by positivity)
  have humod : d * 2 ^ s % 2 ^ 30 % 2 ^ s = 0 := by
    rw [Int.emod_emod_of_dvd _ (pow_dvd_pow 2 hs2), Int.mul_emod_left]
  exact jsOr_add_disjoint hs2 hu0 hu1 humod hc0 hcb

/-- `__toShiftAmount` on a valid input: `-1` iff more than one digit. -/
theorem toShiftAmount_spec {y : JSBI} (hvy : Valid y) :
    toShiftAmount y = if y.digits.length > 1 then -1 else magD y.digits := by
  unfold toShiftAmount
  split
  · rfl
  · rename_i hlen
    have hd := valid_dig_good hvy 0
    have hud : y.udig 0 = y.dig 0 := by
      unfold JSBI.udig
      exact toUint32_eq hd.1 (by have := hd.2; omega)
    have hmag : magD y.digits = y.dig 0 := by
      rcases hds : y.digits with _ | ⟨d, _ | ⟨e, tl⟩⟩
      · unfold JSBI.dig
        rw [hds]
        rfl
      · unfold JSBI.dig
        rw [hds, magD_single]
        rfl
      · rw [hds] at hlen
        simp at hlen
    simp only [hud]
    rw [if_neg (by
      have h2 := hd.2
      unfold kMaxLengthBits
      omega)]
    omega

/-- Copy loop of `__leftShiftByAbsolute` (the aligned case). -/
theorem lShiftCopyLoop_spec (x : JSBI) (hx : ∀ j, goodDigit (x.dig j)) (ds : ℕ) :
    ∀ (k i : ℕ) (result res : JSBI),
    i + k ≤ result.digits.length →
    lShiftCopyLoop x ds k i result = res →
    res.sign = result.sign ∧
    res.digits.length = result.digits.length ∧
    (∀ j, j < i ∨ i + k ≤ j → res.dig j = result.dig j) ∧
    (∀ j, i ≤ j → j < i + k → res.dig j = x.dig (j - ds)) := by
  intro k
  induction k with
  | zero =>
    intro i result res hlen heq
    unfold lShiftCopyLoop at heq
    subst heq
    exact ⟨rfl, rfl, fun j _ => rfl, fun j hj1 hj2 => absurd hj2 (by omega)⟩
  | succ k ih =>
    intro i result res hlen heq
    simp only [lShiftCopyLoop] at heq
    set result' := result.setDig i (x.dig (i - ds)) with hres'
    have hlen' : (i + 1) + k ≤ result'.digits.length := by
      rw [hres', setDig_length _ (by omega)]
      omega
    obtain ⟨s1, s2, s3, s4⟩ := ih (i + 1) result' res hlen' heq
    have hxi := hx (i - ds)
    have hdig_i : res.dig i = x.dig (i - ds) := by
      rw [s3 i (by omega), hres', dig_setDig_self,
        toInt32_eq hxi.1 (by have := hxi.2; omega)]
    refine ⟨by rw [s1, hres', setDig_sign],
      by rw [s2, hres', setDig_length _ (by omega)], ?_, ?_⟩
    · intro j hj
      rw [s3 j (by omega), hres', dig_setDig_ne (by omega)]
    · intro j hj1 hj2
      rcases eq_or_lt_of_le hj1 with hj | hj
      · rw [← hj, hdig_i]
      · exact s4 j (by omega) (by omega)

/-- Copy loop of `__rightShiftByAbsolute` (the aligned case). -/
theorem rShiftCopyLoop_spec (x : JSBI) (hx : ∀ j, goodDigit (x.dig j)) (ds : ℕ) :
    ∀ (k i : ℕ) (result res : JSBI),
    ds ≤ i → i - ds + k ≤ result.digits.length →
    rShiftCopyLoop x ds k i result = res →
    res.sign = result.sign ∧
    res.digits.length = result.digits.length ∧
    (∀ j, j < i - ds ∨ i - ds + k ≤ j → res.dig j = result.dig j) ∧
    (∀ t, t < k → res.dig (i - ds + t) = x.dig (i + t)) := by
  intro k
  induction k with
  | zero =>
    intro i result res hds hlen heq
    unfold rShiftCopyLoop at heq
    subst heq
    exact ⟨rfl, rfl, fun j _ => rfl, fun t ht => absurd ht (by omega)⟩
  | succ k ih =>
    intro i result res hds hlen heq
    simp only [rShiftCopyLoop] at heq
    set result' := result.setDig (i - ds) (x.dig i) with hres'
    have hlen' : (i + 1) - ds + k ≤ result'.digits.length := by
      rw [hres', setDig_length _ (by omega)]
      omega
    obtain ⟨s1, s2, s3, s4⟩ := ih (i + 1) result' res (by omega) hlen' heq
    have hxi := hx i
    have hdig_i : res.dig (i - ds) = x.dig i := by
      rw [s3 (i - ds) (by omega), hres', dig_setDig_self,
        toInt32_eq hxi.1 (by have := hxi.2; omega)]
    refine ⟨by rw [s1, hres', setDig_sign],
      by rw [s2, hres', setDig_length _ (by omega)], ?_, ?_⟩
    · intro j hj
      rw [s3 j (by omega), hres', dig_setDig_ne (by omega)]
    · intro t ht
      rcases Nat.eq_zero_or_pos t with rfl | hpos
      · rw [Nat.add_zero, Nat.add_zero, hdig_i]
      · have := s4 (t - 1) (by omega)
        rw [show i + 1 - ds + (t - 1) = i - ds + t from by omega,
          show i + 1 + (t - 1) = i + t from by omega] at this
        exact this

/-- Carry loop of `__leftShiftByAbsolute`: shifts `k` digits of `x` starting
at `i` up by `ds` digits and `b` bits, threading a `b`-bit carry. -/
theorem lShiftBitsLoop_spec (x : JSBI) (hx : ∀ j, goodDigit (x.dig j))
    {b ds : ℕ} (hb1 : 0 < b) (hb2 : b < 30) :
    ∀ (k i : ℕ) (carry : ℤ) (result res : JSBI) (c : ℤ),
    0 ≤ carry → carry < 2 ^ b → i + ds + k ≤ result.digits.length →
    lShiftBitsLoop x b ds k i carry result = (res, c) →
    res.sign = result.sign ∧
    res.digits.length = result.digits.length ∧
    (∀ j, j < i + ds ∨ i + ds + k ≤ j → res.dig j = result.dig j) ∧
    (∀ j, i + ds ≤ j → j < i + ds + k → goodDigit (res.dig j)) ∧
    0 ≤ c ∧ c < 2 ^ b ∧
    c = (if k = 0 then carry else x.dig (i + k - 1) / 2 ^ (30 - b)) ∧
    segVal res (i + ds) k + 2 ^ (30 * k) * c = 2 ^ b * segVal x i k + carry := by
  intro k
  induction k with
  | zero =>
    intro i carry result res c h0 h1 hlen heq
    unfold lShiftBitsLoop at heq
    injection heq with he1 he2
    subst he1; subst he2
    refine ⟨rfl, rfl, fun j _ => rfl, fun j hj1 hj2 => absurd hj2 (by omega),
      h0, h1, by simp, ?_⟩
    simp [segVal_zero]
  | succ k ih =>
    intro i carry result res c h0 h1 hlen heq
    simp only [lShiftBitsLoop] at heq
    set d := x.dig i with hd
    have hgd := hx i
    have hw : jsOr (jsAnd (jsShl d ((b : ℕ) : ℤ)) 1073741823) carry =
        d * 2 ^ b % 2 ^ 30 + carry :=
      shl_mask_or_add hgd hb1 (by omega) h0 h1
    have h32 : ((30 - b : ℕ) : ℤ) < 32 := by
      have h33 : (30 - b : ℕ) < 32 := by omega
      exact_mod_cast h33
    have hcarry' : jsShrU d (((30 - b : ℕ) : ℤ)) = d / 2 ^ (30 - b) := by
      rw [jsShrU_eq d _ (Int.natCast_nonneg _) h32]
      rw [Int.emod_eq_of_lt hgd.1 (by have := hgd.2; omega), Int.toNat_natCast]
    rw [hw, hcarry'] at heq
    set result' := result.setDig (i + ds) (d * 2 ^ b % 2 ^ 30 + carry) with hres'
    have hu0 : 0 ≤ d * 2 ^ b % 2 ^ 30 := Int.emod_nonneg _ (by positivity)
    have hu1 : d * 2 ^ b % 2 ^ 30 < 2 ^ 30 := Int.emod_lt_of_pos _ (by positivity)
    have humod : d * 2 ^ b % 2 ^ 30 % 2 ^ b = 0 := by
      rw [Int.emod_emod_of_dvd _ (pow_dvd_pow 2 (by omega)), Int.mul_emod_left]
    have hble : (2 : ℤ) ^ b ≤ 2 ^ 30 := pow_le_pow_right₀ (by norm_num) (by omega)
    have hu2 : d * 2 ^ b % 2 ^ 30 ≤ 2 ^ 30 - 2 ^ b := by
      have hdvd : (2 : ℤ) ^ b ∣ d * 2 ^ b % 2 ^ 30 := Int.dvd_of_emod_eq_zero humod
      obtain ⟨m, hm⟩ := hdvd
      have hm1 : m < 2 ^ (30 - b) := by
        by_contra hcon
        push_neg at hcon
        have : (2 : ℤ) ^ b * 2 ^ (30 - b) ≤ 2 ^ b * m :=
          mul_le_mul_of_nonneg_left hcon (by positivity)
        rw [← pow_add, show b + (30 - b) = 30 from by omega] at this
        omega
      have : (2 : ℤ) ^ b * m ≤ 2 ^ b * (2 ^ (30 - b) - 1) :=
        mul_le_mul_of_nonneg_left (by omega) (by positivity)
      rw [mul_sub, ← pow_add, show b + (30 - b) = 30 from by omega] at this
      omega
    have hsum : 0 ≤ d * 2 ^ b % 2 ^ 30 + carry ∧
        d * 2 ^ b % 2 ^ 30 + carry < 2 ^ 30 := by omega
    have hc'0 : 0 ≤ d / 2 ^ (30 - b) := Int.ediv_nonneg hgd.1 (by positivity)
    have hc'1 : d / 2 ^ (30 - b) < 2 ^ b := by
      rw [Int.ediv_lt_iff_lt_mul (by positivity)]
      rw [← pow_add, show b + (30 - b) = 30 from by omega]
      exact hgd.2
    have hlen' : (i + 1) + ds + k ≤ result'.digits.length := by
      rw [hres', setDig_length _ (by omega)]
      omega
    obtain ⟨s1, s2, s3, s4, s5, s6, s7, s8⟩ :=
      ih (i + 1) (d / 2 ^ (30 - b)) result' res c hc'0 hc'1 hlen' heq
    have hdig_i : res.dig (i + ds) = d * 2 ^ b % 2 ^ 30 + carry := by
      rw [s3 (i + ds) (by omega), hres', dig_setDig_self,
        toInt32_eq hsum.1 (by omega)]
    refine ⟨by rw [s1, hres', setDig_sign],
      by rw [s2, hres', setDig_length _ (by omega)], ?_, ?_, s5, s6, ?_, ?_⟩
    · intro j hj
      rw [s3 j (by omega), hres', dig_setDig_ne (by omega)]
    · intro j hj1 hj2
      rcases eq_or_lt_of_le hj1 with hj | hj
      · rw [← hj, hdig_i]
        exact ⟨by omega, by omega⟩
      · exact s4 j (by omega) (by omega)
    · rw [s7]
      rcases Nat.eq_zero_or_pos k with rfl | hk
      · simp
      · rw [if_neg (by omega), if_neg (by omega),
          show i + 1 + k - 1 = i + (k + 1) - 1 from by omega]
    · have hstep : d * 2 ^ b % 2 ^ 30 + 2 ^ 30 * (d / 2 ^ (30 - b)) = d * 2 ^ b := by
        have hdd : d * 2 ^ b / 2 ^ 30 = d / 2 ^ (30 - b) := by
          rw [show (2 : ℤ) ^ 30 = 2 ^ b * 2 ^ (30 - b) from by
              rw [← pow_add, show b + (30 - b) = 30 from by omega],
            mul_comm d (2 ^ b), Int.mul_ediv_mul_of_pos _ _ (by positivity)]
        have := Int.ediv_add_emod (d * 2 ^ b) (2 ^ 30)
        rw [hdd] at this
        linarith
      rw [segVal_succ, segVal_succ, hdig_i]
      rw [show i + ds + 1 = i + 1 + ds from by omega]
      have hpow : (2 : ℤ) ^ (30 * (k + 1)) = 2 ^ 30 * 2 ^ (30 * k) := by
        rw [← pow_add, show 30 + 30 * k = 30 * (k + 1) from by omega]
      rw [hpow]
      linear_combination (2 : ℤ) ^ 30 * s8 + hstep

/-- Carry loop of `__rightShiftByAbsolute`: digit `t` of the result is the
30-bit window of `x` starting `b` bits into digit `ds + t`. -/
theorem rShiftBitsLoop_spec (x : JSBI) (hx : ∀ j, goodDigit (x.dig j))
    {b ds : ℕ} (hb1 : 0 < b) (hb2 : b < 30) :
    ∀ (k i : ℕ) (carry : ℤ) (result res : JSBI) (c : ℤ),
    carry = x.dig (ds + i) / 2 ^ b → i + k ≤ result.digits.length →
    rShiftBitsLoop x b ds k i carry result = (res, c) →
    res.sign = result.sign ∧
    res.digits.length = result.digits.length ∧
    (∀ j, j < i ∨ i + k ≤ j → res.dig j = result.dig j) ∧
    (∀ t, t < k → res.dig (i + t) =
      x.dig (ds + i + t + 1) % 2 ^ b * 2 ^ (30 - b) + x.dig (ds + i + t) / 2 ^ b) ∧
    c = x.dig (ds + i + k) / 2 ^ b := by
  intro k
  induction k with
  | zero =>
    intro i carry result res c hcar hlen heq
    unfold rShiftBitsLoop at heq
    injection heq with he1 he2
    subst he1; subst he2
    exact ⟨rfl, rfl, fun j _ => rfl, fun t ht => absurd ht (by omega),
      by rw [hcar, Nat.add_zero]⟩
  | succ k ih =>
    intro i carry result res c hcar hlen heq
    simp only [rShiftBitsLoop] at heq
    set d := x.dig (i + ds + 1) with hd
    have hgd : goodDigit d := hx (i + ds + 1)
    have hgc : goodDigit (x.dig (ds + i)) := hx (ds + i)
    have hcar0 : 0 ≤ carry := by
      rw [hcar]
      exact Int.ediv_nonneg hgc.1 (by positivity)
    have hcarb : carry < 2 ^ (30 - b) := by
      rw [hcar, Int.ediv_lt_iff_lt_mul (by positivity), ← pow_add,
        show 30 - b + b = 30 from by omega]
      exact hgc.2
    have hw : jsOr (jsAnd (jsShl d (((30 - b : ℕ) : ℤ))) 1073741823) carry =
        d * 2 ^ (30 - b) % 2 ^ 30 + carry :=
      shl_mask_or_add hgd (by omega) (by omega) hcar0 hcarb
    have h32 : ((b : ℕ) : ℤ) < 32 := by
      have h33 : b < 32 := by omega
      exact_mod_cast h33
    have hcarry' : jsShrU d ((b : ℕ) : ℤ) = d / 2 ^ b := by
      rw [jsShrU_eq d _ (Int.natCast_nonneg _) h32]
      rw [Int.emod_eq_of_lt hgd.1 (by have := hgd.2; omega), Int.toNat_natCast]
    rw [hw, hcarry'] at heq
    have hwval : d * 2 ^ (30 - b) % 2 ^ 30 = d % 2 ^ b * 2 ^ (30 - b) := by
      rw [show (2 : ℤ) ^ 30 = 2 ^ (30 - b) * 2 ^ b from by
          rw [← pow_add, show 30 - b + b = 30 from by omega],
        mul_comm d (2 ^ (30 - b)), Int.mul_emod_mul_of_pos _ _ (by positivity)]
      ring
    rw [hwval] at heq
    have hmod0 : 0 ≤ d % 2 ^ b := Int.emod_nonneg _ (by positivity)
    have hmodb : d % 2 ^ b < 2 ^ b := Int.emod_lt_of_pos _ (by positivity)
    have hwsum : 0 ≤ d % 2 ^ b * 2 ^ (30 - b) + carry ∧
        d % 2 ^ b * 2 ^ (30 - b) + carry < 2 ^ 30 := by
      constructor
      · have h3 : 0 ≤ d % 2 ^ b * 2 ^ (30 - b) :=
          mul_nonneg hmod0 (pow_nonneg (by norm_num) _)
        omega
      · have h1 : d % 2 ^ b * 2 ^ (30 - b) ≤ (2 ^ b - 1) * 2 ^ (30 - b) :=
          mul_le_mul_of_nonneg_right (by omega) (pow_nonneg (by norm_num) _)
        have h2 : ((2 : ℤ) ^ b - 1) * 2 ^ (30 - b) = 2 ^ 30 - 2 ^ (30 - b) := by
          rw [sub_mul, ← pow_add, show b + (30 - b) = 30 from by omega]
          ring
        omega
    set result' := result.setDig i (d % 2 ^ b * 2 ^ (30 - b) + carry) with hres'
    have hlen' : (i + 1) + k ≤ result'.digits.length := by
      rw [hres', setDig_length _ (by omega)]
      omega
    have hdnew : d / 2 ^ b = x.dig (ds + (i + 1)) / 2 ^ b := by
      rw [hd, show i + ds + 1 = ds + (i + 1) from by omega]
    obtain ⟨s1, s2, s3, s4, s5⟩ :=
      ih (i + 1) (d / 2 ^ b) result' res c hdnew hlen' heq
    have hdig_i : res.dig i = d % 2 ^ b * 2 ^ (30 - b) + carry := by
      rw [s3 i (by omega), hres', dig_setDig_self, toInt32_eq hwsum.1 (by omega)]
    refine ⟨by rw [s1, hres', setDig_sign],
      by rw [s2, hres', setDig_length _ (by omega)], ?_, ?_, ?_⟩
    · intro j hj
      rw [s3 j (by omega), hres', dig_setDig_ne (by omega)]
    · intro t ht
      rcases Nat.eq_zero_or_pos t with rfl | hpos
      · rw [Nat.add_zero, hdig_i, hcar, hd,
          show ds + i + 0 + 1 = i + ds + 1 from by omega,
          show ds + i + 0 = ds + i from by omega]
      · have := s4 (t - 1) (by omega)
        rw [show i + 1 + (t - 1) = i + t from by omega,
          show ds + (i + 1) + (t - 1) + 1 = ds + i + t + 1 from by omega,
          show ds + (i + 1) + (t - 1) = ds + i + t from by omega] at this
        exact this
    · rw [s5, show ds + (i + 1) + k = ds + i + (k + 1) from by omega]

/-- Recomposition: a vector of 30-bit windows of `x` offset by `b` bits
recovers the shifted segment value. -/
theorem rshift_window (x r : JSBI) {b : ℕ} (hb2 : b < 30) (ds : ℕ) :
    ∀ (k i : ℕ),
    (∀ t, t ≤ k → r.dig (i + t) =
      x.dig (ds + i + t + 1) % 2 ^ b * 2 ^ (30 - b) + x.dig (ds + i + t) / 2 ^ b) →
    2 ^ b * segVal r i (k + 1) =
      segVal x (ds + i) (k + 1) + 2 ^ (30 * (k + 1)) * (x.dig (ds + i + k + 1) % 2 ^ b)
        - x.dig (ds + i) % 2 ^ b := by
  intro k
  induction k with
  | zero =>
    intro i h
    have h0 := h 0 (by omega)
    rw [Nat.add_zero] at h0
    have hde := Int.ediv_add_emod (x.dig (ds + i)) (2 ^ b)
    have hpow : (2 : ℤ) ^ b * 2 ^ (30 - b) = 2 ^ 30 := by
      rw [← pow_add, show b + (30 - b) = 30 from by omega]
    rw [segVal_succ r i, segVal_succ x (ds + i), segVal_zero, segVal_zero, h0,
      show (30 : ℕ) * (0 + 1) = 30 from by omega,
      show ds + i + 0 + 1 = ds + i + 1 from by omega,
      show ds + i + 0 = ds + i from by omega]
    linear_combination (x.dig (ds + i + 1) % 2 ^ b) * hpow + hde
  | succ k ih =>
    intro i h
    have h0 := h 0 (by omega)
    rw [Nat.add_zero] at h0
    have hih := ih (i + 1) (fun t ht => by
      have h2 := h (t + 1) (by omega)
      rw [show i + (t + 1) = i + 1 + t from by omega,
        show ds + i + (t + 1) + 1 = ds + (i + 1) + t + 1 from by omega,
        show ds + i + (t + 1) = ds + (i + 1) + t from by omega] at h2
      exact h2)
    rw [show ds + (i + 1) = ds + i + 1 from by omega] at hih
    rw [show ds + i + 1 + k + 1 = ds + i + (k + 1) + 1 from by omega] at hih
    have hde := Int.ediv_add_emod (x.dig (ds + i)) (2 ^ b)
    have hpow : (2 : ℤ) ^ b * 2 ^ (30 - b) = 2 ^ 30 := by
      rw [← pow_add, show b + (30 - b) = 30 from by omega]
    have hpc : (2 : ℤ) ^ (30 * (k + 1 + 1)) = 2 ^ 30 * 2 ^ (30 * (k + 1)) := by
      rw [← pow_add, show 30 + 30 * (k + 1) = 30 * (k + 1 + 1) from by omega]
    rw [segVal_succ r i, segVal_succ x (ds + i), h0, hpc,
      show ds + i + 0 + 1 = ds + i + 1 from by omega,
      show ds + i + 0 = ds + i from by omega]
    linear_combination (2 : ℤ) ^ 30 * hih + hde + (x.dig (ds + i + 1) % 2 ^ b) * hpow

/-- `__leftShiftByAbsolute` multiplies the value by `2^shift`. -/
theorem leftShiftByAbsolute_spec {x y : JSBI} (hvx : Valid x) {r : JSBI}
    (h : leftShiftByAbsolute x y = .ok r) :
    Valid r ∧
    toInt r = toInt x * 2 ^ (toShiftAmount y).toNat ∧
    r.digits.length ≤ kMaxLength := by
  simp only [leftShiftByAbsolute] at h
  by_cases hsh : toShiftAmount y < 0
  · rw [if_pos hsh] at h
    exact Except.noConfusion h
  · rw [if_neg hsh] at h
    set sh := (toShiftAmount y).toNat with hshdef
    set ds := sh / 30 with hds
    set b := sh % 30 with hbdef
    set len := x.digits.length with hlendef
    have hx := valid_dig_good hvx
    have hshsum : sh = 30 * ds + b := by omega
    by_cases hb0 : b = 0
    · -- aligned case: pure digit copy
      rw [if_neg (show ¬(b ≠ 0 ∧
          jsShrU (x.dig (len - 1)) ((30 - b : ℕ) : ℤ) ≠ 0) from by
        rw [hb0]
        intro hcon
        exact hcon.1 rfl)] at h
      cases hres : newJSBI (len + ds + 0) x.sign with
      | error e =>
        rw [hres] at h
        simp only [Except.bind, bind] at h
        exact Except.noConfusion h
      | ok result0 =>
        rw [hres] at h
        simp only [Except.bind, bind] at h
        rw [if_pos hb0] at h
        obtain ⟨hr0, hrlen⟩ := newJSBI_ok hres
        have hr0len : result0.digits.length = len + ds + 0 := by rw [hr0]; simp
        set rz := zeroFillFrom ds 0 result0 with hrz
        obtain ⟨z1, z2, z3, z4⟩ := zeroFillFrom_spec ds 0 result0 rz
          (by omega) hrz.symm
        have hrzdig : ∀ j, rz.dig j = 0 := by
          intro j
          rcases lt_or_ge j ds with hj | hj
          · exact z4 j (by omega) (by omega)
          · rw [z3 j (by omega), hr0, replicate_dig]
        set rc := lShiftCopyLoop x ds (len + ds + 0 - ds) ds rz with hrc
        obtain ⟨c1, c2, c3, c4⟩ := lShiftCopyLoop_spec x hx ds
          (len + ds + 0 - ds) ds rz rc (by omega) hrc.symm
        injection h with h1
        have hrclen : rc.digits.length = len + ds := by omega
        have hgood : ∀ j, goodDigit (rc.dig j) := by
          intro j
          rcases lt_or_ge j ds with hj | hj
          · rw [c3 j (by omega), hrzdig]
            exact goodDigit_zero
          · rcases lt_or_ge j (len + ds) with hj2 | hj2
            · rw [c4 j (by omega) (by omega)]
              exact hx _
            · rw [c3 j (by omega), hrzdig]
              exact goodDigit_zero
        have hmag : magD rc.digits = 2 ^ sh * magD x.digits := by
          rw [magD_eq_segVal rc (le_of_eq hrclen),
            show len + ds = ds + len from by omega, segVal_split,
            show (0 : ℕ) + ds = ds from by omega,
            segVal_eq_zero_of_digs (fun j hj1 hj2 => by
              rw [c3 j (by omega), hrzdig]),
            segVal_reindex len ds 0 (fun t ht => by
              rw [c4 (ds + t) (by omega) (by omega),
                show ds + t - ds = 0 + t from by omega]),
            ← magD_eq_segVal x (by omega), hshsum, hb0]
          ring
        subst h1
        refine ⟨valid_trim2 (mem_good_of_dig_good (fun j _ => hgood j)), ?_, ?_⟩
        · rw [toInt_trim]
          unfold toInt
          rw [hmag, c1, z1, hr0]
          cases hxs : x.sign <;> simp <;> ring
        · calc (trim rc).digits.length ≤ rc.digits.length := trim_length_le rc
            _ ≤ kMaxLength := by omega
    · -- carry case
      have hb1 : 0 < b := by omega
      have hb2 : b < 30 := by omega
      have hjs : jsShrU (x.dig (len - 1)) ((30 - b : ℕ) : ℤ) =
          x.dig (len - 1) / 2 ^ (30 - b) := by
        have h32 : ((30 - b : ℕ) : ℤ) < 32 := by
          have h33 : (30 - b : ℕ) < 32 := by omega
          exact_mod_cast h33
        have hgd := hx (len - 1)
        rw [jsShrU_eq _ _ (Int.natCast_nonneg _) h32]
        rw [Int.emod_eq_of_lt hgd.1 (by have := hgd.2; omega), Int.toNat_natCast]
      by_cases hgrow : x.dig (len - 1) / 2 ^ (30 - b) ≠ 0
      · -- carry grows into a new digit
        rw [if_pos (show b ≠ 0 ∧
            jsShrU (x.dig (len - 1)) ((30 - b : ℕ) : ℤ) ≠ 0 from
          ⟨hb0, by rw [hjs]; exact hgrow⟩)] at h
        have hlen1 : 1 ≤ len := by
          by_contra hcon
          push_neg at hcon
          have hz : x.dig (len - 1) = 0 := dig_of_ge (by omega)
          rw [hz] at hgrow
          simp at hgrow
        cases hres : newJSBI (len + ds + 1) x.sign with
        | error e =>
          rw [hres] at h
          simp only [Except.bind, bind] at h
          exact Except.noConfusion h
        | ok result0 =>
          rw [hres] at h
          simp only [Except.bind, bind] at h
          rw [if_neg hb0] at h
          obtain ⟨hr0, hrlen⟩ := newJSBI_ok hres
          have hr0len : result0.digits.length = len + ds + 1 := by rw [hr0]; simp
          set rz := zeroFillFrom ds 0 result0 with hrz
          obtain ⟨z1, z2, z3, z4⟩ := zeroFillFrom_spec ds 0 result0 rz
            (by omega) hrz.symm
          have hrzdig : ∀ j, rz.dig j = 0 := by
            intro j
            rcases lt_or_ge j ds with hj | hj
            · exact z4 j (by omega) (by omega)
            · rw [z3 j (by omega), hr0, replicate_dig]
          obtain ⟨r1, c, hloop⟩ : ∃ a b2,
              lShiftBitsLoop x b ds len 0 0 rz = (a, b2) := ⟨_, _, rfl⟩
          rw [hloop] at h
          dsimp only at h
          obtain ⟨s1, s2, s3, s4, s5, s6, s7, s8⟩ :=
            lShiftBitsLoop_spec x hx hb1 hb2 len 0 0 rz r1 c
              (le_refl 0) (by positivity) (by omega) hloop
          rw [if_pos (show b ≠ 0 ∧
              jsShrU (x.dig (len - 1)) ((30 - b : ℕ) : ℤ) ≠ 0 from
            ⟨hb0, by rw [hjs]; exact hgrow⟩)] at h
          injection h with h1
          have hcval : c = x.dig (len - 1) / 2 ^ (30 - b) := by
            rw [s7, if_neg (by omega), show (0 : ℕ) + len - 1 = len - 1 from by omega]
          set rs := r1.setDig (len + ds) c with hrs
          have hr1len : r1.digits.length = len + ds + 1 := by omega
          have hrslen : rs.digits.length = len + ds + 1 := by
            rw [hrs, setDig_length _ (by omega)]
            omega
          have hcg : goodDigit c := ⟨s5, by
            have hlt : (2 : ℤ) ^ b ≤ 2 ^ 30 :=
              pow_le_pow_right₀ (by norm_num) (by omega)
            omega⟩
          have hdtop : rs.dig (len + ds) = c := by
            rw [hrs, dig_setDig_self, toInt32_eq hcg.1 (by have := hcg.2; omega)]
          have hgood : ∀ j, goodDigit (rs.dig j) := by
            intro j
            rcases lt_or_ge j ds with hj | hj
            · rw [hrs, dig_setDig_ne (by omega), s3 j (by omega), hrzdig]
              exact goodDigit_zero
            · rcases lt_or_ge j (len + ds) with hj2 | hj2
              · rw [hrs, dig_setDig_ne (by omega)]
                exact s4 j (by omega) (by omega)
              · rcases eq_or_lt_of_le hj2 with hj3 | hj3
                · rw [← hj3, hdtop]
                  exact hcg
                · rw [hrs, dig_setDig_ne (by omega), s3 j (by omega), hrzdig]
                  exact goodDigit_zero
          have hmag : magD rs.digits = 2 ^ sh * magD x.digits := by
            rw [magD_eq_segVal rs (le_of_eq hrslen),
              show len + ds + 1 = ds + (len + 1) from by omega, segVal_split,
              show (0 : ℕ) + ds = ds from by omega,
              segVal_eq_zero_of_digs (fun j hj1 hj2 => by
                rw [hrs, dig_setDig_ne (by omega), s3 j (by omega), hrzdig]),
              segVal_snoc,
              show ds + len = len + ds from by omega, hdtop,
              segVal_reindex (r := rs) (x := r1) (len) ds ds (fun t ht => by
                rw [hrs, dig_setDig_ne (by omega)])]
            have hseg : segVal x 0 len = magD x.digits :=
              (magD_eq_segVal x (by omega)).symm
            rw [show (0 : ℕ) + ds = ds from by omega] at s8
            rw [hshsum, pow_add]
            have hz : (0 : ℤ) = 0 := rfl
            linear_combination (2 : ℤ) ^ (30 * ds) * s8 +
              2 ^ (30 * ds) * 2 ^ b * hseg
          subst h1
          refine ⟨valid_trim2 (mem_good_of_dig_good (fun j _ => hgood j)), ?_, ?_⟩
          · rw [toInt_trim]
            unfold toInt
            rw [hmag, hrs]
            rw [setDig_sign, s1, z1, hr0]
            cases hxs : x.sign <;> simp <;> ring
          · calc (trim rs).digits.length ≤ rs.digits.length := trim_length_le rs
              _ ≤ kMaxLength := by omega
      · -- no growth: final carry is zero
        push_neg at hgrow
        rw [if_neg (show ¬(b ≠ 0 ∧
            jsShrU (x.dig (len - 1)) ((30 - b : ℕ) : ℤ) ≠ 0) from by
          intro hcon
          rw [hjs] at hcon
          exact hcon.2 hgrow)] at h
        cases hres : newJSBI (len + ds + 0) x.sign with
        | error e =>
          rw [hres] at h
          simp only [Except.bind, bind] at h
          exact Except.noConfusion h
        | ok result0 =>
          rw [hres] at h
          simp only [Except.bind, bind] at h
          rw [if_neg hb0] at h
          obtain ⟨hr0, hrlen⟩ := newJSBI_ok hres
          have hr0len : result0.digits.length = len + ds + 0 := by rw [hr0]; simp
          set rz := zeroFillFrom ds 0 result0 with hrz
          obtain ⟨z1, z2, z3, z4⟩ := zeroFillFrom_spec ds 0 result0 rz
            (by omega) hrz.symm
          have hrzdig : ∀ j, rz.dig j = 0 := by
            intro j
            rcases lt_or_ge j ds with hj | hj
            · exact z4 j (by omega) (by omega)
            · rw [z3 j (by omega), hr0, replicate_dig]
          obtain ⟨r1, c, hloop⟩ : ∃ a b2,
              lShiftBitsLoop x b ds len 0 0 rz = (a, b2) := ⟨_, _, rfl⟩
          rw [hloop] at h
          dsimp only at h
          obtain ⟨s1, s2, s3, s4, s5, s6, s7, s8⟩ :=
            lShiftBitsLoop_spec x hx hb1 hb2 len 0 0 rz r1 c
              (le_refl 0) (by positivity) (by omega) hloop
          rw [if_neg (show ¬(b ≠ 0 ∧
              jsShrU (x.dig (len - 1)) ((30 - b : ℕ) : ℤ) ≠ 0) from by
            intro hcon
            rw [hjs] at hcon
            exact hcon.2 hgrow)] at h
          have hcval : c = 0 := by
            rcases Nat.eq_zero_or_pos len with hl0 | hl1
            · rw [s7, if_pos hl0]
            · rw [s7, if_neg (by omega), show 0 + len - 1 = len - 1 from by omega]
              exact hgrow
          rw [if_neg (by rw [hcval]; simp)] at h
          injection h with h1
          have hr1len : r1.digits.length = len + ds := by omega
          have hgood : ∀ j, goodDigit (r1.dig j) := by
            intro j
            rcases lt_or_ge j ds with hj | hj
            · rw [s3 j (by omega), hrzdig]
              exact goodDigit_zero
            · rcases lt_or_ge j (len + ds) with hj2 | hj2
              · exact s4 j (by omega) (by omega)
              · rw [s3 j (by omega), hrzdig]
                exact goodDigit_zero
          have hmag : magD r1.digits = 2 ^ sh * magD x.digits := by
            rw [magD_eq_segVal r1 (le_of_eq hr1len),
              show len + ds = ds + len from by omega, segVal_split,
              show (0 : ℕ) + ds = ds from by omega,
              segVal_eq_zero_of_digs (fun j hj1 hj2 => by
                rw [s3 j (by omega), hrzdig])]
            have hseg : segVal x 0 len = magD x.digits :=
              (magD_eq_segVal x (by omega)).symm
            rw [show (0 : ℕ) + ds = ds from by omega] at s8
            rw [hcval] at s8
            rw [hshsum, pow_add]
            linear_combination (2 : ℤ) ^ (30 * ds) * s8 +
              2 ^ (30 * ds) * 2 ^ b * hseg
          subst h1
          refine ⟨valid_trim2 (mem_good_of_dig_good (fun j _ => hgood j)), ?_, ?_⟩
          · rw [toInt_trim]
            unfold toInt
            rw [hmag, s1, z1, hr0]
            cases hxs : x.sign <;> simp <;> ring
          · calc (trim r1).digits.length ≤ r1.digits.length := trim_length_le r1
              _ ≤ kMaxLength := by omega

/-- `__rightShiftByMaximum` computes the floor of division by any `2^N`
that exceeds the magnitude. -/
theorem rightShiftByMaximum_val {x : JSBI} (hvx : Valid x) {N : ℕ}
    (hN : magD x.digits < 2 ^ N) :
    Valid (rightShiftByMaximum x.sign) ∧
    toInt (rightShiftByMaximum x.sign) = toInt x / 2 ^ N := by
  unfold rightShiftByMaximum
  cases hxs : x.sign
  · rw [if_neg (by simp)]
    refine ⟨by decide, ?_⟩
    unfold toInt zeroJ
    rw [hxs]
    norm_num [magD_nil]
    exact (Int.ediv_eq_zero_of_lt (magD_nonneg (fun d hd => (hvx.1 d hd).1)) hN).symm
  · rw [if_pos rfl]
    have h1 : oneDigit 1 true = ⟨true, [1]⟩ := by
      unfold oneDigit
      rw [toInt32_eq (by norm_num) (by norm_num)]
    rw [h1]
    refine ⟨by decide, ?_⟩
    unfold toInt
    rw [hxs]
    simp only [if_true, magD_single]
    have hpos := magD_pos_of_sign hvx hxs
    rw [ediv_small_neg (by positivity) (by omega) (by omega)]
    ring

/-- Right-shift postlude, rounding case: the magnitude is bumped by one. -/
theorem rshift_round_case {x res1 r2 : JSBI} {N : ℕ}
    (hxs : x.sign = true) (hrem : magD x.digits % 2 ^ N ≠ 0)
    (hgood : ∀ j, goodDigit (res1.dig j))
    (hmag : magD res1.digits = magD x.digits / 2 ^ N)
    (h : absoluteAddOne res1 true (some res1) = .ok r2) :
    Valid (trim r2) ∧ toInt (trim r2) = toInt x / 2 ^ N := by
  obtain ⟨a1, a2, a3⟩ := absoluteAddOne_spec hgood (Or.inr rfl) h
  constructor
  · exact valid_trim2 (mem_good_of_dig_good (fun j _ => a2 j))
  · rw [toInt_trim]
    unfold toInt
    rw [a3, hmag, a1, hxs]
    have hd : (0:ℤ) < 2 ^ N := by positivity
    have hneg := neg_ediv_formula (m := magD x.digits) hd
    rw [if_neg hrem, zero_sub, zero_sub] at hneg
    norm_num
    linarith

/-- Right-shift postlude, non-rounding case. -/
theorem rshift_noround_case {x res1 : JSBI} {N : ℕ} (hvx : Valid x)
    (hsign : res1.sign = x.sign)
    (hgood : ∀ j, goodDigit (res1.dig j))
    (hmag : magD res1.digits = magD x.digits / 2 ^ N)
    (hrem : x.sign = true → magD x.digits % 2 ^ N = 0) :
    Valid (trim res1) ∧ toInt (trim res1) = toInt x / 2 ^ N := by
  constructor
  · exact valid_trim2 (mem_good_of_dig_good (fun j _ => hgood j))
  · rw [toInt_trim]
    unfold toInt
    rw [hmag, hsign]
    cases hxs : x.sign
    · simp
    · have h0 := hrem hxs
      have hd : (0:ℤ) < 2 ^ N := by positivity
      have hneg := neg_ediv_formula (m := magD x.digits) hd
      rw [if_pos h0, zero_sub, zero_sub, sub_zero] at hneg
      norm_num
      linarith



/-- `__rightShiftByAbsolute` floor-divides the value by `2^(magD y)`. -/
theorem rightShiftByAbsolute_spec {x y : JSBI} (hvx : Valid x) (hvy : Valid y)
    (hlx : x.digits.length ≤ kMaxLength) {r : JSBI}
    (h : rightShiftByAbsolute x y = .ok r) :
    Valid r ∧ toInt r = toInt x / 2 ^ (magD y.digits).toNat := by
  have hx := valid_dig_good hvx
  have hmagy : 0 ≤ magD y.digits := magD_nonneg (fun d hd => (hvy.1 d hd).1)
  have hMnn : 0 ≤ magD x.digits := magD_nonneg (fun d hd => (hvx.1 d hd).1)
  have hMlt : magD x.digits < 2 ^ (30 * x.digits.length) :=
    magD_lt hvx.1
  have hkml : kMaxLength = 33554432 := rfl
  have hts := toShiftAmount_spec hvy
  simp only [rightShiftByAbsolute] at h
  rw [hts] at h
  by_cases hylen : y.digits.length > 1
  · -- shift overflow: amount does not fit one digit
    rw [if_pos hylen, if_pos (show (-1 : ℤ) < 0 from by norm_num)] at h
    injection h with h1
    have hge : 2 ^ 30 ≤ (magD y.digits).toNat := by
      have hne : y.digits ≠ [] := by
        intro hc
        rw [hc] at hylen
        simp at hylen
      have hgp := magD_ge_pow hvy hne
      have h30 : (2 : ℤ) ^ 30 ≤ 2 ^ (30 * (y.digits.length - 1)) :=
        pow_le_pow_right₀ (by norm_num) (by omega)
      have : (2 : ℤ) ^ 30 ≤ magD y.digits := le_trans h30 hgp
      omega
    have hN : magD x.digits < 2 ^ (magD y.digits).toNat := by
      calc magD x.digits < 2 ^ (30 * x.digits.length) := hMlt
        _ ≤ 2 ^ (magD y.digits).toNat :=
          pow_le_pow_right₀ (by norm_num) (by omega)
    rw [← h1]
    exact rightShiftByMaximum_val hvx hN
  · rw [if_neg hylen, if_neg (not_lt.mpr hmagy)] at h
    set N := (magD y.digits).toNat with hNdef
    set ds := N / 30 with hdsdef
    set b := N % 30 with hbdef
    set len := x.digits.length with hlendef
    have hNsum : N = 30 * ds + b := by omega
    have hb30 : b < 30 := by omega
    by_cases hld : len ≤ ds
    · -- shift at least as long as the number
      rw [if_pos hld] at h
      injection h with h1
      have hN : magD x.digits < 2 ^ N := by
        calc magD x.digits < 2 ^ (30 * len) := hMlt
          _ ≤ 2 ^ N := pow_le_pow_right₀ (by norm_num) (by omega)
      rw [← h1]
      exact rightShiftByMaximum_val hvx hN
    · rw [if_neg hld] at h
      push_neg at hld
      -- magnitude split at the digit boundary
      set A := segVal x 0 ds with hAdef
      have hA0 : 0 ≤ A :=
        segVal_nonneg 0 ds (fun j _ _ => (hx j).1)
      have hAlt : A < 2 ^ (30 * ds) :=
        segVal_lt 0 ds (fun j _ _ => hx j)
      set T := segVal x ds (len - ds) with hTdef
      have hMsplit : magD x.digits = A + 2 ^ (30 * ds) * T := by
        rw [magD_eq_segVal x (le_refl x.digits.length), ← hlendef,
          show (len : ℕ) = ds + (len - ds) from by omega,
          segVal_split, show (0 : ℕ) + ds = ds from by omega]
      have hT0 : 0 ≤ T :=
        segVal_nonneg ds (len - ds) (fun j _ _ => (hx j).1)
      -- the digit-and-mask test
      have hmask : jsAnd (x.dig ds) (jsShl 1 ((b : ℕ) : ℤ) - 1) = x.dig ds % 2 ^ b := by
        rw [jsShl_one (show b ≤ 29 from by omega), jsAnd_mask _ b (by omega)]
      have hanyiff :
          ((List.range ds).any fun i => decide (x.dig i ≠ 0)) = true ↔ A ≠ 0 := by
        rw [List.any_eq_true]
        constructor
        · rintro ⟨i, hi, hdi⟩
          rw [List.mem_range] at hi
          simp only [decide_eq_true_eq] at hdi
          have := segVal_pos_of_dig_pos (fun t _ _ => hx t)
            (show (0 : ℕ) ≤ i from by omega) (show i < 0 + ds from by omega) hdi
          rw [hAdef]
          omega
        · intro hA
          by_contra hc
          push_neg at hc
          apply hA
          rw [hAdef]
          apply segVal_eq_zero_of_digs
          intro j hj1 hj2
          by_contra hd
          have h2 := hc j (List.mem_range.mpr (by omega))
          exact h2 (decide_eq_true hd)
      set mrd := (if x.sign = true then
          (if jsAnd (x.dig ds) (jsShl 1 ((b : ℕ) : ℤ) - 1) ≠ 0 then true
           else (List.range ds).any fun i => decide (x.dig i ≠ 0)) else false)
        with hmrddef
      by_cases hb0 : b = 0
      · -- aligned case
        have hnz : jsNot (x.dig (len - 1)) ≠ 0 := jsNot_ne_zero_of_good (hx (len - 1))
        rw [if_neg hnz, ite_self] at h
        have hmodz : x.dig ds % 2 ^ b = 0 := by
          rw [hb0, pow_zero]
          exact Int.emod_one _
        have hMrem : magD x.digits % 2 ^ N = A ∧ magD x.digits / 2 ^ N = T := by
          have hq := ediv_unique (m := magD x.digits) (d := 2 ^ N) (q := T) (r := A)
            (by positivity) (by rw [hMsplit, hNsum, hb0]; ring) hA0
            (by rw [hNsum, hb0, Nat.add_zero]; exact hAlt)
          exact ⟨hq.2, hq.1⟩
        have hmrdiff : mrd = true ↔ (x.sign = true ∧ magD x.digits % 2 ^ N ≠ 0) := by
          rw [hmrddef, hmask, hMrem.1]
          cases hxs : x.sign
          · simp
          · rw [if_pos rfl, if_neg (by rw [hmodz]; simp), hanyiff]
            simp
        cases hres : newJSBI (len - ds) x.sign with
        | error e =>
          rw [hres] at h
          simp only [Except.bind, bind] at h
          exact Except.noConfusion h
        | ok result0 =>
          rw [hres] at h
          simp only [Except.bind, bind] at h
          rw [if_pos hb0] at h
          obtain ⟨hr0, hrlen⟩ := newJSBI_ok hres
          have hr0len : result0.digits.length = len - ds := by rw [hr0]; simp
          set rsz := result0.setDig (len - ds - 1) 0 with hrsz
          have hrszlen : rsz.digits.length = len - ds := by
            rw [hrsz, setDig_length _ (by omega)]
            omega
          have hrszdig : ∀ j, rsz.dig j = 0 := by
            intro j
            by_cases hj : j = len - ds - 1
            · rw [hrsz, hj, dig_setDig_self]
              rfl
            · rw [hrsz, dig_setDig_ne hj, hr0, replicate_dig]
          have hrszsign : rsz.sign = x.sign := by rw [hrsz, setDig_sign, hr0]
          set res1 := rShiftCopyLoop x ds (len - ds) ds rsz with hres1
          obtain ⟨c1, c2, c3, c4⟩ := rShiftCopyLoop_spec x hx ds (len - ds) ds rsz res1
            (le_refl ds) (by omega) hres1.symm
          have hr1len : res1.digits.length = len - ds := by omega
          have hr1dig : ∀ t, t < len - ds → res1.dig t = x.dig (ds + t) := by
            intro t ht
            have h2 := c4 t ht
            rwa [show ds - ds + t = t from by omega] at h2
          have hr1out : ∀ j, len - ds ≤ j → res1.dig j = 0 := by
            intro j hj
            rw [c3 j (by omega), hrszdig]
          have hgood1 : ∀ j, goodDigit (res1.dig j) := by
            intro j
            rcases lt_or_ge j (len - ds) with hj | hj
            · rw [hr1dig j hj]
              exact hx _
            · rw [hr1out j hj]
              exact goodDigit_zero
          have hmagr1 : magD res1.digits = magD x.digits / 2 ^ N := by
            rw [magD_eq_segVal res1 (le_of_eq hr1len), hMrem.2, hTdef]
            exact segVal_reindex (len - ds) 0 ds (fun t ht => by
              rw [show (0 : ℕ) + t = t from by omega, hr1dig t ht])
          have hsign1 : res1.sign = x.sign := by rw [c1, hrszsign]
          by_cases hP : x.sign = true ∧ magD x.digits % 2 ^ N ≠ 0
          · rw [hmrdiff.mpr hP, if_pos rfl] at h
            cases haddone : absoluteAddOne res1 true (some res1) with
            | error e =>
              rw [haddone] at h
              simp only [Except.bind, bind] at h
              exact Except.noConfusion h
            | ok r2 =>
              rw [haddone] at h
              simp only [Except.bind, bind] at h
              injection h with h1
              rw [← h1]
              exact rshift_round_case hP.1 hP.2 hgood1 hmagr1 haddone
          · have hmrdf : mrd = false := by
              cases hcase : mrd
              · rfl
              · exact absurd (hmrdiff.mp hcase) hP
            rw [hmrdf, if_neg (by simp)] at h
            injection h with h1
            rw [← h1]
            push_neg at hP
            exact rshift_noround_case hvx hsign1 hgood1 hmagr1 hP
      · -- carry case
        have hb1 : 0 < b := by omega
        rw [if_neg (fun hc => hb0 hc.2)] at h
        have hlds : 1 ≤ len - ds := by omega
        set last := len - ds - 1 with hlast
        set T2 := segVal x (ds + 1) (len - ds - 1) with hT2def
        have hT20 : 0 ≤ T2 := segVal_nonneg _ _ (fun j _ _ => (hx j).1)
        have hmodb0 : 0 ≤ x.dig ds % 2 ^ b := Int.emod_nonneg _ (by positivity)
        have hmodbb : x.dig ds % 2 ^ b < 2 ^ b := Int.emod_lt_of_pos _ (by positivity)
        cases hres : newJSBI (len - ds) x.sign with
        | error e =>
          rw [hres] at h
          simp only [Except.bind, bind] at h
          exact Except.noConfusion h
        | ok result0 =>
          rw [hres] at h
          simp only [Except.bind, bind] at h
          rw [if_neg hb0] at h
          obtain ⟨hr0, hrlen⟩ := newJSBI_ok hres
          have hr0len : result0.digits.length = len - ds := by rw [hr0]; simp
          have hcarr : jsShrU (x.dig ds) ((b : ℕ) : ℤ) = x.dig ds / 2 ^ b := by
            have h32 : ((b : ℕ) : ℤ) < 32 := by
              have h33 : b < 32 := by omega
              exact_mod_cast h33
            have hgd := hx ds
            rw [jsShrU_eq _ _ (Int.natCast_nonneg _) h32]
            rw [Int.emod_eq_of_lt hgd.1 (by have := hgd.2; omega), Int.toNat_natCast]
          rw [hcarr] at h
          obtain ⟨rr, cc, hloop⟩ : ∃ a c,
              rShiftBitsLoop x b ds last 0 (x.dig ds / 2 ^ b) result0 = (a, c) :=
            ⟨_, _, rfl⟩
          rw [hloop] at h
          dsimp only at h
          obtain ⟨s1, s2, s3, s4, s5⟩ := rShiftBitsLoop_spec x hx hb1 hb30 last 0
            (x.dig ds / 2 ^ b) result0 rr cc (by rw [Nat.add_zero]) (by omega) hloop
          set res1 := rr.setDig last cc with hres1
          have hccg : goodDigit cc := by
            rw [s5]
            constructor
            · exact Int.ediv_nonneg (hx _).1 (by positivity)
            · have hlt : x.dig (ds + 0 + last) / 2 ^ b < 2 ^ (30 - b) := by
                rw [Int.ediv_lt_iff_lt_mul (by positivity), ← pow_add,
                  show 30 - b + b = 30 from by omega]
                exact (hx _).2
              have hle : (2 : ℤ) ^ (30 - b) ≤ 2 ^ 30 :=
                pow_le_pow_right₀ (by norm_num) (by omega)
              linarith
          have hrrlen : rr.digits.length = len - ds := by omega
          have hr1len : res1.digits.length = len - ds := by
            rw [hres1, setDig_length _ (by omega)]
            omega
          have hr1sign : res1.sign = x.sign := by
            rw [hres1, setDig_sign, s1, hr0]
          have hr1form : ∀ t, t ≤ last → res1.dig t =
              x.dig (ds + t + 1) % 2 ^ b * 2 ^ (30 - b) + x.dig (ds + t) / 2 ^ b := by
            intro t ht
            rcases eq_or_lt_of_le ht with hteq | htlt
            · rw [hteq, hres1, dig_setDig_self,
                toInt32_eq hccg.1 (by have := hccg.2; omega), s5]
              have hz : x.dig (ds + last + 1) = 0 := dig_of_ge (by omega)
              rw [hz, show ds + 0 + last = ds + last from by omega]
              simp
            · rw [hres1, dig_setDig_ne (by omega)]
              have h2 := s4 t (by omega)
              rwa [show (0 : ℕ) + t = t from by omega,
                show ds + 0 + t + 1 = ds + t + 1 from by omega,
                show ds + 0 + t = ds + t from by omega] at h2
          have hgood1 : ∀ j, goodDigit (res1.dig j) := by
            intro j
            rcases le_or_lt j last with hj | hj
            · rw [hr1form j hj]
              have hm0 : 0 ≤ x.dig (ds + j + 1) % 2 ^ b :=
                Int.emod_nonneg _ (by positivity)
              have hmb : x.dig (ds + j + 1) % 2 ^ b < 2 ^ b :=
                Int.emod_lt_of_pos _ (by positivity)
              have hq0 : 0 ≤ x.dig (ds + j) / 2 ^ b :=
                Int.ediv_nonneg (hx _).1 (by positivity)
              have hqb : x.dig (ds + j) / 2 ^ b < 2 ^ (30 - b) := by
                rw [Int.ediv_lt_iff_lt_mul (by positivity), ← pow_add,
                  show 30 - b + b = 30 from by omega]
                exact (hx _).2
              constructor
              · have h3 : 0 ≤ x.dig (ds + j + 1) % 2 ^ b * 2 ^ (30 - b) :=
                  mul_nonneg hm0 (pow_nonneg (by norm_num) _)
                omega
              · have h1 : x.dig (ds + j + 1) % 2 ^ b * 2 ^ (30 - b) ≤
                    (2 ^ b - 1) * 2 ^ (30 - b) :=
                  mul_le_mul_of_nonneg_right (by omega) (pow_nonneg (by norm_num) _)
                have h2 : ((2 : ℤ) ^ b - 1) * 2 ^ (30 - b) = 2 ^ 30 - 2 ^ (30 - b) := by
                  rw [sub_mul, ← pow_add, show b + (30 - b) = 30 from by omega]
                  ring
                omega
            · rw [hres1, dig_setDig_ne (by omega), s3 j (by omega), hr0, replicate_dig]
              exact goodDigit_zero
          have hwin := rshift_window x res1 hb30 ds last 0 (fun t ht => by
            rw [show (0 : ℕ) + t = t from by omega,
              show ds + 0 + t + 1 = ds + t + 1 from by omega,
              show ds + 0 + t = ds + t from by omega]
            exact hr1form t ht)
          have hwineq : 2 ^ b * segVal res1 0 (last + 1) = T - x.dig ds % 2 ^ b := by
            rw [show ds + 0 = ds from by omega] at hwin
            rw [show ds + last + 1 = len from by omega] at hwin
            rw [dig_of_ge (le_of_eq hlendef.symm), Int.zero_emod, mul_zero,
              add_zero] at hwin
            rw [hwin, hTdef, show len - ds = last + 1 from by omega]
          have hMq : magD x.digits / 2 ^ N = segVal res1 0 (last + 1) ∧
              magD x.digits % 2 ^ N = A + 2 ^ (30 * ds) * (x.dig ds % 2 ^ b) := by
            apply ediv_unique (by positivity)
            · rw [hMsplit, hNsum, pow_add]
              linear_combination (-(2 : ℤ) ^ (30 * ds)) * hwineq
            · exact add_nonneg hA0 (mul_nonneg (by positivity) hmodb0)
            · rw [hNsum, pow_add]
              have hP0 : (0 : ℤ) < 2 ^ (30 * ds) := by positivity
              have h1 : 2 ^ (30 * ds) * (x.dig ds % 2 ^ b + 1) ≤
                  2 ^ (30 * ds) * 2 ^ b :=
                mul_le_mul_of_nonneg_left (by omega) (le_of_lt hP0)
              nlinarith
          have hmagr1 : magD res1.digits = magD x.digits / 2 ^ N := by
            rw [magD_eq_segVal res1 (le_of_eq hr1len),
              show len - ds = last + 1 from by omega, hMq.1]
          have hmrdiff : mrd = true ↔ (x.sign = true ∧ magD x.digits % 2 ^ N ≠ 0) := by
            rw [hmrddef, hmask, hMq.2]
            cases hxs : x.sign
            · simp
            · rw [if_pos rfl]
              by_cases hm : x.dig ds % 2 ^ b ≠ 0
              · rw [if_pos hm]
                have hppos : (0 : ℤ) < 2 ^ (30 * ds) * (x.dig ds % 2 ^ b) :=
                  mul_pos (by positivity) (by omega)
                constructor
                · intro _
                  refine ⟨rfl, ?_⟩
                  intro hc
                  linarith
                · intro _
                  rfl
              · push_neg at hm
                rw [if_neg (by rw [hm]; simp), hanyiff, hm, mul_zero, add_zero]
                simp
          by_cases hP : x.sign = true ∧ magD x.digits % 2 ^ N ≠ 0
          · rw [hmrdiff.mpr hP, if_pos rfl] at h
            cases haddone : absoluteAddOne res1 true (some res1) with
            | error e =>
              rw [haddone] at h
              simp only [Except.bind, bind] at h
              exact Except.noConfusion h
            | ok r2 =>
              rw [haddone] at h
              simp only [Except.bind, bind] at h
              injection h with h1
              rw [← h1]
              exact rshift_round_case hP.1 hP.2 hgood1 hmagr1 haddone
          · have hmrdf : mrd = false := by
              cases hcase : mrd
              · rfl
              · exact absurd (hmrdiff.mp hcase) hP
            rw [hmrdf, if_neg (by simp)] at h
            injection h with h1
            rw [← h1]
            push_neg at hP
            exact rshift_noround_case hvx hr1sign hgood1 hmagr1 hP


/-! ## C5: shifts -/


/-- C5: `signedRightShift` floor-divides by `2^n` (rounding toward negative
infinity); a shift amount reaching past the bit length yields `0` for
non-negative and `-1` for negative values; a left shift followed by an equal
signed right shift recovers a non-negative input. -/
theorem shift_c5 {x y : JSBI} (hvx : Valid x) (hvy : Valid y)
    (hlx : x.digits.length ≤ kMaxLength) (hys : y.sign = false) :
    (∀ r, signedRightShift x y = .ok r →
      Valid r ∧ toInt r = toInt x / 2 ^ (toInt y).toNat) ∧
    (∀ r, signedRightShift x y = .ok r → magD x.digits < 2 ^ (toInt y).toNat →
      toInt r = if x.sign then -1 else 0) ∧
    (x.sign = false → ∀ r1 r2, leftShift x y = .ok r1 →
      signedRightShift r1 y = .ok r2 → r2 = x) := by
  have hty : toInt y = magD y.digits := by
    unfold toInt
    rw [hys]
    norm_num
  have hmagy : 0 ≤ magD y.digits := magD_nonneg (fun d hd => (hvy.1 d hd).1)
  have hmain : ∀ (z : JSBI), Valid z → z.digits.length ≤ kMaxLength →
      ∀ r, signedRightShift z y = .ok r →
      Valid r ∧ toInt r = toInt z / 2 ^ (toInt y).toNat := by
    intro z hvz hlz r h
    unfold signedRightShift at h
    by_cases hempty : y.digits.length = 0 ∨ z.digits.length = 0
    · rw [if_pos hempty] at h
      injection h with h1
      subst h1
      rcases hempty with hy0 | hz0
      · have hynil : y.digits = [] := List.length_eq_zero.mp hy0
        rw [hty, hynil]
        refine ⟨hvz, ?_⟩
        norm_num [magD_nil]
      · have hznil : z.digits = [] := List.length_eq_zero.mp hz0
        refine ⟨hvz, ?_⟩
        have hz : toInt z = 0 := by
          unfold toInt
          rw [hznil, magD_nil]
          ring
        rw [hz, Int.zero_ediv]
    · rw [if_neg hempty, if_neg (by rw [hys]; simp)] at h
      have hspec := rightShiftByAbsolute_spec hvz hvy hlz h
      rw [hty]
      exact hspec
  refine ⟨hmain x hvx hlx, ?_, ?_⟩
  · intro r h hsmall
    have hval := (hmain x hvx hlx r h).2
    rw [hty] at hsmall
    cases hxs : x.sign
    · have htx : toInt x = magD x.digits := by
        unfold toInt
        rw [hxs]
        norm_num
      rw [hval, hty, htx, Int.ediv_eq_zero_of_lt
        (magD_nonneg (fun d hd => (hvx.1 d hd).1)) hsmall]
      norm_num
    · have htx : toInt x = -magD x.digits := by
        unfold toInt
        rw [hxs]
        norm_num
      have hpos := magD_pos_of_sign hvx hxs
      rw [hval, hty, htx, ediv_small_neg (by positivity) (by omega) (by omega)]
      norm_num
  · intro hxs r1 r2 h1 h2
    unfold leftShift at h1
    by_cases hempty : y.digits.length = 0 ∨ x.digits.length = 0
    · rw [if_pos hempty] at h1
      injection h1 with h1e
      subst h1e
      have hv2 := hmain x hvx hlx r2 h2
      apply valid_toInt_inj hv2.1 hvx
      rw [hv2.2]
      rcases hempty with hy0 | hz0
      · have hynil : y.digits = [] := List.length_eq_zero.mp hy0
        rw [hty, hynil]
        norm_num [magD_nil]
      · have hznil : x.digits = [] := List.length_eq_zero.mp hz0
        have hz : toInt x = 0 := by
          unfold toInt
          rw [hznil, magD_nil]
          ring
        rw [hz, Int.zero_ediv]
    · rw [if_neg hempty, if_neg (by rw [hys]; simp)] at h1
      push_neg at hempty
      by_cases hylen : y.digits.length > 1
      · exfalso
        simp only [leftShiftByAbsolute] at h1
        rw [toShiftAmount_spec hvy, if_pos hylen,
          if_pos (show (-1 : ℤ) < 0 from by norm_num)] at h1
        exact Except.noConfusion h1
      · have hsh : toShiftAmount y = magD y.digits := by
          rw [toShiftAmount_spec hvy, if_neg hylen]
        obtain ⟨hv1, hval1, hlen1⟩ := leftShiftByAbsolute_spec hvx h1
        rw [hsh] at hval1
        have hxpos : 0 < toInt x := by
          have htx : toInt x = magD x.digits := by
            unfold toInt
            rw [hxs]
            norm_num
          rw [htx]
          exact magD_pos hvx.1 (fun hc => hempty.2 (by rw [hc]; rfl)) hvx.2.1
        have hr1pos : 0 < toInt r1 := by
          rw [hval1]
          positivity
        have hr1len : r1.digits.length ≠ 0 := by
          intro hc
          have hznil : r1.digits = [] := List.length_eq_zero.mp hc
          have hz : toInt r1 = 0 := by
            unfold toInt
            rw [hznil, magD_nil]
            ring
          omega
        unfold signedRightShift at h2
        rw [if_neg (by push_neg; exact ⟨hempty.1, hr1len⟩),
          if_neg (by rw [hys]; simp)] at h2
        obtain ⟨hv2, hval2⟩ := rightShiftByAbsolute_spec hv1 hvy hlen1 h2
        apply valid_toInt_inj hv2 hvx
        rw [hval2, hval1, Int.mul_ediv_cancel _ (by positivity)]

theorem shift_c5_witness :
    Valid (⟨true, [5]⟩ : JSBI) ∧ Valid (⟨false, [1]⟩ : JSBI) ∧
    (JSBI.mk true [5]).digits.length ≤ kMaxLength ∧
    (JSBI.mk false [1]).sign = false ∧
    toInt ⟨true, [3]⟩ = toInt ⟨true, [5]⟩ / 2 ^ (toInt ⟨false, [1]⟩).toNat ∧
    (∀ r1 r2, leftShift ⟨false, [3]⟩ ⟨false, [2]⟩ = .ok r1 →
      signedRightShift r1 ⟨false, [2]⟩ = .ok r2 → r2 = ⟨false, [3]⟩) := by
  have h := shift_c5 (x := ⟨true, [5]⟩) (y := ⟨false, [1]⟩)
    (by decide) (by decide) (by decide) rfl
  have h2 := shift_c5 (x := ⟨false, [3]⟩) (y := ⟨false, [2]⟩)
    (by decide) (by decide) (by decide) rfl
  exact ⟨by decide, by decide, by decide, rfl,
    (h.1 ⟨true, [3]⟩ (by rfl)).2, h2.2.2 rfl⟩

end BR
